import Mathlib

/-!
# The launcher's property text parser (`properties/properties.go`)

A shallow embedding of `Load`, `loadConvert` and the `lineReader` of the Go launcher.

* A Go `byte` is a `Nat` below 256, a Go `string` and a `[]byte` are a `List Nat` of bytes.
* Loops are recursive functions.  A loop whose recursion is not on the structure of its data
  takes a fuel argument; running out of fuel is the distinguished outcome `outOfFuel`, which
  is never produced (`Load_ne_outOfFuel`, `loadConvert_ne_outOfFuel`).
* A run-time panic of Go (index or slice bound out of range) is the outcome `indexOutOfRange`.
* An `io.Reader` is the list of the chunks that its successive `Read` calls deliver; the
  streams considered are in memory, so `Read` fails with no other error than `io.EOF`.
-/

namespace Properties

/-! ## Results -/

/-- The ways in which `Load` can fail to return a mapping. -/
inductive LoadError where
  /-- The error `errors.New("malformed \\uxxxx encoding")` of `loadConvert`. -/
  | malformed
  /-- A Go run-time panic: an index or a slice bound out of range. -/
  | indexOutOfRange
  /-- The fuel of a loop of the embedding ran out (never produced, see the theorems). -/
  | outOfFuel
  deriving DecidableEq, Repr

deriving instance DecidableEq for Except

/-- Go's `s[i]` on a byte slice or string: the byte at index `i`, or the run-time panic. -/
def index (s : List Nat) (i : Nat) : Except LoadError Nat :=
  match s[i]? with
  | some b => .ok b
  | none => .error .indexOutOfRange

/-! ## Go's UTF-8 primitives used by the parser

`for _, c = range line` over a `string` decodes UTF-8 (`utf8.DecodeRuneInString`), and
`utf8.AppendRune` encodes a rune.  Both are part of Go, not of the repository; they are
written here after Go's `unicode/utf8` package. -/

/-- The rune `utf8.RuneError`, U+FFFD. -/
def RuneError : Nat := 0xFFFD

/-- A UTF-8 continuation byte, `locb <= b && b <= hicb` of `unicode/utf8`. -/
def isCont (b : Nat) : Bool := 0x80 ≤ b && b ≤ 0xBF

/-- Go's `utf8.DecodeRuneInString`: the first rune of `s` and its width in bytes.  An invalid
or incomplete encoding gives `(RuneError, 1)`, the empty string `(RuneError, 0)`. -/
def decodeRune (s : List Nat) : Nat × Nat :=
  match s with
  | [] => (RuneError, 0)
  | s0 :: t =>
    if s0 < 0x80 then (s0, 1)
    else if 0xC2 ≤ s0 ∧ s0 ≤ 0xDF then
      match t with
      | s1 :: _ => if isCont s1 then ((s0 % 32) * 64 + s1 % 64, 2) else (RuneError, 1)
      | _ => (RuneError, 1)
    else if 0xE0 ≤ s0 ∧ s0 ≤ 0xEF then
      match t with
      | s1 :: s2 :: _ =>
        let lo := if s0 = 0xE0 then 0xA0 else 0x80
        let hi := if s0 = 0xED then 0x9F else 0xBF
        if lo ≤ s1 ∧ s1 ≤ hi ∧ isCont s2 then
          ((s0 % 16) * 4096 + (s1 % 64) * 64 + s2 % 64, 3)
        else (RuneError, 1)
      | _ => (RuneError, 1)
    else if 0xF0 ≤ s0 ∧ s0 ≤ 0xF4 then
      match t with
      | s1 :: s2 :: s3 :: _ =>
        let lo := if s0 = 0xF0 then 0x90 else 0x80
        let hi := if s0 = 0xF4 then 0x8F else 0xBF
        if lo ≤ s1 ∧ s1 ≤ hi ∧ isCont s2 ∧ isCont s3 then
          ((s0 % 8) * 262144 + (s1 % 64) * 4096 + (s2 % 64) * 64 + s3 % 64, 4)
        else (RuneError, 1)
      | _ => (RuneError, 1)
    else (RuneError, 1)

/-- The runes that `for _, c = range s` delivers, in order: decode a rune, advance by its
width.  Every step advances by at least one byte, so `s.length` steps of fuel are enough. -/
def rangeRunes : Nat → List Nat → List Nat
  | 0, _ => []
  | fuel + 1, s =>
    match s with
    | [] => []
    | _ :: _ => (decodeRune s).1 :: rangeRunes fuel (s.drop (decodeRune s).2)

/-- The runes of the Go string `s`, as `range s` delivers them. -/
def runes (s : List Nat) : List Nat := rangeRunes s.length s

/-- Go's `utf8.AppendRune(p, r)` for `0 <= r`: append the UTF-8 encoding of `r`; a surrogate
(U+D800..U+DFFF) or a value above U+10FFFF is replaced by `RuneError`.  `byte(x)` is
`x % 256`, `x >> n` is `x >>> n`, `x & maskx` is `x % 64` and `t | y` adds the tag `t` to a
`y` that fits under it. -/
def appendRune (p : List Nat) (r : Nat) : List Nat :=
  if r ≤ 0x7F then p ++ [r % 256]
  else if r ≤ 0x7FF then p ++ [0xC0 + (r >>> 6) % 256, 0x80 + r % 256 % 64]
  else if r > 0x10FFFF ∨ (0xD800 ≤ r ∧ r ≤ 0xDFFF) then
    p ++ [0xE0 + (RuneError >>> 12) % 256, 0x80 + (RuneError >>> 6) % 256 % 64,
          0x80 + RuneError % 256 % 64]
  else if r ≤ 0xFFFF then
    p ++ [0xE0 + (r >>> 12) % 256, 0x80 + (r >>> 6) % 256 % 64, 0x80 + r % 256 % 64]
  else
    p ++ [0xF0 + (r >>> 18) % 256, 0x80 + (r >>> 12) % 256 % 64,
          0x80 + (r >>> 6) % 256 % 64, 0x80 + r % 256 % 64]

/-! ## `loadConvert` -/

/-- The first loop of `loadConvert`:
`for off < end { aChar = in[off]; off++; if aChar == '\\' { break } }`.
Returns the value of `off` after the loop. -/
def findBackslash (inp : List Nat) (end_ : Nat) : Nat → Nat → Except LoadError Nat
  | 0, off => if off < end_ then .error .outOfFuel else .ok off
  | fuel + 1, off =>
    if off < end_ then
      match index inp off with
      | .error e => .error e
      | .ok aChar => if aChar = 92 then .ok (off + 1) else findBackslash inp end_ fuel (off + 1)
    else .ok off

/-- The loop `for i := 0; i < 4; i++ { aChar = in[off]; off++; switch aChar {...} }` of
`loadConvert`, with `n` iterations left: the value of the hexadecimal digits, or the
`malformed` error at the first byte that is not one. -/
def readHex (inp : List Nat) : Nat → Nat → Nat → Except LoadError Nat
  | 0, _, value => .ok value
  | n + 1, off, value =>
    match index inp off with
    | .error e => .error e
    | .ok aChar =>
      if 48 ≤ aChar ∧ aChar ≤ 57 then readHex inp n (off + 1) ((value <<< 4) + aChar - 48)
      else if 97 ≤ aChar ∧ aChar ≤ 102 then
        readHex inp n (off + 1) ((value <<< 4) + 10 + aChar - 97)
      else if 65 ≤ aChar ∧ aChar ≤ 70 then
        readHex inp n (off + 1) ((value <<< 4) + 10 + aChar - 65)
      else .error .malformed

/-- The character that follows a backslash, other than `u`: `t`, `r`, `n`, `f` become the
control characters, every other character stays. -/
def escapeChar (aChar : Nat) : Nat :=
  if aChar = 116 then 9
  else if aChar = 114 then 13
  else if aChar = 110 then 10
  else if aChar = 102 then 12
  else aChar

/-- The second loop of `loadConvert`, `for off < end { ... }`, from offset `off` with the
output `out` built so far.  Each iteration advances `off`, so `end - off` steps of fuel are
enough.  (`out` may share the backing array of `in`; `append` then writes at an index below
`off`, which is never read again, so `out` is kept as a value of its own.) -/
def convertLoop (inp : List Nat) (end_ : Nat) : Nat → Nat → List Nat →
    Except LoadError (List Nat)
  | 0, off, out => if off < end_ then .error .outOfFuel else .ok out
  | fuel + 1, off, out =>
    if off < end_ then
      match index inp off with
      | .error e => .error e
      | .ok aChar =>
        if aChar ≠ 92 then convertLoop inp end_ fuel (off + 1) (out ++ [aChar])
        else
          match index inp (off + 1) with
          | .error e => .error e
          | .ok aChar =>
            if aChar = 117 then
              if ((off + 2 : Nat) : Int) > (end_ : Int) - 4 then .error .malformed
              else
                match readHex inp 4 (off + 2) 0 with
                | .error e => .error e
                | .ok value => convertLoop inp end_ fuel (off + 6) (appendRune out value)
            else convertLoop inp end_ fuel (off + 2) (out ++ [escapeChar aChar])
    else .ok out

/-- Go's `loadConvert(in, off, len)`, for `0 <= off` and `0 <= len` (as at both call sites). -/
def loadConvert (inp : List Nat) (off len : Nat) : Except LoadError (List Nat) :=
  let end_ := off + len
  let start := off
  match findBackslash inp end_ len off with
  | .error e => .error e
  | .ok off =>
    if off = end_ then
      -- No backslash
      if len = 0 then .ok []
      else if start + len ≤ inp.length then .ok ((inp.drop start).take len)
      else .error .indexOutOfRange
    else
      -- backslash found at off - 1, rewind offset
      let off := off - 1
      let out := if off - start ≠ 0 then (inp.drop start).take (off - start) else []
      convertLoop inp end_ (end_ - off) off out

/-! ## `Load` -/

/-- The first loop of `Load` over the runes of a line, `for _, c = range line { ... }`:
returns `keyLen`, `valueStart` and `hasSep` as they are after the loop.  `lineLen` is
`len(line)`, the initial `valueStart`. -/
def scanKey (lineLen : Nat) : List Nat → Nat → Bool → Nat × Nat × Bool
  | [], keyLen, _ => (keyLen, lineLen, false)
  | c :: cs, keyLen, precedingBackslash =>
    if (c = 61 ∨ c = 58) ∧ precedingBackslash = false then (keyLen, keyLen + 1, true)
    else if (c = 32 ∨ c = 9 ∨ c = 12) ∧ precedingBackslash = false then
      (keyLen, keyLen + 1, false)
    else scanKey lineLen cs (keyLen + 1) (if c = 92 then !precedingBackslash else false)

/-- The second loop of `Load`, `for _, c = range line[valueStart:] { ... }`, over the runes
of `line[valueStart:]`: returns `valueStart` as it is after the loop. -/
def scanValueStart : List Nat → Nat → Bool → Nat
  | [], valueStart, _ => valueStart
  | c :: cs, valueStart, hasSep =>
    if c ≠ 32 ∧ c ≠ 9 ∧ c ≠ 12 then
      if hasSep = false ∧ (c = 61 ∨ c = 58) then scanValueStart cs (valueStart + 1) true
      else valueStart
    else scanValueStart cs (valueStart + 1) hasSep

/-- The offsets `(keyLen, valueStart)` that the two scanning loops of `Load` compute for a
line, or the panic of `line[valueStart:]`. -/
def splitLine (line : List Nat) : Except LoadError (Nat × Nat) :=
  match scanKey line.length (runes line) 0 false with
  | (keyLen, valueStart, hasSep) =>
    if valueStart ≤ line.length then
      .ok (keyLen, scanValueStart (runes (line.drop valueStart)) valueStart hasSep)
    else .error .indexOutOfRange

/-- The body of the loop `for _, line := range lines` of `Load`: the key and the value of
one logical line. -/
def loadLine (line : List Nat) : Except LoadError (List Nat × List Nat) :=
  match splitLine line with
  | .error e => .error e
  | .ok (keyLen, valueStart) =>
    match loadConvert line 0 keyLen with
    | .error e => .error e
    | .ok key =>
      match loadConvert line valueStart (line.length - valueStart) with
      | .error e => .error e
      | .ok value => .ok (key, value)

/-- A Go `map[string]string`: the entries, at most one for a key. -/
abbrev GoMap := List (List Nat × List Nat)

/-- Go's `m[key]`: the value and whether the key is present. -/
def GoMap.get (m : GoMap) (key : List Nat) : Option (List Nat) :=
  match m with
  | [] => none
  | (k, v) :: rest => if k = key then some v else GoMap.get rest key

/-- Go's `m[key] = value`: replace the value of an existing key, else add the entry. -/
def GoMap.set (m : GoMap) (key value : List Nat) : GoMap :=
  match m with
  | [] => [(key, value)]
  | (k, v) :: rest => if k = key then (k, value) :: rest else (k, v) :: GoMap.set rest key value

/-- The loop `for _, line := range lines { ...; properties[key] = value }` of `Load`, from
the mapping `properties` built so far; the first error ends it. -/
def loadLines : List (List Nat) → GoMap → Except LoadError GoMap
  | [], properties => .ok properties
  | line :: lines, properties =>
    match loadLine line with
    | .error e => .error e
    | .ok (key, value) => loadLines lines (properties.set key value)

/-! ## The line reader -/

/-- The `io.Reader` of an in-memory byte stream: the chunks of bytes that the successive
calls of `Read` deliver.  After the last chunk `Read` returns `0, io.EOF`; a `Read` of such a
stream never fails with another error. -/
abbrev Reader := List (List Nat)

/-- Go's `lineReader`.  `byteBuf` holds the bytes that the last `Read` stored, that is
`byteBuf[0:inLimit]` of the Go buffer: the code reads no other part of the buffer (an access
at or above `inLimit` would be the outcome `indexOutOfRange` here). -/
structure lineReader where
  r : Reader
  byteBuf : List Nat
  lineBuf : List Nat
  inLimit : Nat
  inOff : Nat
  deriving DecidableEq, Repr

/-- Go's `newLineReader`. -/
def newLineReader (r : Reader) : lineReader :=
  { r := r, byteBuf := [], lineBuf := [], inLimit := 0, inOff := 0 }

/-- The statements `limit, err = r.r.Read(r.byteBuf)` and `r.inLimit = limit`: the next
chunk is stored in the buffer, at the end of the stream nothing is and the limit is 0. -/
def lineReader.fill (r : lineReader) : lineReader :=
  match r.r with
  | [] => { r with byteBuf := [], inLimit := 0 }
  | chunk :: rest => { r with r := rest, byteBuf := chunk, inLimit := chunk.length }

/-- The inner loop of the comment loop of `readLine`,
`for off < limit { b = r.byteBuf[off]; off++; if b <= '\r' && (b == '\r' || b == '\n') { break commentLoop } }`:
the value of `off` after it and whether it was left by the `break`. -/
def skipComment (byteBuf : List Nat) (limit : Nat) : Nat → Nat → Except LoadError (Nat × Bool)
  | 0, off => if off < limit then .error .outOfFuel else .ok (off, false)
  | fuel + 1, off =>
    if off < limit then
      match index byteBuf off with
      | .error e => .error e
      | .ok b =>
        if b ≤ 13 ∧ (b = 13 ∨ b = 10) then .ok (off + 1, true)
        else skipComment byteBuf limit fuel (off + 1)
    else .ok (off, false)

/-- The loop `commentLoop: for { ... }` of `readLine`: the reader after it and `off`, `limit`
when it was left by `break commentLoop`, or `none` when it returned `"", io.EOF`. -/
def commentLoop : Nat → lineReader → Nat → Nat →
    Except LoadError (lineReader × Option (Nat × Nat))
  | 0, _, _, _ => .error .outOfFuel
  | fuel + 1, r, off, limit =>
    match skipComment r.byteBuf limit (limit - off) off with
    | .error e => .error e
    | .ok (off, true) => .ok (r, some (off, limit))
    | .ok (off, false) =>
      if off = limit then
        if r.fill.inLimit ≤ 0 then .ok (r.fill, none)
        else commentLoop fuel r.fill 0 r.fill.inLimit
      else commentLoop fuel r off limit

/-- The statement `if off >= limit { limit, err = r.r.Read(r.byteBuf); r.inLimit = limit;
off = 0 }` of `readLine`: the reader, `off` and `limit` after it.  (The test `limit <= 0`
that Go makes inside this block is made on the result, by `readLineLoop`.) -/
def lineReader.refill (r : lineReader) (off limit : Nat) : lineReader × Nat × Nat :=
  if off ≥ limit then (r.fill, 0, r.fill.inLimit) else (r, off, limit)

/-- The loop `for { ... }` of `readLine`, from the values of the reader and of the local
variables at the start of an iteration.  The result is `some line` for `string(lineBuf), nil`
and `none` for `"", io.EOF`, with the reader as the call leaves it. -/
def readLineLoop : Nat → lineReader → Nat → Nat → Bool → Bool → Bool →
    Except LoadError (Option (List Nat) × lineReader)
  | 0, _, _, _, _, _, _ => .error .outOfFuel
  | fuel + 1, r, off, limit, skipWhiteSpace, appendedLineBegin, precedingBackslash =>
    match r.refill off limit with
    | (r1, off1, limit1) =>
      if off ≥ limit ∧ limit1 ≤ 0 then
        if r1.lineBuf.length = 0 then .ok (none, r1)
        else if precedingBackslash then
          .ok (some r1.lineBuf.dropLast, { r1 with lineBuf := r1.lineBuf.dropLast })
        else .ok (some r1.lineBuf, r1)
      else
        -- c = r.byteBuf[off] & 0xFF; off++   (`& 0xFF` is the identity on a byte)
        match index r1.byteBuf off1 with
        | .error e => .error e
        | .ok c =>
          if skipWhiteSpace = true ∧ (c = 32 ∨ c = 9 ∨ c = 12) then
            readLineLoop fuel r1 (off1 + 1) limit1 skipWhiteSpace appendedLineBegin
              precedingBackslash
          else if skipWhiteSpace = true ∧ appendedLineBegin = false ∧ (c = 13 ∨ c = 10) then
            readLineLoop fuel r1 (off1 + 1) limit1 skipWhiteSpace appendedLineBegin
              precedingBackslash
          -- from here on `skipWhiteSpace` is false, and `appendedLineBegin` is
          -- `if skipWhiteSpace then false else appendedLineBegin`
          else if r1.lineBuf.length = 0 ∧ (c = 35 ∨ c = 33) then
            -- Comment, quickly consume the rest of the line
            match commentLoop fuel r1 (off1 + 1) limit1 with
            | .error e => .error e
            | .ok (r2, none) => .ok (none, r2)
            | .ok (r2, some (off2, limit2)) =>
              readLineLoop fuel r2 off2 limit2 true
                (if skipWhiteSpace then false else appendedLineBegin) precedingBackslash
          else if c ≠ 10 ∧ c ≠ 13 then
            readLineLoop fuel { r1 with lineBuf := r1.lineBuf ++ [c] } (off1 + 1) limit1 false
              (if skipWhiteSpace then false else appendedLineBegin)
              (if c = 92 then !precedingBackslash else false)
          else if r1.lineBuf.length = 0 then
            -- reached EOL of a blank line
            readLineLoop fuel r1 (off1 + 1) limit1 true
              (if skipWhiteSpace then false else appendedLineBegin) precedingBackslash
          else
            match r1.refill (off1 + 1) limit1 with
            | (r2, off2, limit2) =>
              if off1 + 1 ≥ limit1 ∧ limit2 ≤ 0 then
                -- EOF
                if precedingBackslash then
                  .ok (some r2.lineBuf.dropLast, { r2 with lineBuf := r2.lineBuf.dropLast })
                else .ok (some r2.lineBuf, r2)
              else if precedingBackslash then
                -- backslash at EOL is not part of the line
                if c = 13 then
                  -- take care not to include any subsequent \n
                  match index r2.byteBuf off2 with
                  | .error e => .error e
                  | .ok b =>
                    readLineLoop fuel { r2 with lineBuf := r2.lineBuf.dropLast }
                      (if b = 10 then off2 + 1 else off2) limit2 true true false
                else
                  readLineLoop fuel { r2 with lineBuf := r2.lineBuf.dropLast } off2 limit2
                    true true false
              else .ok (some r2.lineBuf, { r2 with inOff := off2 })

/-- All the bytes that the reader still delivers: its chunks one after the other. -/
def Reader.bytes : Reader → List Nat
  | [] => []
  | chunk :: rest => chunk ++ Reader.bytes rest

/-- The input that a line reader has not consumed yet, when its loop is at offset `off`: the
rest of the buffer and the bytes that the reader still delivers. -/
def lineReader.pending (r : lineReader) (off : Nat) : List Nat :=
  r.byteBuf.drop off ++ Reader.bytes r.r

/-- The number of loop iterations that certainly suffice to consume what is left of the
input: one for each byte still in the buffer, and one for each byte and each `Read` of the
chunks to come. -/
def lineReader.fuel (r : lineReader) (off limit : Nat) : Nat :=
  (limit - off) + (r.r.map (fun chunk => chunk.length + 1)).sum + 1

/-- Go's `(r *lineReader) readLine()`. -/
def lineReader.readLine (r : lineReader) : Except LoadError (Option (List Nat) × lineReader) :=
  -- reset the slice size but preserve its capacity
  let r0 := { r with lineBuf := [] }
  readLineLoop (r0.fuel r0.inOff r0.inLimit) r0 r0.inOff r0.inLimit true false false

/-- The loop of `readLines`: call `readLine` until it returns `io.EOF`. -/
def readLinesLoop : Nat → lineReader → List (List Nat) → Except LoadError (List (List Nat))
  | 0, _, _ => .error .outOfFuel
  | fuel + 1, r, result =>
    match r.readLine with
    | .error e => .error e
    | .ok (none, _) => .ok result
    | .ok (some line, r') => readLinesLoop fuel r' (result ++ [line])

/-- Go's `(r *lineReader) readLines()`.  Every line that `readLine` returns has consumed at
least one byte, so one call for each byte left and one more are enough. -/
def lineReader.readLines (r : lineReader) : Except LoadError (List (List Nat)) :=
  readLinesLoop (r.fuel r.inOff r.inLimit) r []

/-- Go's `Load(readFile)`: the mapping, or the error and no mapping. -/
def Load (readFile : Reader) : Except LoadError GoMap :=
  match (newLineReader readFile).readLines with
  | .error e => .error e
  | .ok lines => loadLines lines []

/-- Go's `LoadLines`, once the file is open: the logical lines of the stream. -/
def LoadLines (readFile : Reader) : Except LoadError (List (List Nat)) :=
  (newLineReader readFile).readLines

/-! ## The logical lines of a byte sequence

`flatLines` runs the scanner of `readLine` over a plain list of bytes: the state of the loop
of `readLine` (the line buffer and the three flags) together with a mode for "inside a
comment" and "after a continuation that ended in CR".  It is the reference against which the
buffered reader is proved, not a translation of a Go function. -/

/-- Where the scanner is, besides the state of the loop of `readLine`. -/
inductive ScanMode where
  /-- At the top of the loop of `readLine`. -/
  | scan
  /-- Inside the comment loop. -/
  | comment
  /-- After a continuation whose terminator was CR: a LF that follows is skipped. -/
  | afterCR
  deriving DecidableEq, Repr

/-- The logical lines that the scanner of `readLine` produces from the bytes `input`, started
with line buffer `lineBuf`, the flags `skipWhiteSpace`, `appendedLineBegin`,
`precedingBackslash`, and in mode `mode`. -/
def flatLines : List Nat → List Nat → Bool → Bool → Bool → ScanMode → List (List Nat)
  | [], lineBuf, _, _, precedingBackslash, mode =>
    if mode = .comment ∨ lineBuf.length = 0 then []
    else if precedingBackslash then [lineBuf.dropLast] else [lineBuf]
  | c :: rest, lineBuf, skipWhiteSpace, appendedLineBegin, precedingBackslash, mode =>
    if mode = .comment then
      if c ≤ 13 ∧ (c = 13 ∨ c = 10) then
        flatLines rest lineBuf true appendedLineBegin precedingBackslash .scan
      else flatLines rest lineBuf skipWhiteSpace appendedLineBegin precedingBackslash .comment
    else if mode = .afterCR ∧ c = 10 then
      flatLines rest lineBuf skipWhiteSpace appendedLineBegin precedingBackslash .scan
    else if skipWhiteSpace = true ∧ (c = 32 ∨ c = 9 ∨ c = 12) then
      flatLines rest lineBuf skipWhiteSpace appendedLineBegin precedingBackslash .scan
    else if skipWhiteSpace = true ∧ appendedLineBegin = false ∧ (c = 13 ∨ c = 10) then
      flatLines rest lineBuf skipWhiteSpace appendedLineBegin precedingBackslash .scan
    else if lineBuf.length = 0 ∧ (c = 35 ∨ c = 33) then
      flatLines rest lineBuf false (if skipWhiteSpace then false else appendedLineBegin)
        precedingBackslash .comment
    else if c ≠ 10 ∧ c ≠ 13 then
      flatLines rest (lineBuf ++ [c]) false (if skipWhiteSpace then false else appendedLineBegin)
        (if c = 92 then !precedingBackslash else false) .scan
    else if lineBuf.length = 0 then
      flatLines rest lineBuf true (if skipWhiteSpace then false else appendedLineBegin)
        precedingBackslash .scan
    else if rest.length = 0 then
      if precedingBackslash then [lineBuf.dropLast] else [lineBuf]
    else if precedingBackslash then
      flatLines rest lineBuf.dropLast true true false (if c = 13 then .afterCR else .scan)
    else lineBuf :: flatLines rest [] true false false .scan

/-- The logical lines of the byte sequence `input`. -/
def logicalLines (input : List Nat) : List (List Nat) :=
  flatLines input [] true false false .scan

/-! ## Escape decoding as the specification words it

The definitions of this section follow the words of the specification ("copy verbatim until
a backslash; `\t,\r,\n,\f` map to the corresponding control character; any other single
character after `\` is copied literally, backslash dropped"), not the Go code; the theorems
compare `loadConvert` with them. -/

/-- The string ends inside an escape: its last character is a backslash that is not itself
escaped by the backslash before it (scanning from the left, a backslash takes the next
character with it). -/
def endsInEscape : List Nat → Bool
  | [] => false
  | [c] => c = 92
  | c :: d :: rest => if c = 92 then endsInEscape rest else endsInEscape (d :: rest)

/-- Every backslash in escaping position is followed, inside the string, by a character
other than `u`. -/
def simpleEscapes : List Nat → Bool
  | [] => true
  | [c] => c ≠ 92
  | c :: d :: rest =>
    if c = 92 then d ≠ 117 && simpleEscapes rest else simpleEscapes (d :: rest)

/-- Escape decoding of a string without `\u` escapes, in the words of the specification:
characters are copied, a backslash is dropped and the character after it is copied, with
`t`, `r`, `n`, `f` replaced by tab, carriage return, line feed and form feed. -/
def unescapeSimple : List Nat → List Nat
  | [] => []
  | [c] => [c]
  | c :: d :: rest =>
    if c = 92 then (if d = 116 then 9 else if d = 114 then 13 else if d = 110 then 10
      else if d = 102 then 12 else d) :: unescapeSimple rest
    else c :: unescapeSimple (d :: rest)

/-- A hexadecimal digit, upper or lower case. -/
def isHexDigit (c : Nat) : Bool :=
  (48 ≤ c && c ≤ 57) || (97 ≤ c && c ≤ 102) || (65 ≤ c && c ≤ 70)

/-- The value of a hexadecimal digit; the case of a letter does not matter. -/
def hexDigitValue (c : Nat) : Nat :=
  if c ≤ 57 then c - 48 else if 97 ≤ c then c - 87 else c - 55

/-- The 16-bit value of four hexadecimal digits. -/
def hexValue4 (d1 d2 d3 d4 : Nat) : Nat :=
  hexDigitValue d1 * 4096 + hexDigitValue d2 * 256 + hexDigitValue d3 * 16 + hexDigitValue d4

/-! ## Predicates used by the statements and the proofs -/

/-- The number of backslashes at the end of a string. -/
def trailingBackslashes (s : List Nat) : Nat :=
  (s.reverse.takeWhile (fun c => decide (c = 92))).length

/-- The bytes `pre` end where a logical line ends, so that the physical line after them
starts a logical line: whatever follows `pre`, the reader returns the lines of `pre` and
then the lines of what follows, read on its own. -/
def EndsLogicalLine (pre : List Nat) : Prop :=
  ∀ rest : List Nat, ∃ l1 l2, LoadLines [pre] = .ok l1 ∧ LoadLines [rest] = .ok l2 ∧
    LoadLines [pre ++ rest] = .ok (l1 ++ l2)

/-- The terminator of a line to remove: LF, CR, CR LF, or nothing at the end of the input. -/
def IsTerminator (term post : List Nat) : Prop :=
  term = [10] ∨ term = [13] ∨ term = [13, 10] ∨ (term = [] ∧ post = [])

/-- The flag `precedingBackslash` of `readLine` after the bytes `s` of a line have been
appended, when it was `pb` before. -/
def backslashFlag (pb : Bool) (s : List Nat) : Bool :=
  s.foldl (fun p c => if c = 92 then !p else false) pb

/-- The second loop of `loadConvert` run over a whole string, from its first byte with no
output yet. -/
def decodeAll (s : List Nat) : Except LoadError (List Nat) :=
  convertLoop s s.length s.length 0 []

/-- Every chunk of the reader is non-empty, as `io.Reader` asks of a `Read` that returns no
error. -/
def Reader.NonEmpty (r : Reader) : Prop := ∀ chunk ∈ r, chunk ≠ []

/-- The invariant of a line reader between two statements of `readLine`. -/
def lineReader.WF (r : lineReader) : Prop :=
  r.inLimit = r.byteBuf.length ∧ Reader.NonEmpty r.r

/-- What `readLineLoop` has to return from a state of the loop: the next logical line of the
pending input and a reader that holds the input after that line, or the end of the input. -/
def ReadLineSpec (fuel : Nat) (r : lineReader) (off limit : Nat) (sw alb pb : Bool) : Prop :=
  ∃ res r1, readLineLoop fuel r off limit sw alb pb = .ok (res, r1) ∧ r1.WF ∧
    (res = none → flatLines (r.pending off) r.lineBuf sw alb pb .scan = []) ∧
    (∀ line, res = some line → flatLines (r.pending off) r.lineBuf sw alb pb .scan =
      line :: flatLines (r1.pending r1.inOff) [] true false false .scan)

end Properties

/-!
# The PID file and the commands that use it (`process/process.go`, `main.go`)

A shallow embedding of `lockablePidFile`, of the commands of `main.go` and of the functions of
`commands/commands.go` and `args/args.go` that read the command line.

* The state of one invocation of the launcher is a `World`: the bytes of the PID file, the
  position of the handle `p.pidFile`, the two flags of the lock `p.lock`, the caller's pid,
  the processes that answer a signal, the working directory and the command line.
* Every function of the source is a function from a `World` to its result and the `World`
  it leaves.
* A system call fails when the next entry of `World.faults` says so; a failed call changes
  nothing else.  With no entry left every call succeeds.
* Every call is written to `World.trace` with its outcome and the flags of the lock at the
  time of the call, so that the order of the effects of a command can be stated.
* A Go `string` of the command line is a `String`.
-/

namespace Commands

/-- The type `Command` of commands.go. -/
inductive Command where
  | UNKNOWN | RUN | START | STOP | RESTART | KILL | STATUS | HELP
  deriving DecidableEq, Repr

/-- The method `Command.String` (its `default` case is unreachable for the eight constants). -/
def Command.String : Command → String
  | .UNKNOWN => "unknown"
  | .RUN => "run"
  | .START => "start"
  | .STOP => "stop"
  | .RESTART => "restart"
  | .KILL => "kill"
  | .STATUS => "status"
  | .HELP => "help"

/-- The function `RewriteArgs`: a copy of `args` in which every element equal to the name of
`RESTART` is the name of `START`. -/
def RewriteArgs (args : List String) : List String :=
  args.map fun arg => if arg = Command.RESTART.String then Command.START.String else arg

/-- The rune `unicode.ToLower(c)` of Go, as far as a comparison with the name of a command
goes: the capital letters of ASCII, and the two runes outside ASCII whose lower case is a
letter of ASCII, U+0130 (`i`) and U+212A, the Kelvin sign (`k`).  Every other rune outside
ASCII has a lower case outside ASCII, which no name of a command holds: it is kept here. -/
def toLowerRune (c : Char) : Char :=
  if 65 ≤ c.toNat ∧ c.toNat ≤ 90 then Char.ofNat (c.toNat + 32)
  else if c.toNat = 0x130 then 'i'
  else if c.toNat = 0x212A then 'k'
  else c

/-- The function `strings.ToLower`, rune by rune. -/
def ToLower (s : String) : String := String.mk (s.data.map toLowerRune)

/-- The function `ParseCommand`. -/
def ParseCommand (command : String) : Command :=
  if ToLower command = "run" then .RUN
  else if ToLower command = "start" then .START
  else if ToLower command = "stop" then .STOP
  else if ToLower command = "restart" then .RESTART
  else if ToLower command = "kill" then .KILL
  else if ToLower command = "status" then .STATUS
  else if ToLower command = "help" then .HELP
  else .UNKNOWN

/-- The function `ListAll`. -/
def ListAll : List String :=
  [Command.RUN.String, Command.START.String, Command.STOP.String, Command.RESTART.String,
    Command.STATUS.String, Command.KILL.String, Command.HELP.String]

/-- The function `IsCommand`: `ParseCommand(command) > 0`, and `UNKNOWN` is the command `0`. -/
def IsCommand (command : String) : Bool := ParseCommand command != .UNKNOWN

end Commands

namespace Args

open Commands

/-- The function `transformArgs`: `-Dx` becomes `-D x`, and `-Jx` becomes `-J x`. -/
def transformArgs : List String → List String
  | [] => []
  | arg :: args =>
    if arg.length > 2 ∧ (arg.data.take 2 = "-D".data ∨ arg.data.take 2 = "-J".data) then
      String.mk (arg.data.take 2) :: String.mk (arg.data.drop 2) :: transformArgs args
    else arg :: transformArgs args

/-- The flags that `newParseFlags` declares with `BoolVar`: they take no value. -/
def boolFlags : List String := ["help", "verbose", "v"]

/-- The flags that `newParseFlags` declares with `StringVar` and `Var`: they take a value. -/
def valueFlags : List String :=
  ["etc-dir", "launcher-config", "node-config", "jvm-config", "config", "secrets-config",
    "log-levels-file", "jvm-dir", "data-dir", "pid-file", "launcher-log-file",
    "server-log-file", "J", "D"]

/-- The values that `strconv.ParseBool` accepts. -/
def boolValues : List String :=
  ["1", "t", "T", "TRUE", "true", "True", "0", "f", "F", "FALSE", "false", "False"]

/-- The name and the value of a flag written `name=value`: the name ends before the first
`=` that is not its first character. -/
def splitFlag (name : List Char) : List Char × Option (List Char) :=
  match name with
  | [] => ([], none)
  | c :: rest =>
    if rest.contains '=' then
      (c :: rest.takeWhile (· ≠ '='), some ((rest.dropWhile (· ≠ '=')).drop 1))
    else (c :: rest, none)

/-- The method `FlagSet.Parse` of Go's package `flag` on the flags of `newParseFlags`: the
flags set with their values, in the order of the command line, and the arguments that are
left (`Args()`).  It stops at the first argument that is no flag.  The result is `none` when
the package reports an error (the flag set is made with `flag.ExitOnError`: the process
ends).  `fuel` bounds the number of arguments. -/
def flagParse : Nat → List String → List (String × String) →
    Option (List (String × String) × List String)
  | 0, _, _ => none
  | _ + 1, [], flags => some (flags, [])
  | fuel + 1, s :: rest, flags =>
    if s.length < 2 ∨ s.data.head? ≠ some '-' then some (flags, s :: rest)
    else if s = "--" then some (flags, rest)
    else
      let name := if (s.data.drop 1).head? = some '-' then s.data.drop 2 else s.data.drop 1
      if name.head? = none ∨ name.head? = some '-' ∨ name.head? = some '=' then none
      else
        match splitFlag name with
        | (name, value) =>
          if String.mk name ∈ boolFlags then
            match value with
            | none => flagParse fuel rest (flags ++ [(String.mk name, "true")])
            | some v =>
              if String.mk v ∈ boolValues then
                flagParse fuel rest (flags ++ [(String.mk name, String.mk v)])
              else none
          else if String.mk name ∈ valueFlags then
            match value with
            | some v => flagParse fuel rest (flags ++ [(String.mk name, String.mk v)])
            | none =>
              match rest with
              | [] => none
              | v :: rest1 => flagParse fuel rest1 (flags ++ [(String.mk name, v)])
          else none

/-- The value that the flags hold for the flag `help` at the end: whether `helpOpt` is set. -/
def helpOpt (flags : List (String × String)) : Bool :=
  match (flags.filter fun f => f.1 = "help").getLast? with
  | some (_, v) => v ∈ ["1", "t", "T", "TRUE", "true", "True"]
  | none => false

/-- The function `ParseArgs` on a command line that is not empty: the command and the flags,
or `none` when it returns an error or the package `flag` ends the process. -/
def ParseArgs (args : List String) : Option (Command × List (String × String)) :=
  match transformArgs args with
  | [] => none
  | arg0 :: rest =>
    if IsCommand arg0 then
      match flagParse (rest.length + 1) rest [] with
      | none => none
      | some (flags, _) => some (ParseCommand arg0, flags)
    else
      match flagParse (rest.length + 2) (arg0 :: rest) [] with
      | none => none
      | some (flags, left) =>
        if helpOpt flags then some (.HELP, flags)
        else
          match left with
          | [command] => if IsCommand command then some (ParseCommand command, flags) else none
          | _ => none

end Args

namespace Process

/-! ## Go library functions used by process.go -/

/-- The size `defaultBufSize` of the buffer of `bufio.NewReader`. -/
def defaultBufSize : Nat := 4096

/-- The index of the first byte `10` (LF) of `buf`, as `bytes.IndexByte` finds it. -/
def indexLF : List Nat → Option Nat
  | [] => none
  | b :: rest => if b = 10 then some 0 else (indexLF rest).map (· + 1)

/-- The line that `bufio.Reader.ReadLine` returns from a new reader on a file that delivers
`data`, and `none` when it returns an error (`io.EOF`: there is no byte).  The reader fills
its buffer with the first `defaultBufSize` bytes; a line that does not end there is returned
as far as the buffer holds it (the result `isPrefix`, which the caller drops, is then true). -/
def ReadLine (data : List Nat) : Option (List Nat) :=
  let buf := data.take defaultBufSize
  match indexLF buf with
  | some i =>
    -- `ReadSlice` returned the line with its `\n`
    let line := buf.take i
    if line.getLast? = some 13 then some line.dropLast else some line
  | none =>
    if defaultBufSize ≤ buf.length then
      -- `ErrBufferFull`: a final `\r` is put back
      if buf.getLast? = some 13 then some buf.dropLast else some buf
    else if buf.length = 0 then none
    else some buf

/-- Whether `c` is an ASCII decimal digit. -/
def isDigit (c : Nat) : Bool := 48 ≤ c && c ≤ 57

/-- The number that a string of decimal digits denotes. -/
def digitsValue (s : List Nat) : Nat := s.foldl (fun n c => n * 10 + (c - 48)) 0

/-- The largest value of Go's `int` (64 bits). -/
def maxInt : Int := 9223372036854775807

/-- The function `strconv.Atoi`: an optional sign and at least one decimal digit, of a value
that an `int` holds; `none` is the syntax or range error. -/
def Atoi (s : List Nat) : Option Int :=
  let neg := s.head? = some 45
  let ds := if s.head? = some 43 ∨ s.head? = some 45 then s.tail else s
  if ds = [] ∨ ds.all isDigit = false then none
  else if neg then
    if (digitsValue ds : Int) ≤ maxInt + 1 then some (-(digitsValue ds : Int)) else none
  else
    if (digitsValue ds : Int) ≤ maxInt then some (digitsValue ds : Int) else none

/-- The digits of `n` before `acc`, as `fmt` writes them: the last digit first, into the end
of a buffer.  `fuel` bounds the number of digits. -/
def formatLoop : Nat → Nat → List Nat → List Nat
  | 0, _, acc => acc
  | fuel + 1, n, acc =>
    if n < 10 then (48 + n) :: acc else formatLoop fuel (n / 10) ((48 + n % 10) :: acc)

/-- The text of `fmt.Sprintf("%d", i)`. -/
def formatInt (i : Int) : List Nat :=
  if i < 0 then 45 :: formatLoop (i.natAbs + 1) i.natAbs []
  else formatLoop (i.natAbs + 1) i.natAbs []

/-- The pid that `ReadPid` takes from a file of bytes `content`: the line that `ReadLine`
returns, when `Atoi` accepts it and the number is positive. -/
def storedPid (content : List Nat) : Option Int :=
  match ReadLine content with
  | none => none
  | some line =>
    match Atoi line with
    | none => none
    | some pid => if pid ≤ 0 then none else some pid

/-! ## The words of the specification on the content of the PID file -/

/-- The ASCII decimal digits of `n`, from the digits of `n` in base ten. -/
def decimal (n : Nat) : List Nat :=
  if n = 0 then [48] else (Nat.digits 10 n).reverse.map (· + 48)

/-- The first line of a file: the bytes before the first LF, without the CR of a CR LF. -/
def firstLine (content : List Nat) : List Nat :=
  let line := content.takeWhile (· ≠ 10)
  if line.length < content.length ∧ line.getLast? = some 13 then line.dropLast else line

/-- Whether `s` is a decimal integer: at least one decimal digit after an optional sign. -/
def isDecimalInteger : List Nat → Bool
  | [] => false
  | c :: t => if c = 43 ∨ c = 45 then t ≠ [] && t.all isDigit else (c :: t).all isDigit

/-- The number that the digits `s`, the first of the highest weight, denote in base ten. -/
def naturalValue (s : List Nat) : Nat := Nat.ofDigits 10 (s.map (· - 48)).reverse

/-- The integer that a decimal integer denotes. -/
def integerValue : List Nat → Int
  | [] => 0
  | c :: t =>
    if c = 45 then -(naturalValue t : Int)
    else if c = 43 then (naturalValue t : Int)
    else (naturalValue (c :: t) : Int)

/-! ## The state of an invocation -/

/-- The text of a message of `printInfo`. -/
inductive Message where
  /-- The message `started as <pid>`. -/
  | startedAs (pid : Int)
  /-- The message `Not running`. -/
  | notRunning
  /-- The message `Not running: <err>`, `err` being the error of `ReadPid`. -/
  | notRunningError
  /-- The message `Running as <pid>`. -/
  | runningAs (pid : Int)
  /-- The message `<message> <pid>` of `terminate`, `message` being `Stopped` or `Killed`. -/
  | terminated (message : String) (pid : Int)
  deriving DecidableEq, Repr

/-- The calls that a command makes to the lock, to the PID file and to the system. -/
inductive Call where
  /-- The call `p.lock.Lock()`. -/
  | lock
  /-- The call `p.lock.RLock()`. -/
  | rlock
  /-- The call `p.lock.Unlock()`. -/
  | unlock
  /-- The call `p.pidFile.Seek(0, 0)`. -/
  | seek
  /-- The call `p.pidFile.Truncate(0)`. -/
  | truncate
  /-- The call `p.pidFile.WriteString` with the bytes written. -/
  | write (bytes : List Nat)
  /-- The call `p.pidFile.Sync()`. -/
  | sync
  /-- The read of the PID file by `reader.ReadLine()`. -/
  | read
  /-- A signal sent to `pid`; signal `0` is the probe of `Alive`. -/
  | signal (pid : Int) (sig : Nat)
  /-- The call `options.CreateAppSymlinks()`. -/
  | symlinks
  /-- The call `directory.MakeDirs(path)`. -/
  | mkdirs (path : String)
  /-- The call `os.Getwd()`. -/
  | getwd
  /-- The call `os.Chdir(path)`. -/
  | chdir (path : String)
  /-- The call `proc.Fork(argv, cwd)`. -/
  | fork (argv : List String) (cwd : String)
  /-- The call `os.Open(os.DevNull)`. -/
  | openDevNull
  /-- The call `directory.OpenAppend(path)`. -/
  | openAppend (path : String)
  /-- The call `unix.Dup2(fd, target)`, `target` being 0, 1 or 2. -/
  | dup2 (target : Nat)
  /-- The call `fd.Close()`. -/
  | close
  /-- The call `options.JavaExecution(daemonize)`. -/
  | javaExecution (daemonize : Bool)
  /-- The call `syscall.Exec(argv[0], argv, env)`. -/
  | exec (argv : List String)
  /-- The call `printInfo(message)`. -/
  | printInfo (message : Message)
  /-- The call `printError` of `exitError`. -/
  | printError
  /-- The call `time.Sleep(100 * time.Millisecond)`. -/
  | sleep
  deriving DecidableEq, Repr

/-- One call of the trace: the call, whether it succeeded, and the flags `l` and `r` of the
lock when it was made. -/
structure Entry where
  call : Call
  ok : Bool
  l : Bool
  r : Bool
  deriving DecidableEq, Repr

/-- The state of one invocation of the launcher. -/
structure World where
  /-- The bytes of the PID file. -/
  content : List Nat
  /-- The position of the handle `p.pidFile`. -/
  offset : Nat
  /-- The flag of `p.lock` that says that it holds the exclusive lock. -/
  l : Bool
  /-- The flag of `p.lock` that says that it holds the shared lock. -/
  r : Bool
  /-- The pid of the caller, `os.Getpid()`. -/
  self : Int
  /-- The pids of the other processes that a signal of the caller reaches without error. -/
  live : List Int
  /-- The working directory. -/
  cwd : String
  /-- The command line, `os.Args`. -/
  args : List String
  /-- The pid that the system gives to the next child. -/
  nextPid : Int
  /-- The outcomes of the next system calls: `true` for a call that fails. -/
  faults : List Bool
  /-- The calls made so far, the oldest first. -/
  trace : List Entry
  deriving DecidableEq, Repr

/-- Whether the handle holds the lock: the held flag of the record. -/
def World.held (w : World) : Bool := w.l || w.r

/-- The probe `processExists(pid)`: a signal to `pid` reports no error.  The caller itself
always exists. -/
def World.processExists (w : World) (pid : Int) : Bool := pid = w.self || w.live.contains pid

/-- A call that goes to the system: it fails when the next fault says so, and is written to
the trace.  The result is `true` when the call succeeded. -/
def World.sys (w : World) (c : Call) : Bool × World :=
  let ok := !(w.faults.headD false)
  (ok, { w with faults := w.faults.tail, trace := w.trace ++ [⟨c, ok, w.l, w.r⟩] })

/-- A call that returns at once without a system call: it is written to the trace only. -/
def World.note (w : World) (c : Call) (ok : Bool) : World :=
  { w with trace := w.trace ++ [⟨c, ok, w.l, w.r⟩] }

/-- The calls that process.go makes: to the lock, to the PID file, and the signal. -/
def Call.isPidFile : Call → Bool
  | .lock | .rlock | .unlock | .seek | .truncate | .write _ | .sync | .read | .signal _ _ => true
  | _ => false

/-- The calls of `ReadPid`: they read the PID file under the lock. -/
def Call.isFileRead : Call → Bool
  | .rlock | .unlock | .seek | .read => true
  | _ => false

/-- The calls of `ReadPid` and `Alive`: they read the PID file and probe a process. -/
def Call.isRead : Call → Bool
  | .rlock | .unlock | .seek | .read | .signal _ 0 => true
  | _ => false

/-- Whether a call is the call `syscall.Exec`. -/
def Call.isExec : Call → Bool
  | .exec _ => true
  | _ => false

/-- Whether a call is the call `proc.Fork`. -/
def Call.isFork : Call → Bool
  | .fork _ _ => true
  | _ => false

/-- Whether a call starts no process: it is neither `syscall.Exec` nor `proc.Fork`. -/
def Call.isQuiet (c : Call) : Bool := !(c.isExec || c.isFork)

/-- The world `w'` is `w` after more calls, all of the class `p`. -/
def Extends (p : Call → Bool) (w w' : World) : Prop :=
  ∃ es, w'.trace = w.trace ++ es ∧ ∀ e ∈ es, p e.call = true

/-- The world `w'` is `w` after calls of process.go: what lies outside the PID file and its
lock is as it was. -/
structure PidStep (w w' : World) : Prop where
  self : w'.self = w.self
  live : w'.live = w.live
  cwd : w'.cwd = w.cwd
  args : w'.args = w.args
  nextPid : w'.nextPid = w.nextPid
  trace : Extends Call.isPidFile w w'

/-- The world `w'` is `w` after calls of `ReadPid` or `Alive`: the PID file is as it was
too. -/
structure ReadStep (w w' : World) : Prop where
  step : PidStep w w'
  content : w'.content = w.content
  trace : Extends Call.isRead w w'

/-- The world of a process `self` that has just made its handle with `New` on a PID file of
bytes `content`: the handle is at the start of the file and holds no lock, no call has been
made, and no call will fail.  The processes `live` exist besides the caller. -/
def World.new (content : List Nat) (self : Int) (live : List Int) : World :=
  { content := content
    offset := 0
    l := false
    r := false
    self := self
    live := live
    cwd := "/install"
    args := ["/install/bin/launcher", "restart"]
    nextPid := self + 1
    faults := []
    trace := [] }

/-! ## The lock `flock.Flock` -/

/-- The method `Lock` of the lock: nothing when the flag `l` is set, else the exclusive lock
is taken and the flag set.  The result is `true` for a `nil` error. -/
def Lock (w : World) : Bool × World :=
  if w.l then (true, w.note .lock true)
  else
    match w.sys .lock with
    | (true, w1) => (true, { w1 with l := true })
    | (false, w1) => (false, w1)

/-- The method `RLock` of the lock: nothing when the flag `r` is set, else the shared lock is
taken and the flag set. -/
def RLock (w : World) : Bool × World :=
  if w.r then (true, w.note .rlock true)
  else
    match w.sys .rlock with
    | (true, w1) => (true, { w1 with r := true })
    | (false, w1) => (false, w1)

/-- The method `Unlock` of the lock: nothing when no flag is set, else the lock is released
and both flags are cleared. -/
def Unlock (w : World) : Bool × World :=
  if !w.l && !w.r then (true, w.note .unlock true)
  else
    match w.sys .unlock with
    | (true, w1) => (true, { w1 with l := false, r := false })
    | (false, w1) => (false, w1)

/-! ## The file `p.pidFile` -/

/-- The call `p.pidFile.Seek(0, 0)`. -/
def Seek (w : World) : Bool × World :=
  match w.sys .seek with
  | (true, w1) => (true, { w1 with offset := 0 })
  | (false, w1) => (false, w1)

/-- The call `p.pidFile.Truncate(0)`; the position of the handle stays. -/
def Truncate (w : World) : Bool × World :=
  match w.sys .truncate with
  | (true, w1) => (true, { w1 with content := [] })
  | (false, w1) => (false, w1)

/-- The bytes of a file after `bytes` are written at `offset`: a gap after the end of the
file reads as zero bytes. -/
def writeAt (content : List Nat) (offset : Nat) (bytes : List Nat) : List Nat :=
  content.take offset ++ List.replicate (offset - content.length) 0 ++ bytes ++
    content.drop (offset + bytes.length)

/-- The call `p.pidFile.WriteString(s)`. -/
def WriteString (w : World) (s : List Nat) : Bool × World :=
  match w.sys (.write s) with
  | (true, w1) =>
    (true, { w1 with content := writeAt w1.content w1.offset s, offset := w1.offset + s.length })
  | (false, w1) => (false, w1)

/-- The call `p.pidFile.Sync()`. -/
def Sync (w : World) : Bool × World := w.sys .sync

/-- The calls `bufio.NewReader(p.pidFile)` and `reader.ReadLine()`: the line, or `none` for
an error.  The reader takes from the file what its buffer holds. -/
def readLine (w : World) : Option (List Nat) × World :=
  match w.sys .read with
  | (true, w1) =>
    (ReadLine (w1.content.drop w1.offset),
      { w1 with offset := w1.offset + min defaultBufSize (w1.content.length - w1.offset) })
  | (false, w1) => (none, w1)

/-- The call `process.Signal(sig)` on the process `pid`: it reports no error when the process
exists. -/
def Signal (w : World) (pid : Int) (sig : Nat) : Bool × World :=
  (w.processExists pid, w.note (.signal pid sig) (w.processExists pid))

/-! ## process.go -/

/-- The errors that process.go makes, one for each message. -/
inductive Error where
  /-- The error `failed to acquire write lock on the pid file`. -/
  | acquireWriteLock
  /-- The error `failed to release the lock on the pid file`. -/
  | releaseLock
  /-- The error `failed to seek to the beginning of the pid file`. -/
  | seek
  /-- The error `failed to truncate the pid file`. -/
  | truncate
  /-- The error `failed to write to the pid file`. -/
  | write
  /-- The error `failed to sync the pid file`. -/
  | sync
  /-- The error `failed to acquire read lock on the pid file`. -/
  | acquireReadLock
  /-- The error `failed reading from the pid file`. -/
  | read
  /-- The error `failed parsing pid file`. -/
  | parse
  /-- The error `pid file contains an invalid pid`. -/
  | invalidPid (pid : Int)
  /-- The error of `p.lock.Unlock()` that `ReadPid` returns as it is. -/
  | unlock
  deriving DecidableEq, Repr

/-- The method `AcquireLock`. -/
def AcquireLock (w : World) : Option Error × World :=
  match Lock w with
  | (false, w1) => (some .acquireWriteLock, w1)
  | (true, w1) => (none, w1)

/-- The method `ReleaseLock`. -/
def ReleaseLock (w : World) : Option Error × World :=
  match Unlock w with
  | (false, w1) => (some .releaseLock, w1)
  | (true, w1) => (none, w1)

/-- The method `ClearPid`. -/
def ClearPid (w : World) : Option Error × World :=
  match Lock w with
  | (false, w1) => (some .acquireWriteLock, w1)
  | (true, w1) =>
    match Seek w1 with
    | (false, w2) => (some .seek, w2)
    | (true, w2) =>
      match Truncate w2 with
      | (false, w3) => (some .truncate, w3)
      | (true, w3) =>
        match Unlock w3 with
        | (false, w4) => (some .releaseLock, w4)
        | (true, w4) => (none, w4)

/-- The method `WritePid`. -/
def WritePid (w : World) (pid : Int) : Option Error × World :=
  match Lock w with
  | (false, w1) => (some .acquireWriteLock, w1)
  | (true, w1) =>
    match ClearPid w1 with
    | (some err, w2) => (some err, w2)
    | (none, w2) =>
      match WriteString w2 (formatInt pid ++ [10]) with
      | (false, w3) => (some .write, w3)
      | (true, w3) =>
        match Sync w3 with
        | (false, w4) => (some .sync, w4)
        | (true, w4) =>
          match Unlock w4 with
          | (false, w5) => (some .releaseLock, w5)
          | (true, w5) => (none, w5)

/-- The method `ReadPid`: the pid and the error that it returns. -/
def ReadPid (w : World) : (Int × Option Error) × World :=
  match RLock w with
  | (false, w1) => ((0, some .acquireReadLock), w1)
  | (true, w1) =>
    match Seek w1 with
    | (false, w2) => ((0, some .seek), w2)
    | (true, w2) =>
      match readLine w2 with
      | (none, w3) => ((0, some .read), w3)
      | (some line, w3) =>
        match Atoi line with
        | none => ((0, some .parse), w3)
        | some pid =>
          if pid ≤ 0 then ((0, some (.invalidPid pid)), w3)
          else
            match Unlock w3 with
            | (false, w4) => ((pid, some .unlock), w4)
            | (true, w4) => ((pid, none), w4)

/-- The method `Alive`.  `os.FindProcess` does not fail on Unix. -/
def Alive (w : World) : Bool × World :=
  match ReadPid w with
  | ((_, some _), w1) => (false, w1)
  | ((pid, none), w1) =>
    match Signal w1 pid 0 with
    | (false, w2) => (false, w2)
    | (true, w2) => (true, w2)

/-- The function `Fork`: the pid of the detached child, or `none` for an error.  The child
exists from then on. -/
def Fork (w : World) (argv : List String) (cwd : String) : Option Int × World :=
  match w.sys (.fork argv cwd) with
  | (true, w1) => (some w1.nextPid, { w1 with live := w1.nextPid :: w1.live })
  | (false, w1) => (none, w1)

/-! ## Sequences of writes and clears -/

/-- A call that changes the PID file. -/
inductive Op where
  /-- The call `WritePid(pid)`. -/
  | write (pid : Int)
  /-- The call `ClearPid()`. -/
  | clear
  deriving DecidableEq, Repr

/-- The call `op` on the handle. -/
def Op.run : Op → World → Option Error × World
  | .write pid, w => WritePid w pid
  | .clear, w => ClearPid w

/-- The calls `ops` one after the other, whatever they return: the errors that they return,
in order, and the world after the last call. -/
def runOps : List Op → World → List (Option Error) × World
  | [], w => ([], w)
  | op :: ops, w =>
    ((op.run w).1 :: (runOps ops (op.run w).2).1, (runOps ops (op.run w).2).2)

/-- Whether every `WritePid` of `ops` returned no error, `results` being what the calls of
`ops` returned. -/
def writesSucceed : List Op → List (Option Error) → Bool
  | .write _ :: ops, r :: rs => r.isNone && writesSucceed ops rs
  | .clear :: ops, _ :: rs => writesSucceed ops rs
  | _, _ => true

/-- The pid of the last `WritePid` of `ops`: the pid written most recently. -/
def lastWritten : List Op → Option Int
  | [] => none
  | .write pid :: ops => (lastWritten ops).or (some pid)
  | .clear :: ops => lastWritten ops

/-! ## The signals of `terminate` and the target over time -/

/-- The signal `syscall.SIGTERM`. -/
def SIGTERM : Nat := 15

/-- The signal `syscall.SIGKILL`. -/
def SIGKILL : Nat := 9

/-- Whether a call sends a signal that is not the probe of `Alive`. -/
def Call.isKill : Call → Bool
  | .signal _ sig => sig != 0
  | _ => false

/-- The calls of the loop of `terminate` while the target is alive: those of `Alive`, and
the pause. -/
def Call.isPoll (c : Call) : Bool := c.isRead || c == .sleep

/-- The world at the next moment at which a command looks at the processes: the processes
that answer a signal are then the first entry of `future`, and the same as before when
`future` has no entry. -/
def World.pass (w : World) (future : List (List Int)) : World :=
  match future with
  | [] => w
  | live :: _ => { w with live := live }

/-- The results of `syscall.Kill`. -/
inductive KillResult where
  /-- The result `nil`: the signal is delivered. -/
  | delivered
  /-- The error `syscall.ESRCH`: there is no such process. -/
  | noSuchProcess
  /-- Another error, such as `syscall.EPERM`. -/
  | failed
  deriving DecidableEq, Repr

/-- The call `syscall.Kill(pid, sig)`: another error than `ESRCH` when the next fault says
so, else `ESRCH` when the process does not exist.  The trace says whether the signal was
delivered. -/
def Kill (w : World) (pid : Int) (sig : Nat) : KillResult × World :=
  let res :=
    if w.faults.headD false then KillResult.failed
    else if w.processExists pid then KillResult.delivered
    else KillResult.noSuchProcess
  (res,
    { w with
      faults := w.faults.tail,
      trace := w.trace ++ [⟨.signal pid sig, res == .delivered, w.l, w.r⟩] })

/-- Whether a call is a message: `printInfo`, or the `printError` of `exitError`. -/
def Call.isPrint : Call → Bool
  | .printInfo _ | .printError => true
  | _ => false

/-- The calls of `ClearPid`. -/
def Call.isClear : Call → Bool
  | .lock | .seek | .truncate | .unlock => true
  | _ => false

end Process

namespace Main

open Process

/-- The fields of `args.Options` that `run` and `start` read, and what the methods of the
options return that are not followed here. -/
structure Options where
  /-- The field `DataDir`. -/
  DataDir : String
  /-- The field `LauncherLog`. -/
  LauncherLog : String
  /-- The directory `filepath.Dir(options.LauncherLog)`. -/
  launcherLogDir : String
  /-- The command line that `JavaExecution(false)` returns when it returns no error. -/
  runCommand : List String
  /-- The command line that `JavaExecution(true)` returns when it returns no error. -/
  daemonCommand : List String
  deriving DecidableEq, Repr

/-- The errors that `run` and `start` return. -/
inductive Error where
  /-- An error of the PID file, returned as it is. -/
  | pidFile (err : Process.Error)
  /-- The error `already running as <pid>`. -/
  | alreadyRunning (pid : Int)
  /-- The error of `CreateAppSymlinks`. -/
  | symlinks
  /-- The error `failed to create the launcher log dir`. -/
  | launcherLogDir
  /-- The error `failed to create the data dir`. -/
  | dataDir
  /-- The error `failed to detect current working dir`. -/
  | getwd
  /-- The error `failed to change working dir to the data dir`. -/
  | chdir
  /-- The error `failed to fork the current process`. -/
  | fork
  /-- The error `failed to redirect the standard input to /dev/null`. -/
  | redirectStdin
  /-- The error `failed to open the launcher log for appending`. -/
  | openLog
  /-- The error `failed to redirect the standard output and error to the launcher log`. -/
  | redirectOutput
  /-- The error of `JavaExecution`. -/
  | javaExecution
  /-- The error `failed to exec Java app`. -/
  | exec
  /-- The error `ErrProcessNotRunning`, `Not running`. -/
  | notRunning
  /-- The error `signaling pid <pid> failed due to`. -/
  | signaling (pid : Int)
  deriving DecidableEq, Repr

/-- How a command ends. -/
inductive Exit where
  /-- The function of the command returned, with an error or `nil`. -/
  | returned (err : Option Error)
  /-- The call `syscall.Exec` succeeded: the process is the worker now. -/
  | replaced (argv : List String)
  /-- The call `os.Exit(code)`. -/
  | exited (code : Nat)
  deriving DecidableEq, Repr

/-- The call `os.Chdir(path)`. -/
def Chdir (w : World) (path : String) : Bool × World :=
  match w.sys (.chdir path) with
  | (true, w1) => (true, { w1 with cwd := path })
  | (false, w1) => (false, w1)

/-- The function `redirectStdinToDevNull`: `true` when it returns no error. -/
def redirectStdinToDevNull (w : World) : Bool × World :=
  match w.sys .openDevNull with
  | (false, w1) => (false, w1)
  | (true, w1) =>
    match w1.sys (.dup2 0) with
    | (false, w2) => (false, w2)
    | (true, w2) => w2.sys .close

/-- The function `redirectOutput`: `true` when it returns no error. -/
def redirectOutput (w : World) : Bool × World :=
  match w.sys (.dup2 1) with
  | (false, w1) => (false, w1)
  | (true, w1) => w1.sys (.dup2 2)

/-- The function `printInfo`: `none` when it returns, else the code with which `exitError`
(or `printError` in it) ends the process. -/
def printInfo (w : World) (message : Message) : Option Nat × World :=
  match w.sys (.printInfo message) with
  | (true, w1) => (none, w1)
  | (false, w1) =>
    match w1.sys .printError with
    | (true, w2) => (some 1, w2)
    | (false, w2) => (some 3, w2)

/-- The first statement of `run`, the test for a worker that runs already: the error that it
returns, or `none` when `run` goes on. -/
def runCheck (w : World) : Option Error × World :=
  match Alive w with
  | (true, w1) =>
    match ReadPid w1 with
    | ((_, some err), w2) => (some (.pidFile err), w2)
    | ((pid, none), w2) =>
      if pid ≠ w2.self then (some (.alreadyRunning pid), w2) else (none, w2)
  | (false, w1) => (none, w1)

/-- The statements of `run` after the test for a worker that runs already. -/
def runWorker (w : World) (options : Options) : Exit × World :=
  match w.sys .symlinks with
  | (false, w3) => (.returned (some .symlinks), w3)
  | (true, w3) =>
    match w3.sys (.mkdirs options.DataDir) with
    | (false, w4) => (.returned (some .dataDir), w4)
    | (true, w4) =>
      match Chdir w4 options.DataDir with
      | (false, w5) => (.returned (some .chdir), w5)
      | (true, w5) =>
        match WritePid w5 w5.self with
        | (some err, w6) => (.returned (some (.pidFile err)), w6)
        | (none, w6) =>
          match redirectStdinToDevNull w6 with
          | (false, w7) => (.returned (some .redirectStdin), w7)
          | (true, w7) =>
            match w7.sys (.javaExecution false) with
            | (false, w8) => (.returned (some .javaExecution), w8)
            | (true, w8) =>
              match w8.sys (.exec options.runCommand) with
              | (false, w9) => (.returned (some .exec), w9)
              | (true, w9) => (.replaced options.runCommand, w9)

/-- The function `run`. -/
def run (w : World) (options : Options) : Exit × World :=
  match runCheck w with
  | (some err, w2) => (.returned (some err), w2)
  | (none, w2) => runWorker w2 options

/-- The part of `start` after the change of directory when `child` is false. -/
def startParent (w : World) (cwd : String) : Exit × World :=
  match AcquireLock w with
  | (some err, w1) => (.returned (some (.pidFile err)), w1)
  | (none, w1) =>
    match Fork w1 (Commands.RewriteArgs w1.args) cwd with
    | (none, w2) => (.returned (some .fork), w2)
    | (some pid, w2) =>
      match WritePid w2 pid with
      | (some err, w3) => (.returned (some (.pidFile err)), w3)
      | (none, w3) =>
        match printInfo w3 (.startedAs pid) with
        | (some code, w4) => (.exited code, w4)
        | (none, w4) => (.returned none, w4)

/-- The part of `start` after the change of directory when `child` is true. -/
def startChild (w : World) (options : Options) : Exit × World :=
  match w.sys (.openAppend options.LauncherLog) with
  | (false, w1) => (.returned (some .openLog), w1)
  | (true, w1) =>
    match redirectOutput w1 with
    | (false, w2) => (.returned (some .redirectOutput), w2)
    | (true, w2) =>
      match w2.sys (.javaExecution true) with
      | (false, w3) => (.returned (some .javaExecution), w3)
      | (true, w3) =>
        match w3.sys (.exec options.daemonCommand) with
        | (false, w4) => (.returned (some .exec), w4)
        | (true, w4) => (.replaced options.daemonCommand, w4)

/-- The first statements of `start`: the value of `child`, or the error returned. -/
def startRole (w : World) : Except Error Bool × World :=
  match Alive w with
  | (true, w1) =>
    match ReadPid w1 with
    | ((_, some err), w2) => (.error (.pidFile err), w2)
    | ((pid, none), w2) =>
      if pid = w2.self then (.ok true, w2) else (.error (.alreadyRunning pid), w2)
  | (false, w1) => (.ok false, w1)

/-- The statements of `start` from `CreateAppSymlinks` on, `child` being known. -/
def startWorker (w : World) (options : Options) (child : Bool) : Exit × World :=
  match w.sys .symlinks with
  | (false, w3) => (.returned (some .symlinks), w3)
  | (true, w3) =>
    match w3.sys (.mkdirs options.launcherLogDir) with
    | (false, w4) => (.returned (some .launcherLogDir), w4)
    | (true, w4) =>
      match w4.sys (.mkdirs options.DataDir) with
      | (false, w5) => (.returned (some .dataDir), w5)
      | (true, w5) =>
        match w5.sys .getwd with
        | (false, w6) => (.returned (some .getwd), w6)
        | (true, w6) =>
          let cwd := w6.cwd
          match Chdir w6 options.DataDir with
          | (false, w7) => (.returned (some .chdir), w7)
          | (true, w7) =>
            if !child then startParent w7 cwd else startChild w7 options

/-- The function `start`. -/
def start (w : World) (options : Options) : Exit × World :=
  match startRole w with
  | (.error err, w2) => (.returned (some err), w2)
  | (.ok child, w2) => startWorker w2 options child

/-! ## `terminate`, `stop`, `kill`, `restart` and `status`

The target of a signal ends when it wants to: a command that waits for it takes the
processes that exist at each later look from a list `future`, the first entry at the signal,
the next ones at the successive tests of the loop of `terminate`.  The loop has no bound in
the source; here it makes at most `fuel` tests, and the result `none` says that the loop has
not ended by then. -/

/-- The loop `for { ... }` of `terminate`: `some err` when `ClearPid` returned the error
`err` and the function returns it, `some none` at the `break`, and `none` when the target
was alive at each of the `fuel` tests. -/
def pollLoop : Nat → List (List Int) → World → Option (Option Process.Error) × World
  | 0, _, w => (none, w)
  | fuel + 1, future, w =>
    match Alive (w.pass future) with
    | (true, w1) => pollLoop fuel future.tail (w1.note .sleep true)
    | (false, w1) =>
      match ClearPid w1 with
      | (some err, w2) => (some (some err), w2)
      | (none, w2) => (some none, w2)

/-- The statements of `terminate` after the signal: the loop and the message. -/
def awaitEnd (fuel : Nat) (future : List (List Int)) (w : World) (message : String)
    (pid : Int) : Option Exit × World :=
  match pollLoop fuel future w with
  | (none, w1) => (none, w1)
  | (some (some err), w1) => (some (.returned (some (.pidFile err))), w1)
  | (some none, w1) =>
    match printInfo w1 (.terminated message pid) with
    | (some code, w2) => (some (.exited code), w2)
    | (none, w2) => (some (.returned none), w2)

/-- The function `terminate`. -/
def terminate (fuel : Nat) (future : List (List Int)) (w : World) (signal : Nat)
    (message : String) : Option Exit × World :=
  match Alive w with
  | (false, w1) => (some (.returned (some .notRunning)), w1)
  | (true, w1) =>
    match ReadPid w1 with
    | ((_, some err), w2) => (some (.returned (some (.pidFile err))), w2)
    | ((pid, none), w2) =>
      match Kill (w2.pass future) pid signal with
      | (.failed, w3) => (some (.returned (some (.signaling pid))), w3)
      | (_, w3) => awaitEnd fuel future.tail w3 message pid

/-- The function `stop`.  The test `errors.Is(err, ErrProcessNotRunning)` holds for the
error `ErrProcessNotRunning` only: the other errors wrap errors of the system. -/
def stop (fuel : Nat) (future : List (List Int)) (w : World) : Option Exit × World :=
  match terminate fuel future w SIGTERM "Stopped" with
  | (some (.returned (some err)), w1) =>
    if err = .notRunning then
      match printInfo w1 .notRunning with
      | (some code, w2) => (some (.exited code), w2)
      | (none, w2) => (some (.returned none), w2)
    else (some (.returned (some err)), w1)
  | (res, w1) => (res, w1)

/-- The function `kill`. -/
def kill (fuel : Nat) (future : List (List Int)) (w : World) : Option Exit × World :=
  terminate fuel future w SIGKILL "Killed"

/-- The function `restart`. -/
def restart (fuel : Nat) (future : List (List Int)) (w : World) (options : Options) :
    Option Exit × World :=
  match stop fuel future w with
  | (some (.returned (some err)), w1) =>
    if err = .notRunning then
      match printInfo w1 .notRunning with
      | (some code, w2) => (some (.exited code), w2)
      | (none, w2) => (some (start w2 options).1, (start w2 options).2)
    else (some (.returned (some err)), w1)
  | (some (.returned none), w1) => (some (start w1 options).1, (start w1 options).2)
  | (res, w1) => (res, w1)

/-- The end of `main` after `handleCommand`: the exit code of the invocation, and `none`
when `syscall.Exec` has replaced it.  An error goes to `exitError(1, err)`; `printError` in
it ends the process with code 3 when it cannot write. -/
def exitCode (w : World) : Exit → Option Nat × World
  | .returned none => (some 0, w)
  | .returned (some _) =>
    match w.sys .printError with
    | (true, w1) => (some 1, w1)
    | (false, w1) => (some 3, w1)
  | .exited code => (some code, w)
  | .replaced _ => (none, w)

/-- The world before test number `n` of the loop of `terminate`, counted from 0, when the
tests before it found the target alive. -/
def pollWorld : Nat → List (List Int) → World → World
  | 0, future, w => w.pass future
  | n + 1, future, w => pollWorld n future.tail ((Alive (w.pass future)).2.note .sleep true)

/-- The pid that `terminate` has read from the record when it sends the signal. -/
def recordedPid (w : World) : Int := (ReadPid (Alive w).2).1.1

/-- The call of `syscall.Kill` in `terminate`, after `Alive` and `ReadPid`: its result and
the world that it leaves. -/
def sendSignal (future : List (List Int)) (w : World) (signal : Nat) : KillResult × World :=
  Kill ((ReadPid (Alive w).2).2.pass future) (recordedPid w) signal

end Main

/-!
# Invocations of `start` that run at the same time

Each invocation is a process with its own handle on the PID file: its own `World`.  The
bytes of the PID file, the processes that exist and the pid of the next child belong to the
system and are the same for all.

An invocation moves in two steps, as `start` is written: the test for a worker that runs
already (`startRole`), then the rest (`startWorker`).  Between the two any other invocation
may move.  A step is taken only when the system grants at once every lock that the step asks
for; when a lock of another handle is in the way, the invocation has to wait and the step is
not taken.  So every execution of this model is an execution of the launcher; the executions
in which another invocation moves inside a step are not in the model.
-/

namespace Race

open Process Main

/-- What the system holds for a handle: no lock, the shared lock or the exclusive lock. -/
inductive Held where
  | unlocked
  | shared
  | exclusive
  deriving DecidableEq, Repr

/-- The lock that the system holds for the handle after the call `e`, when it held `h`
before: the methods `Lock`, `RLock` and `Unlock` call `flock` when the flags of the handle
ask for it, with `LOCK_EX`, `LOCK_SH` and `LOCK_UN`. -/
def Held.after (h : Held) (e : Entry) : Held :=
  match e.call with
  | .lock => if !e.l && e.ok then .exclusive else h
  | .rlock => if !e.r && e.ok then .shared else h
  | .unlock => if (e.l || e.r) && e.ok then .unlocked else h
  | _ => h

/-- Whether the system grants at once the locks that the calls `es` take, the other handles
holding `others`: the exclusive lock when no other handle holds a lock, the shared lock when
no other handle holds the exclusive lock. -/
def granted (others : List Held) (es : List Entry) : Bool :=
  es.all fun e =>
    match e.call with
    | .lock => e.l || !e.ok || others.all (· == .unlocked)
    | .rlock => e.r || !e.ok || others.all (· != .exclusive)
    | _ => true

/-- Where an invocation of `start` is. -/
inductive Stage where
  /-- Before the test `process.Alive()`. -/
  | test
  /-- After the test, `child` being known. -/
  | work (child : Bool)
  /-- At its end. -/
  | done (exit : Exit)
  deriving DecidableEq, Repr

/-- An invocation of `start`: the world of its process, and where it is. -/
structure Invocation where
  world : World
  stage : Stage
  deriving DecidableEq, Repr

/-- The lock that the system holds for the handle of an invocation.  A process that has
ended or that `syscall.Exec` has replaced holds none: its descriptors are closed. -/
def Invocation.held (p : Invocation) : Held :=
  match p.stage with
  | .done _ => .unlocked
  | _ => p.world.trace.foldl Held.after .unlocked

/-- The system: the PID file, the processes that answer a signal, the pid of the next child,
the options, which are the same for all invocations, and the invocations. -/
structure System where
  content : List Nat
  live : List Int
  nextPid : Int
  options : Options
  procs : List Invocation
  deriving DecidableEq, Repr

/-- The world of an invocation at the time of its next step: the PID file and the processes
are those of the system. -/
def System.view (s : System) (p : Invocation) : World :=
  { p.world with content := s.content, live := s.live, nextPid := s.nextPid }

/-- The next step of an invocation from the world `w`: the stage and the world after it, and
`none` when the invocation is at its end. -/
def move (options : Options) (w : World) : Stage → Option (Stage × World)
  | .test =>
    match startRole w with
    | (.ok child, w1) => some (.work child, w1)
    | (.error err, w1) => some (.done (.returned (some err)), w1)
  | .work child => some (.done (startWorker w options child).1, (startWorker w options child).2)
  | .done _ => none

/-- The invocations that the calls `es` start: a call of `proc.Fork` that succeeds starts a
process with the pid `pid`, the command line and the working directory of the call.  It is
an invocation of `start` when `ParseArgs` reads the command START. -/
def spawned (pid : Int) (es : List Entry) : List Invocation :=
  es.filterMap fun e =>
    match e.call with
    | .fork argv cwd =>
      if e.ok then
        match Args.ParseArgs argv.tail with
        | some (.START, _) => some ⟨{ World.new [] pid [] with cwd := cwd, args := argv }, .test⟩
        | _ => none
      else none
    | _ => none

/-- The processes that answer a signal after a step of the process `self` that leaves it at
`stage`: a process that has returned or has called `os.Exit` is gone. -/
def liveAfter (live : List Int) (self : Int) : Stage → List Int
  | .done (.returned _) => live.erase self
  | .done (.exited _) => live.erase self
  | _ => live

/-- The step of invocation number `i`, and `none` when it cannot be taken: there is no such
invocation, it is at its end, or it has to wait for a lock. -/
def System.step (s : System) (i : Nat) : Option System :=
  match s.procs[i]? with
  | none => none
  | some p =>
    match move s.options (s.view p) p.stage with
    | none => none
    | some (stage, w1) =>
      if granted ((s.procs.eraseIdx i).map Invocation.held)
          (w1.trace.drop p.world.trace.length) then
        some
          { s with
            content := w1.content,
            live := liveAfter w1.live w1.self stage,
            nextPid := s.nextPid + (spawned s.nextPid (w1.trace.drop p.world.trace.length)).length,
            procs := s.procs.set i ⟨w1, stage⟩ ++
              spawned s.nextPid (w1.trace.drop p.world.trace.length) }
      else none

/-- The steps of the invocations of the numbers `schedule`, in this order. -/
def System.run : List Nat → System → Option System
  | [], s => some s
  | i :: schedule, s => (s.step i).bind (System.run schedule)

/-- The invocation of `launcher start` by a process `self` that has just made its handle. -/
def starter (self : Int) : Invocation :=
  ⟨{ World.new [] self [] with args := ["/install/bin/launcher", "start"] }, .test⟩

/-- Two invocations of `launcher start`, by the processes 100 and 200, on a PID file that
names the process 7, which is gone: no worker runs. -/
def twoStarts : System :=
  { content := [55, 10]
    live := [100, 200]
    nextPid := 300
    options := ⟨"/data", "/data/var/log/launcher.log", "/data/var/log", ["java", "-jar"],
      ["java", "-jar", "-daemon"]⟩
    procs := [starter 100, starter 200] }

/-- The number of calls of `proc.Fork` that have succeeded in an invocation. -/
def Invocation.forks (p : Invocation) : Nat :=
  (p.world.trace.filter fun e => e.call.isFork && e.ok).length

end Race

namespace Properties

/-! ## The lines of a file without backslash, as the specification words them

The definitions of this section follow the words "the file's lines in file order, ignoring
blank and comment lines", not the Go code; the theorems compare `LoadLines` with them. -/

/-- The bytes that are removed at the start of a line: space, tab and form feed. -/
def isBlank (c : Nat) : Bool := c = 32 || c = 9 || c = 12

/-- The physical lines of the bytes `input`, `cur` being the bytes of the line read so far:
a line ends at LF, at CR, or at CR LF (`afterCR` says that the byte before was the CR that
ended a line), and the last line needs no terminator. -/
def splitLines : List Nat → List Nat → Bool → List (List Nat)
  | [], cur, _ => if cur = [] then [] else [cur]
  | c :: rest, cur, afterCR =>
    if c = 10 ∧ afterCR = true then splitLines rest cur false
    else if c = 10 ∨ c = 13 then cur :: splitLines rest [] (c = 13)
    else splitLines rest (cur ++ [c]) false

/-- The physical lines of a file. -/
def physicalLines (input : List Nat) : List (List Nat) := splitLines input [] false

/-- A line without its leading spaces, tabs and form feeds. -/
def stripLeading (line : List Nat) : List Nat := line.dropWhile isBlank

/-- Whether a line is neither empty nor a comment: it has a first byte, which is neither `#`
nor `!`. -/
def isKept : List Nat → Bool
  | [] => false
  | c :: _ => c != 35 && c != 33

/-- The lines of a file in file order, each without its leading spaces, tabs and form feeds,
the lines left out that are then empty or begin with `#` or `!`. -/
def plainLines (input : List Nat) : List (List Nat) :=
  ((physicalLines input).map stripLeading).filter isKept

/-- The state of the scanner of `readLine` inside a physical line of which it has read the
bytes `cur`, none a backslash: nothing yet but blanks, a comment, or the line buffer. -/
def scanOf (cur : List Nat) : List Nat × Bool × ScanMode :=
  match stripLeading cur with
  | [] => ([], true, .scan)
  | c :: t => if c = 35 ∨ c = 33 then ([], false, .comment) else (c :: t, false, .scan)

end Properties

namespace Args

/-- The elements that stand for one argument according to the description of `transformArgs`:
the flag and the remainder for an argument longer than two characters that starts with `-D`
or `-J`, the argument itself otherwise. -/
def splitShortFlag (arg : String) : List String :=
  if arg.length > 2 ∧ (arg.data.take 2 = ['-', 'D'] ∨ arg.data.take 2 = ['-', 'J']) then
    [String.mk (arg.data.take 2), String.mk (arg.data.drop 2)]
  else [arg]

end Args

/-!
# System properties and resolved properties (`Parse`, `Resolve` of `properties.go`)

* The functions of Go's package `strings` that the code calls are written after that
  package, on strings of bytes.
* The file system is what `fs.Open` gives for a file name: the stream of the file, or an
  error.  The environment is the list that `os.Environ` returns.
-/

namespace Properties

/-- The bytes of a string literal of ASCII characters. -/
def ascii (s : String) : List Nat := s.data.map Char.toNat

/-- Go's `strings.IndexByte(s, c)`: the index of the first byte `c` of `s`, if there is one. -/
def IndexByte : List Nat → Nat → Option Nat
  | [], _ => none
  | b :: s, c => if b = c then some 0 else (IndexByte s c).map (· + 1)

/-- Go's `strings.Contains(s, "=")`. -/
def ContainsEq (s : List Nat) : Bool := (IndexByte s 61).isSome

/-- Go's `strings.SplitN(s, "=", 2)`: the string itself when it holds no `=`, else the part
before the first `=` and the part after it. -/
def SplitN2 (s : List Nat) : List (List Nat) :=
  match IndexByte s 61 with
  | none => [s]
  | some m => [s.take m, s.drop (m + 1)]

/-- Go's `unicode.IsSpace`: the white space of Latin-1 and the runes of the Unicode property
`White_Space` above it. -/
def IsSpace (r : Nat) : Bool :=
  r = 9 || r = 10 || r = 11 || r = 12 || r = 13 || r = 32 || r = 0x85 || r = 0xA0 ||
  r = 0x1680 || (0x2000 ≤ r && r ≤ 0x200A) || r = 0x2028 || r = 0x2029 || r = 0x202F ||
  r = 0x205F || r = 0x3000

/-- Go's `strings.TrimLeftFunc(s, unicode.IsSpace)`: drop the leading runes that are white
space.  Every step drops at least one byte, so `s.length` steps of fuel are enough. -/
def trimLeftSpace : Nat → List Nat → List Nat
  | 0, s => s
  | fuel + 1, s =>
    match s with
    | [] => []
    | _ :: _ =>
      if IsSpace (decodeRune s).1 then trimLeftSpace fuel (s.drop (decodeRune s).2) else s

/-- Go's `utf8.RuneStart`: the byte is no continuation byte. -/
def RuneStart (b : Nat) : Bool := b / 64 % 4 != 2

/-- The index at which `utf8.DecodeLastRuneInString` starts to decode, going back from
`start` over at most `n` bytes that are continuation bytes. -/
def lastRuneStart (s : List Nat) : Nat → Nat → Nat
  | 0, start => start
  | n + 1, start =>
    match start with
    | 0 => 0
    | start1 + 1 => if RuneStart (s.getD start1 0) then start1 else lastRuneStart s n start1

/-- Go's `utf8.DecodeLastRuneInString`: the last rune of `s` and its width. -/
def decodeLastRune (s : List Nat) : Nat × Nat :=
  match s.getLast? with
  | none => (RuneError, 0)
  | some b =>
    if b < 0x80 then (b, 1)
    else
      let start := lastRuneStart s 3 (s.length - 1)
      if start + (decodeRune (s.drop start)).2 ≠ s.length then (RuneError, 1)
      else decodeRune (s.drop start)

/-- Go's `strings.TrimRightFunc(s, unicode.IsSpace)`: drop the trailing runes that are
white space. -/
def trimRightSpace : Nat → List Nat → List Nat
  | 0, s => s
  | fuel + 1, s =>
    match s with
    | [] => []
    | _ :: _ =>
      if IsSpace (decodeLastRune s).1 then
        trimRightSpace fuel (s.take (s.length - (decodeLastRune s).2))
      else s

/-- Go's `strings.TrimSpace`: the string without its leading and trailing white space. -/
def TrimSpace (s : List Nat) : List Nat :=
  trimRightSpace s.length (trimLeftSpace s.length s)

/-- The errors that `Parse` returns, and the run-time panic of an index out of range (never
produced, see the theorems). -/
inductive ParseError where
  /-- The error `property is malformed: <arg>`. -/
  | malformed (arg : List Nat)
  /-- The error `cannot specify config using -D option (use --config)`. -/
  | config
  /-- The error `cannot specify server log using -D option (use --server-log-file)`. -/
  | serverLog
  /-- The error `cannot specify log levels using -D option (use --log-levels-file)`. -/
  | logLevels
  /-- A Go run-time panic: an index out of range. -/
  | indexOutOfRange
  deriving DecidableEq, Repr

/-- The loop `for _, arg := range args` of `Parse`, from the mapping `properties` built so
far. -/
def parseArgs : List (List Nat) → GoMap → Except ParseError GoMap
  | [], properties => .ok properties
  | arg :: args, properties =>
    if ContainsEq arg = false then .error (.malformed arg)
    else
      match SplitN2 arg with
      | kv0 :: kv1 :: _ =>
        let key := TrimSpace kv0
        let value := TrimSpace kv1
        if key = ascii "config" then .error .config
        else if key = ascii "log.output-file" then .error .serverLog
        else if key = ascii "log.levels-file" then .error .logLevels
        else parseArgs args (properties.set key value)
      | _ => .error .indexOutOfRange

/-- The function `Parse`. -/
def Parse (args : List (List Nat)) : Except ParseError GoMap := parseArgs args []

/-- The key that the description of `Parse` gives to an argument: the text before the first
`=`, with surrounding white space trimmed. -/
def keyOf (arg : List Nat) : List Nat := TrimSpace (arg.takeWhile (· ≠ 61))

/-- The value that the description of `Parse` gives to an argument: the trimmed text after
the first `=`. -/
def valueOf (arg : List Nat) : List Nat := TrimSpace ((arg.dropWhile (· ≠ 61)).drop 1)

/-- The keys that `Parse` refuses. -/
def reservedKeys : List (List Nat) :=
  [ascii "config", ascii "log.output-file", ascii "log.levels-file"]

/-- An argument that the description of `Parse` calls offending: it holds no `=`, or its
key is reserved. -/
def offending (arg : List Nat) : Bool := decide (61 ∉ arg) || decide (keyOf arg ∈ reservedKeys)

/-- The error that the description of `Parse` gives for an offending argument. -/
def errorOf (arg : List Nat) : ParseError :=
  if 61 ∉ arg then .malformed arg
  else if keyOf arg = ascii "config" then .config
  else if keyOf arg = ascii "log.output-file" then .serverLog
  else .logLevels

/-- The constant `envPropertyPrefix`, `${ENV:`. -/
def envPropertyPrefix : List Nat := [36, 123, 69, 78, 86, 58]

/-- The constant `envPropertySuffix`, the closing brace. -/
def envPropertySuffix : List Nat := [125]

/-- Go's `strings.HasPrefix(s, p)`: `len(s) >= len(p) && s[:len(p)] == p`. -/
def HasPrefix (s p : List Nat) : Bool := p.length ≤ s.length && s.take p.length = p

/-- Go's `strings.HasSuffix(s, p)`: `len(s) >= len(p) && s[len(s)-len(p):] == p`. -/
def HasSuffix (s p : List Nat) : Bool :=
  p.length ≤ s.length && s.drop (s.length - p.length) = p

/-- Go's `strings.TrimPrefix(s, p)`. -/
def TrimPrefix (s p : List Nat) : List Nat := if HasPrefix s p then s.drop p.length else s

/-- Go's `strings.TrimSuffix(s, p)`. -/
def TrimSuffix (s p : List Nat) : List Nat :=
  if HasSuffix s p then s.take (s.length - p.length) else s

/-- The errors that `Resolve` returns. -/
inductive ResolveError where
  /-- The error of `fs.Open`, with its code. -/
  | openFailed (err : Nat)
  /-- The error of `Load`. -/
  | load (err : LoadError)
  /-- The error `there is no property named <key> in <filename>`. -/
  | noProperty (key filename : List Nat)
  /-- The error `malformed property <value>, does not end with }`. -/
  | doesNotEnd (value : List Nat)
  /-- The error `could not find environment variable: <key>`. -/
  | noVariable (key : List Nat)
  deriving DecidableEq, Repr

/-- The function `findEnvironmentVariable`, over the entries of `os.Environ()`. -/
def findEnvironmentVariable (environ : List (List Nat)) (key : List Nat) :
    Except ResolveError (List Nat) :=
  match environ with
  | [] => .error (.noVariable key)
  | e :: rest =>
    match SplitN2 e with
    | pair0 :: pair1 :: _ =>
      if pair0 = key then .ok pair1 else findEnvironmentVariable rest key
    | _ => findEnvironmentVariable rest key

/-- The function `decodeEnvProperty`. -/
def decodeEnvProperty (environ : List (List Nat)) (value : List Nat) :
    Except ResolveError (List Nat) :=
  if HasPrefix value envPropertyPrefix then
    if HasSuffix value envPropertySuffix = false then .error (.doesNotEnd value)
    else
      findEnvironmentVariable environ
        (TrimSuffix (TrimPrefix value envPropertyPrefix) envPropertySuffix)
  else .ok value

/-- A file system, as `LoadFile` uses it: what `fs.Open(filename)` gives, the stream of the
file or an error. -/
abbrev OpenFs := List Nat → Except Nat Reader

/-- The function `LoadFile`. -/
def LoadFile (fs : OpenFs) (filename : List Nat) : Except ResolveError GoMap :=
  match fs filename with
  | .error err => .error (.openFailed err)
  | .ok readFile =>
    match Load readFile with
    | .error err => .error (.load err)
    | .ok properties => .ok properties

/-- The function `Resolve`. -/
def Resolve (fs : OpenFs) (environ : List (List Nat)) (filename key : List Nat) :
    Except ResolveError (List Nat) :=
  match LoadFile fs filename with
  | .error err => .error err
  | .ok properties =>
    match properties.get key with
    | some value =>
      match decodeEnvProperty environ value with
      | .error err => .error err
      | .ok decodedValue => .ok decodedValue
    | none => .error (.noProperty key filename)

end Properties

namespace Args

/-- The statements of `ParseOptions` that make `SystemProperties`: the mapping that
`properties.Parse` gives for the values of the `-D` flags, and the loop
`for key, value := range options.NodeConfig` over the entries of the node configuration,
which Go visits in an order `order` of its choice. -/
def systemProperties (systemPropertiesOpt : List (List Nat))
    (order : List (List Nat × List Nat)) : Except Properties.ParseError Properties.GoMap :=
  match Properties.Parse systemPropertiesOpt with
  | .error err => .error err
  | .ok SystemProperties =>
    .ok (order.foldl (fun properties kv => properties.set kv.1 kv.2) SystemProperties)

end Args

/-!
# Paths: `directory/install_path.go` and `args/paths.go`

* A path is the list of the characters of a Go `string`.
* The functions of Go's package `path/filepath` that the code calls are written after the
  documentation of that package for Unix: `Clean` works on the elements between the
  separators `/`.
* `os.Getwd` gives the working directory `wd`, or fails (`none`).
* The file system is what `fs.Stat` reports for a path: the kind of the entry, or an error.
-/

namespace Filepath

/-- Go's `strings.Split(path, "/")`: the elements between the separators. -/
def splitSlash : List Char → List (List Char)
  | [] => [[]]
  | c :: s =>
    if c = '/' then [] :: splitSlash s
    else
      match splitSlash s with
      | [] => [[c]]
      | e :: es => (c :: e) :: es

/-- Go's `strings.Join(elems, "/")`. -/
def joinSlash : List (List Char) → List Char
  | [] => []
  | [e] => e
  | e :: f :: es => e ++ '/' :: joinSlash (f :: es)

/-- What `Clean` does with one element `e` of the path, `out` being the elements kept so
far, the last one first: an empty element and `.` are dropped; `..` removes the element before
it, is dropped at the root of a rooted path, and is kept where it follows nothing or another
`..` in a path that is not rooted; any other element is kept. -/
def cleanStep (rooted : Bool) (out : List (List Char)) (e : List Char) : List (List Char) :=
  if e = [] ∨ e = ['.'] then out
  else if e = ['.', '.'] then
    match out with
    | [] => if rooted then [] else [e]
    | l :: rest => if l = ['.', '.'] then e :: out else rest
  else e :: out

/-- Go's `filepath.IsAbs` on Unix: the path starts with the separator. -/
def IsAbs (path : List Char) : Bool := path.head? = some '/'

/-- Go's `filepath.Clean`: the shortest path equivalent to `path` by purely lexical
processing; the empty path gives `.`. -/
def Clean (path : List Char) : List Char :=
  let out := ((splitSlash path).foldl (cleanStep (IsAbs path)) []).reverse
  if IsAbs path then '/' :: joinSlash out
  else if out = [] then ['.'] else joinSlash out

/-- Go's `filepath.Join`: the elements from the first one that is not empty, joined with
separators and cleaned; the empty path when every element is empty. -/
def Join (elem : List (List Char)) : List Char :=
  match elem.dropWhile (· = []) with
  | [] => []
  | e :: es => Clean (joinSlash (e :: es))

/-- Go's `filepath.Dir`: all but the last element of the path, cleaned. -/
def Dir (path : List Char) : List Char :=
  Clean (path.reverse.dropWhile (· ≠ '/')).reverse

/-- Go's `filepath.Base`: the last element of the path, without trailing separators; `.`
for the empty path and `/` for a path of separators only. -/
def Base (path : List Char) : List Char :=
  if path = [] then ['.']
  else
    let path := (path.reverse.dropWhile (· = '/')).reverse
    if path = [] then ['/'] else (path.reverse.takeWhile (· ≠ '/')).reverse

/-- Go's `filepath.Abs` on Unix: a rooted path is cleaned; another path is joined to the
working directory, and the call fails when `os.Getwd` fails. -/
def Abs (wd : Option (List Char)) (path : List Char) : Option (List Char) :=
  if IsAbs path then some (Clean path)
  else
    match wd with
    | none => none
    | some wd => some (Join [wd, path])

/-- The elements of a path: what stands between its separators, the empty elements left
out. -/
def elements (path : List Char) : List (List Char) := (splitSlash path).filter (· ≠ [])

/-- The rooted path with the given elements. -/
def rootedPath (elems : List (List Char)) : List Char := '/' :: joinSlash elems

/-- An element that `Clean` keeps in a rooted path: it is not empty, neither `.` nor `..`,
and holds no separator. -/
def IsElem (e : List Char) : Prop := e ≠ [] ∧ e ≠ ['.'] ∧ e ≠ ['.', '.'] ∧ '/' ∉ e

end Filepath

namespace Directory

open Filepath

/-- The constant `LauncherName`. -/
def LauncherName : List Char := "launcher".data

/-- The constant `LauncherScriptName`. -/
def LauncherScriptName : List Char := "launcher".data

/-- The kind of an entry of the file system, as `fs.Stat` reports it in the mode of the
`FileInfo`: a directory (`IsDir`), a regular file (`Mode().IsRegular()`), or another entry
(a named pipe, a socket, a device). -/
inductive FileKind where
  | dir | regular | irregular
  deriving DecidableEq, Repr

/-- The errors of `fs.Stat`: the one that `os.IsNotExist` recognises, and any other. -/
inductive StatError where
  | notExist | other
  deriving DecidableEq, Repr

/-- A file system, as this package uses it: the result of `fs.Stat` for a path. -/
abbrev Fs := List Char → Except StatError FileKind

/-- The errors of `FileExists` and `DirExists`. -/
inductive FileError where
  /-- The error of `fs.Stat` for a path that does not exist. -/
  | notExist
  /-- The error `ErrNotAFile`. -/
  | ErrNotAFile
  /-- The error `ErrNotADir`. -/
  | ErrNotADir
  deriving DecidableEq, Repr

/-- The function `absFile`. -/
def absFile (wd : Option (List Char)) (path : List Char) : List Char :=
  if IsAbs path then path
  else
    match Abs wd path with
    | none => Join [['/'], path]
    | some res => res

/-- The function `FileExists`: `none` is the result `nil`. -/
def FileExists (fs : Fs) (wd : Option (List Char)) (path : List Char) : Option FileError :=
  match fs (absFile wd path) with
  | .error .notExist => some .notExist
  | .error .other => some .ErrNotAFile
  | .ok info => if info = .dir then some .ErrNotAFile else none

/-- The function `DirExists`: `none` is the result `nil`. -/
def DirExists (fs : Fs) (wd : Option (List Char)) (path : List Char) : Option FileError :=
  match fs (absFile wd path) with
  | .error .notExist => some .notExist
  | .error .other => some .ErrNotADir
  | .ok info => if info ≠ .dir then some .ErrNotADir else none

/-- The errors of `FindInstallPath`. -/
inductive InstallError where
  /-- The error `expected executable to be named 'launcher' not '<base>'`. -/
  | wrongName (base : List Char)
  /-- The error `failed to resolve the parent directory of <currentDir>`. -/
  | parentFailed (currentDir : List Char)
  /-- The error `could not detect installation directory`. -/
  | notDetected
  /-- The fuel of the loop of the embedding ran out (never produced, see the theorems). -/
  | outOfFuel
  deriving DecidableEq, Repr

/-- The loop `for { ... }` of `FindInstallPath` from the directory `currentDir`.  Every turn
goes on with the parent directory, so the loop takes a fuel argument. -/
def findLoop (fs : Fs) (wd : Option (List Char)) : Nat → List Char →
    Except InstallError (List Char)
  | 0, _ => .error .outOfFuel
  | fuel + 1, currentDir =>
    let launcherScript := Join [currentDir, LauncherScriptName]
    match FileExists fs wd launcherScript with
    | none =>
      match Abs wd (Join [currentDir, ['.', '.']]) with
      | none => .error (.parentFailed currentDir)
      | some parentDir => .ok parentDir
    | some _ =>
      match Abs wd (Join [currentDir, ['.', '.']]) with
      | none => .error (.parentFailed currentDir)
      | some dir =>
        if dir = ['/'] then .error .notDetected
        else findLoop fs wd fuel dir

/-- The function `FindInstallPath`.  The absolute path of a directory is longer than the one
of its parent, so the length of the absolute path of the first directory, and one more, is
fuel enough for the loop. -/
def FindInstallPath (fs : Fs) (wd : Option (List Char)) (executablePath : List Char) :
    Except InstallError (List Char) :=
  if Base executablePath ≠ LauncherName then .error (.wrongName (Base executablePath))
  else
    let currentDir := Join [Dir executablePath, ['.', '.']]
    findLoop fs wd ((absFile wd currentDir).length + 1) currentDir

/-- The directories that a walk upward from the directory with the elements `elems` visits,
each by its elements: the directory itself, then its parent, and so on up to the directory
just below the root; the root alone when the walk starts at the root. -/
def walkUp (elems : List (List Char)) : List (List (List Char)) :=
  if elems = [] then [[]] else elems.inits.tail.reverse

/-- The directory with the elements `dir` holds an entry named `launcher` that `fs.Stat`
finds and that is not a directory. -/
def holdsLauncher (fs : Fs) (dir : List (List Char)) : Bool :=
  match fs (rootedPath (dir ++ [LauncherScriptName])) with
  | .ok info => info ≠ .dir
  | .error _ => false

/-- The directory with the elements `dir` holds a regular file named `launcher`. -/
def holdsRegularLauncher (fs : Fs) (dir : List (List Char)) : Bool :=
  match fs (rootedPath (dir ++ [LauncherScriptName])) with
  | .ok info => info = .regular
  | .error _ => false

end Directory

namespace Args

open Filepath Directory

/-- The errors of `Resolve`, `err` being one of the test. -/
inductive PathError (ε : Type) where
  /-- The error of `filepath.Abs`. -/
  | absFailed
  /-- The error `path <absPath> is invalid: <err>`. -/
  | invalid (absPath : List Char) (err : ε)
  /-- The error `no search path matches: <searchPaths>`. -/
  | noMatch (searchPaths : List (List Char))
  /-- The error `could not find file: <path>` of `ResolveFile`. -/
  | couldNotFindFile (path : List Char)
  deriving DecidableEq, Repr

/-- The loop `for _, searchPath := range searchPaths` of `Resolve`: what it returns, or
`none` when it ends without a `return`. -/
def resolveLoop {ε : Type} (wd : Option (List Char)) (test : List Char → Option ε) :
    List (List Char) → Option (Except (PathError ε) (List Char))
  | [] => none
  | searchPath :: searchPaths =>
    if searchPath = [] then resolveLoop wd test searchPaths
    else
      match Abs wd searchPath with
      | none => some (.error .absFailed)
      | some absPath =>
        match test absPath with
        | some err => some (.error (.invalid absPath err))
        | none => some (.ok absPath)

/-- The function `Resolve` of `paths.go`; `test fs` is the function `test` here. -/
def Resolve {ε : Type} (wd : Option (List Char)) (test : List Char → Option ε)
    (searchPaths : List (List Char)) : Except (PathError ε) (List Char) :=
  match resolveLoop wd test searchPaths with
  | some result => result
  | none => .error (.noMatch searchPaths)

/-- The function `firstNonEmpty`. -/
def firstNonEmpty : List (List Char) → List Char
  | [] => "n/a".data
  | searchPath :: searchPaths =>
    if searchPath ≠ [] then searchPath else firstNonEmpty searchPaths

/-- The function `ResolveFile`. -/
def ResolveFile (fs : Fs) (wd : Option (List Char)) (searchPaths : List (List Char)) :
    Except (PathError FileError) (List Char) :=
  match Resolve wd (FileExists fs wd) searchPaths with
  | .error _ => .error (.couldNotFindFile (firstNonEmpty searchPaths))
  | .ok resolved => .ok resolved

end Args

namespace Directory

/-- The file system of `TestFindInstallDetectBaseDir`: the file `/usr/local/bin/launcher`
and the directories above it. -/
def detectFs : Fs := fun path =>
  if path = "/usr/local/bin/launcher".data then .ok .regular
  else if path ∈ ["/".data, "/usr".data, "/usr/local".data, "/usr/local/bin".data] then .ok .dir
  else .error .notExist

/-- A file system in which `/usr/local/bin/launcher` is a named pipe and `/usr/local/bin` has
a directory `something`; it holds no regular file. -/
def pipeFs : Fs := fun path =>
  if path = "/usr/local/bin/launcher".data then .ok .irregular
  else if path ∈ ["/".data, "/usr".data, "/usr/local".data, "/usr/local/bin".data,
      "/usr/local/bin/something".data] then .ok .dir
  else .error .notExist

end Directory

namespace Properties

/-! ## Continued physical lines

The physical lines of which a logical line is made, as the description of the reader words
them; the theorems on continuations compare the reader with these definitions. -/

/-- A physical line that is continued on the next one: the spaces, tabs and form feeds `ws`
at its start, the bytes `kept` that the logical line keeps, one more backslash (the
continuation backslash) and the terminator `term`. -/
structure ContinuedLine where
  /-- The white space at the start of the physical line. -/
  ws : List Nat
  /-- The bytes of the physical line after the white space, without its last backslash. -/
  kept : List Nat
  /-- The terminator of the physical line. -/
  term : List Nat
  deriving DecidableEq, Repr

/-- The bytes of a continued physical line in the input. -/
def ContinuedLine.bytes (p : ContinuedLine) : List Nat :=
  p.ws ++ p.kept ++ [92] ++ p.term

/-- The parts of a continued physical line are what their names say: `ws` holds spaces, tabs
and form feeds only, `kept` holds no terminator, does not begin with a space, a tab or a form
feed, and ends in an even number of backslashes (so that, with the continuation backslash, an
odd number of backslashes precedes the terminator), and `term` is LF, CR or CR LF. -/
def ContinuedLine.Valid (p : ContinuedLine) : Prop :=
  (∀ c ∈ p.ws, c = 32 ∨ c = 9 ∨ c = 12) ∧
    (∀ c ∈ p.kept, c ≠ 10 ∧ c ≠ 13) ∧
    (∀ c, p.kept.head? = some c → c ≠ 32 ∧ c ≠ 9 ∧ c ≠ 12) ∧
    trailingBackslashes p.kept % 2 = 0 ∧
    (p.term = [10] ∨ p.term = [13] ∨ p.term = [13, 10])

/-- The bytes of a chain of continued physical lines in the input. -/
def chainBytes (ps : List ContinuedLine) : List Nat :=
  (ps.map ContinuedLine.bytes).flatten

/-- What the logical line keeps of a chain of continued physical lines. -/
def chainKept (ps : List ContinuedLine) : List Nat :=
  (ps.map ContinuedLine.kept).flatten

/-- No physical line of the chain `ps` is a comment, when `buf` is what the logical line has
kept before the chain: a physical line before which nothing has been kept does not begin,
after its white space, with `#` or `!`. -/
def NoComment : List Nat → List ContinuedLine → Prop
  | _, [] => True
  | buf, p :: ps =>
    (buf = [] → ∀ c, p.kept.head? = some c → c ≠ 35 ∧ c ≠ 33) ∧ NoComment (buf ++ p.kept) ps

end Properties

namespace Properties

/-! ## Trimming, in the words of the description of `Parse` -/

/-- The white space of Unicode (the runes of the property `White_Space`), by code point. -/
def whiteSpaceRunes : List Nat :=
  [0x09, 0x0A, 0x0B, 0x0C, 0x0D, 0x20, 0x85, 0xA0, 0x1680, 0x2000, 0x2001, 0x2002, 0x2003,
    0x2004, 0x2005, 0x2006, 0x2007, 0x2008, 0x2009, 0x200A, 0x2028, 0x2029, 0x202F, 0x205F,
    0x3000]

/-- The white space of Unicode, each rune by the bytes of its UTF-8 encoding. -/
def whiteSpace : List (List Nat) :=
  [[0x09], [0x0A], [0x0B], [0x0C], [0x0D], [0x20], [0xC2, 0x85], [0xC2, 0xA0],
    [0xE1, 0x9A, 0x80], [0xE2, 0x80, 0x80], [0xE2, 0x80, 0x81], [0xE2, 0x80, 0x82],
    [0xE2, 0x80, 0x83], [0xE2, 0x80, 0x84], [0xE2, 0x80, 0x85], [0xE2, 0x80, 0x86],
    [0xE2, 0x80, 0x87], [0xE2, 0x80, 0x88], [0xE2, 0x80, 0x89], [0xE2, 0x80, 0x8A],
    [0xE2, 0x80, 0xA8], [0xE2, 0x80, 0xA9], [0xE2, 0x80, 0xAF], [0xE2, 0x81, 0x9F],
    [0xE3, 0x80, 0x80]]

/-- The string without the white space at its start: as long as the string starts with the
bytes of a white space, these bytes are removed.  Every step removes a byte at least, so
`fuel` steps are enough for a string of `fuel` bytes. -/
def dropSpaces (spaces : List (List Nat)) : Nat → List Nat → List Nat
  | 0, s => s
  | fuel + 1, s =>
    match spaces.find? fun w => HasPrefix s w with
    | some w => dropSpaces spaces fuel (s.drop w.length)
    | none => s

/-- The text `s` with surrounding white space trimmed: without the white space at its start
and, read from its end, without the white space at its end. -/
def trimmed (s : List Nat) : List Nat :=
  (dropSpaces (whiteSpace.map List.reverse) s.length
    (dropSpaces whiteSpace s.length s).reverse).reverse

/-- The key of an argument in the words of the description of `Parse`: the text before the
first `=`, with surrounding white space trimmed. -/
def trimmedKey (arg : List Nat) : List Nat := trimmed (arg.takeWhile (· ≠ 61))

/-- The value of an argument in the words of the description of `Parse`: the trimmed text
after the first `=`. -/
def trimmedValue (arg : List Nat) : List Nat := trimmed ((arg.dropWhile (· ≠ 61)).drop 1)

end Properties

namespace Properties

/-! ## The buffered reader against the scanner -/

theorem index_lt {s : List Nat} {i : Nat} (h : i < s.length) : index s i = .ok s[i] := by
  simp [index, List.getElem?_eq_getElem h]

theorem drop_cons_of_lt {s : List Nat} {i : Nat} (h : i < s.length) :
    s.drop i = s[i] :: s.drop (i + 1) := by
  exact List.drop_eq_getElem_cons h

theorem flatLines_afterCR (b : Nat) (rest lineBuf : List Nat) (sw alb pb : Bool) :
    flatLines (b :: rest) lineBuf sw alb pb .afterCR =
      flatLines (if b = 10 then rest else b :: rest) lineBuf sw alb pb .scan := by
  by_cases hb : b = 10
  · subst hb
    simp [flatLines]
  · simp [flatLines, hb]

theorem skipComment_spec (byteBuf : List Nat) (fuel off : Nat)
    (hoff : off ≤ byteBuf.length) (hfuel : byteBuf.length - off ≤ fuel) :
    ∃ off1 found, skipComment byteBuf byteBuf.length fuel off = .ok (off1, found) ∧
      off1 ≤ byteBuf.length ∧
      (found = true → off < off1 ∧ ∀ tail lineBuf sw alb pb,
        flatLines (byteBuf.drop off ++ tail) lineBuf sw alb pb .comment =
          flatLines (byteBuf.drop off1 ++ tail) lineBuf true alb pb .scan) ∧
      (found = false → off1 = byteBuf.length ∧ ∀ tail lineBuf sw alb pb,
        flatLines (byteBuf.drop off ++ tail) lineBuf sw alb pb .comment =
          flatLines tail lineBuf sw alb pb .comment) := by
  induction fuel generalizing off with
  | zero =>
    have h : off = byteBuf.length := by omega
    subst h
    refine ⟨byteBuf.length, false, by simp [skipComment], le_refl _, by simp, ?_⟩
    intro _
    simp
  | succ fuel ih =>
    by_cases hlt : off < byteBuf.length
    · have hd := drop_cons_of_lt hlt
      by_cases hterm : byteBuf[off] ≤ 13 ∧ (byteBuf[off] = 13 ∨ byteBuf[off] = 10)
      · refine ⟨off + 1, true, ?_, by omega, ?_, by simp⟩
        · simp [skipComment, hlt, index_lt hlt, hterm]
        · intro _
          refine ⟨by omega, ?_⟩
          intro tail lineBuf sw alb pb
          rw [hd]
          simp [flatLines, hterm]
      · obtain ⟨off1, found, h1, h2, h3, h4⟩ := ih (off + 1) (by omega) (by omega)
        refine ⟨off1, found, ?_, h2, ?_, ?_⟩
        · simp only [skipComment, hlt, index_lt hlt, hterm, if_true, if_false]
          exact h1
        · intro hf
          obtain ⟨h5, h6⟩ := h3 hf
          refine ⟨by omega, ?_⟩
          intro tail lineBuf sw alb pb
          rw [hd, ← h6 tail lineBuf sw alb pb]
          simp [flatLines, hterm]
        · intro hf
          obtain ⟨h5, h6⟩ := h4 hf
          refine ⟨h5, ?_⟩
          intro tail lineBuf sw alb pb
          rw [hd, ← h6 tail lineBuf sw alb pb]
          simp [flatLines, hterm]
    · have h : off = byteBuf.length := by omega
      subst h
      refine ⟨byteBuf.length, false, by simp [skipComment], le_refl _, by simp, ?_⟩
      intro _
      simp

theorem fill_nil {r : lineReader} (h : r.r = []) :
    r.fill = { r with byteBuf := [], inLimit := 0 } := by
  simp [lineReader.fill, h]

theorem fill_cons {r : lineReader} {chunk : List Nat} {rest : Reader} (h : r.r = chunk :: rest) :
    r.fill = { r with r := rest, byteBuf := chunk, inLimit := chunk.length } := by
  simp [lineReader.fill, h]

theorem commentLoop_spec (fuel : Nat) (r : lineReader) (off limit : Nat)
    (hwf : r.WF) (hlim : limit = r.inLimit) (hoff : off ≤ limit)
    (hfuel : r.r.length + 1 ≤ fuel) :
    ∃ r1 o, commentLoop fuel r off limit = .ok (r1, o) ∧ r1.lineBuf = r.lineBuf ∧ r1.WF ∧
      (∀ off1 limit1, o = some (off1, limit1) →
        limit1 = r1.inLimit ∧ off1 ≤ limit1 ∧ r1.fuel off1 limit1 ≤ r.fuel off limit ∧
        ∀ lineBuf sw alb pb, flatLines (r.pending off) lineBuf sw alb pb .comment =
          flatLines (r1.pending off1) lineBuf true alb pb .scan) ∧
      (o = none → ∀ lineBuf sw alb pb,
        flatLines (r.pending off) lineBuf sw alb pb .comment = []) := by
  induction fuel generalizing r off limit with
  | zero => omega
  | succ fuel ih =>
    obtain ⟨hwf1, hwf2⟩ := hwf
    have hlen : limit = r.byteBuf.length := by omega
    subst hlen
    obtain ⟨off1, found, h1, h2, h3, h4⟩ :=
      skipComment_spec r.byteBuf (r.byteBuf.length - off) off hoff (le_refl _)
    cases found with
    | true =>
      obtain ⟨h5, h6⟩ := h3 rfl
      refine ⟨r, some (off1, r.byteBuf.length), ?_, rfl, ⟨hwf1, hwf2⟩, ?_, by simp⟩
      · simp [commentLoop, h1]
      · intro off2 limit2 heq
        simp only [Option.some.injEq, Prod.mk.injEq] at heq
        obtain ⟨rfl, rfl⟩ := heq
        refine ⟨hwf1.symm, h2, ?_, ?_⟩
        · simp only [lineReader.fuel]
          omega
        · intro lineBuf sw alb pb
          exact h6 _ lineBuf sw alb pb
    | false =>
      obtain ⟨h5, h6⟩ := h4 rfl
      subst h5
      cases hr : r.r with
      | nil =>
        refine ⟨r.fill, none, ?_, ?_, ?_, by simp, ?_⟩
        · simp [commentLoop, h1, fill_nil hr]
        · simp [fill_nil hr]
        · simp [fill_nil hr, lineReader.WF, hr, Reader.NonEmpty]
        · intro _ lineBuf sw alb pb
          rw [lineReader.pending, h6]
          simp [hr, Reader.bytes, flatLines]
      | cons chunk rest =>
        have hne : chunk ≠ [] := hwf2 chunk (by simp [hr])
        have hpos : 0 < chunk.length := List.length_pos.mpr hne
        have hwf' : r.fill.WF := by
          refine ⟨by simp [fill_cons hr], ?_⟩
          intro c hc
          apply hwf2 c
          simp only [fill_cons hr] at hc
          simp [hr, hc]
        have hrl : r.r.length = rest.length + 1 := by rw [hr]; rfl
        have hfl : r.fill.r = rest := by simp [fill_cons hr]
        have hfuel' : r.fill.r.length + 1 ≤ fuel := by rw [hfl]; omega
        obtain ⟨r1, o, g1, g2, g3, g4, g5⟩ :=
          ih r.fill 0 r.fill.inLimit hwf' rfl (Nat.zero_le _) hfuel'
        have hpend : ∀ lineBuf sw alb pb,
            flatLines (r.pending off) lineBuf sw alb pb .comment =
              flatLines (r.fill.pending 0) lineBuf sw alb pb .comment := by
          intro lineBuf sw alb pb
          rw [lineReader.pending, h6]
          simp [lineReader.pending, fill_cons hr, hr, Reader.bytes]
        refine ⟨r1, o, ?_, ?_, g3, ?_, ?_⟩
        · simp only [commentLoop, h1, if_true]
          have hin : r.fill.inLimit = chunk.length := by simp [fill_cons hr]
          have : ¬ (r.fill.inLimit ≤ 0) := by omega
          simp only [this, if_false]
          exact g1
        · rw [g2]; simp [fill_cons hr]
        · intro off2 limit2 heq
          obtain ⟨k1, k2, k3, k4⟩ := g4 off2 limit2 heq
          refine ⟨k1, k2, ?_, ?_⟩
          · refine le_trans k3 ?_
            simp [lineReader.fuel, fill_cons hr, hr]
            omega
          · intro lineBuf sw alb pb
            rw [hpend, k4]
        · intro hnone lineBuf sw alb pb
          rw [hpend, g5 hnone]

theorem pending_of_lt {r : lineReader} {off : Nat} (h : off < r.byteBuf.length) :
    r.pending off = r.byteBuf[off] :: r.pending (off + 1) := by
  unfold lineReader.pending
  rw [drop_cons_of_lt h]
  rfl

/-- What the statement `if off >= limit { ... Read ... }` leaves: either the end of the
input, or a next byte to read. -/
theorem refill_spec (r : lineReader) (off limit : Nat) (hwf : r.WF) (hlim : limit = r.inLimit) :
    ∃ r1 off1 limit1, r.refill off limit = (r1, off1, limit1) ∧ r1.WF ∧
      r1.lineBuf = r.lineBuf ∧ limit1 = r1.inLimit ∧
      ((off ≥ limit ∧ limit1 ≤ 0 ∧ r.pending off = [] ∧ ∀ n, r1.pending n = []) ∨
       (¬ (off ≥ limit ∧ limit1 ≤ 0) ∧ off1 < limit1 ∧ r1.pending off1 = r.pending off ∧
        r1.fuel off1 limit1 ≤ r.fuel off limit ∧
        ∃ c, index r1.byteBuf off1 = .ok c ∧ r1.pending off1 = c :: r1.pending (off1 + 1))) := by
  obtain ⟨hwf1, hwf2⟩ := hwf
  by_cases hge : off ≥ limit
  · cases hr : r.r with
    | nil =>
      refine ⟨r.fill, 0, r.fill.inLimit, by simp [lineReader.refill, hge], ?_, ?_, rfl, ?_⟩
      · simp [fill_nil hr, lineReader.WF, hr, Reader.NonEmpty]
      · simp [fill_nil hr]
      · left
        refine ⟨hge, by simp [fill_nil hr], ?_, ?_⟩
        · have : r.byteBuf.length ≤ off := by omega
          simp [lineReader.pending, hr, Reader.bytes, List.drop_eq_nil_of_le this]
        · intro n
          simp [lineReader.pending, fill_nil hr, hr, Reader.bytes]
    | cons chunk rest =>
      have hne : chunk ≠ [] := hwf2 chunk (by simp [hr])
      have hpos : 0 < chunk.length := List.length_pos.mpr hne
      have hin : r.fill.inLimit = chunk.length := by simp [fill_cons hr]
      have hbuf : r.fill.byteBuf = chunk := by simp [fill_cons hr]
      have hpos' : 0 < r.fill.byteBuf.length := by rw [hbuf]; exact hpos
      refine ⟨r.fill, 0, r.fill.inLimit, by simp [lineReader.refill, hge], ?_, ?_, rfl, ?_⟩
      · refine ⟨by simp [fill_cons hr], ?_⟩
        intro c hc
        apply hwf2 c
        simp only [fill_cons hr] at hc
        simp [hr, hc]
      · simp [fill_cons hr]
      · right
        have hp : r.fill.pending 0 = r.pending off := by
          have : r.byteBuf.length ≤ off := by omega
          simp [lineReader.pending, fill_cons hr, hr, Reader.bytes, List.drop_eq_nil_of_le this]
        refine ⟨by omega, by omega, hp, ?_, r.fill.byteBuf[0], index_lt hpos', pending_of_lt hpos'⟩
        simp [lineReader.fuel, fill_cons hr, hr]
        omega
  · have hlt : off < r.byteBuf.length := by omega
    refine ⟨r, off, limit, by simp [lineReader.refill, hge], ⟨hwf1, hwf2⟩, rfl, hlim, ?_⟩
    right
    exact ⟨by omega, by omega, rfl, le_refl _, r.byteBuf[off], index_lt hlt, pending_of_lt hlt⟩

theorem ReadLineSpec.of_step {fuel : Nat} {r r1 : lineReader} {off limit off1 limit1 : Nat}
    {sw alb pb sw1 alb1 pb1 : Bool}
    (hgo : readLineLoop (fuel + 1) r off limit sw alb pb =
      readLineLoop fuel r1 off1 limit1 sw1 alb1 pb1)
    (hflat : flatLines (r.pending off) r.lineBuf sw alb pb .scan =
      flatLines (r1.pending off1) r1.lineBuf sw1 alb1 pb1 .scan)
    (h : ReadLineSpec fuel r1 off1 limit1 sw1 alb1 pb1) :
    ReadLineSpec (fuel + 1) r off limit sw alb pb := by
  obtain ⟨res, r2, h1, h2, h3, h4⟩ := h
  exact ⟨res, r2, by rw [hgo, h1], h2, by rw [hflat]; exact h3, by rw [hflat]; exact h4⟩

theorem fuel_succ (r : lineReader) {off limit : Nat} (h : off < limit) :
    r.fuel (off + 1) limit + 1 = r.fuel off limit := by
  simp only [lineReader.fuel]
  omega

theorem length_le_sum (l : Reader) : l.length ≤ (l.map (fun chunk => chunk.length + 1)).sum := by
  induction l with
  | nil => simp
  | cons a l ih => simp only [List.length_cons, List.map_cons, List.sum_cons]; omega

theorem flatLines_cons_scan (c : Nat) (rest lineBuf : List Nat) (sw alb pb : Bool) :
    flatLines (c :: rest) lineBuf sw alb pb .scan =
      if sw = true ∧ (c = 32 ∨ c = 9 ∨ c = 12) then flatLines rest lineBuf sw alb pb .scan
      else if sw = true ∧ alb = false ∧ (c = 13 ∨ c = 10) then
        flatLines rest lineBuf sw alb pb .scan
      else if lineBuf.length = 0 ∧ (c = 35 ∨ c = 33) then
        flatLines rest lineBuf false (if sw then false else alb) pb .comment
      else if c ≠ 10 ∧ c ≠ 13 then
        flatLines rest (lineBuf ++ [c]) false (if sw then false else alb)
          (if c = 92 then !pb else false) .scan
      else if lineBuf.length = 0 then
        flatLines rest lineBuf true (if sw then false else alb) pb .scan
      else if rest.length = 0 then
        if pb then [lineBuf.dropLast] else [lineBuf]
      else if pb then
        flatLines rest lineBuf.dropLast true true false (if c = 13 then .afterCR else .scan)
      else lineBuf :: flatLines rest [] true false false .scan := by
  rw [flatLines, if_neg (by decide), if_neg (by simp)]

theorem readLineLoop_succ_byte (fuel : Nat) {r r1 : lineReader} {off limit off1 limit1 c : Nat}
    (skipWhiteSpace appendedLineBegin precedingBackslash : Bool)
    (hre : r.refill off limit = (r1, off1, limit1)) (hnot : ¬ (off ≥ limit ∧ limit1 ≤ 0))
    (hidx : index r1.byteBuf off1 = .ok c) :
    readLineLoop (fuel + 1) r off limit skipWhiteSpace appendedLineBegin precedingBackslash =
      if skipWhiteSpace = true ∧ (c = 32 ∨ c = 9 ∨ c = 12) then
        readLineLoop fuel r1 (off1 + 1) limit1 skipWhiteSpace appendedLineBegin
          precedingBackslash
      else if skipWhiteSpace = true ∧ appendedLineBegin = false ∧ (c = 13 ∨ c = 10) then
        readLineLoop fuel r1 (off1 + 1) limit1 skipWhiteSpace appendedLineBegin
          precedingBackslash
      else if r1.lineBuf.length = 0 ∧ (c = 35 ∨ c = 33) then
        match commentLoop fuel r1 (off1 + 1) limit1 with
        | .error e => .error e
        | .ok (r2, none) => .ok (none, r2)
        | .ok (r2, some (off2, limit2)) =>
          readLineLoop fuel r2 off2 limit2 true
            (if skipWhiteSpace then false else appendedLineBegin) precedingBackslash
      else if c ≠ 10 ∧ c ≠ 13 then
        readLineLoop fuel { r1 with lineBuf := r1.lineBuf ++ [c] } (off1 + 1) limit1 false
          (if skipWhiteSpace then false else appendedLineBegin)
          (if c = 92 then !precedingBackslash else false)
      else if r1.lineBuf.length = 0 then
        readLineLoop fuel r1 (off1 + 1) limit1 true
          (if skipWhiteSpace then false else appendedLineBegin) precedingBackslash
      else
        match r1.refill (off1 + 1) limit1 with
        | (r2, off2, limit2) =>
          if off1 + 1 ≥ limit1 ∧ limit2 ≤ 0 then
            if precedingBackslash then
              .ok (some r2.lineBuf.dropLast, { r2 with lineBuf := r2.lineBuf.dropLast })
            else .ok (some r2.lineBuf, r2)
          else if precedingBackslash then
            if c = 13 then
              match index r2.byteBuf off2 with
              | .error e => .error e
              | .ok b =>
                readLineLoop fuel { r2 with lineBuf := r2.lineBuf.dropLast }
                  (if b = 10 then off2 + 1 else off2) limit2 true true false
            else
              readLineLoop fuel { r2 with lineBuf := r2.lineBuf.dropLast } off2 limit2
                true true false
          else .ok (some r2.lineBuf, { r2 with inOff := off2 }) := by
  rw [readLineLoop]
  simp only [hre, hnot, if_false, hidx]

theorem readLineLoop_spec (fuel : Nat) (r : lineReader) (off limit : Nat) (sw alb pb : Bool)
    (hwf : r.WF) (hlim : limit = r.inLimit) (hfuel : r.fuel off limit ≤ fuel) :
    ReadLineSpec fuel r off limit sw alb pb := by
  induction fuel generalizing r off limit sw alb pb with
  | zero => simp [lineReader.fuel] at hfuel
  | succ fuel ih =>
    obtain ⟨r1, off1, limit1, hre, hwf1, hlb1, hlim1, hcase⟩ := refill_spec r off limit hwf hlim
    rcases hcase with ⟨hge, hle, hpend, hpend1⟩ | ⟨hnot, hlt, hpend, hfu, c, hidx, hcons⟩
    · -- the end of the input
      by_cases hl : r1.lineBuf.length = 0
      · refine ⟨none, r1, by simp [readLineLoop, hre, hge, hle, hl], hwf1, ?_, by simp⟩
        intro _
        rw [hpend]
        simp [flatLines, ← hlb1, hl]
      · cases pb with
        | true =>
          refine ⟨some r1.lineBuf.dropLast, { r1 with lineBuf := r1.lineBuf.dropLast },
            by simp [readLineLoop, hre, hge, hle, hl], ⟨hwf1.1, hwf1.2⟩, by simp, ?_⟩
          intro line hline
          simp only [Option.some.injEq] at hline
          subst hline
          have hp : ({ r1 with lineBuf := r1.lineBuf.dropLast } : lineReader).pending
              r1.inOff = [] := hpend1 _
          rw [hpend]
          simp only [hp]
          simp [flatLines, ← hlb1, hl]
        | false =>
          refine ⟨some r1.lineBuf, r1,
            by simp [readLineLoop, hre, hge, hle, hl], hwf1, by simp, ?_⟩
          intro line hline
          simp only [Option.some.injEq] at hline
          subst hline
          rw [hpend, hpend1]
          simp [flatLines, ← hlb1, hl]
    · -- a byte `c` is read
      have hfuel1 : r1.fuel (off1 + 1) limit1 ≤ fuel := by
        have := fuel_succ r1 hlt
        omega
      have hp : r.pending off = c :: r1.pending (off1 + 1) := by rw [← hpend, hcons]
      have hgo := readLineLoop_succ_byte fuel sw alb pb hre hnot hidx
      have hfl := flatLines_cons_scan c (r1.pending (off1 + 1)) r1.lineBuf sw alb pb
      rw [← hp] at hfl
      nth_rewrite 1 [hlb1] at hfl
      by_cases hws : sw = true ∧ (c = 32 ∨ c = 9 ∨ c = 12)
      · -- leading white space
        rw [if_pos hws] at hgo hfl
        exact ReadLineSpec.of_step hgo hfl (ih r1 (off1 + 1) limit1 sw alb pb hwf1 hlim1 hfuel1)
      rw [if_neg hws] at hgo hfl
      by_cases hterm : sw = true ∧ alb = false ∧ (c = 13 ∨ c = 10)
      · -- a terminator before the line has begun
        rw [if_pos hterm] at hgo hfl
        exact ReadLineSpec.of_step hgo hfl (ih r1 (off1 + 1) limit1 sw alb pb hwf1 hlim1 hfuel1)
      rw [if_neg hterm] at hgo hfl
      by_cases hcm : r1.lineBuf.length = 0 ∧ (c = 35 ∨ c = 33)
      · -- a comment
        rw [if_pos hcm] at hgo hfl
        have hfc : r1.r.length + 1 ≤ fuel := by
          have := length_le_sum r1.r
          simp only [lineReader.fuel] at hfuel1
          omega
        obtain ⟨r2, o, g1, g2, g3, g4, g5⟩ :=
          commentLoop_spec fuel r1 (off1 + 1) limit1 hwf1 hlim1 (by omega) hfc
        rw [g1] at hgo
        cases o with
        | none =>
          refine ⟨none, r2, hgo, g3, ?_, by simp⟩
          intro _
          rw [hfl, g5 rfl]
        | some p =>
          obtain ⟨off2, limit2⟩ := p
          obtain ⟨k1, k2, k3, k4⟩ := g4 off2 limit2 rfl
          rw [k4, ← g2] at hfl
          exact ReadLineSpec.of_step hgo hfl
            (ih r2 off2 limit2 true (if sw then false else alb) pb g3 k1 (by omega))
      rw [if_neg hcm] at hgo hfl
      by_cases happ : c ≠ 10 ∧ c ≠ 13
      · -- a byte of the line
        rw [if_pos happ] at hgo hfl
        exact ReadLineSpec.of_step hgo hfl
          (ih { r1 with lineBuf := r1.lineBuf ++ [c] } (off1 + 1) limit1 false
            (if sw then false else alb) (if c = 92 then !pb else false)
            ⟨hwf1.1, hwf1.2⟩ hlim1 hfuel1)
      rw [if_neg happ] at hgo hfl
      by_cases hblank : r1.lineBuf.length = 0
      · -- the end of a blank line
        rw [if_pos hblank] at hgo hfl
        exact ReadLineSpec.of_step hgo hfl
          (ih r1 (off1 + 1) limit1 true (if sw then false else alb) pb hwf1 hlim1 hfuel1)
      rw [if_neg hblank] at hgo hfl
      -- the end of a line that has content: look one byte ahead
      obtain ⟨r2, off2, limit2, hre2, hwf2, hlb2, hlim2, hcase2⟩ :=
        refill_spec r1 (off1 + 1) limit1 hwf1 hlim1
      rw [hre2] at hgo
      simp only [] at hgo
      rcases hcase2 with ⟨hge2, hle2, hpend2, hpend2'⟩ | ⟨hnot2, hlt2, hpend2, hfu2, b, hidx2, hcons2⟩
      · -- the input ends with the terminator
        rw [if_pos ⟨hge2, hle2⟩] at hgo
        rw [hpend2] at hfl
        simp only [List.length_nil, if_true] at hfl
        cases pb with
        | true =>
          simp only [if_true] at hgo hfl
          refine ⟨_, _, hgo, ⟨hwf2.1, hwf2.2⟩, by simp, ?_⟩
          intro line hline
          simp only [Option.some.injEq] at hline
          subst hline
          have hpn : ({ r2 with lineBuf := r2.lineBuf.dropLast } : lineReader).pending
              r2.inOff = [] := hpend2' _
          rw [hfl]
          simp only [hpn]
          simp [flatLines, hlb2]
        | false =>
          simp only [Bool.false_eq_true, if_false] at hgo hfl
          refine ⟨_, _, hgo, hwf2, by simp, ?_⟩
          intro line hline
          simp only [Option.some.injEq] at hline
          subst hline
          rw [hfl, hpend2']
          simp [flatLines, hlb2]
      · -- a byte `b` follows the terminator
        rw [if_neg hnot2] at hgo
        have hp2 : r1.pending (off1 + 1) = b :: r2.pending (off2 + 1) := by
          rw [← hpend2, hcons2]
        have hlen2 : ¬ ((r1.pending (off1 + 1)).length = 0) := by simp [hp2]
        rw [if_neg hlen2] at hfl
        have hfuel2 : r2.fuel off2 limit2 ≤ fuel := le_trans hfu2 hfuel1
        have hfuel2' : r2.fuel (off2 + 1) limit2 ≤ fuel := by
          have := fuel_succ r2 hlt2
          omega
        cases pb with
        | true =>
          simp only [if_true] at hgo hfl
          by_cases hc13 : c = 13
          · rw [if_pos hc13, hidx2] at hgo
            simp only [] at hgo
            rw [if_pos hc13, hp2, flatLines_afterCR] at hfl
            refine ReadLineSpec.of_step hgo ?_
              (ih { r2 with lineBuf := r2.lineBuf.dropLast } (if b = 10 then off2 + 1 else off2)
                limit2 true true false ⟨hwf2.1, hwf2.2⟩ hlim2 ?_)
            · rw [hfl, ← hlb2]
              by_cases hb : b = 10
              · simp [hb, lineReader.pending]
              · simp only [hb, if_false]
                rw [← hcons2]
                rfl
            · by_cases hb : b = 10
              · simp only [hb, if_true]; exact hfuel2'
              · simp only [hb, if_false]; exact hfuel2
          · rw [if_neg hc13] at hgo
            rw [if_neg hc13, ← hpend2] at hfl
            refine ReadLineSpec.of_step hgo ?_
              (ih { r2 with lineBuf := r2.lineBuf.dropLast } off2 limit2 true true false
                ⟨hwf2.1, hwf2.2⟩ hlim2 hfuel2)
            rw [hfl, ← hlb2]
            rfl
        | false =>
          simp only [Bool.false_eq_true, if_false] at hgo hfl
          refine ⟨_, _, hgo, ⟨hwf2.1, hwf2.2⟩, by simp, ?_⟩
          intro line hline
          simp only [Option.some.injEq] at hline
          subst hline
          rw [hfl, ← hpend2, hlb2]
          rfl

theorem flatLines_length_le (input lineBuf : List Nat) (sw alb pb : Bool) (mode : ScanMode) :
    (flatLines input lineBuf sw alb pb mode).length ≤
      input.length + (if lineBuf.length = 0 then 0 else 1) := by
  induction input generalizing lineBuf sw alb pb mode with
  | nil =>
    rw [flatLines]
    by_cases h : mode = ScanMode.comment ∨ lineBuf.length = 0
    · rw [if_pos h]; simp
    · rw [if_neg h]
      have h0 : ¬ (lineBuf.length = 0) := fun h0 => h (Or.inr h0)
      rw [if_neg h0]
      cases pb <;> simp
  | cons c rest ih =>
    have ih1 : ∀ lb sw alb pb mode, (flatLines rest lb sw alb pb mode).length ≤
        (c :: rest).length + (if lineBuf.length = 0 then 0 else 1) := by
      intro lb sw alb pb mode
      refine le_trans (ih lb sw alb pb mode) ?_
      simp only [List.length_cons]
      split_ifs <;> omega
    have ih0 : ∀ sw alb pb mode, (flatLines rest [] sw alb pb mode).length + 1 ≤
        (c :: rest).length + (if lineBuf.length = 0 then 0 else 1) := by
      intro sw alb pb mode
      have := ih [] sw alb pb mode
      simp only [List.length_nil, if_true, List.length_cons] at this ⊢
      omega
    have one : 1 ≤ (c :: rest).length + (if lineBuf.length = 0 then 0 else 1) := by
      simp only [List.length_cons]
      omega
    rw [flatLines]
    by_cases h1 : mode = ScanMode.comment
    · rw [if_pos h1]
      by_cases h2 : c ≤ 13 ∧ (c = 13 ∨ c = 10)
      · rw [if_pos h2]; exact ih1 _ _ _ _ _
      · rw [if_neg h2]; exact ih1 _ _ _ _ _
    rw [if_neg h1]
    by_cases h2 : mode = ScanMode.afterCR ∧ c = 10
    · rw [if_pos h2]; exact ih1 _ _ _ _ _
    rw [if_neg h2]
    by_cases h3 : sw = true ∧ (c = 32 ∨ c = 9 ∨ c = 12)
    · rw [if_pos h3]; exact ih1 _ _ _ _ _
    rw [if_neg h3]
    by_cases h4 : sw = true ∧ alb = false ∧ (c = 13 ∨ c = 10)
    · rw [if_pos h4]; exact ih1 _ _ _ _ _
    rw [if_neg h4]
    by_cases h5 : lineBuf.length = 0 ∧ (c = 35 ∨ c = 33)
    · rw [if_pos h5]; exact ih1 _ _ _ _ _
    rw [if_neg h5]
    by_cases h6 : c ≠ 10 ∧ c ≠ 13
    · rw [if_pos h6]; exact ih1 _ _ _ _ _
    rw [if_neg h6]
    by_cases h7 : lineBuf.length = 0
    · rw [if_pos h7]; exact ih1 _ _ _ _ _
    rw [if_neg h7]
    by_cases h8 : rest.length = 0
    · rw [if_pos h8]
      cases pb <;> exact one
    rw [if_neg h8]
    cases pb with
    | true => rw [if_pos rfl]; exact ih1 _ _ _ _ _
    | false =>
      rw [if_neg (by decide)]
      exact ih0 _ _ _ _

theorem bytes_length_le (cs : Reader) :
    (Reader.bytes cs).length ≤ (cs.map (fun chunk => chunk.length + 1)).sum := by
  induction cs with
  | nil => simp [Reader.bytes]
  | cons a l ih =>
    simp only [Reader.bytes, List.length_append, List.map_cons, List.sum_cons]
    omega

theorem readLinesLoop_spec (fuel : Nat) (r : lineReader) (result : List (List Nat))
    (hwf : r.WF)
    (hfuel : (flatLines (r.pending r.inOff) [] true false false .scan).length < fuel) :
    readLinesLoop fuel r result =
      .ok (result ++ flatLines (r.pending r.inOff) [] true false false .scan) := by
  induction fuel generalizing r result with
  | zero => omega
  | succ fuel ih =>
    obtain ⟨res, r1, h1, h2, h3, h4⟩ :=
      readLineLoop_spec (lineReader.fuel { r with lineBuf := [] } r.inOff r.inLimit)
        { r with lineBuf := [] } r.inOff r.inLimit true false false ⟨hwf.1, hwf.2⟩ rfl (le_refl _)
    have hrl : r.readLine = .ok (res, r1) := h1
    have hp : ({ r with lineBuf := [] } : lineReader).pending r.inOff = r.pending r.inOff := rfl
    rw [hp] at h3 h4
    simp only [] at h3 h4
    rw [readLinesLoop, hrl]
    cases res with
    | none => simp [h3 rfl]
    | some line =>
      have h5 := h4 line rfl
      rw [h5] at hfuel
      simp only [List.length_cons] at hfuel
      simp only []
      rw [ih r1 (result ++ [line]) h2 (by omega), h5]
      simp

/-- The buffered reader returns the logical lines of the bytes of its stream, however the
stream is cut into non-empty chunks. -/
theorem readLines_eq_logicalLines (cs : Reader) (hcs : Reader.NonEmpty cs) :
    (newLineReader cs).readLines = .ok (logicalLines (Reader.bytes cs)) := by
  have hp : (newLineReader cs).pending (newLineReader cs).inOff = Reader.bytes cs := by
    simp [lineReader.pending, newLineReader]
  have hwf : (newLineReader cs).WF := ⟨rfl, hcs⟩
  have hlen := flatLines_length_le (Reader.bytes cs) [] true false false .scan
  have hb := bytes_length_le cs
  have := readLinesLoop_spec ((newLineReader cs).fuel (newLineReader cs).inOff
    (newLineReader cs).inLimit) (newLineReader cs) [] hwf (by
      rw [hp]
      simp only [lineReader.fuel, newLineReader]
      simp only [List.length_nil, if_true] at hlen
      omega)
  rw [hp] at this
  simpa [lineReader.readLines, logicalLines] using this

theorem LoadLines_single (input : List Nat) : LoadLines [input] = .ok (logicalLines input) := by
  cases input with
  | nil => rfl
  | cons b rest =>
    have h : Reader.NonEmpty [b :: rest] := by
      intro chunk hc
      simp only [List.mem_singleton] at hc
      simp [hc]
    have := readLines_eq_logicalLines [b :: rest] h
    simpa [LoadLines, Reader.bytes] using this

theorem Load_eq_loadLines (cs : Reader) (hcs : Reader.NonEmpty cs) :
    Load cs = loadLines (logicalLines (Reader.bytes cs)) [] := by
  simp only [Load, readLines_eq_logicalLines cs hcs]

theorem Load_single (input : List Nat) : Load [input] = loadLines (logicalLines input) [] := by
  have := LoadLines_single input
  simp only [LoadLines] at this
  simp only [Load, this]

/-- C10: the result of `Load`, mapping or error, depends on the bytes of the stream only: for
every way of cutting a byte sequence into non-empty chunks that successive reads return,
`Load` gives what it gives when one read delivers the whole sequence, and so the same for
any two such ways. -/
theorem Load_chunking_independent (cs : Reader) (hcs : ∀ chunk ∈ cs, chunk ≠ []) :
    Load cs = Load [Reader.bytes cs] ∧
      ∀ cs1 : Reader, (∀ chunk ∈ cs1, chunk ≠ []) → Reader.bytes cs1 = Reader.bytes cs →
        Load cs1 = Load cs := by
  refine ⟨?_, ?_⟩
  · rw [Load_eq_loadLines cs hcs, Load_single]
  · intro cs1 hcs1 hb
    rw [Load_eq_loadLines cs hcs, Load_eq_loadLines cs1 hcs1, hb]

theorem Load_chunking_independent_witness :
    (∀ chunk ∈ ([[107, 61, 97, 92], [13], [10, 32, 98, 10, 35], [99, 10, 120]] : Reader),
        chunk ≠ []) ∧
      Load [[107, 61, 97, 92], [13], [10, 32, 98, 10, 35], [99, 10, 120]] =
        Load [Reader.bytes [[107, 61, 97, 92], [13], [10, 32, 98, 10, 35], [99, 10, 120]]] :=
  ⟨by decide, (Load_chunking_independent _ (by decide)).1⟩

/-! ## The keys and values of lines with multi-byte UTF-8 sequences

`Load` counts `keyLen` and `valueStart` in runes (`for _, c = range line` decodes UTF-8) and
hands them to `loadConvert` as byte offsets.  The lines below contain the two bytes C3 A9. -/

/-- C1 (defect of the code): for the line `C3 A9 'a' '=' 'x'` the separator `=` is the
fourth byte and the third rune; `Load` cuts the key after two bytes, so the key is `C3 A9`
and not the decoding `C3 A9 'a'` of the prefix before the `=` (and the value is `=x`). -/
theorem Load_key_counts_runes :
    Load [[195, 169, 97, 61, 120]] = .ok [([195, 169], [61, 120])] := by decide

/-- C2 (defect of the code): for the line `C3 A9 '=' 'x'` the value that `Load` finds
starts at the `=` itself: it is `=x` and not `x`, the rest of the line after the key-ending
`=` (and the key is the single byte `C3`). -/
theorem Load_value_counts_runes :
    Load [[195, 169, 61, 120]] = .ok [([195], [61, 120])] := by decide

/-- C5 (defect of the code): the line `\a`, five times `C3 A9`, `A=x` has the key
`\a...A`, whose only `\u` escape is followed by four hexadecimal digits, and the value
`x`; `Load` cuts the key after thirteen bytes, just after the backslash of `\u`, and fails
with the malformed-encoding error. -/
theorem Load_fails_without_malformed_escape :
    Load [[92, 97, 195, 169, 195, 169, 195, 169, 195, 169, 195, 169, 92, 117, 48, 48, 52, 49,
      61, 120]] = .error .malformed := by decide

/-- C9 (defect of the code): the line `C3 A9 'a'` has no separator; `Load` maps the first
two bytes `C3 A9`, not the whole line, to the empty string. -/
theorem Load_no_separator_counts_runes :
    Load [[195, 169, 97]] = .ok [([195, 169], [])] := by decide

/-! ## The mapping that `Load` builds -/

theorem GoMap.get_set_same (m : GoMap) (key value : List Nat) :
    (m.set key value).get key = some value := by
  induction m with
  | nil => simp [GoMap.set, GoMap.get]
  | cons e rest ih =>
    obtain ⟨k, v⟩ := e
    by_cases h : k = key
    · simp [GoMap.set, GoMap.get, h]
    · simp [GoMap.set, GoMap.get, h, ih]

theorem GoMap.get_set_other (m : GoMap) (key value key1 : List Nat) (hne : key ≠ key1) :
    (m.set key value).get key1 = m.get key1 := by
  induction m with
  | nil => simp [GoMap.set, GoMap.get, hne]
  | cons e rest ih =>
    obtain ⟨k, v⟩ := e
    by_cases h : k = key
    · subst h
      simp [GoMap.set, GoMap.get, hne]
    · by_cases h1 : k = key1
      · subst h1
        simp [GoMap.set, GoMap.get, h]
      · simp [GoMap.set, GoMap.get, h, h1, ih]

theorem GoMap.mem_keys_set (m : GoMap) (key value k : List Nat) :
    k ∈ (m.set key value).map Prod.fst ↔ k = key ∨ k ∈ m.map Prod.fst := by
  induction m with
  | nil => simp [GoMap.set]
  | cons e rest ih =>
    obtain ⟨k0, v0⟩ := e
    by_cases h : k0 = key
    · subst h
      simp [GoMap.set]
    · simp only [GoMap.set, h, if_false, List.map_cons, List.mem_cons, ih]
      tauto

theorem GoMap.nodup_set (m : GoMap) (key value : List Nat) (h : (m.map Prod.fst).Nodup) :
    ((m.set key value).map Prod.fst).Nodup := by
  induction m with
  | nil => simp [GoMap.set]
  | cons e rest ih =>
    obtain ⟨k0, v0⟩ := e
    simp only [List.map_cons, List.nodup_cons] at h
    by_cases hk : k0 = key
    · subst hk
      simp only [GoMap.set, if_true, List.map_cons, List.nodup_cons]
      exact h
    · simp only [GoMap.set, hk, if_false, List.map_cons, List.nodup_cons]
      refine ⟨?_, ih h.2⟩
      intro hmem
      rcases (GoMap.mem_keys_set rest key value k0).1 hmem with h1 | h1
      · exact hk h1
      · exact h.1 h1

theorem loadLines_nodup (lines : List (List Nat)) (m0 m : GoMap)
    (h : loadLines lines m0 = .ok m) (h0 : (m0.map Prod.fst).Nodup) :
    (m.map Prod.fst).Nodup := by
  induction lines generalizing m0 with
  | nil =>
    simp only [loadLines, Except.ok.injEq] at h
    subst h
    exact h0
  | cons line rest ih =>
    rw [loadLines] at h
    cases hl : loadLine line with
    | error e => rw [hl] at h; cases h
    | ok kv =>
      obtain ⟨key, value⟩ := kv
      rw [hl] at h
      exact ih _ h (GoMap.nodup_set m0 key value h0)

theorem loadLines_get_of_absent (lines : List (List Nat)) (m0 m : GoMap) (key : List Nat)
    (h : loadLines lines m0 = .ok m)
    (habs : ∀ line ∈ lines, ∀ value, loadLine line ≠ .ok (key, value)) :
    m.get key = m0.get key := by
  induction lines generalizing m0 with
  | nil =>
    simp only [loadLines, Except.ok.injEq] at h
    subst h
    rfl
  | cons line rest ih =>
    rw [loadLines] at h
    cases hl : loadLine line with
    | error e => rw [hl] at h; cases h
    | ok kv =>
      obtain ⟨key1, value1⟩ := kv
      rw [hl] at h
      have hne : key1 ≠ key := by
        intro heq
        subst heq
        exact habs line (List.mem_cons_self _ _) value1 hl
      rw [ih _ h (fun l hlm v => habs l (List.mem_cons_of_mem _ hlm) v)]
      exact GoMap.get_set_other m0 key1 value1 key hne

theorem loadLines_append (l1 l2 : List (List Nat)) (m0 m : GoMap)
    (h : loadLines (l1 ++ l2) m0 = .ok m) :
    ∃ m1, loadLines l1 m0 = .ok m1 ∧ loadLines l2 m1 = .ok m := by
  induction l1 generalizing m0 with
  | nil => exact ⟨m0, rfl, h⟩
  | cons line rest ih =>
    rw [List.cons_append, loadLines] at h
    cases hl : loadLine line with
    | error e => rw [hl] at h; cases h
    | ok kv =>
      obtain ⟨key1, value1⟩ := kv
      rw [hl] at h
      obtain ⟨m1, h1, h2⟩ := ih _ h
      refine ⟨m1, ?_, h2⟩
      rw [loadLines, hl]
      exact h1

/-- The assignment of `Load` overwrites: with the key and the value that `loadLine` takes from
a logical line, no key occurs twice in the mapping that `Load` returns, and a key is mapped to
the value of the last logical line from which `loadLine` takes this key; `a=1` LF `a=2` LF
gives `{a: 2}`. -/
theorem Load_last_occurrence_wins (readFile : Reader) (lines : List (List Nat)) (m : GoMap)
    (hlines : LoadLines readFile = .ok lines) (hm : Load readFile = .ok m) :
    (m.map Prod.fst).Nodup ∧
      (∀ l1 line l2 key value, lines = l1 ++ line :: l2 → loadLine line = .ok (key, value) →
        (∀ line1 ∈ l2, ∀ value1, loadLine line1 ≠ .ok (key, value1)) →
        m.get key = some value) ∧
      Load [[97, 61, 49, 10, 97, 61, 50, 10]] = .ok [([97], [50])] := by
  have hload : loadLines lines [] = .ok m := by
    simp only [LoadLines] at hlines
    simp only [Load, hlines] at hm
    exact hm
  refine ⟨loadLines_nodup lines [] m hload (by simp), ?_, by decide⟩
  intro l1 line l2 key value hsplit hline habs
  subst hsplit
  obtain ⟨m1, _, h2⟩ := loadLines_append l1 (line :: l2) [] m hload
  rw [loadLines, hline] at h2
  rw [loadLines_get_of_absent l2 _ m key h2 habs]
  exact GoMap.get_set_same m1 key value

theorem Load_last_occurrence_wins_witness :
    LoadLines [[97, 61, 49, 10, 97, 61, 50, 10]] = .ok [[97, 61, 49], [97, 61, 50]] ∧
      Load [[97, 61, 49, 10, 97, 61, 50, 10]] = .ok [([97], [50])] ∧
      GoMap.get [([97], [50])] [97] = some [50] :=
  ⟨by decide, by decide,
    (Load_last_occurrence_wins [[97, 61, 49, 10, 97, 61, 50, 10]] [[97, 61, 49], [97, 61, 50]]
      [([97], [50])] (by decide) (by decide)).2.1 [[97, 61, 49]] [97, 61, 50] [] [97] [50]
      (by decide) (by decide) (by simp)⟩

/-! ## `loadConvert` against the escape grammar -/

theorem index_append_right (a l : List Nat) (i : Nat) :
    index (a ++ l) (a.length + i) = index l i := by
  simp [index, List.getElem?_append_right]

theorem index_append_length (a l : List Nat) : index (a ++ l) a.length = index l 0 := by
  simpa using index_append_right a l 0

theorem index_cons_zero (c : Nat) (l : List Nat) : index (c :: l) 0 = .ok c := by
  simp [index]

theorem index_nil (i : Nat) : index [] i = .error .indexOutOfRange := by
  simp [index]

theorem appendRune_eq (out : List Nat) (v : Nat) : appendRune out v = out ++ appendRune [] v := by
  unfold appendRune
  split_ifs <;> simp

theorem readHex_append (a : List Nat) (d1 d2 d3 d4 : Nat) (r : List Nat) :
    readHex (a ++ d1 :: d2 :: d3 :: d4 :: r) 4 a.length 0 = readHex [d1, d2, d3, d4] 4 0 0 := by
  have e0 : index (a ++ d1 :: d2 :: d3 :: d4 :: r) a.length = .ok d1 := by
    rw [index_append_length]; rfl
  have e1 : index (a ++ d1 :: d2 :: d3 :: d4 :: r) (a.length + 1) = .ok d2 := by
    rw [index_append_right]; rfl
  have e2 : index (a ++ d1 :: d2 :: d3 :: d4 :: r) (a.length + 1 + 1) = .ok d3 := by
    rw [Nat.add_assoc, index_append_right]; simp [index]
  have e3 : index (a ++ d1 :: d2 :: d3 :: d4 :: r) (a.length + 1 + 1 + 1) = .ok d4 := by
    rw [Nat.add_assoc, Nat.add_assoc, index_append_right]; simp [index]
  have f0 : index [d1, d2, d3, d4] 0 = .ok d1 := rfl
  have f1 : index [d1, d2, d3, d4] (0 + 1) = .ok d2 := rfl
  have f2 : index [d1, d2, d3, d4] (0 + 1 + 1) = .ok d3 := rfl
  have f3 : index [d1, d2, d3, d4] (0 + 1 + 1 + 1) = .ok d4 := rfl
  simp only [readHex, e0, e1, e2, e3, f0, f1, f2, f3]

theorem convertLoop_step_plain (a t out : List Nat) (c e f : Nat) (hc : c ≠ 92)
    (he : a.length < e) :
    convertLoop (a ++ c :: t) e (f + 1) a.length out =
      convertLoop ((a ++ [c]) ++ t) e f (a ++ [c]).length (out ++ [c]) := by
  rw [convertLoop, if_pos he, index_append_length, index_cons_zero]
  simp only [hc, ne_eq, not_false_eq_true, if_true, List.append_assoc, List.singleton_append,
    List.length_append, List.length_singleton]

theorem convertLoop_step_dangling (a out : List Nat) (e f : Nat) (he : a.length < e) :
    convertLoop (a ++ [92]) e (f + 1) a.length out = .error .indexOutOfRange := by
  rw [convertLoop, if_pos he, index_append_length, index_cons_zero]
  have h : index (a ++ [92]) (a.length + 1) = .error .indexOutOfRange := by
    rw [index_append_right]; simp [index]
  simp [h]

theorem convertLoop_step_escape (a t out : List Nat) (d e f : Nat) (hd : d ≠ 117)
    (he : a.length < e) :
    convertLoop (a ++ 92 :: d :: t) e (f + 1) a.length out =
      convertLoop ((a ++ [92, d]) ++ t) e f (a ++ [92, d]).length (out ++ [escapeChar d]) := by
  rw [convertLoop, if_pos he, index_append_length, index_cons_zero]
  have h : index (a ++ 92 :: d :: t) (a.length + 1) = .ok d := by
    rw [index_append_right]; simp [index]
  simp [h, hd]

theorem convertLoop_step_short (a t out : List Nat) (e f : Nat)
    (he1 : a.length < e) (he : e < a.length + 6) :
    convertLoop (a ++ 92 :: 117 :: t) e (f + 1) a.length out = .error .malformed := by
  rw [convertLoop, if_pos he1, index_append_length, index_cons_zero]
  have h : index (a ++ 92 :: 117 :: t) (a.length + 1) = .ok 117 := by
    rw [index_append_right]; simp [index]
  have hcmp : ((a.length + 2 : Nat) : Int) > (e : Int) - 4 := by omega
  simp only [ne_eq, not_true_eq_false, if_false, h, if_true, hcmp]

theorem convertLoop_step_long (a t out : List Nat) (d1 d2 d3 d4 e f : Nat)
    (he : a.length + 6 ≤ e) :
    convertLoop (a ++ 92 :: 117 :: d1 :: d2 :: d3 :: d4 :: t) e (f + 1) a.length out =
      match readHex [d1, d2, d3, d4] 4 0 0 with
      | .error err => .error err
      | .ok value =>
        convertLoop ((a ++ [92, 117, d1, d2, d3, d4]) ++ t) e f
          (a ++ [92, 117, d1, d2, d3, d4]).length (out ++ appendRune [] value) := by
  have he1 : a.length < e := by omega
  rw [convertLoop, if_pos he1, index_append_length, index_cons_zero]
  have h : index (a ++ 92 :: 117 :: d1 :: d2 :: d3 :: d4 :: t) (a.length + 1) = .ok 117 := by
    rw [index_append_right]; simp [index]
  have hcmp : ¬ (((a.length + 2 : Nat) : Int) > (e : Int) - 4) := by omega
  have hr := readHex_append (a ++ [92, 117]) d1 d2 d3 d4 t
  simp only [List.append_assoc, List.cons_append, List.nil_append, List.length_append,
    List.length_cons, List.length_nil] at hr
  simp only [ne_eq, not_true_eq_false, if_false, h, if_true, hcmp]
  rw [hr]
  cases readHex [d1, d2, d3, d4] 4 0 0 with
  | error err => rfl
  | ok value =>
    simp only [List.append_assoc, List.cons_append, List.nil_append, List.length_append,
      List.length_cons, List.length_nil]
    rw [appendRune_eq]

theorem endsInEscape_cons_ne (c : Nat) (s : List Nat) (hc : c ≠ 92) :
    endsInEscape (c :: s) = endsInEscape s := by
  cases s with
  | nil => simp [endsInEscape, hc]
  | cons d rest => simp [endsInEscape, hc]

theorem map_map_append (res : Except LoadError (List Nat)) (p out : List Nat) :
    (res.map (fun r => p ++ r)).map (fun r => out ++ r) = res.map (fun r => (out ++ p) ++ r) := by
  cases res with
  | error e => rfl
  | ok r => simp [Except.map]

theorem readHex_step (inp : List Nat) (n off value c : Nat) (hc : index inp off = .ok c) :
    readHex inp (n + 1) off value =
      if isHexDigit c then readHex inp n (off + 1) (value * 16 + hexDigitValue c)
      else .error .malformed := by
  rw [readHex, hc]
  simp only [isHexDigit, hexDigitValue, Nat.shiftLeft_eq]
  by_cases h1 : 48 ≤ c ∧ c ≤ 57
  · have : (value * 16 + c - 48) = value * 16 + (c - 48) := by omega
    simp [h1, this]
  · by_cases h2 : 97 ≤ c ∧ c ≤ 102
    · have : (value * 16 + 10 + c - 97) = value * 16 + (c - 87) := by omega
      have h3 : ¬ c ≤ 57 := by omega
      simp [h1, h2, this, h3]
    · by_cases h3 : 65 ≤ c ∧ c ≤ 70
      · have : (value * 16 + 10 + c - 65) = value * 16 + (c - 55) := by omega
        have h4 : ¬ c ≤ 57 := by omega
        have h5 : ¬ 97 ≤ c := by omega
        simp [h1, h2, h3, this, h4, h5]
      · have : ¬ ((48 ≤ c ∧ c ≤ 57) ∨ (97 ≤ c ∧ c ≤ 102) ∨ (65 ≤ c ∧ c ≤ 70)) := by omega
        simp only [h1, h2, h3, if_false]
        simp only [Bool.or_eq_true, Bool.and_eq_true, decide_eq_true_eq]
        rw [if_neg (by tauto)]

theorem readHex_four (d1 d2 d3 d4 : Nat) :
    readHex [d1, d2, d3, d4] 4 0 0 =
      if isHexDigit d1 = true ∧ isHexDigit d2 = true ∧ isHexDigit d3 = true ∧
          isHexDigit d4 = true then
        .ok (hexValue4 d1 d2 d3 d4)
      else .error .malformed := by
  rw [readHex_step [d1, d2, d3, d4] 3 0 0 d1 (by simp [index])]
  by_cases h1 : isHexDigit d1 = true
  · rw [if_pos h1, readHex_step [d1, d2, d3, d4] 2 (0 + 1) _ d2 (by simp [index])]
    by_cases h2 : isHexDigit d2 = true
    · rw [if_pos h2, readHex_step [d1, d2, d3, d4] 1 (0 + 1 + 1) _ d3 (by simp [index])]
      by_cases h3 : isHexDigit d3 = true
      · rw [if_pos h3, readHex_step [d1, d2, d3, d4] 0 (0 + 1 + 1 + 1) _ d4 (by simp [index])]
        by_cases h4 : isHexDigit d4 = true
        · rw [if_pos h4, if_pos ⟨h1, h2, h3, h4⟩, readHex]
          simp only [hexValue4]
          congr 1
          ring
        · rw [if_neg h4, if_neg (fun h => h4 h.2.2.2)]
      · rw [if_neg h3, if_neg (fun h => h3 h.2.2.1)]
    · rw [if_neg h2, if_neg (fun h => h2 h.2.1)]
  · rw [if_neg h1, if_neg (fun h => h1 h.1)]

theorem isHexDigit_ne_backslash (c : Nat) (h : isHexDigit c = true) : c ≠ 92 := by
  intro hc
  subst hc
  simp [isHexDigit] at h

theorem convertLoop_done (inp out : List Nat) (e fuel off : Nat) (h : ¬ off < e) :
    convertLoop inp e fuel off out = .ok out := by
  cases fuel with
  | zero => rw [convertLoop, if_neg h]
  | succ f => rw [convertLoop, if_neg h]

/-- The second loop of `loadConvert`, run over the part `s` of its input, gives a result
that depends on `s` only; the output built before is kept in front of it. -/
theorem convertLoop_slice_exists (n : Nat) : ∀ s : List Nat, s.length = n →
    ∃ res : Except LoadError (List Nat), ∀ (a b out : List Nat) (fuel : Nat),
      s.length ≤ fuel → (endsInEscape s = false ∨ b = []) →
      convertLoop (a ++ s ++ b) (a.length + s.length) fuel a.length out =
        res.map (fun r => out ++ r) := by
  induction n using Nat.strong_induction_on with
  | _ n ih =>
    intro s hn
    cases s with
    | nil =>
      refine ⟨.ok [], ?_⟩
      intro a b out fuel _ _
      rw [convertLoop_done _ _ _ _ _ (by simp)]
      simp [Except.map]
    | cons c s1 =>
      simp only [List.length_cons] at hn
      by_cases hc : c = 92
      · subst hc
        cases s1 with
        | nil =>
          refine ⟨.error .indexOutOfRange, ?_⟩
          intro a b out fuel hfuel hend
          have hb : b = [] := by
            rcases hend with h | h
            · simp [endsInEscape] at h
            · exact h
          subst hb
          obtain ⟨f, rfl⟩ : ∃ f, fuel = f + 1 := ⟨fuel - 1, by simp at hfuel; omega⟩
          simp only [List.append_nil]
          rw [convertLoop_step_dangling a out _ f (by simp)]
          rfl
        | cons d s2 =>
          simp only [List.length_cons] at hn
          by_cases hd : d = 117
          · subst hd
            by_cases hlen : s2.length < 4
            · refine ⟨.error .malformed, ?_⟩
              intro a b out fuel hfuel _
              obtain ⟨f, rfl⟩ : ∃ f, fuel = f + 1 := ⟨fuel - 1, by simp at hfuel; omega⟩
              have e0 : a ++ 92 :: 117 :: s2 ++ b = a ++ 92 :: 117 :: (s2 ++ b) := by simp
              rw [e0, convertLoop_step_short a (s2 ++ b) out _ f (by simp) (by simp; omega)]
              rfl
            · obtain ⟨d1, d2, d3, d4, s3, rfl⟩ : ∃ d1 d2 d3 d4 s3,
                  s2 = d1 :: d2 :: d3 :: d4 :: s3 := by
                match s2, hlen with
                | d1 :: d2 :: d3 :: d4 :: s3, _ => exact ⟨d1, d2, d3, d4, s3, rfl⟩
                | [], h => simp at h
                | [_], h => simp at h
                | [_, _], h => simp at h
                | [_, _, _], h => simp at h
              simp only [List.length_cons] at hn
              obtain ⟨res1, hres1⟩ := ih s3.length (by omega) s3 rfl
              by_cases hhex : isHexDigit d1 = true ∧ isHexDigit d2 = true ∧
                  isHexDigit d3 = true ∧ isHexDigit d4 = true
              · refine ⟨res1.map (fun r => appendRune [] (hexValue4 d1 d2 d3 d4) ++ r), ?_⟩
                intro a b out fuel hfuel hend
                obtain ⟨f, rfl⟩ : ∃ f, fuel = f + 1 := ⟨fuel - 1, by simp at hfuel; omega⟩
                have e0 : a ++ 92 :: 117 :: d1 :: d2 :: d3 :: d4 :: s3 ++ b =
                    a ++ 92 :: 117 :: d1 :: d2 :: d3 :: d4 :: (s3 ++ b) := by simp
                rw [e0, convertLoop_step_long a (s3 ++ b) out d1 d2 d3 d4 _ f (by simp),
                  readHex_four, if_pos hhex]
                simp only []
                have hend1 : endsInEscape s3 = false ∨ b = [] := by
                  rcases hend with h | h
                  · left
                    have h1 : endsInEscape (92 :: 117 :: d1 :: d2 :: d3 :: d4 :: s3) =
                        endsInEscape (d1 :: d2 :: d3 :: d4 :: s3) := by
                      rw [endsInEscape, if_pos rfl]
                    rw [h1, endsInEscape_cons_ne _ _ (isHexDigit_ne_backslash d1 hhex.1),
                      endsInEscape_cons_ne _ _ (isHexDigit_ne_backslash d2 hhex.2.1),
                      endsInEscape_cons_ne _ _ (isHexDigit_ne_backslash d3 hhex.2.2.1),
                      endsInEscape_cons_ne _ _ (isHexDigit_ne_backslash d4 hhex.2.2.2)] at h
                    exact h
                  · exact Or.inr h
                have key := hres1 (a ++ [92, 117, d1, d2, d3, d4]) b
                  (out ++ appendRune [] (hexValue4 d1 d2 d3 d4)) f
                  (by simp at hfuel; omega) hend1
                have e1 : (a ++ [92, 117, d1, d2, d3, d4]) ++ (s3 ++ b) =
                    (a ++ [92, 117, d1, d2, d3, d4]) ++ s3 ++ b := by simp
                have e2 : a.length + (92 :: 117 :: d1 :: d2 :: d3 :: d4 :: s3).length =
                    (a ++ [92, 117, d1, d2, d3, d4]).length + s3.length := by
                  simp only [List.length_append, List.length_cons, List.length_nil]; omega
                rw [e1, e2, key, map_map_append]
              · refine ⟨.error .malformed, ?_⟩
                intro a b out fuel hfuel _
                obtain ⟨f, rfl⟩ : ∃ f, fuel = f + 1 := ⟨fuel - 1, by simp at hfuel; omega⟩
                have e0 : a ++ 92 :: 117 :: d1 :: d2 :: d3 :: d4 :: s3 ++ b =
                    a ++ 92 :: 117 :: d1 :: d2 :: d3 :: d4 :: (s3 ++ b) := by simp
                rw [e0, convertLoop_step_long a (s3 ++ b) out d1 d2 d3 d4 _ f (by simp),
                  readHex_four, if_neg hhex]
                rfl
          · obtain ⟨res1, hres1⟩ := ih s2.length (by omega) s2 rfl
            refine ⟨res1.map (fun r => [escapeChar d] ++ r), ?_⟩
            intro a b out fuel hfuel hend
            obtain ⟨f, rfl⟩ : ∃ f, fuel = f + 1 := ⟨fuel - 1, by simp at hfuel; omega⟩
            have e0 : a ++ 92 :: d :: s2 ++ b = a ++ 92 :: d :: (s2 ++ b) := by simp
            rw [e0, convertLoop_step_escape a (s2 ++ b) out d _ f hd (by simp)]
            have hend1 : endsInEscape s2 = false ∨ b = [] := by
              rcases hend with h | h
              · left
                rw [← h]
                simp [endsInEscape]
              · exact Or.inr h
            have key := hres1 (a ++ [92, d]) b (out ++ [escapeChar d]) f
              (by simp at hfuel; omega) hend1
            have e1 : (a ++ [92, d]) ++ (s2 ++ b) = (a ++ [92, d]) ++ s2 ++ b := by simp
            have e2 : a.length + (92 :: d :: s2).length = (a ++ [92, d]).length + s2.length := by
              simp only [List.length_append, List.length_cons, List.length_nil]; omega
            rw [e1, e2, key, map_map_append]
      · obtain ⟨res1, hres1⟩ := ih s1.length (by omega) s1 rfl
        refine ⟨res1.map (fun r => [c] ++ r), ?_⟩
        intro a b out fuel hfuel hend
        obtain ⟨f, rfl⟩ : ∃ f, fuel = f + 1 := ⟨fuel - 1, by simp at hfuel; omega⟩
        have e0 : a ++ c :: s1 ++ b = a ++ c :: (s1 ++ b) := by simp
        rw [e0, convertLoop_step_plain a (s1 ++ b) out c _ f hc (by simp)]
        have hend1 : endsInEscape s1 = false ∨ b = [] := by
          rcases hend with h | h
          · left
            rw [← h, endsInEscape_cons_ne c s1 hc]
          · exact Or.inr h
        have key := hres1 (a ++ [c]) b (out ++ [c]) f (by simp at hfuel; omega) hend1
        have e1 : (a ++ [c]) ++ (s1 ++ b) = (a ++ [c]) ++ s1 ++ b := by simp
        have e2 : a.length + (c :: s1).length = (a ++ [c]).length + s1.length := by
          simp only [List.length_append, List.length_cons, List.length_nil]; omega
        rw [e1, e2, key, map_map_append]

theorem map_id_fun (res : Except LoadError (List Nat)) :
    res.map (fun r => r) = res := by
  cases res with
  | error e => rfl
  | ok r => rfl

theorem convertLoop_slice (a s b out : List Nat) (fuel : Nat) (hfuel : s.length ≤ fuel)
    (hend : endsInEscape s = false ∨ b = []) :
    convertLoop (a ++ s ++ b) (a.length + s.length) fuel a.length out =
      (decodeAll s).map (fun r => out ++ r) := by
  obtain ⟨res, hres⟩ := convertLoop_slice_exists s.length s rfl
  have h0 := hres [] [] [] s.length (le_refl _) (Or.inr rfl)
  simp only [List.nil_append, List.append_nil, List.length_nil, Nat.zero_add] at h0
  rw [map_id_fun] at h0
  rw [decodeAll, h0]
  exact hres a b out fuel hfuel hend

theorem decodeAll_nil : decodeAll [] = .ok [] := rfl

theorem decodeAll_dangling : decodeAll [92] = .error .indexOutOfRange := by decide

theorem decodeAll_plain (c : Nat) (s : List Nat) (hc : c ≠ 92) :
    decodeAll (c :: s) = (decodeAll s).map (fun r => [c] ++ r) := by
  have h := convertLoop_step_plain [] s [] c (s.length + 1) s.length hc (by simp)
  have k := convertLoop_slice [c] s [] [c] s.length (le_refl _) (Or.inr rfl)
  simp only [List.nil_append, List.length_nil, List.append_nil, List.length_singleton,
    List.singleton_append, List.length_cons] at h k
  rw [decodeAll, List.length_cons, h]
  rw [Nat.add_comm] at k
  simpa using k

theorem decodeAll_escape (d : Nat) (s : List Nat) (hd : d ≠ 117) :
    decodeAll (92 :: d :: s) = (decodeAll s).map (fun r => [escapeChar d] ++ r) := by
  have h := convertLoop_step_escape [] s [] d (s.length + 1 + 1) (s.length + 1) hd (by simp)
  have k := convertLoop_slice [92, d] s [] [escapeChar d] (s.length + 1) (by omega)
    (Or.inr rfl)
  simp only [List.nil_append, List.length_nil, List.append_nil, List.length_singleton,
    List.singleton_append, List.length_cons, List.cons_append] at h k
  rw [decodeAll, List.length_cons, List.length_cons, h]
  have e : 0 + 1 + 1 + s.length = s.length + 1 + 1 := by omega
  rw [e] at k
  simpa using k

theorem decodeAll_unicode (d1 d2 d3 d4 : Nat) (s : List Nat)
    (hhex : isHexDigit d1 = true ∧ isHexDigit d2 = true ∧ isHexDigit d3 = true ∧
      isHexDigit d4 = true) :
    decodeAll (92 :: 117 :: d1 :: d2 :: d3 :: d4 :: s) =
      (decodeAll s).map (fun r => appendRune [] (hexValue4 d1 d2 d3 d4) ++ r) := by
  have h := convertLoop_step_long [] s [] d1 d2 d3 d4 (s.length + 6) (s.length + 5) (by simp)
  have k := convertLoop_slice [92, 117, d1, d2, d3, d4] s []
    (appendRune [] (hexValue4 d1 d2 d3 d4)) (s.length + 5) (by omega) (Or.inr rfl)
  rw [readHex_four, if_pos hhex] at h
  simp only [List.nil_append, List.length_nil, List.append_nil, List.length_singleton,
    List.singleton_append, List.length_cons, List.cons_append] at h k
  rw [decodeAll]
  simp only [List.length_cons]
  rw [h]
  have e : 0 + 1 + 1 + 1 + 1 + 1 + 1 + s.length = s.length + 6 := by omega
  rw [e] at k
  simpa using k

theorem decodeAll_unicode_bad (d1 d2 d3 d4 : Nat) (s : List Nat)
    (hhex : ¬ (isHexDigit d1 = true ∧ isHexDigit d2 = true ∧ isHexDigit d3 = true ∧
      isHexDigit d4 = true)) :
    decodeAll (92 :: 117 :: d1 :: d2 :: d3 :: d4 :: s) = .error .malformed := by
  have h := convertLoop_step_long [] s [] d1 d2 d3 d4 (s.length + 6) (s.length + 5) (by simp)
  rw [readHex_four, if_neg hhex] at h
  simp only [List.nil_append, List.length_nil] at h
  rw [decodeAll]
  simp only [List.length_cons]
  exact h

theorem decodeAll_unicode_short (s : List Nat) (hs : s.length < 4) :
    decodeAll (92 :: 117 :: s) = .error .malformed := by
  have h := convertLoop_step_short [] s [] (s.length + 2) (s.length + 1) (by simp)
    (by simp; omega)
  simp only [List.nil_append, List.length_nil] at h
  rw [decodeAll]
  simp only [List.length_cons]
  exact h

/-- The shapes of a string that the escape grammar tells apart. -/
theorem escape_cases (s : List Nat) :
    s = [] ∨ (∃ c t, s = c :: t ∧ c ≠ 92) ∨ s = [92] ∨
      (∃ d t, s = 92 :: d :: t ∧ d ≠ 117) ∨
      (∃ t, s = 92 :: 117 :: t ∧ t.length < 4) ∨
      (∃ d1 d2 d3 d4 t, s = 92 :: 117 :: d1 :: d2 :: d3 :: d4 :: t) := by
  match s with
  | [] => exact Or.inl rfl
  | c :: t =>
    by_cases hc : c = 92
    · subst hc
      match t with
      | [] => exact Or.inr (Or.inr (Or.inl rfl))
      | d :: t1 =>
        by_cases hd : d = 117
        · subst hd
          match t1 with
          | d1 :: d2 :: d3 :: d4 :: t2 =>
            exact Or.inr (Or.inr (Or.inr (Or.inr (Or.inr ⟨d1, d2, d3, d4, t2, rfl⟩))))
          | [] => exact Or.inr (Or.inr (Or.inr (Or.inr (Or.inl ⟨[], rfl, by simp⟩))))
          | [x] => exact Or.inr (Or.inr (Or.inr (Or.inr (Or.inl ⟨[x], rfl, by simp⟩))))
          | [x, y] => exact Or.inr (Or.inr (Or.inr (Or.inr (Or.inl ⟨[x, y], rfl, by simp⟩))))
          | [x, y, z] =>
            exact Or.inr (Or.inr (Or.inr (Or.inr (Or.inl ⟨[x, y, z], rfl, by simp⟩))))
        · exact Or.inr (Or.inr (Or.inr (Or.inl ⟨d, t1, rfl, hd⟩)))
    · exact Or.inr (Or.inl ⟨c, t, rfl, hc⟩)

theorem map_eq_ok {res : Except LoadError (List Nat)} {p x : List Nat}
    (h : res.map (fun r => p ++ r) = .ok x) : ∃ y, res = .ok y ∧ x = p ++ y := by
  cases res with
  | error e => cases h
  | ok r =>
    simp only [Except.map, Except.ok.injEq] at h
    exact ⟨r, rfl, h.symm⟩

/-- A string that decodes without error can be followed by any string: the decoding of the
two together is the decoding of the first followed by that of the second. -/
theorem decodeAll_append (n : Nat) : ∀ (s1 s2 x : List Nat), s1.length = n →
    decodeAll s1 = .ok x → decodeAll (s1 ++ s2) = (decodeAll s2).map (fun r => x ++ r) ∧
      endsInEscape (s1 ++ s2) = endsInEscape s2 := by
  induction n using Nat.strong_induction_on with
  | _ n ih =>
    intro s1 s2 x hn hx
    rcases escape_cases s1 with h | ⟨c, t, h, hc⟩ | h | ⟨d, t, h, hd⟩ | ⟨t, h, ht⟩ |
        ⟨d1, d2, d3, d4, t, h⟩
    · subst h
      rw [decodeAll_nil] at hx
      simp only [Except.ok.injEq] at hx
      subst hx
      simp only [List.nil_append, and_true]
      exact (map_id_fun _).symm
    · subst h
      rw [decodeAll_plain c t hc] at hx
      obtain ⟨y, hy, rfl⟩ := map_eq_ok hx
      simp only [List.length_cons] at hn
      obtain ⟨k1, k2⟩ := ih t.length (by omega) t s2 y rfl hy
      rw [List.cons_append, decodeAll_plain c _ hc, k1, map_map_append,
        endsInEscape_cons_ne c _ hc, k2]
      simp
    · subst h
      rw [decodeAll_dangling] at hx
      cases hx
    · subst h
      rw [decodeAll_escape d t hd] at hx
      obtain ⟨y, hy, rfl⟩ := map_eq_ok hx
      simp only [List.length_cons] at hn
      obtain ⟨k1, k2⟩ := ih t.length (by omega) t s2 y rfl hy
      rw [List.cons_append, List.cons_append, decodeAll_escape d _ hd, k1, map_map_append]
      refine ⟨by simp, ?_⟩
      rw [endsInEscape, if_pos rfl, k2]
    · subst h
      rw [decodeAll_unicode_short t ht] at hx
      cases hx
    · subst h
      by_cases hhex : isHexDigit d1 = true ∧ isHexDigit d2 = true ∧ isHexDigit d3 = true ∧
          isHexDigit d4 = true
      · rw [decodeAll_unicode d1 d2 d3 d4 t hhex] at hx
        obtain ⟨y, hy, rfl⟩ := map_eq_ok hx
        simp only [List.length_cons] at hn
        obtain ⟨k1, k2⟩ := ih t.length (by omega) t s2 y rfl hy
        simp only [List.cons_append]
        rw [decodeAll_unicode d1 d2 d3 d4 _ hhex, k1, map_map_append]
        refine ⟨by simp, ?_⟩
        rw [endsInEscape, if_pos rfl,
          endsInEscape_cons_ne _ _ (isHexDigit_ne_backslash d1 hhex.1),
          endsInEscape_cons_ne _ _ (isHexDigit_ne_backslash d2 hhex.2.1),
          endsInEscape_cons_ne _ _ (isHexDigit_ne_backslash d3 hhex.2.2.1),
          endsInEscape_cons_ne _ _ (isHexDigit_ne_backslash d4 hhex.2.2.2), k2]
      · rw [decodeAll_unicode_bad d1 d2 d3 d4 t hhex] at hx
        cases hx

theorem decodeAll_no_backslash (p : List Nat) (hp : 92 ∉ p) : decodeAll p = .ok p := by
  induction p with
  | nil => rfl
  | cons c t ih =>
    simp only [List.mem_cons, not_or] at hp
    rw [decodeAll_plain c t (fun h => hp.1 h.symm), ih hp.2]
    rfl

theorem exists_first_backslash (s : List Nat) (h : 92 ∈ s) :
    ∃ p t, s = p ++ 92 :: t ∧ 92 ∉ p := by
  induction s with
  | nil => simp at h
  | cons c s1 ih =>
    by_cases hc : c = 92
    · exact ⟨[], s1, by simp [hc], by simp⟩
    · have h1 : 92 ∈ s1 := by
        simp only [List.mem_cons] at h
        rcases h with h | h
        · exact absurd h.symm hc
        · exact h
      obtain ⟨p, t, hs, hp⟩ := ih h1
      refine ⟨c :: p, t, by simp [hs], ?_⟩
      simp only [List.mem_cons, not_or]
      exact ⟨fun h => hc h.symm, hp⟩

theorem findBackslash_found (p : List Nat) : ∀ (a t : List Nat) (e fuel : Nat), 92 ∉ p →
    a.length + p.length < e → p.length + 1 ≤ fuel →
    findBackslash (a ++ p ++ 92 :: t) e fuel a.length = .ok (a.length + p.length + 1) := by
  induction p with
  | nil =>
    intro a t e fuel _ he hfuel
    obtain ⟨f, rfl⟩ : ∃ f, fuel = f + 1 := ⟨fuel - 1, by omega⟩
    simp only [List.length_nil, Nat.add_zero] at he
    rw [List.append_nil, findBackslash, if_pos he, index_append_length, index_cons_zero]
    simp
  | cons c p1 ih =>
    intro a t e fuel hp he hfuel
    obtain ⟨f, rfl⟩ : ∃ f, fuel = f + 1 := ⟨fuel - 1, by omega⟩
    simp only [List.mem_cons, not_or] at hp
    simp only [List.length_cons] at he hfuel
    have e0 : a ++ c :: p1 ++ 92 :: t = a ++ c :: (p1 ++ 92 :: t) := by simp
    have hc : ¬ c = 92 := fun h => hp.1 h.symm
    rw [e0, findBackslash, if_pos (by omega), index_append_length, index_cons_zero]
    simp only [hc, if_false]
    have := ih (a ++ [c]) t e f hp.2 (by simp; omega) (by omega)
    simp only [List.length_append, List.length_singleton, List.append_assoc,
      List.singleton_append] at this
    rw [List.cons_append] at this
    rw [this]
    congr 1
    simp only [List.length_cons]
    omega

theorem findBackslash_none (p : List Nat) : ∀ (a b : List Nat) (fuel : Nat), 92 ∉ p →
    p.length ≤ fuel →
    findBackslash (a ++ p ++ b) (a.length + p.length) fuel a.length =
      .ok (a.length + p.length) := by
  induction p with
  | nil =>
    intro a b fuel _ _
    cases fuel <;> simp [findBackslash]
  | cons c p1 ih =>
    intro a b fuel hp hfuel
    simp only [List.length_cons] at hfuel
    obtain ⟨f, rfl⟩ : ∃ f, fuel = f + 1 := ⟨fuel - 1, by omega⟩
    simp only [List.mem_cons, not_or] at hp
    have e0 : a ++ c :: p1 ++ b = a ++ c :: (p1 ++ b) := by simp
    have hc : ¬ c = 92 := fun h => hp.1 h.symm
    rw [e0, findBackslash, if_pos (by simp), index_append_length, index_cons_zero]
    simp only [hc, if_false]
    have := ih (a ++ [c]) b f hp.2 (by omega)
    simp only [List.length_append, List.length_singleton, List.append_assoc,
      List.singleton_append] at this
    have e1 : a.length + (c :: p1).length = a.length + 1 + p1.length := by
      simp only [List.length_cons]; omega
    rw [List.cons_append] at this
    rw [e1, this]

/-- On a part of its input that does not end inside an escape, `loadConvert` is the second
loop run over that part alone. -/
theorem loadConvert_slice (a s b : List Nat) (hend : endsInEscape s = false) :
    loadConvert (a ++ s ++ b) a.length s.length = decodeAll s := by
  by_cases h92 : 92 ∈ s
  · obtain ⟨p, t, hs, hp⟩ := exists_first_backslash s h92
    subst hs
    have hpd := decodeAll_no_backslash p hp
    obtain ⟨k1, k2⟩ := decodeAll_append p.length p (92 :: t) p rfl hpd
    rw [k2] at hend
    obtain ⟨d, t1, rfl⟩ : ∃ d t1, t = d :: t1 := by
      cases t with
      | nil => simp [endsInEscape] at hend
      | cons d t1 => exact ⟨d, t1, rfl⟩
    have e0 : a ++ (p ++ 92 :: d :: t1) ++ b = a ++ p ++ 92 :: (d :: t1 ++ b) := by simp
    have hfind := findBackslash_found p a (d :: t1 ++ b) (a.length + (p ++ 92 :: d :: t1).length)
      (p ++ 92 :: d :: t1).length hp (by simp) (by simp)
    rw [← e0] at hfind
    unfold loadConvert
    simp only [hfind]
    have hne : ¬ (a.length + p.length + 1 = a.length + (p ++ 92 :: d :: t1).length) := by
      simp only [List.length_append, List.length_cons]; omega
    rw [if_neg hne]
    have hout : (if a.length + p.length + 1 - 1 - a.length ≠ 0 then
        List.take (a.length + p.length + 1 - 1 - a.length) (List.drop a.length
          (a ++ (p ++ 92 :: d :: t1) ++ b)) else []) = p := by
      have e1 : a.length + p.length + 1 - 1 - a.length = p.length := by omega
      rw [e1]
      by_cases hp0 : p.length = 0
      · have : p = [] := List.length_eq_zero.mp hp0
        simp [this]
      · rw [if_pos hp0]
        simp [List.append_assoc]
    rw [hout]
    have e2 : a ++ (p ++ 92 :: d :: t1) ++ b = (a ++ p) ++ (92 :: d :: t1) ++ b := by simp
    have e3 : a.length + (p ++ 92 :: d :: t1).length = (a ++ p).length + (92 :: d :: t1).length := by
      simp only [List.length_append, List.length_cons]; omega
    have e4 : a.length + p.length + 1 - 1 = (a ++ p).length := by
      simp only [List.length_append]; omega
    rw [e2, e3, e4, convertLoop_slice (a ++ p) (92 :: d :: t1) b p _ (by
      simp only [List.length_append, List.length_cons]; omega) (Or.inl hend), k1]
  · have hfind := findBackslash_none s a b s.length h92 (le_refl _)
    unfold loadConvert
    simp only [hfind, if_true]
    rw [decodeAll_no_backslash s h92]
    by_cases hs0 : s.length = 0
    · have : s = [] := List.length_eq_zero.mp hs0
      simp [this]
    · rw [if_neg hs0, if_pos (by simp)]
      simp [List.append_assoc]

theorem simple_cases (s : List Nat) :
    s = [] ∨ (∃ c t, s = c :: t ∧ c ≠ 92) ∨ s = [92] ∨ (∃ d t, s = 92 :: d :: t) := by
  match s with
  | [] => exact Or.inl rfl
  | c :: t =>
    by_cases hc : c = 92
    · subst hc
      match t with
      | [] => exact Or.inr (Or.inr (Or.inl rfl))
      | d :: t1 => exact Or.inr (Or.inr (Or.inr ⟨d, t1, rfl⟩))
    · exact Or.inr (Or.inl ⟨c, t, rfl, hc⟩)

theorem simpleEscapes_cons_ne (c : Nat) (s : List Nat) (hc : c ≠ 92) :
    simpleEscapes (c :: s) = simpleEscapes s := by
  cases s with
  | nil => simp [simpleEscapes, hc]
  | cons d rest => simp [simpleEscapes, hc]

theorem unescapeSimple_cons_ne (c : Nat) (s : List Nat) (hc : c ≠ 92) :
    unescapeSimple (c :: s) = c :: unescapeSimple s := by
  cases s with
  | nil => simp [unescapeSimple]
  | cons d rest => simp [unescapeSimple, hc]

theorem decodeAll_simple (n : Nat) : ∀ s : List Nat, s.length = n → simpleEscapes s = true →
    decodeAll s = .ok (unescapeSimple s) ∧ endsInEscape s = false := by
  induction n using Nat.strong_induction_on with
  | _ n ih =>
    intro s hn hs
    rcases simple_cases s with h | ⟨c, t, h, hc⟩ | h | ⟨d, t, h⟩
    · subst h
      exact ⟨rfl, rfl⟩
    · subst h
      rw [simpleEscapes_cons_ne c t hc] at hs
      simp only [List.length_cons] at hn
      obtain ⟨k1, k2⟩ := ih t.length (by omega) t rfl hs
      rw [decodeAll_plain c t hc, k1, unescapeSimple_cons_ne c t hc,
        endsInEscape_cons_ne c t hc]
      exact ⟨rfl, k2⟩
    · subst h
      simp [simpleEscapes] at hs
    · subst h
      simp only [simpleEscapes, if_true, Bool.and_eq_true, decide_eq_true_eq] at hs
      simp only [List.length_cons] at hn
      obtain ⟨k1, k2⟩ := ih t.length (by omega) t rfl hs.2
      rw [decodeAll_escape d t hs.1, k1]
      refine ⟨?_, ?_⟩
      · simp [Except.map, unescapeSimple, escapeChar]
      · rw [endsInEscape, if_pos rfl, k2]

theorem no_backslash_simple (s : List Nat) (h : ∀ c ∈ s, c ≠ 92) :
    simpleEscapes s = true ∧ unescapeSimple s = s := by
  induction s with
  | nil => exact ⟨rfl, rfl⟩
  | cons c t ih =>
    have hc : c ≠ 92 := h c (List.mem_cons_self _ _)
    obtain ⟨k1, k2⟩ := ih (fun x hx => h x (List.mem_cons_of_mem _ hx))
    rw [simpleEscapes_cons_ne c t hc, unescapeSimple_cons_ne c t hc, k2]
    exact ⟨k1, rfl⟩

theorem hexDigitValue_lt (c : Nat) (h : isHexDigit c = true) : hexDigitValue c < 16 := by
  simp only [isHexDigit, Bool.or_eq_true, Bool.and_eq_true, decide_eq_true_eq] at h
  unfold hexDigitValue
  split_ifs <;> omega

theorem hexValue4_lt (d1 d2 d3 d4 : Nat)
    (hhex : isHexDigit d1 = true ∧ isHexDigit d2 = true ∧ isHexDigit d3 = true ∧
      isHexDigit d4 = true) : hexValue4 d1 d2 d3 d4 < 65536 := by
  have h1 := hexDigitValue_lt d1 hhex.1
  have h2 := hexDigitValue_lt d2 hhex.2.1
  have h3 := hexDigitValue_lt d3 hhex.2.2.1
  have h4 := hexDigitValue_lt d4 hhex.2.2.2
  unfold hexValue4
  omega

/-- What `utf8.AppendRune` writes for a rune of the basic plane that is not a surrogate is
read back by `utf8.DecodeRuneInString` as that one rune. -/
theorem decodeRune_appendRune (v : Nat) (hv : v < 65536) (hs : ¬ (0xD800 ≤ v ∧ v ≤ 0xDFFF)) :
    decodeRune (appendRune [] v) = (v, (appendRune [] v).length) := by
  have e6 : v >>> 6 = v / 64 := by rw [Nat.shiftRight_eq_div_pow]
  have e12 : v >>> 12 = v / 4096 := by rw [Nat.shiftRight_eq_div_pow]
  by_cases h1 : v ≤ 0x7F
  · have hm : v % 256 = v := by omega
    have hlt : v < 128 := by omega
    simp [appendRune, h1, decodeRune, hm, hlt]
  · by_cases h2 : v ≤ 0x7FF
    · have a0 : ¬ (0xC0 + v / 64 % 256 < 0x80) := by omega
      have a1 : 0xC2 ≤ 0xC0 + v / 64 % 256 ∧ 0xC0 + v / 64 % 256 ≤ 0xDF := by omega
      have a2 : isCont (0x80 + v % 256 % 64) = true := by
        simp only [isCont, Bool.and_eq_true, decide_eq_true_eq]; omega
      have a3 : (0xC0 + v / 64 % 256) % 32 * 64 + (0x80 + v % 256 % 64) % 64 = v := by omega
      simp only [appendRune, h1, h2, if_false, if_true, List.nil_append, decodeRune, e6, a0, a1,
        a2, and_self, a3, List.length_cons, List.length_nil]
    · have h3 : ¬ (v > 0x10FFFF ∨ (0xD800 ≤ v ∧ v ≤ 0xDFFF)) := by omega
      have h4 : v ≤ 0xFFFF := by omega
      have a0 : ¬ (0xE0 + v / 4096 % 256 < 0x80) := by omega
      have a1 : ¬ (0xC2 ≤ 0xE0 + v / 4096 % 256 ∧ 0xE0 + v / 4096 % 256 ≤ 0xDF) := by omega
      have a2 : 0xE0 ≤ 0xE0 + v / 4096 % 256 ∧ 0xE0 + v / 4096 % 256 ≤ 0xEF := by omega
      have a3 : (if 0xE0 + v / 4096 % 256 = 0xE0 then 0xA0 else 0x80) ≤
            0x80 + v / 64 % 256 % 64 ∧
          0x80 + v / 64 % 256 % 64 ≤ (if 0xE0 + v / 4096 % 256 = 0xED then 0x9F else 0xBF) ∧
          isCont (0x80 + v % 256 % 64) = true := by
        simp only [isCont, Bool.and_eq_true, decide_eq_true_eq]
        refine ⟨?_, ?_, ?_⟩
        · split_ifs <;> omega
        · split_ifs <;> omega
        · omega
      have a4 : (0xE0 + v / 4096 % 256) % 16 * 4096 + (0x80 + v / 64 % 256 % 64) % 64 * 64 +
          (0x80 + v % 256 % 64) % 64 = v := by omega
      simp only [appendRune, h1, h2, h3, h4, if_false, if_true, List.nil_append, decodeRune,
        e6, e12, a0, a1, a2, and_self, a3, a4, List.length_cons, List.length_nil]

theorem appendRune_surrogate (v : Nat) (hs : 0xD800 ≤ v ∧ v ≤ 0xDFFF) :
    appendRune [] v = [0xEF, 0xBF, 0xBD] := by
  have h1 : ¬ v ≤ 0x7F := by omega
  have h2 : ¬ v ≤ 0x7FF := by omega
  have h3 : v > 0x10FFFF ∨ (0xD800 ≤ v ∧ v ≤ 0xDFFF) := Or.inr hs
  simp only [appendRune, h1, h2, h3, if_false, if_true, List.nil_append]
  decide

/-- C4, as stated, fails for a surrogate: `\ud800` is decoded to the three bytes `EF BF BD`,
which are the code point U+FFFD and not the code point numbered by the digits, U+D800. -/
theorem loadConvert_surrogate_escape :
    loadConvert [92, 117, 100, 56, 48, 48] 0 6 = .ok [0xEF, 0xBF, 0xBD] ∧
      decodeRune [0xEF, 0xBF, 0xBD] = (0xFFFD, 3) ∧ hexValue4 100 56 48 48 = 0xD800 := by
  decide

/-! ## Comment lines, blank lines and continuations -/

theorem flatLines_skip_ws (ws : List Nat) (hws : ∀ c ∈ ws, c = 32 ∨ c = 9 ∨ c = 12)
    (rest lineBuf : List Nat) (alb pb : Bool) :
    flatLines (ws ++ rest) lineBuf true alb pb .scan = flatLines rest lineBuf true alb pb .scan := by
  induction ws with
  | nil => rfl
  | cons c t ih =>
    have hc := hws c (List.mem_cons_self _ _)
    rw [List.cons_append, flatLines_cons_scan, if_pos ⟨rfl, hc⟩]
    exact ih (fun x hx => hws x (List.mem_cons_of_mem _ hx))

theorem flatLines_comment_body (body : List Nat) (hbody : ∀ c ∈ body, c ≠ 10 ∧ c ≠ 13)
    (rest lineBuf : List Nat) (sw alb pb : Bool) :
    flatLines (body ++ rest) lineBuf sw alb pb .comment =
      flatLines rest lineBuf sw alb pb .comment := by
  induction body with
  | nil => rfl
  | cons c t ih =>
    have hc := hbody c (List.mem_cons_self _ _)
    have hn : ¬ (c ≤ 13 ∧ (c = 13 ∨ c = 10)) := by
      intro h
      rcases h.2 with h1 | h1
      · exact hc.2 h1
      · exact hc.1 h1
    rw [List.cons_append, flatLines, if_pos rfl, if_neg hn]
    exact ih (fun x hx => hbody x (List.mem_cons_of_mem _ hx))

theorem flatLines_comment_end (t : Nat) (ht : t = 10 ∨ t = 13) (rest lineBuf : List Nat)
    (sw alb pb : Bool) :
    flatLines (t :: rest) lineBuf sw alb pb .comment = flatLines rest lineBuf true alb pb .scan := by
  have h : t ≤ 13 ∧ (t = 13 ∨ t = 10) := by
    rcases ht with h | h <;> subst h <;> simp
  rw [flatLines, if_pos rfl, if_pos h]

theorem flatLines_blank_terminator (t : Nat) (ht : t = 10 ∨ t = 13) (rest : List Nat) (pb : Bool) :
    flatLines (t :: rest) [] true false pb .scan = flatLines rest [] true false pb .scan := by
  have h1 : ¬ (t = 32 ∨ t = 9 ∨ t = 12) := by
    rcases ht with h | h <;> subst h <;> simp
  have h2 : t = 13 ∨ t = 10 := by
    rcases ht with h | h <;> simp [h]
  rw [flatLines_cons_scan, if_neg (fun h => h1 h.2), if_pos ⟨rfl, rfl, h2⟩]

theorem flatLines_comment_start (h : Nat) (hh : h = 35 ∨ h = 33) (rest : List Nat) (pb : Bool) :
    flatLines (h :: rest) [] true false pb .scan = flatLines rest [] false false pb .comment := by
  have h1 : ¬ (h = 32 ∨ h = 9 ∨ h = 12) := by
    rcases hh with h | h <;> subst h <;> simp
  have h2 : ¬ (h = 13 ∨ h = 10) := by
    rcases hh with h | h <;> subst h <;> simp
  have h3 : h = 35 ∨ h = 33 := hh
  rw [flatLines_cons_scan, if_neg (fun k => h1 k.2), if_neg (fun k => h2 k.2.2),
    if_pos ⟨rfl, h3⟩]
  rfl

theorem logicalLines_blank_line (ws term post : List Nat)
    (hws : ∀ c ∈ ws, c = 32 ∨ c = 9 ∨ c = 12) (hterm : IsTerminator term post) :
    logicalLines (ws ++ term ++ post) = logicalLines post := by
  unfold logicalLines
  rw [List.append_assoc, flatLines_skip_ws ws hws]
  rcases hterm with h | h | h | ⟨h, hp⟩
  · subst h
    exact flatLines_blank_terminator 10 (Or.inl rfl) post false
  · subst h
    exact flatLines_blank_terminator 13 (Or.inr rfl) post false
  · subst h
    rw [List.cons_append, List.cons_append, flatLines_blank_terminator 13 (Or.inr rfl),
      List.nil_append, flatLines_blank_terminator 10 (Or.inl rfl)]
  · subst h
    subst hp
    rfl

theorem logicalLines_comment_line (ws body term post : List Nat) (h : Nat)
    (hws : ∀ c ∈ ws, c = 32 ∨ c = 9 ∨ c = 12) (hh : h = 35 ∨ h = 33)
    (hbody : ∀ c ∈ body, c ≠ 10 ∧ c ≠ 13) (hterm : IsTerminator term post) :
    logicalLines (ws ++ h :: body ++ term ++ post) = logicalLines post := by
  unfold logicalLines
  have e : ws ++ h :: body ++ term ++ post = ws ++ (h :: (body ++ (term ++ post))) := by simp
  rw [e, flatLines_skip_ws ws hws, flatLines_comment_start h hh, flatLines_comment_body body hbody]
  rcases hterm with h | h | h | ⟨h, hp⟩
  · subst h
    exact flatLines_comment_end 10 (Or.inl rfl) post [] false false false
  · subst h
    exact flatLines_comment_end 13 (Or.inr rfl) post [] false false false
  · subst h
    rw [List.cons_append, List.cons_append, flatLines_comment_end 13 (Or.inr rfl),
      List.nil_append, flatLines_blank_terminator 10 (Or.inl rfl)]
  · subst h
    subst hp
    rfl

theorem logicalLines_of_boundary (pre rest : List Nat) (hpre : EndsLogicalLine pre) :
    logicalLines (pre ++ rest) = logicalLines pre ++ logicalLines rest := by
  obtain ⟨l1, l2, h1, h2, h3⟩ := hpre rest
  rw [LoadLines_single] at h1 h2 h3
  simp only [Except.ok.injEq] at h1 h2 h3
  rw [h3, h1, h2]

theorem logicalLines_whitespace (ws : List Nat)
    (hws : ∀ c ∈ ws, c = 32 ∨ c = 9 ∨ c = 12 ∨ c = 10 ∨ c = 13) : logicalLines ws = [] := by
  unfold logicalLines
  induction ws with
  | nil => rfl
  | cons c t ih =>
    have ht := ih (fun x hx => hws x (List.mem_cons_of_mem _ hx))
    rcases hws c (List.mem_cons_self _ _) with h | h | h | h | h
    · rw [flatLines_cons_scan, if_pos ⟨rfl, Or.inl h⟩]; exact ht
    · rw [flatLines_cons_scan, if_pos ⟨rfl, Or.inr (Or.inl h)⟩]; exact ht
    · rw [flatLines_cons_scan, if_pos ⟨rfl, Or.inr (Or.inr h)⟩]; exact ht
    · rw [flatLines_blank_terminator c (Or.inl h)]; exact ht
    · rw [flatLines_blank_terminator c (Or.inr h)]; exact ht

/-- C7 (amended): a comment line (after leading spaces, tabs and form feeds its first
character is `#` or `!`) or a line of only spaces, tabs and form feeds, with its terminator,
can be removed from the input at a place where a logical line starts without changing the
result of `Load`; the bytes `  # c` LF LF `key=value` LF give exactly `{key: value}`, and an
input of only white space gives the empty mapping. -/
theorem Load_ignores_comment_and_blank_lines (pre ws body term post : List Nat) (h : Nat)
    (hpre : EndsLogicalLine pre) (hws : ∀ c ∈ ws, c = 32 ∨ c = 9 ∨ c = 12)
    (hh : h = 35 ∨ h = 33) (hbody : ∀ c ∈ body, c ≠ 10 ∧ c ≠ 13)
    (hterm : term = [10] ∨ term = [13] ∨ term = [13, 10] ∨ (term = [] ∧ post = [])) :
    Load [pre ++ (ws ++ h :: body ++ term) ++ post] = Load [pre ++ post] ∧
      Load [pre ++ (ws ++ term) ++ post] = Load [pre ++ post] ∧
      Load [[32, 32, 35, 32, 99, 10, 10, 107, 101, 121, 61, 118, 97, 108, 117, 101, 10]] =
        .ok [([107, 101, 121], [118, 97, 108, 117, 101])] ∧
      (∀ blank : List Nat, (∀ c ∈ blank, c = 32 ∨ c = 9 ∨ c = 12 ∨ c = 10 ∨ c = 13) →
        Load [blank] = .ok []) := by
  refine ⟨?_, ?_, by decide, ?_⟩
  · rw [Load_single, Load_single, List.append_assoc, logicalLines_of_boundary _ _ hpre,
      logicalLines_of_boundary _ _ hpre, logicalLines_comment_line ws body term post h hws hh
      hbody hterm]
  · rw [Load_single, Load_single, List.append_assoc, logicalLines_of_boundary _ _ hpre,
      logicalLines_of_boundary _ _ hpre, logicalLines_blank_line ws term post hws hterm]
  · intro blank hb
    rw [Load_single, logicalLines_whitespace blank hb]
    rfl

theorem endsLogicalLine_nil : EndsLogicalLine [] := by
  intro rest
  refine ⟨[], logicalLines rest, by decide, LoadLines_single rest, ?_⟩
  simpa using LoadLines_single rest

theorem backslashFlag_append_singleton (pb : Bool) (s : List Nat) (c : Nat) :
    backslashFlag pb (s ++ [c]) = if c = 92 then !(backslashFlag pb s) else false := by
  simp [backslashFlag, List.foldl_append]

theorem trailingBackslashes_append_singleton (s : List Nat) (c : Nat) :
    trailingBackslashes (s ++ [c]) = if c = 92 then trailingBackslashes s + 1 else 0 := by
  by_cases hc : c = 92
  · simp [trailingBackslashes, hc, List.takeWhile]
  · simp [trailingBackslashes, hc, List.takeWhile]

theorem backslashFlag_false (s : List Nat) :
    backslashFlag false s = decide (trailingBackslashes s % 2 = 1) := by
  induction s using List.reverseRecOn with
  | nil => rfl
  | append_singleton s c ih =>
    rw [backslashFlag_append_singleton, trailingBackslashes_append_singleton, ih]
    by_cases hc : c = 92
    · simp only [hc, if_true]
      by_cases hp : trailingBackslashes s % 2 = 1
      · have : ¬ ((trailingBackslashes s + 1) % 2 = 1) := by omega
        simp [hp, this]
      · have : (trailingBackslashes s + 1) % 2 = 1 := by omega
        simp [hp, this]
    · simp [hc]

theorem flatLines_body (a : List Nat) : ∀ (lineBuf rest : List Nat) (alb pb : Bool),
    lineBuf ≠ [] → (∀ c ∈ a, c ≠ 10 ∧ c ≠ 13) →
    flatLines (a ++ rest) lineBuf false alb pb .scan =
      flatLines rest (lineBuf ++ a) false alb (backslashFlag pb a) .scan := by
  induction a with
  | nil =>
    intro lineBuf rest alb pb _ _
    simp [backslashFlag]
  | cons c t ih =>
    intro lineBuf rest alb pb hlb ha
    have hc := ha c (List.mem_cons_self _ _)
    have hl : ¬ (lineBuf.length = 0) := fun h => hlb (List.length_eq_zero.mp h)
    rw [List.cons_append, flatLines_cons_scan, if_neg (by simp), if_neg (by simp),
      if_neg (fun h => hl h.1), if_pos hc]
    have := ih (lineBuf ++ [c]) rest alb (if c = 92 then !pb else false) (by simp)
      (fun x hx => ha x (List.mem_cons_of_mem _ hx))
    simp only [Bool.false_eq_true, if_false]
    rw [this]
    simp [backslashFlag]

theorem flatLines_start (c : Nat) (lineBuf rest : List Nat) (alb pb : Bool)
    (hws : c ≠ 32 ∧ c ≠ 9 ∧ c ≠ 12) (hterm : c ≠ 10 ∧ c ≠ 13)
    (hcm : lineBuf ≠ [] ∨ (c ≠ 35 ∧ c ≠ 33)) :
    flatLines (c :: rest) lineBuf true alb pb .scan =
      flatLines rest (lineBuf ++ [c]) false false (if c = 92 then !pb else false) .scan := by
  have h1 : ¬ (true = true ∧ (c = 32 ∨ c = 9 ∨ c = 12)) := by
    intro h
    rcases h.2 with h | h | h
    · exact hws.1 h
    · exact hws.2.1 h
    · exact hws.2.2 h
  have h2 : ¬ (true = true ∧ alb = false ∧ (c = 13 ∨ c = 10)) := by
    intro h
    rcases h.2.2 with h | h
    · exact hterm.2 h
    · exact hterm.1 h
  have h3 : ¬ (lineBuf.length = 0 ∧ (c = 35 ∨ c = 33)) := by
    intro h
    rcases hcm with k | k
    · exact k (List.length_eq_zero.mp h.1)
    · rcases h.2 with h | h
      · exact k.1 h
      · exact k.2 h
  rw [flatLines_cons_scan, if_neg h1, if_neg h2, if_neg h3, if_pos hterm]
  rfl

theorem flatLines_end_of_line (t : Nat) (ht : t = 10 ∨ t = 13) (lineBuf rest : List Nat)
    (sw alb : Bool) (hlb : lineBuf ≠ []) (hsw : sw = false ∨ alb = true) :
    flatLines (t :: rest) lineBuf sw alb false .scan =
      lineBuf :: flatLines rest [] true false false .scan := by
  have h1 : ¬ (sw = true ∧ (t = 32 ∨ t = 9 ∨ t = 12)) := by
    rcases ht with h | h <;> subst h <;> simp
  have h2 : ¬ (sw = true ∧ alb = false ∧ (t = 13 ∨ t = 10)) := by
    rcases hsw with h | h <;> subst h <;> simp
  have h3 : ¬ (lineBuf.length = 0 ∧ (t = 35 ∨ t = 33)) :=
    fun h => hlb (List.length_eq_zero.mp h.1)
  have h4 : ¬ (t ≠ 10 ∧ t ≠ 13) := by
    rcases ht with h | h <;> subst h <;> simp
  have h5 : ¬ (lineBuf.length = 0) := fun h => hlb (List.length_eq_zero.mp h)
  rw [flatLines_cons_scan, if_neg h1, if_neg h2, if_neg h3, if_neg h4, if_neg h5]
  by_cases hr : rest.length = 0
  · have : rest = [] := List.length_eq_zero.mp hr
    subst this
    simp [flatLines]
  · rw [if_neg hr, if_neg (by simp)]

theorem flatLines_continuation (t : Nat) (ht : t = 10 ∨ t = 13) (lineBuf rest : List Nat)
    (alb : Bool) (hlb : lineBuf ≠ []) (hrest : rest ≠ []) :
    flatLines (t :: rest) lineBuf false alb true .scan =
      flatLines rest lineBuf.dropLast true true false (if t = 13 then .afterCR else .scan) := by
  have h3 : ¬ (lineBuf.length = 0 ∧ (t = 35 ∨ t = 33)) :=
    fun h => hlb (List.length_eq_zero.mp h.1)
  have h4 : ¬ (t ≠ 10 ∧ t ≠ 13) := by
    rcases ht with h | h <;> subst h <;> simp
  have h5 : ¬ (lineBuf.length = 0) := fun h => hlb (List.length_eq_zero.mp h)
  have h6 : ¬ (rest.length = 0) := fun h => hrest (List.length_eq_zero.mp h)
  rw [flatLines_cons_scan, if_neg (by simp), if_neg (by simp), if_neg h3, if_neg h4, if_neg h5,
    if_neg h6, if_pos rfl]

/-- The first physical line of a logical line, up to its terminator: the content `x` (not
empty, no terminator inside, first byte neither white space nor `#` or `!`) is in the line
buffer and the flag tells whether it ends in an odd number of backslashes. -/
theorem flatLines_line_start (x rest : List Nat) (hx : x ≠ [])
    (hterm : ∀ c ∈ x, c ≠ 10 ∧ c ≠ 13)
    (hfirst : ∀ c, x.head? = some c → c ≠ 32 ∧ c ≠ 9 ∧ c ≠ 12 ∧ c ≠ 35 ∧ c ≠ 33) :
    flatLines (x ++ rest) [] true false false .scan =
      flatLines rest x false false (decide (trailingBackslashes x % 2 = 1)) .scan := by
  cases x with
  | nil => exact absurd rfl hx
  | cons c t =>
    have hc := hfirst c rfl
    have hct := hterm c (List.mem_cons_self _ _)
    rw [List.cons_append, flatLines_start c [] _ false false ⟨hc.1, hc.2.1, hc.2.2.1⟩ hct
      (Or.inr ⟨hc.2.2.2.1, hc.2.2.2.2⟩),
      flatLines_body t _ rest false _ (by simp) (fun y hy => hterm y (List.mem_cons_of_mem _ hy)),
      ← backslashFlag_false]
    simp [backslashFlag]

theorem logicalLines_nil : logicalLines [] = [] := rfl

theorem logicalLines_simple_line (a post : List Nat) (t : Nat) (ha : a ≠ [])
    (hterm : ∀ c ∈ a, c ≠ 10 ∧ c ≠ 13)
    (hfirst : ∀ c, a.head? = some c → c ≠ 32 ∧ c ≠ 9 ∧ c ≠ 12 ∧ c ≠ 35 ∧ c ≠ 33)
    (heven : trailingBackslashes a % 2 = 0) (ht : t = 10 ∨ t = 13) :
    logicalLines (a ++ t :: post) = a :: logicalLines post := by
  unfold logicalLines
  have hflag : decide (trailingBackslashes a % 2 = 1) = false := by
    simp only [decide_eq_false_iff_not]; omega
  rw [flatLines_line_start a _ ha hterm hfirst, hflag,
    flatLines_end_of_line t ht a post false false ha (Or.inl rfl)]

theorem logicalLines_continued_line (a term ws b post : List Nat) (t : Nat)
    (ha : ∀ c ∈ a, c ≠ 10 ∧ c ≠ 13)
    (ha0 : ∀ c, a.head? = some c → c ≠ 32 ∧ c ≠ 9 ∧ c ≠ 12 ∧ c ≠ 35 ∧ c ≠ 33)
    (haeven : trailingBackslashes a % 2 = 0)
    (hterm : term = [10] ∨ term = [13] ∨ term = [13, 10])
    (hws : ∀ c ∈ ws, c = 32 ∨ c = 9 ∨ c = 12)
    (hb : ∀ c ∈ b, c ≠ 10 ∧ c ≠ 13)
    (hb0 : ∀ c, b.head? = some c → c ≠ 32 ∧ c ≠ 9 ∧ c ≠ 12)
    (hbeven : trailingBackslashes b % 2 = 0) (ht : t = 10 ∨ t = 13)
    (hne : a ≠ [] ∨ (b ≠ [] ∧ ∀ c, b.head? = some c → c ≠ 35 ∧ c ≠ 33))
    (hcr : term = [13] → ws = [] → b = [] → t ≠ 10) :
    logicalLines (a ++ 92 :: term ++ ws ++ b ++ t :: post) = (a ++ b) :: logicalLines post := by
  unfold logicalLines
  -- the first physical line, with its last backslash
  have hx : a ++ [92] ≠ [] := by simp
  have hxterm : ∀ c ∈ a ++ [92], c ≠ 10 ∧ c ≠ 13 := by
    intro c hc
    simp only [List.mem_append, List.mem_singleton] at hc
    rcases hc with hc | hc
    · exact ha c hc
    · subst hc; simp
  have hxfirst : ∀ c, (a ++ [92]).head? = some c → c ≠ 32 ∧ c ≠ 9 ∧ c ≠ 12 ∧ c ≠ 35 ∧ c ≠ 33 := by
    intro c hc
    cases a with
    | nil =>
      simp only [List.nil_append, List.head?_cons, Option.some.injEq] at hc
      subst hc; simp
    | cons a0 a1 => exact ha0 c (by simpa using hc)
  have hflag : decide (trailingBackslashes (a ++ [92]) % 2 = 1) = true := by
    rw [trailingBackslashes_append_singleton, if_pos rfl]
    simp only [decide_eq_true_eq]; omega
  have e0 : a ++ 92 :: term ++ ws ++ b ++ t :: post =
      (a ++ [92]) ++ (term ++ (ws ++ (b ++ t :: post))) := by simp
  rw [e0, flatLines_line_start (a ++ [92]) _ hx hxterm hxfirst, hflag]
  -- the terminator: the line goes on
  have hcont : flatLines (term ++ (ws ++ (b ++ t :: post))) (a ++ [92]) false false true .scan =
      flatLines (ws ++ (b ++ t :: post)) a true true false .scan := by
    have hrest : ws ++ (b ++ t :: post) ≠ [] := by simp
    rcases hterm with h | h | h
    · subst h
      rw [List.cons_append, List.nil_append,
        flatLines_continuation 10 (Or.inl rfl) _ _ false hx hrest]
      simp
    · subst h
      rw [List.cons_append, List.nil_append,
        flatLines_continuation 13 (Or.inr rfl) _ _ false hx hrest]
      simp only [if_true, List.dropLast_concat]
      have hhead : ∃ r0 r1, ws ++ (b ++ t :: post) = r0 :: r1 ∧ r0 ≠ 10 := by
        cases ws with
        | nil =>
          cases b with
          | nil => exact ⟨t, post, rfl, hcr rfl rfl rfl⟩
          | cons b0 b1 => exact ⟨b0, b1 ++ t :: post, rfl, (hb b0 (List.mem_cons_self _ _)).1⟩
        | cons w0 w1 =>
          refine ⟨w0, w1 ++ (b ++ t :: post), rfl, ?_⟩
          rcases hws w0 (List.mem_cons_self _ _) with h | h | h <;> subst h <;> simp
      obtain ⟨r0, r1, hr, hr0⟩ := hhead
      rw [hr, flatLines_afterCR, if_neg hr0]
    · subst h
      rw [List.cons_append, List.cons_append, List.nil_append,
        flatLines_continuation 13 (Or.inr rfl) _ _ false hx (by simp)]
      simp only [if_true, List.dropLast_concat]
      rw [flatLines_afterCR, if_pos rfl]
  rw [hcont, flatLines_skip_ws ws hws]
  -- the next physical line
  cases b with
  | nil =>
    have ha1 : a ≠ [] := by
      rcases hne with h | h
      · exact h
      · exact absurd rfl h.1
    rw [List.nil_append, List.append_nil,
      flatLines_end_of_line t ht a post true true ha1 (Or.inr rfl)]
  | cons b0 b1 =>
    have hb0' := hb0 b0 rfl
    have hbt := hb b0 (List.mem_cons_self _ _)
    have hcm : a ≠ [] ∨ (b0 ≠ 35 ∧ b0 ≠ 33) := by
      rcases hne with h | h
      · exact Or.inl h
      · exact Or.inr (h.2 b0 rfl)
    have hflagb : backslashFlag (if b0 = 92 then !false else false) b1 = false := by
      have : backslashFlag (if b0 = 92 then !false else false) b1 =
          backslashFlag false (b0 :: b1) := by simp [backslashFlag]
      rw [this, backslashFlag_false]
      simp only [decide_eq_false_iff_not]; omega
    rw [List.cons_append, flatLines_start b0 a _ true false hb0' hbt hcm,
      flatLines_body b1 _ _ false _ (by simp) (fun y hy => hb y (List.mem_cons_of_mem _ hy)),
      hflagb, flatLines_end_of_line t ht _ post false false (by simp) (Or.inl rfl)]
    simp

/-- A logical line of two physical lines: at a place `pre` of the input where a logical line
starts, a terminator (LF, CR or CR LF) after an odd number of backslashes
does not end the logical line: the last backslash and the terminator are dropped, the
leading spaces, tabs and form feeds of the next physical line are skipped and the rest `b`
of that line is appended to what the logical line holds, `a`, provided `a` is not empty or
`b` is not empty and does not begin with `#` or `!`; a terminator after an even number of
backslashes ends the logical line, which is returned when it is not empty.  The bytes
`key=part1\` LF `   part2` LF give `{key: part1part2}`. -/
theorem continuation_joins_lines (pre a term ws b post : List Nat) (t : Nat)
    (hpre : EndsLogicalLine pre)
    (ha : ∀ c ∈ a, c ≠ 10 ∧ c ≠ 13)
    (ha0 : ∀ c, a.head? = some c → c ≠ 32 ∧ c ≠ 9 ∧ c ≠ 12 ∧ c ≠ 35 ∧ c ≠ 33)
    (haeven : trailingBackslashes a % 2 = 0)
    (hterm : term = [10] ∨ term = [13] ∨ term = [13, 10])
    (hws : ∀ c ∈ ws, c = 32 ∨ c = 9 ∨ c = 12)
    (hb : ∀ c ∈ b, c ≠ 10 ∧ c ≠ 13)
    (hb0 : ∀ c, b.head? = some c → c ≠ 32 ∧ c ≠ 9 ∧ c ≠ 12)
    (hbeven : trailingBackslashes b % 2 = 0) (ht : t = 10 ∨ t = 13)
    (hne : a ≠ [] ∨ (b ≠ [] ∧ ∀ c, b.head? = some c → c ≠ 35 ∧ c ≠ 33))
    (hcr : term = [13] → ws = [] → b = [] → t ≠ 10) :
    (∀ lines1 lines2, LoadLines [pre] = .ok lines1 → LoadLines [post] = .ok lines2 →
      LoadLines [pre ++ (a ++ 92 :: term ++ ws ++ b ++ [t]) ++ post] =
        .ok (lines1 ++ (a ++ b) :: lines2)) ∧
      (a ≠ [] → ∀ lines1 lines2, LoadLines [pre] = .ok lines1 → LoadLines [post] = .ok lines2 →
        LoadLines [pre ++ (a ++ [t]) ++ post] = .ok (lines1 ++ a :: lines2)) ∧
      Load [[107, 101, 121, 61, 112, 97, 114, 116, 49, 92, 10, 32, 32, 32, 112, 97, 114, 116,
        50, 10]] = .ok [([107, 101, 121], [112, 97, 114, 116, 49, 112, 97, 114, 116, 50])] := by
  refine ⟨?_, ?_, by decide⟩
  · intro lines1 lines2 h1 h2
    rw [LoadLines_single] at h1 h2 ⊢
    simp only [Except.ok.injEq] at h1 h2 ⊢
    rw [List.append_assoc, logicalLines_of_boundary _ _ hpre, h1]
    have e : a ++ 92 :: term ++ ws ++ b ++ [t] ++ post =
        a ++ 92 :: term ++ ws ++ b ++ t :: post := by simp
    rw [e, logicalLines_continued_line a term ws b post t ha ha0 haeven hterm hws hb hb0 hbeven
      ht hne hcr, h2]
  · intro hane lines1 lines2 h1 h2
    rw [LoadLines_single] at h1 h2 ⊢
    simp only [Except.ok.injEq] at h1 h2 ⊢
    rw [List.append_assoc, logicalLines_of_boundary _ _ hpre, h1]
    have e : a ++ [t] ++ post = a ++ t :: post := by simp
    rw [e, logicalLines_simple_line a post t hane ha ha0 haeven ht, h2]

theorem endsLogicalLine_line (pre a : List Nat) (t : Nat) (hpre : EndsLogicalLine pre)
    (hane : a ≠ []) (ha : ∀ c ∈ a, c ≠ 10 ∧ c ≠ 13)
    (ha0 : ∀ c, a.head? = some c → c ≠ 32 ∧ c ≠ 9 ∧ c ≠ 12 ∧ c ≠ 35 ∧ c ≠ 33)
    (haeven : trailingBackslashes a % 2 = 0) (ht : t = 10 ∨ t = 13) :
    EndsLogicalLine (pre ++ (a ++ [t])) := by
  intro rest
  refine ⟨_, _, LoadLines_single _, LoadLines_single _, ?_⟩
  rw [LoadLines_single]
  have e1 : pre ++ (a ++ [t]) ++ rest = pre ++ (a ++ t :: rest) := by simp
  have e2 : a ++ [t] = a ++ t :: [] := rfl
  rw [e1, logicalLines_of_boundary _ _ hpre, logicalLines_of_boundary _ _ hpre, e2,
    logicalLines_simple_line a rest t hane ha ha0 haeven ht,
    logicalLines_simple_line a [] t hane ha ha0 haeven ht, logicalLines_nil]
  simp

theorem continuation_joins_lines_witness :
    LoadLines [[120, 61, 49, 10] ++ ([107, 61, 97] ++ 92 :: [13, 10] ++ [32, 9] ++ [98, 92, 92] ++
        [10]) ++ [121]] = .ok ([[120, 61, 49]] ++ ([107, 61, 97] ++ [98, 92, 92]) :: [[121]]) :=
  (continuation_joins_lines [120, 61, 49, 10] [107, 61, 97] [13, 10] [32, 9] [98, 92, 92] [121] 10
    (endsLogicalLine_line [] [120, 61, 49] 10 endsLogicalLine_nil (by decide) (by decide)
      (by simp) (by decide) (by decide))
    (by decide) (by simp) (by decide) (by decide) (by decide) (by decide) (by simp) (by decide)
    (by decide) (by decide) (by decide)).1 [[120, 61, 49]] [[121]] (by decide) (by decide)

/-- C3, as stated, fails when the logical line holds nothing but the continuation backslash
and the next physical line begins with `#`: from the bytes `\` LF `#a=b` LF the reader
returns no line at all, not the line `#a=b` (which `Load` would split into `#a` and `b`).
In a comment line a terminator after a backslash ends the comment: `#c\` LF `x=1` LF gives
the line `x=1`. -/
theorem continuation_before_comment :
    LoadLines [[] ++ ([] ++ 92 :: [10] ++ [] ++ [35, 97, 61, 98] ++ [10]) ++ []] = .ok [] ∧
      LoadLines [[] ++ ([] ++ 92 :: [10] ++ [] ++ [35, 97, 61, 98] ++ [10]) ++ []] ≠
        .ok ([] ++ ([] ++ [35, 97, 61, 98]) :: []) ∧
      Load [[92, 10, 35, 97, 61, 98, 10]] = .ok [] ∧
      loadLine [35, 97, 61, 98] = .ok ([35, 97], [98]) ∧
      LoadLines [[35, 99, 92, 10, 120, 61, 49, 10]] = .ok [[120, 61, 49]] := by
  decide

theorem Load_ignores_comment_and_blank_lines_witness :
    Load [[97, 61, 49, 10] ++ ([32] ++ 35 :: [99] ++ [13, 10]) ++ [98, 61, 50]] =
        Load [[97, 61, 49, 10] ++ [98, 61, 50]] ∧
      Load [[97, 61, 49, 10] ++ [98, 61, 50]] = .ok [([97], [49]), ([98], [50])] :=
  ⟨(Load_ignores_comment_and_blank_lines [97, 61, 49, 10] [32] [99] [13, 10] [98, 61, 50] 35
    (endsLogicalLine_line [] [97, 61, 49] 10 endsLogicalLine_nil (by decide) (by decide)
      (by simp) (by decide) (by decide))
    (by decide) (by decide) (by decide) (by decide)).1, by decide⟩

/-! ## The fuel is enough -/

theorem index_ne_outOfFuel (s : List Nat) (i : Nat) : index s i ≠ .error .outOfFuel := by
  simp only [index]
  split <;> simp

theorem readHex_ne_outOfFuel (inp : List Nat) (n off value : Nat) :
    readHex inp n off value ≠ .error .outOfFuel := by
  induction n generalizing off value with
  | zero => simp [readHex]
  | succ n ih =>
    rw [readHex]
    cases hi : index inp off with
    | error e =>
      have := index_ne_outOfFuel inp off
      rw [hi] at this
      simpa using this
    | ok c =>
      simp only []
      split_ifs
      · exact ih _ _
      · exact ih _ _
      · exact ih _ _
      · simp

theorem findBackslash_ne_outOfFuel (inp : List Nat) (e fuel off : Nat) (h : e - off ≤ fuel) :
    findBackslash inp e fuel off ≠ .error .outOfFuel := by
  induction fuel generalizing off with
  | zero =>
    rw [findBackslash, if_neg (by omega)]
    simp
  | succ f ih =>
    rw [findBackslash]
    by_cases hlt : off < e
    · rw [if_pos hlt]
      cases hi : index inp off with
      | error err =>
        have := index_ne_outOfFuel inp off
        rw [hi] at this
        simpa using this
      | ok c =>
        simp only []
        split_ifs
        · simp
        · exact ih (off + 1) (by omega)
    · rw [if_neg hlt]
      simp

theorem convertLoop_ne_outOfFuel (inp : List Nat) (e fuel off : Nat) (out : List Nat)
    (h : e - off ≤ fuel) : convertLoop inp e fuel off out ≠ .error .outOfFuel := by
  induction fuel generalizing off out with
  | zero =>
    rw [convertLoop, if_neg (by omega)]
    simp
  | succ f ih =>
    rw [convertLoop]
    by_cases hlt : off < e
    · rw [if_pos hlt]
      cases hi : index inp off with
      | error err =>
        have := index_ne_outOfFuel inp off
        rw [hi] at this
        simpa using this
      | ok c =>
        simp only []
        by_cases hc : c ≠ 92
        · rw [if_pos hc]
          exact ih _ _ (by omega)
        · rw [if_neg hc]
          cases hj : index inp (off + 1) with
          | error err =>
            have := index_ne_outOfFuel inp (off + 1)
            rw [hj] at this
            simpa using this
          | ok d =>
            simp only []
            by_cases hd : d = 117
            · rw [if_pos hd]
              split_ifs
              · simp
              · cases hr : readHex inp 4 (off + 2) 0 with
                | error err =>
                  have := readHex_ne_outOfFuel inp 4 (off + 2) 0
                  rw [hr] at this
                  simpa using this
                | ok v => exact ih _ _ (by omega)
            · rw [if_neg hd]
              exact ih _ _ (by omega)
    · rw [if_neg hlt]
      simp

/-- The loops of `loadConvert` never run out of fuel. -/
theorem loadConvert_ne_outOfFuel (inp : List Nat) (off len : Nat) :
    loadConvert inp off len ≠ .error .outOfFuel := by
  cases hf : findBackslash inp (off + len) len off with
  | error err =>
    have := findBackslash_ne_outOfFuel inp (off + len) len off (by omega)
    rw [hf] at this
    simp only [loadConvert, hf]
    simpa using this
  | ok off1 =>
    simp only [loadConvert, hf]
    split_ifs
    · simp
    · simp
    · simp
    · exact convertLoop_ne_outOfFuel _ _ _ _ _ (le_refl _)
    · exact convertLoop_ne_outOfFuel _ _ _ _ _ (le_refl _)

theorem loadLines_ne_outOfFuel (lines : List (List Nat)) (m : GoMap) :
    loadLines lines m ≠ .error .outOfFuel := by
  induction lines generalizing m with
  | nil => simp [loadLines]
  | cons line rest ih =>
    rw [loadLines]
    cases hl : loadLine line with
    | error err =>
      simp only [ne_eq, Except.error.injEq]
      intro herr
      subst herr
      unfold loadLine at hl
      cases hs : splitLine line with
      | error e1 =>
        rw [hs] at hl
        simp only [Except.error.injEq] at hl
        subst hl
        unfold splitLine at hs
        split at hs
        split_ifs at hs
        cases hs
      | ok kv =>
        obtain ⟨keyLen, valueStart⟩ := kv
        rw [hs] at hl
        simp only [] at hl
        cases hk : loadConvert line 0 keyLen with
        | error e2 =>
          rw [hk] at hl
          simp only [Except.error.injEq] at hl
          subst hl
          exact loadConvert_ne_outOfFuel _ _ _ hk
        | ok key =>
          rw [hk] at hl
          simp only [] at hl
          cases hv : loadConvert line valueStart (line.length - valueStart) with
          | error e3 =>
            rw [hv] at hl
            simp only [Except.error.injEq] at hl
            subst hl
            exact loadConvert_ne_outOfFuel _ _ _ hv
          | ok value =>
            rw [hv] at hl
            cases hl
    | ok kv =>
      obtain ⟨key, value⟩ := kv
      exact ih _

/-- On a stream delivered in non-empty chunks no loop of `Load` runs out of fuel. -/
theorem Load_ne_outOfFuel (cs : Reader) (hcs : Reader.NonEmpty cs) :
    Load cs ≠ .error .outOfFuel := by
  rw [Load_eq_loadLines cs hcs]
  exact loadLines_ne_outOfFuel _ _

theorem decodeAll_of_loadConvert (s x : List Nat) (hend : endsInEscape s = false)
    (hx : loadConvert s 0 s.length = .ok x) : decodeAll s = .ok x := by
  have := loadConvert_slice [] s [] hend
  simp only [List.nil_append, List.append_nil, List.length_nil] at this
  rw [← this, hx]

/-- C6: inside any key or value substring (the part `pre ++ ... ++ post` of the input of
`loadConvert`, where `pre` and `post` are decoded to `x` and `y`), a character that is not a
backslash is copied; a backslash in escaping position followed by a character other than `u`
yields that character alone, with `t`, `r`, `n`, `f` replaced by tab, carriage return, line
feed and form feed; a substring without a backslash is returned unchanged, and a substring
whose escapes are all of this kind is decoded as the specification words it. -/
theorem loadConvert_simple_escapes (a pre post b x y : List Nat) (c : Nat)
    (hpre : endsInEscape pre = false) (hx : loadConvert pre 0 pre.length = .ok x)
    (hpost : endsInEscape post = false) (hy : loadConvert post 0 post.length = .ok y) :
    (c ≠ 92 → loadConvert (a ++ (pre ++ c :: post) ++ b) a.length
        (pre.length + 1 + post.length) = .ok (x ++ c :: y)) ∧
      (c ≠ 117 → loadConvert (a ++ (pre ++ 92 :: c :: post) ++ b) a.length
        (pre.length + 2 + post.length) =
          .ok (x ++ (if c = 116 then 9 else if c = 114 then 13 else if c = 110 then 10
            else if c = 102 then 12 else c) :: y)) ∧
      (∀ s : List Nat, (∀ d ∈ s, d ≠ 92) →
        loadConvert (a ++ s ++ b) a.length s.length = .ok s) ∧
      (∀ s : List Nat, simpleEscapes s = true →
        loadConvert (a ++ s ++ b) a.length s.length = .ok (unescapeSimple s)) := by
  have hx1 := decodeAll_of_loadConvert pre x hpre hx
  have hy1 := decodeAll_of_loadConvert post y hpost hy
  refine ⟨?_, ?_, ?_, ?_⟩
  · intro hc
    obtain ⟨k1, k2⟩ := decodeAll_append pre.length pre (c :: post) x rfl hx1
    have hend : endsInEscape (pre ++ c :: post) = false := by
      rw [k2, endsInEscape_cons_ne c post hc, hpost]
    have := loadConvert_slice a (pre ++ c :: post) b hend
    have e : (pre ++ c :: post).length = pre.length + 1 + post.length := by
      simp only [List.length_append, List.length_cons]; omega
    rw [e] at this
    rw [this, k1, decodeAll_plain c post hc, hy1]
    simp [Except.map]
  · intro hc
    obtain ⟨k1, k2⟩ := decodeAll_append pre.length pre (92 :: c :: post) x rfl hx1
    have hend : endsInEscape (pre ++ 92 :: c :: post) = false := by
      rw [k2, endsInEscape, if_pos rfl, hpost]
    have := loadConvert_slice a (pre ++ 92 :: c :: post) b hend
    have e : (pre ++ 92 :: c :: post).length = pre.length + 2 + post.length := by
      simp only [List.length_append, List.length_cons]; omega
    rw [e] at this
    rw [this, k1, decodeAll_escape c post hc, hy1]
    simp [Except.map, escapeChar]
  · intro s hs
    obtain ⟨h1, h2⟩ := no_backslash_simple s hs
    obtain ⟨k1, k2⟩ := decodeAll_simple _ s rfl h1
    rw [loadConvert_slice a s b k2, k1, h2]
  · intro s hs
    obtain ⟨k1, k2⟩ := decodeAll_simple _ s rfl hs
    rw [loadConvert_slice a s b k2, k1]

theorem loadConvert_simple_escapes_witness :
    loadConvert ([120] ++ ([97, 92, 92] ++ 92 :: 116 :: [92, 117, 48, 48, 52, 49]) ++ [121]) 1
        (([97, 92, 92] : List Nat).length + 2 + ([92, 117, 48, 48, 52, 49] : List Nat).length) =
      .ok ([97, 92] ++ 9 :: [65]) :=
  (loadConvert_simple_escapes [120] [97, 92, 92] [92, 117, 48, 48, 52, 49] [121] [97, 92] [65]
    116 (by decide) (by decide) (by decide) (by decide)).2.1 (by decide)

/-- C4 (amended): a backslash in escaping position followed by `u` and four hexadecimal
digits of either case, anywhere in a key or value substring (the part `pre ++ ... ++ post`
of the input of `loadConvert`), is decoded to the UTF-8 encoding of one code point, put in
the place of the six characters: the code point numbered by the 16-bit value of the digits
when that value is not a surrogate (U+D800..U+DFFF), and U+FFFD when it is.  The case of a
digit letter does not change its value. -/
theorem loadConvert_unicode_escape (a pre post b x y : List Nat) (d1 d2 d3 d4 : Nat)
    (hhex : isHexDigit d1 = true ∧ isHexDigit d2 = true ∧ isHexDigit d3 = true ∧
      isHexDigit d4 = true)
    (hpre : endsInEscape pre = false) (hx : loadConvert pre 0 pre.length = .ok x)
    (hpost : endsInEscape post = false) (hy : loadConvert post 0 post.length = .ok y) :
    loadConvert (a ++ (pre ++ [92, 117, d1, d2, d3, d4] ++ post) ++ b) a.length
        (pre.length + 6 + post.length) =
        .ok (x ++ appendRune [] (hexValue4 d1 d2 d3 d4) ++ y) ∧
      (¬ (0xD800 ≤ hexValue4 d1 d2 d3 d4 ∧ hexValue4 d1 d2 d3 d4 ≤ 0xDFFF) →
        decodeRune (appendRune [] (hexValue4 d1 d2 d3 d4)) =
          (hexValue4 d1 d2 d3 d4, (appendRune [] (hexValue4 d1 d2 d3 d4)).length)) ∧
      ((0xD800 ≤ hexValue4 d1 d2 d3 d4 ∧ hexValue4 d1 d2 d3 d4 ≤ 0xDFFF) →
        appendRune [] (hexValue4 d1 d2 d3 d4) = [0xEF, 0xBF, 0xBD] ∧
          decodeRune [0xEF, 0xBF, 0xBD] = (0xFFFD, 3)) ∧
      (∀ c, 65 ≤ c → c ≤ 70 → hexDigitValue (c + 32) = hexDigitValue c) := by
  refine ⟨?_, decodeRune_appendRune _ (hexValue4_lt d1 d2 d3 d4 hhex),
    fun hs => ⟨appendRune_surrogate _ hs, by decide⟩, ?_⟩
  · have hx1 := decodeAll_of_loadConvert pre x hpre hx
    have hy1 := decodeAll_of_loadConvert post y hpost hy
    obtain ⟨k1, k2⟩ := decodeAll_append pre.length pre ([92, 117, d1, d2, d3, d4] ++ post) x
      rfl hx1
    have hu : decodeAll ([92, 117, d1, d2, d3, d4] ++ post) =
        .ok (appendRune [] (hexValue4 d1 d2 d3 d4) ++ y) := by
      have := decodeAll_unicode d1 d2 d3 d4 post hhex
      simp only [List.cons_append, List.nil_append]
      rw [this, hy1]
      rfl
    have hend : endsInEscape (pre ++ ([92, 117, d1, d2, d3, d4] ++ post)) = false := by
      rw [k2]
      simp only [List.cons_append, List.nil_append]
      rw [endsInEscape, if_pos rfl,
        endsInEscape_cons_ne _ _ (isHexDigit_ne_backslash d1 hhex.1),
        endsInEscape_cons_ne _ _ (isHexDigit_ne_backslash d2 hhex.2.1),
        endsInEscape_cons_ne _ _ (isHexDigit_ne_backslash d3 hhex.2.2.1),
        endsInEscape_cons_ne _ _ (isHexDigit_ne_backslash d4 hhex.2.2.2)]
      exact hpost
    have := loadConvert_slice a (pre ++ ([92, 117, d1, d2, d3, d4] ++ post)) b hend
    have e : (pre ++ ([92, 117, d1, d2, d3, d4] ++ post)).length =
        pre.length + 6 + post.length := by
      simp only [List.length_append, List.length_cons, List.length_nil]; omega
    rw [e] at this
    rw [List.append_assoc pre, this, k1, hu]
    simp [Except.map]
  · intro c h1 h2
    unfold hexDigitValue
    split_ifs <;> omega

theorem loadConvert_unicode_escape_witness :
    loadConvert ([107, 61] ++ ([97, 92, 92] ++ [92, 117, 52, 101, 50, 100] ++ [92, 116]) ++ [])
        ([107, 61] : List Nat).length
        (([97, 92, 92] : List Nat).length + 6 + ([92, 116] : List Nat).length) =
      .ok ([97, 92] ++ appendRune [] (hexValue4 52 101 50 100) ++ [9]) ∧
      hexValue4 52 101 50 100 = 0x4E2D ∧ hexValue4 52 69 50 68 = 0x4E2D ∧
      appendRune [] 0x4E2D = [0xE4, 0xB8, 0xAD] :=
  ⟨(loadConvert_unicode_escape [107, 61] [97, 92, 92] [92, 116] [] [97, 92] [9] 52 101 50 100
      (by decide) (by decide) (by decide) (by decide) (by decide)).1,
    by decide, by decide, by decide⟩

/-! ## The offsets that `Load` computes stay inside the line -/

theorem decodeRune_width_pos (c : Nat) (t : List Nat) : 1 ≤ (decodeRune (c :: t)).2 := by
  simp only [decodeRune]
  repeat' split
  all_goals simp

theorem rangeRunes_length_le (fuel : Nat) (s : List Nat) :
    (rangeRunes fuel s).length ≤ s.length := by
  induction fuel generalizing s with
  | zero => simp [rangeRunes]
  | succ f ih =>
    cases s with
    | nil => simp [rangeRunes]
    | cons c t =>
      rw [rangeRunes]
      simp only [List.length_cons]
      have h1 := decodeRune_width_pos c t
      have h2 := ih ((c :: t).drop (decodeRune (c :: t)).2)
      simp only [List.length_drop, List.length_cons] at h2
      omega

theorem runes_length_le (s : List Nat) : (runes s).length ≤ s.length :=
  rangeRunes_length_le s.length s

theorem scanKey_bounds (lineLen : Nat) (rs : List Nat) (keyLen : Nat) (pb : Bool) :
    (scanKey lineLen rs keyLen pb).1 ≤ keyLen + rs.length ∧
      ((scanKey lineLen rs keyLen pb).2.1 = lineLen ∨
        (scanKey lineLen rs keyLen pb).2.1 ≤ keyLen + rs.length) := by
  induction rs generalizing keyLen pb with
  | nil => simp [scanKey]
  | cons c cs ih =>
    rw [scanKey]
    by_cases h1 : (c = 61 ∨ c = 58) ∧ pb = false
    · rw [if_pos h1]; simp
    · rw [if_neg h1]
      by_cases h2 : (c = 32 ∨ c = 9 ∨ c = 12) ∧ pb = false
      · rw [if_pos h2]; simp
      · rw [if_neg h2]
        have := ih (keyLen + 1) (if c = 92 then !pb else false)
        simp only [List.length_cons]
        omega

theorem scanValueStart_le (rs : List Nat) (valueStart : Nat) (hasSep : Bool) :
    scanValueStart rs valueStart hasSep ≤ valueStart + rs.length := by
  induction rs generalizing valueStart hasSep with
  | nil => simp [scanValueStart]
  | cons c cs ih =>
    rw [scanValueStart]
    simp only [List.length_cons]
    split_ifs
    · have := ih (valueStart + 1) true
      omega
    · omega
    · have := ih (valueStart + 1) hasSep
      omega

/-- The two scanning loops of `Load` do not panic, and the offsets that they hand to
`loadConvert` lie inside the line: `keyLen` and `len(line) - valueStart` are not negative. -/
theorem splitLine_ok (line : List Nat) :
    ∃ keyLen valueStart, splitLine line = .ok (keyLen, valueStart) ∧
      keyLen ≤ line.length ∧ valueStart ≤ line.length := by
  have hb := scanKey_bounds line.length (runes line) 0 false
  have hr := runes_length_le line
  unfold splitLine
  rcases hsk : scanKey line.length (runes line) 0 false with ⟨keyLen, valueStart, hasSep⟩
  rw [hsk] at hb
  simp only [Nat.zero_add] at hb
  have hv : valueStart ≤ line.length := by
    rcases hb.2 with h | h <;> omega
  simp only [hv, if_true]
  refine ⟨_, _, rfl, by omega, ?_⟩
  have h1 := scanValueStart_le (runes (line.drop valueStart)) valueStart hasSep
  have h2 := runes_length_le (line.drop valueStart)
  simp only [List.length_drop] at h2
  omega

/-- C7, as stated, fails for a line of white space that follows a continuation: it ends the
continued logical line.  With the line ` ` LF between `a=1\` LF and `b=2` LF the result is
`{a: 1, b: 2}`, without it `{a: 1b=2}`. -/
theorem blank_line_after_continuation :
    Load [[97, 61, 49, 92, 10] ++ ([32] ++ [10]) ++ [98, 61, 50, 10]] =
        .ok [([97], [49]), ([98], [50])] ∧
      Load [[97, 61, 49, 92, 10] ++ [98, 61, 50, 10]] = .ok [([97], [49, 98, 61, 50])] ∧
      Load [[97, 61, 49, 92, 10] ++ ([32] ++ [10]) ++ [98, 61, 50, 10]] ≠
        Load [[97, 61, 49, 92, 10] ++ [98, 61, 50, 10]] := by
  decide

end Properties

namespace Process

/-! ## Numbers written and read -/

theorem formatLoop_eq (fuel : Nat) : ∀ (n : Nat) (acc : List Nat), 0 < n → n < fuel →
    formatLoop fuel n acc = (Nat.digits 10 n).reverse.map (· + 48) ++ acc := by
  induction fuel with
  | zero => intro n acc _ h; omega
  | succ fuel ih =>
    intro n acc hn hf
    unfold formatLoop
    by_cases h : n < 10
    · rw [if_pos h, Nat.digits_of_lt 10 n (by omega) h]
      simp [Nat.add_comm]
    · rw [if_neg h, ih (n / 10) _ (by omega) (by omega), Nat.digits_def' (by norm_num) hn]
      simp [Nat.add_comm]

theorem formatInt_of_nonneg (n : Nat) : formatInt (n : Int) = decimal n := by
  unfold formatInt decimal
  rw [if_neg (by omega)]
  by_cases h : n = 0
  · subst h
    rfl
  · rw [if_neg h, Int.natAbs_ofNat, formatLoop_eq _ _ _ (by omega) (by omega)]
    simp

theorem decimal_digits (n : Nat) : ∀ c ∈ decimal n, 48 ≤ c ∧ c ≤ 57 := by
  intro c hc
  unfold decimal at hc
  by_cases h : n = 0
  · rw [if_pos h] at hc
    simp at hc
    omega
  · rw [if_neg h] at hc
    simp only [List.mem_map, List.mem_reverse] at hc
    obtain ⟨d, hd, rfl⟩ := hc
    have := Nat.digits_lt_base (by norm_num : 1 < 10) hd
    omega

theorem decimal_ne_nil (n : Nat) : decimal n ≠ [] := by
  unfold decimal
  by_cases h : n = 0
  · rw [if_pos h]
    simp
  · rw [if_neg h]
    simp [Nat.digits_ne_nil_iff_ne_zero, h]

theorem digitsValue_eq (s : List Nat) : digitsValue s = naturalValue s := by
  unfold digitsValue naturalValue
  have key : ∀ (s : List Nat) (v : Nat), s.foldl (fun n c => n * 10 + (c - 48)) v =
      Nat.ofDigits 10 (s.map (· - 48)).reverse + 10 ^ s.length * v := by
    intro s
    induction s with
    | nil => intro v; simp
    | cons c t ih =>
      intro v
      rw [List.foldl_cons, ih, List.map_cons, List.reverse_cons, Nat.ofDigits_append,
        Nat.ofDigits_singleton]
      simp only [List.length_reverse, List.length_map, List.length_cons]
      ring
  rw [key s 0]
  simp

theorem naturalValue_decimal (n : Nat) : naturalValue (decimal n) = n := by
  unfold naturalValue decimal
  by_cases h : n = 0
  · rw [if_pos h, h]
    simp
  · rw [if_neg h]
    simp [List.map_reverse, Function.comp_def, Nat.ofDigits_digits]

theorem decimal_length (n : Nat) (h : n < 10 ^ 19) : (decimal n).length ≤ 19 := by
  unfold decimal
  by_cases h0 : n = 0
  · rw [if_pos h0]
    simp
  · rw [if_neg h0]
    simp only [List.length_map, List.length_reverse]
    by_contra hlen
    have h1 : 10 ^ 19 ≤ n := by
      have h2 := Nat.base_pow_length_digits_le 10 n (by norm_num) h0
      have h3 : 10 ^ 20 ≤ 10 ^ (Nat.digits 10 n).length := Nat.pow_le_pow_right (by norm_num) (by omega)
      omega
    omega

theorem decimal_all_isDigit (n : Nat) : (decimal n).all isDigit = true := by
  rw [List.all_eq_true]
  intro c hc
  have := decimal_digits n c hc
  simp [isDigit, this.1, this.2]

theorem decimal_head (n : Nat) : (decimal n).head? ≠ some 43 ∧ (decimal n).head? ≠ some 45 := by
  have hd := decimal_digits n
  cases h : decimal n with
  | nil => simp
  | cons c t =>
    have := hd c (by rw [h]; simp)
    simp only [List.head?_cons, ne_eq, Option.some.injEq]
    omega

theorem Atoi_decimal (n : Nat) (h : (n : Int) ≤ maxInt) : Atoi (decimal n) = some (n : Int) := by
  have hh := decimal_head n
  unfold Atoi
  simp only [hh.1, hh.2, or_self, if_false, decimal_ne_nil, decimal_all_isDigit, false_or,
    Bool.true_eq_false, decide_False, Bool.false_eq_true]
  rw [digitsValue_eq, naturalValue_decimal, if_pos h]

theorem indexLF_append (line rest : List Nat) (h : 10 ∉ line) :
    indexLF (line ++ 10 :: rest) = some line.length := by
  induction line with
  | nil => simp [indexLF]
  | cons c t ih =>
    have hc : c ≠ 10 := fun e => h (by simp [e])
    have ht : 10 ∉ t := fun e => h (by simp [e])
    simp [indexLF, hc, ih ht]

theorem indexLF_none (buf : List Nat) (h : 10 ∉ buf) : indexLF buf = none := by
  induction buf with
  | nil => rfl
  | cons c t ih =>
    have hc : c ≠ 10 := fun e => h (by simp [e])
    have ht : 10 ∉ t := fun e => h (by simp [e])
    simp [indexLF, hc, ih ht]

theorem ReadLine_line (line rest : List Nat) (h10 : 10 ∉ line)
    (hlen : line.length < defaultBufSize) :
    ReadLine (line ++ 10 :: rest) =
      some (if line.getLast? = some 13 then line.dropLast else line) := by
  unfold ReadLine
  have htake : (line ++ 10 :: rest).take defaultBufSize =
      line ++ 10 :: rest.take (defaultBufSize - line.length - 1) := by
    rw [List.take_append_eq_append_take, List.take_of_length_le (by omega)]
    obtain ⟨k, hk⟩ : ∃ k, defaultBufSize - line.length = k + 1 := ⟨defaultBufSize - line.length - 1, by omega⟩
    rw [hk, List.take_succ_cons]
    simp
  simp only [htake, indexLF_append _ _ h10, List.take_left']
  split <;> rfl

theorem ReadLine_decimal (n : Nat) (h : (n : Int) ≤ maxInt) :
    ReadLine (decimal n ++ [10]) = some (decimal n) := by
  have hlen : (decimal n).length ≤ 19 := decimal_length n (by unfold maxInt at h; omega)
  have h10 : 10 ∉ decimal n := fun hm => by
    have := decimal_digits n 10 hm
    omega
  rw [ReadLine_line _ _ h10 (by unfold defaultBufSize; omega)]
  have h13 : (decimal n).getLast? ≠ some 13 := fun hm => by
    have := decimal_digits n 13 (List.mem_of_getLast?_eq_some hm)
    omega
  rw [if_neg h13]

theorem storedPid_decimal (n : Nat) (h0 : 0 < n) (h : (n : Int) ≤ maxInt) :
    storedPid (decimal n ++ [10]) = some (n : Int) := by
  unfold storedPid
  rw [ReadLine_decimal n h]
  simp only [Atoi_decimal n h]
  rw [if_neg (by omega)]

/-! ## The PID file when no call fails -/

theorem WritePid_ok (w : World) (pid : Int) (h : w.faults = []) :
    WritePid w pid = (none,
      { w with
        content := formatInt pid ++ [10],
        offset := (formatInt pid).length + 1,
        l := false,
        r := false,
        trace := w.trace ++ [⟨.lock, true, w.l, w.r⟩, ⟨.lock, true, true, w.r⟩,
          ⟨.seek, true, true, w.r⟩, ⟨.truncate, true, true, w.r⟩, ⟨.unlock, true, true, w.r⟩,
          ⟨.write (formatInt pid ++ [10]), true, false, false⟩, ⟨.sync, true, false, false⟩,
          ⟨.unlock, true, false, false⟩] }) := by
  obtain ⟨content, offset, l, r, self, live, cwd, args, nextPid, faults, trace⟩ := w
  simp only at h
  subst h
  cases l <;> cases r <;>
    simp [WritePid, ClearPid, Lock, Unlock, Seek, Truncate, WriteString, Sync, World.sys,
      World.note, writeAt]

theorem ClearPid_ok (w : World) (h : w.faults = []) :
    ClearPid w = (none,
      { w with
        content := [],
        offset := 0,
        l := false,
        r := false,
        trace := w.trace ++ [⟨.lock, true, w.l, w.r⟩, ⟨.seek, true, true, w.r⟩,
          ⟨.truncate, true, true, w.r⟩, ⟨.unlock, true, true, w.r⟩] }) := by
  obtain ⟨content, offset, l, r, self, live, cwd, args, nextPid, faults, trace⟩ := w
  simp only at h
  subst h
  cases l <;> cases r <;>
    simp [ClearPid, Lock, Unlock, Seek, Truncate, World.sys, World.note]

theorem ReadPid_ok (w : World) (pid : Int) (h : w.faults = [])
    (hp : storedPid w.content = some pid) :
    ReadPid w = ((pid, none),
      { w with
        offset := min defaultBufSize w.content.length,
        l := false,
        r := false,
        trace := w.trace ++ [⟨.rlock, true, w.l, w.r⟩, ⟨.seek, true, w.l, true⟩,
          ⟨.read, true, w.l, true⟩, ⟨.unlock, true, w.l, true⟩] }) := by
  obtain ⟨content, offset, l, r, self, live, cwd, args, nextPid, faults, trace⟩ := w
  simp only at h hp
  subst h
  unfold storedPid at hp
  cases hl : ReadLine content with
  | none => simp [hl] at hp
  | some line =>
    cases ha : Atoi line with
    | none => simp [hl, ha] at hp
    | some v =>
      simp only [hl, ha] at hp
      by_cases hv : v ≤ 0
      · simp [hv] at hp
      · simp only [hv, if_false, Option.some.injEq] at hp
        subst hp
        cases l <;> cases r <;>
          simp [ReadPid, RLock, Unlock, Seek, readLine, World.sys, World.note, hl, ha, hv]

theorem ReadPid_none (w : World) (h : w.faults = []) (hp : storedPid w.content = none) :
    ∃ err, ReadPid w = ((0, some err),
      { w with
        offset := min defaultBufSize w.content.length,
        r := true,
        trace := w.trace ++ [⟨.rlock, true, w.l, w.r⟩, ⟨.seek, true, w.l, true⟩,
          ⟨.read, true, w.l, true⟩] }) := by
  obtain ⟨content, offset, l, r, self, live, cwd, args, nextPid, faults, trace⟩ := w
  simp only at h hp
  subst h
  unfold storedPid at hp
  cases hl : ReadLine content with
  | none =>
    refine ⟨.read, ?_⟩
    cases l <;> cases r <;>
      simp [ReadPid, RLock, Unlock, Seek, readLine, World.sys, World.note, hl]
  | some line =>
    cases ha : Atoi line with
    | none =>
      refine ⟨.parse, ?_⟩
      cases l <;> cases r <;>
        simp [ReadPid, RLock, Unlock, Seek, readLine, World.sys, World.note, hl, ha]
    | some v =>
      simp only [hl, ha] at hp
      by_cases hv : v ≤ 0
      · refine ⟨.invalidPid v, ?_⟩
        cases l <;> cases r <;>
          simp [ReadPid, RLock, Unlock, Seek, readLine, World.sys, World.note, hl, ha, hv]
      · simp [hv] at hp

/-! ## The calls of a command, whatever fails -/

theorem Extends.append {p : Call → Bool} {w1 w2 w3 : World} (h1 : Extends p w1 w2)
    (h2 : Extends p w2 w3) : Extends p w1 w3 := by
  obtain ⟨es1, e1, p1⟩ := h1
  obtain ⟨es2, e2, p2⟩ := h2
  refine ⟨es1 ++ es2, by rw [e2, e1, List.append_assoc], ?_⟩
  intro e he
  rcases List.mem_append.1 he with h | h
  · exact p1 e h
  · exact p2 e h

theorem Extends.mono {p q : Call → Bool} {w w' : World} (hpq : ∀ c, p c = true → q c = true)
    (h : Extends p w w') : Extends q w w' := by
  obtain ⟨es, e1, p1⟩ := h
  exact ⟨es, e1, fun e he => hpq _ (p1 e he)⟩

theorem Extends.one {p : Call → Bool} {w w' : World} {e : Entry}
    (h : w'.trace = w.trace ++ [e]) (hp : p e.call = true) : Extends p w w' :=
  ⟨[e], h, by simpa using hp⟩

theorem Call.isPidFile_of_isRead (c : Call) (h : c.isRead = true) : c.isPidFile = true := by
  cases c <;> simp_all [Call.isRead, Call.isPidFile]

theorem PidStep.compose {w1 w2 w3 : World} (h1 : PidStep w1 w2) (h2 : PidStep w2 w3) :
    PidStep w1 w3 :=
  ⟨h2.self.trans h1.self, h2.live.trans h1.live, h2.cwd.trans h1.cwd, h2.args.trans h1.args,
    h2.nextPid.trans h1.nextPid, h1.trace.append h2.trace⟩

theorem ReadStep.followedBy {w1 w2 w3 : World} (h1 : ReadStep w1 w2) (h2 : ReadStep w2 w3) :
    ReadStep w1 w3 :=
  ⟨h1.step.compose h2.step, h2.content.trans h1.content, h1.trace.append h2.trace⟩

/-- The result of a system call. -/
theorem sys_eq {w w1 : World} {c : Call} {ok : Bool} (h : w.sys c = (ok, w1)) :
    w1 = { w with faults := w.faults.tail, trace := w.trace ++ [⟨c, ok, w.l, w.r⟩] } := by
  unfold World.sys at h
  simp only [Prod.mk.injEq] at h
  rw [← h.2, h.1]

theorem Lock_eq {w w1 : World} {ok : Bool} (h : Lock w = (ok, w1)) :
    ∃ fs, w1 = { w with
      l := w.l || ok,
      faults := fs,
      trace := w.trace ++ [⟨.lock, ok, w.l, w.r⟩] } := by
  unfold Lock at h
  split at h
  · rename_i hl
    simp only [Prod.mk.injEq] at h
    exact ⟨w.faults, by rw [← h.2, ← h.1]; simp [World.note, hl]⟩
  · rename_i hl
    split at h <;> rename_i w2 hs <;> have e := sys_eq hs <;> simp only [Prod.mk.injEq] at h <;>
      subst e <;> exact ⟨w.faults.tail, by rw [← h.2, ← h.1]; simp [hl]⟩

theorem RLock_eq {w w1 : World} {ok : Bool} (h : RLock w = (ok, w1)) :
    ∃ fs, w1 = { w with
      r := w.r || ok,
      faults := fs,
      trace := w.trace ++ [⟨.rlock, ok, w.l, w.r⟩] } := by
  unfold RLock at h
  split at h
  · rename_i hl
    simp only [Prod.mk.injEq] at h
    exact ⟨w.faults, by rw [← h.2, ← h.1]; simp [World.note, hl]⟩
  · rename_i hl
    split at h <;> rename_i w2 hs <;> have e := sys_eq hs <;> simp only [Prod.mk.injEq] at h <;>
      subst e <;> exact ⟨w.faults.tail, by rw [← h.2, ← h.1]; simp [hl]⟩

theorem Unlock_eq {w w1 : World} {ok : Bool} (h : Unlock w = (ok, w1)) :
    ∃ fs, w1 = { w with
      l := w.l && !ok,
      r := w.r && !ok,
      faults := fs,
      trace := w.trace ++ [⟨.unlock, ok, w.l, w.r⟩] } := by
  unfold Unlock at h
  split at h
  · rename_i hl
    simp only [Prod.mk.injEq] at h
    simp only [Bool.and_eq_true, Bool.not_eq_true', Bool.not_eq_eq_eq_not, Bool.not_true] at hl
    exact ⟨w.faults, by rw [← h.2, ← h.1]; simp [World.note, hl.1, hl.2]⟩
  · rename_i hl
    split at h <;> rename_i w2 hs <;> have e := sys_eq hs <;> simp only [Prod.mk.injEq] at h <;>
      subst e <;> exact ⟨w.faults.tail, by rw [← h.2, ← h.1]; simp⟩

theorem Seek_eq {w w1 : World} {ok : Bool} (h : Seek w = (ok, w1)) :
    w1 = { w with
      offset := if ok then 0 else w.offset,
      faults := w.faults.tail,
      trace := w.trace ++ [⟨.seek, ok, w.l, w.r⟩] } := by
  unfold Seek at h
  split at h <;> rename_i w2 hs <;> have e := sys_eq hs <;> simp only [Prod.mk.injEq] at h <;>
    subst e <;> rw [← h.2, ← h.1] <;> simp

theorem Truncate_eq {w w1 : World} {ok : Bool} (h : Truncate w = (ok, w1)) :
    w1 = { w with
      content := if ok then [] else w.content,
      faults := w.faults.tail,
      trace := w.trace ++ [⟨.truncate, ok, w.l, w.r⟩] } := by
  unfold Truncate at h
  split at h <;> rename_i w2 hs <;> have e := sys_eq hs <;> simp only [Prod.mk.injEq] at h <;>
    subst e <;> rw [← h.2, ← h.1] <;> simp

theorem WriteString_eq {w w1 : World} {s : List Nat} {ok : Bool}
    (h : WriteString w s = (ok, w1)) :
    w1 = { w with
      content := if ok then writeAt w.content w.offset s else w.content,
      offset := if ok then w.offset + s.length else w.offset,
      faults := w.faults.tail,
      trace := w.trace ++ [⟨.write s, ok, w.l, w.r⟩] } := by
  unfold WriteString at h
  split at h <;> rename_i w2 hs <;> have e := sys_eq hs <;> simp only [Prod.mk.injEq] at h <;>
    subst e <;> rw [← h.2, ← h.1] <;> simp

theorem readLine_eq {w w1 : World} {res : Option (List Nat)} (h : readLine w = (res, w1)) :
    ∃ ok off, w1 = { w with
      offset := off,
      faults := w.faults.tail,
      trace := w.trace ++ [⟨.read, ok, w.l, w.r⟩] } ∧
      (res = none ∨ res = ReadLine (w.content.drop w.offset)) := by
  unfold readLine at h
  split at h <;> rename_i w2 hs <;> have e := sys_eq hs <;> simp only [Prod.mk.injEq] at h <;>
    subst e
  · exact ⟨true, _, h.2.symm, Or.inr h.1.symm⟩
  · exact ⟨false, w.offset, by rw [← h.2], Or.inl h.1.symm⟩

theorem Signal_eq {w w1 : World} {pid : Int} {sig : Nat} {ok : Bool}
    (h : Signal w pid sig = (ok, w1)) :
    w1 = { w with trace := w.trace ++ [⟨.signal pid sig, ok, w.l, w.r⟩] } ∧
      ok = w.processExists pid := by
  unfold Signal at h
  simp only [Prod.mk.injEq] at h
  rw [← h.2, ← h.1]
  exact ⟨rfl, rfl⟩

theorem Call.isRead_of_isFileRead (c : Call) (h : c.isFileRead = true) : c.isRead = true := by
  cases c <;> simp_all [Call.isRead, Call.isFileRead]

theorem sys_step {w w1 : World} {c : Call} {ok : Bool} (h : w.sys c = (ok, w1))
    (hc : c.isPidFile = true) : PidStep w w1 := by
  rw [sys_eq h]
  exact ⟨rfl, rfl, rfl, rfl, rfl, Extends.one rfl hc⟩

theorem Lock_step {w w1 : World} {ok : Bool} (h : Lock w = (ok, w1)) : PidStep w w1 := by
  obtain ⟨fs, rfl⟩ := Lock_eq h
  exact ⟨rfl, rfl, rfl, rfl, rfl, Extends.one rfl rfl⟩

theorem Unlock_step {w w1 : World} {ok : Bool} (h : Unlock w = (ok, w1)) : PidStep w w1 := by
  obtain ⟨fs, rfl⟩ := Unlock_eq h
  exact ⟨rfl, rfl, rfl, rfl, rfl, Extends.one rfl rfl⟩

theorem Seek_step {w w1 : World} {ok : Bool} (h : Seek w = (ok, w1)) : PidStep w w1 := by
  rw [Seek_eq h]
  exact ⟨rfl, rfl, rfl, rfl, rfl, Extends.one rfl rfl⟩

theorem Truncate_step {w w1 : World} {ok : Bool} (h : Truncate w = (ok, w1)) :
    PidStep w w1 := by
  rw [Truncate_eq h]
  exact ⟨rfl, rfl, rfl, rfl, rfl, Extends.one rfl rfl⟩

theorem WriteString_step {w w1 : World} {s : List Nat} {ok : Bool}
    (h : WriteString w s = (ok, w1)) : PidStep w w1 := by
  rw [WriteString_eq h]
  exact ⟨rfl, rfl, rfl, rfl, rfl, Extends.one rfl rfl⟩

theorem Sync_step {w w1 : World} {ok : Bool} (h : Sync w = (ok, w1)) : PidStep w w1 :=
  sys_step h rfl

theorem AcquireLock_step {w w1 : World} {res : Option Error} (h : AcquireLock w = (res, w1)) :
    PidStep w w1 := by
  unfold AcquireLock at h
  split at h <;> rename_i w2 h1 <;> simp only [Prod.mk.injEq] at h <;> rw [← h.2] <;>
    exact Lock_step h1

theorem ClearPid_step {w w1 : World} {res : Option Error} (h : ClearPid w = (res, w1)) :
    PidStep w w1 := by
  unfold ClearPid at h
  split at h <;> rename_i wa ha
  · simp only [Prod.mk.injEq] at h
    rw [← h.2]
    exact Lock_step ha
  · split at h <;> rename_i wb hb
    · simp only [Prod.mk.injEq] at h
      rw [← h.2]
      exact (Lock_step ha).compose (Seek_step hb)
    · split at h <;> rename_i wc hc
      · simp only [Prod.mk.injEq] at h
        rw [← h.2]
        exact ((Lock_step ha).compose (Seek_step hb)).compose (Truncate_step hc)
      · split at h <;> rename_i wd hd <;> simp only [Prod.mk.injEq] at h <;> rw [← h.2] <;>
          exact (((Lock_step ha).compose (Seek_step hb)).compose (Truncate_step hc)).compose
            (Unlock_step hd)

theorem ClearPid_success {w w1 : World} (h : ClearPid w = (none, w1)) :
    ∃ fs, w1 = { w with
      content := [],
      offset := 0,
      l := false,
      r := false,
      faults := fs,
      trace := w.trace ++ [⟨.lock, true, w.l, w.r⟩, ⟨.seek, true, true, w.r⟩,
        ⟨.truncate, true, true, w.r⟩, ⟨.unlock, true, true, w.r⟩] } := by
  unfold ClearPid at h
  split at h <;> rename_i wa ha
  · simp at h
  · obtain ⟨fa, rfl⟩ := Lock_eq ha
    split at h <;> rename_i wb hb
    · simp at h
    · have eb := Seek_eq hb
      subst eb
      split at h <;> rename_i wc hc
      · simp at h
      · have ec := Truncate_eq hc
        subst ec
        split at h <;> rename_i wd hd
        · simp at h
        · obtain ⟨fd, rfl⟩ := Unlock_eq hd
          simp only [Prod.mk.injEq, true_and] at h
          exact ⟨fd, by rw [← h]; simp⟩

theorem WritePid_step {w w1 : World} {pid : Int} {res : Option Error}
    (h : WritePid w pid = (res, w1)) : PidStep w w1 := by
  unfold WritePid at h
  split at h <;> rename_i wa ha
  · simp only [Prod.mk.injEq] at h
    rw [← h.2]
    exact Lock_step ha
  · split at h <;> rename_i wb hb
    · simp only [Prod.mk.injEq] at h
      rw [← h.2]
      exact (Lock_step ha).compose (ClearPid_step hb)
    · split at h <;> rename_i wc hc
      · simp only [Prod.mk.injEq] at h
        rw [← h.2]
        exact ((Lock_step ha).compose (ClearPid_step hb)).compose (WriteString_step hc)
      · split at h <;> rename_i wd hd
        · simp only [Prod.mk.injEq] at h
          rw [← h.2]
          exact (((Lock_step ha).compose (ClearPid_step hb)).compose (WriteString_step hc)).compose
            (Sync_step hd)
        · split at h <;> rename_i we he <;> simp only [Prod.mk.injEq] at h <;> rw [← h.2] <;>
            exact ((((Lock_step ha).compose (ClearPid_step hb)).compose
              (WriteString_step hc)).compose (Sync_step hd)).compose (Unlock_step he)

theorem WritePid_success {w w1 : World} {pid : Int} (h : WritePid w pid = (none, w1)) :
    ∃ fs, w1 = { w with
      content := formatInt pid ++ [10],
      offset := (formatInt pid).length + 1,
      l := false,
      r := false,
      faults := fs,
      trace := w.trace ++ [⟨.lock, true, w.l, w.r⟩, ⟨.lock, true, true, w.r⟩,
        ⟨.seek, true, true, w.r⟩, ⟨.truncate, true, true, w.r⟩, ⟨.unlock, true, true, w.r⟩,
        ⟨.write (formatInt pid ++ [10]), true, false, false⟩, ⟨.sync, true, false, false⟩,
        ⟨.unlock, true, false, false⟩] } := by
  unfold WritePid at h
  split at h <;> rename_i wa ha
  · simp at h
  · obtain ⟨fa, rfl⟩ := Lock_eq ha
    split at h <;> rename_i wb hb
    · simp at h
    · obtain ⟨fb, rfl⟩ := ClearPid_success hb
      split at h <;> rename_i wc hc
      · simp at h
      · have ec := WriteString_eq hc
        subst ec
        split at h <;> rename_i wd hd
        · simp at h
        · have ed := sys_eq hd
          subst ed
          split at h <;> rename_i we he
          · simp at h
          · obtain ⟨fe, rfl⟩ := Unlock_eq he
            simp only [Prod.mk.injEq, true_and] at h
            exact ⟨fe, by rw [← h]; simp [writeAt]⟩

theorem sys_readStep {w w1 : World} {c : Call} {ok : Bool} (h : w.sys c = (ok, w1))
    (hc : c.isRead = true) : ReadStep w w1 := by
  rw [sys_eq h]
  exact ⟨⟨rfl, rfl, rfl, rfl, rfl, Extends.one rfl (Call.isPidFile_of_isRead c hc)⟩, rfl,
    Extends.one rfl hc⟩

theorem RLock_readStep {w w1 : World} {ok : Bool} (h : RLock w = (ok, w1)) :
    ReadStep w w1 ∧ Extends Call.isFileRead w w1 := by
  obtain ⟨fs, rfl⟩ := RLock_eq h
  exact ⟨⟨⟨rfl, rfl, rfl, rfl, rfl, Extends.one rfl rfl⟩, rfl, Extends.one rfl rfl⟩,
    Extends.one rfl rfl⟩

theorem Unlock_readStep {w w1 : World} {ok : Bool} (h : Unlock w = (ok, w1)) :
    ReadStep w w1 ∧ Extends Call.isFileRead w w1 := by
  obtain ⟨fs, rfl⟩ := Unlock_eq h
  exact ⟨⟨⟨rfl, rfl, rfl, rfl, rfl, Extends.one rfl rfl⟩, rfl, Extends.one rfl rfl⟩,
    Extends.one rfl rfl⟩

theorem Seek_readStep {w w1 : World} {ok : Bool} (h : Seek w = (ok, w1)) :
    ReadStep w w1 ∧ Extends Call.isFileRead w w1 := by
  rw [Seek_eq h]
  exact ⟨⟨⟨rfl, rfl, rfl, rfl, rfl, Extends.one rfl rfl⟩, rfl, Extends.one rfl rfl⟩,
    Extends.one rfl rfl⟩

theorem readLine_readStep {w w1 : World} {res : Option (List Nat)}
    (h : readLine w = (res, w1)) : ReadStep w w1 ∧ Extends Call.isFileRead w w1 := by
  obtain ⟨ok, off, rfl, _⟩ := readLine_eq h
  exact ⟨⟨⟨rfl, rfl, rfl, rfl, rfl, Extends.one rfl rfl⟩, rfl, Extends.one rfl rfl⟩,
    Extends.one rfl rfl⟩

theorem Signal_readStep {w w1 : World} {pid : Int} {ok : Bool}
    (h : Signal w pid 0 = (ok, w1)) : ReadStep w w1 := by
  rw [(Signal_eq h).1]
  exact ⟨⟨rfl, rfl, rfl, rfl, rfl, Extends.one rfl rfl⟩, rfl, Extends.one rfl rfl⟩

/-- Whatever fails, `ReadPid` makes calls that read the PID file only, and returns a pid only
when it is the pid that the file holds. -/
theorem ReadPid_spec {w w1 : World} {pid : Int} {res : Option Error}
    (h : ReadPid w = ((pid, res), w1)) :
    ReadStep w w1 ∧ Extends Call.isFileRead w w1 ∧
      ((pid = 0 ∧ res ≠ none ∧ (storedPid w.content = none → res ≠ some .unlock)) ∨
        (storedPid w.content = some pid ∧ (res = none ∨ res = some .unlock))) ∧
      (res = none → w1.l = false ∧ w1.r = false) := by
  unfold ReadPid at h
  split at h <;> rename_i wa ha
  · simp only [Prod.mk.injEq] at h
    obtain ⟨⟨rfl, rfl⟩, rfl⟩ := h
    exact ⟨(RLock_readStep ha).1, (RLock_readStep ha).2, Or.inl ⟨rfl, by simp, by simp⟩,
      by simp⟩
  · have sa := RLock_readStep ha
    split at h <;> rename_i wb hb
    · simp only [Prod.mk.injEq] at h
      obtain ⟨⟨rfl, rfl⟩, rfl⟩ := h
      exact ⟨sa.1.followedBy (Seek_readStep hb).1, sa.2.append (Seek_readStep hb).2,
        Or.inl ⟨rfl, by simp, by simp⟩, by simp⟩
    · have sb := Seek_readStep hb
      have eb := Seek_eq hb
      split at h <;> rename_i wc hc
      · simp only [Prod.mk.injEq] at h
        obtain ⟨⟨rfl, rfl⟩, rfl⟩ := h
        exact ⟨(sa.1.followedBy sb.1).followedBy (readLine_readStep hc).1,
          (sa.2.append sb.2).append (readLine_readStep hc).2, Or.inl ⟨rfl, by simp, by simp⟩,
          by simp⟩
      · rename_i line
        have sc := readLine_readStep hc
        obtain ⟨_, _, _, hline⟩ := readLine_eq hc
        have hline1 : ReadLine w.content = some line := by
          rcases hline with hline | hline
          · simp at hline
          · rw [hline, eb]
            simp [sa.1.content]
        split at h <;> rename_i hat
        · simp only [Prod.mk.injEq] at h
          obtain ⟨⟨rfl, rfl⟩, rfl⟩ := h
          exact ⟨(sa.1.followedBy sb.1).followedBy sc.1, (sa.2.append sb.2).append sc.2,
            Or.inl ⟨rfl, by simp, by simp⟩, by simp⟩
        · rename_i v
          split at h <;> rename_i hv
          · simp only [Prod.mk.injEq] at h
            obtain ⟨⟨rfl, rfl⟩, rfl⟩ := h
            exact ⟨(sa.1.followedBy sb.1).followedBy sc.1, (sa.2.append sb.2).append sc.2,
              Or.inl ⟨rfl, by simp, by simp⟩, by simp⟩
          · have hst : storedPid w.content = some v := by
              unfold storedPid
              simp only [hline1, hat]
              rw [if_neg hv]
            split at h <;> rename_i wd hd <;> simp only [Prod.mk.injEq] at h <;>
              obtain ⟨⟨rfl, rfl⟩, rfl⟩ := h
            · exact ⟨((sa.1.followedBy sb.1).followedBy sc.1).followedBy (Unlock_readStep hd).1,
                ((sa.2.append sb.2).append sc.2).append (Unlock_readStep hd).2,
                Or.inr ⟨hst, Or.inr rfl⟩, by simp⟩
            · obtain ⟨fd, rfl⟩ := Unlock_eq hd
              exact ⟨((sa.1.followedBy sb.1).followedBy sc.1).followedBy (Unlock_readStep hd).1,
                ((sa.2.append sb.2).append sc.2).append (Unlock_readStep hd).2,
                Or.inr ⟨hst, Or.inl rfl⟩, by simp⟩

/-- Whatever fails, `Alive` makes calls that read the PID file and probe a process only; it
returns `true` only for a pid that the file holds and that exists, and probes no process
when it finds no pid. -/
theorem Alive_spec {w w1 : World} {res : Bool} (h : Alive w = (res, w1)) :
    ReadStep w w1 ∧
      (res = true → ∃ pid, storedPid w.content = some pid ∧ w.processExists pid = true ∧
        w1.l = false ∧ w1.r = false) ∧
      (storedPid w.content = none → res = false ∧ Extends Call.isFileRead w w1) := by
  unfold Alive at h
  split at h <;> rename_i wa ha
  · rename_i err pid
    simp only [Prod.mk.injEq] at h
    obtain ⟨rfl, rfl⟩ := h
    have s := ReadPid_spec ha
    exact ⟨s.1, by simp, fun _ => ⟨rfl, s.2.1⟩⟩
  · rename_i pid
    have s := ReadPid_spec ha
    have hst : storedPid w.content = some pid := by
      rcases s.2.2.1 with hs | hs
      · simp at hs
      · exact hs.1
    have hflags := s.2.2.2 rfl
    split at h <;> rename_i wb hb <;> simp only [Prod.mk.injEq] at h <;>
      obtain ⟨rfl, rfl⟩ := h
    · exact ⟨s.1.followedBy (Signal_readStep hb), by simp, fun hn => by simp [hn] at hst⟩
    · have e := Signal_eq hb
      refine ⟨s.1.followedBy (Signal_readStep hb), fun _ => ⟨pid, hst, ?_, ?_, ?_⟩,
        fun hn => by simp [hn] at hst⟩
      · have := e.2
        unfold World.processExists at this ⊢
        rw [s.1.step.self, s.1.step.live] at this
        exact this.symm
      · rw [e.1]
        exact hflags.1
      · rw [e.1]
        exact hflags.2

/-! ## The words of the specification against `ReadLine` and `Atoi` -/

theorem ReadLine_short (c : List Nat) (hne : c ≠ [])
    (h : (c.takeWhile (· ≠ 10)).length < defaultBufSize) : ReadLine c = some (firstLine c) := by
  have hsplit := List.takeWhile_append_dropWhile (fun b => decide (b ≠ 10)) c
  have h10 : 10 ∉ c.takeWhile (· ≠ 10) := fun hm => by
    have := List.mem_takeWhile_imp hm
    simp at this
  cases hd : c.dropWhile (· ≠ 10) with
  | nil =>
    rw [hd, List.append_nil] at hsplit
    have hc10 : 10 ∉ c := by rw [← hsplit]; exact h10
    have hlen : c.length < defaultBufSize := by rw [← hsplit]; exact h
    unfold ReadLine firstLine
    simp only [List.take_of_length_le (Nat.le_of_lt hlen), indexLF_none c hc10, hsplit,
      lt_self_iff_false, false_and, if_false]
    rw [if_neg (by omega), if_neg (by
      intro h0
      exact hne (List.length_eq_zero.1 h0))]
  | cons b rest =>
    have hb : b = 10 := by
      have := List.head_dropWhile_not (fun b => decide (b ≠ 10)) c (by rw [hd]; simp)
      simp only [hd, List.head_cons] at this
      simpa using this
    subst hb
    rw [hd] at hsplit
    have e : ReadLine c = ReadLine (c.takeWhile (· ≠ 10) ++ 10 :: rest) := by rw [hsplit]
    rw [e, ReadLine_line _ _ h10 h]
    unfold firstLine
    have hlt : (c.takeWhile (· ≠ 10)).length < c.length := by
      conv_rhs => rw [← hsplit]
      simp
    simp only [hlt, true_and]

theorem Atoi_some {s : List Nat} {v : Int} (h : Atoi s = some v) :
    isDecimalInteger s = true ∧ integerValue s = v := by
  cases s with
  | nil => simp [Atoi] at h
  | cons c t =>
    unfold Atoi at h
    simp only [List.head?_cons, Option.some.injEq, List.tail_cons] at h
    by_cases h43 : c = 43
    · subst h43
      simp only [true_or, if_true, Nat.reduceEqDiff, if_false] at h
      split at h
      · simp at h
      · rename_i hds
        simp only [not_or, Bool.not_eq_false] at hds
        split at h
        · simp only [Option.some.injEq] at h
          simp [isDecimalInteger, integerValue, hds.1, hds.2, ← digitsValue_eq, h]
        · simp at h
    · by_cases h45 : c = 45
      · subst h45
        simp only [or_true, if_true] at h
        split at h
        · simp at h
        · rename_i hds
          simp only [not_or, Bool.not_eq_false] at hds
          split at h
          · simp only [Option.some.injEq] at h
            simp [isDecimalInteger, integerValue, hds.1, hds.2, ← digitsValue_eq, h]
          · simp at h
      · simp only [h43, h45, or_self, if_false] at h
        split at h
        · simp at h
        · rename_i hds
          simp only [not_or, Bool.not_eq_false] at hds
          split at h
          · simp only [Option.some.injEq] at h
            simp [isDecimalInteger, integerValue, h43, h45, hds.2, ← digitsValue_eq, h]
          · simp at h

/-- A file whose first line is shorter than the buffer of the reader holds a pid only when
that line is a decimal integer of a positive value. -/
theorem storedPid_short {c : List Nat} {pid : Int}
    (hlen : (c.takeWhile (· ≠ 10)).length < defaultBufSize) (h : storedPid c = some pid) :
    c ≠ [] ∧ isDecimalInteger (firstLine c) = true ∧ integerValue (firstLine c) = pid ∧
      0 < pid := by
  have hne : c ≠ [] := by
    rintro rfl
    simp [storedPid, ReadLine, indexLF, defaultBufSize] at h
  unfold storedPid at h
  rw [ReadLine_short c hne hlen] at h
  simp only at h
  split at h
  · simp at h
  · rename_i v hv
    have := Atoi_some hv
    split at h
    · simp at h
    · simp only [Option.some.injEq] at h
      subst h
      exact ⟨hne, this.1, this.2, by omega⟩

/-! ## A first line that is longer than the buffer of the reader -/

theorem digitsValue_zeros (n : Nat) (s : List Nat) :
    digitsValue (List.replicate n 48 ++ s) = digitsValue s := by
  unfold digitsValue
  rw [List.foldl_append]
  congr 1
  induction n with
  | zero => rfl
  | succ n ih => rw [List.replicate_succ, List.foldl_cons]; simpa using ih

theorem ReadLine_zeros (n : Nat) (hn : n + 1 = defaultBufSize) :
    ReadLine (List.replicate n 48 ++ [55, 120, 10]) = some (List.replicate n 48 ++ [55]) := by
  have htake : (List.replicate n 48 ++ [55, 120, 10]).take defaultBufSize =
      List.replicate n 48 ++ [55] := by
    rw [List.take_append_eq_append_take, ← hn]
    simp
  have h10 : 10 ∉ List.replicate n 48 ++ [55] := by simp
  unfold ReadLine
  simp only [htake, indexLF_none _ h10]
  simp [← hn]

theorem storedPid_zeros (n : Nat) (hn : n + 1 = defaultBufSize) :
    storedPid (List.replicate n 48 ++ [55, 120, 10]) = some 7 := by
  have hA : Atoi (List.replicate n 48 ++ [55]) = some 7 := by
    unfold Atoi
    have hh : (List.replicate n 48 ++ [55]).head? ≠ some 43 ∧
        (List.replicate n 48 ++ [55]).head? ≠ some 45 := by
      cases n <;> simp [List.replicate_succ]
    simp only [hh.1, hh.2, or_self, if_false, digitsValue_zeros]
    simp [isDigit, digitsValue, maxInt]
  unfold storedPid
  simp [ReadLine_zeros n hn, hA]

theorem isDecimalInteger_zeros (n : Nat) :
    isDecimalInteger (firstLine (List.replicate n 48 ++ [55, 120, 10])) = false := by
  have h : (List.replicate n 48 ++ [55, 120, 10]).takeWhile (· ≠ 10) =
      List.replicate n 48 ++ [55, 120] := by
    rw [List.takeWhile_append]
    simp [List.takeWhile_replicate, List.takeWhile]
  have hf : firstLine (List.replicate n 48 ++ [55, 120, 10]) =
      List.replicate n 48 ++ [55, 120] := by
    unfold firstLine
    simp only [h]
    simp
  rw [hf]
  cases n <;> simp [isDecimalInteger, isDigit, List.replicate_succ]

end Process

namespace Main

open Process

/-! ## `run` -/

theorem Chdir_eq {w w1 : World} {path : String} {ok : Bool} (h : Chdir w path = (ok, w1)) :
    w1 = { w with
      cwd := if ok then path else w.cwd,
      faults := w.faults.tail,
      trace := w.trace ++ [⟨.chdir path, ok, w.l, w.r⟩] } := by
  unfold Chdir at h
  split at h <;> rename_i w2 hs <;> have e := sys_eq hs <;> simp only [Prod.mk.injEq] at h <;>
    subst e <;> rw [← h.2, ← h.1] <;> simp

theorem redirectStdinToDevNull_eq {w w1 : World} {ok : Bool}
    (h : redirectStdinToDevNull w = (ok, w1)) :
    ∃ fs es, w1 = { w with faults := fs, trace := w.trace ++ es } ∧
      ∀ e ∈ es, e.call.isExec = false ∧ e.call.isFork = false := by
  unfold redirectStdinToDevNull at h
  split at h <;> rename_i wa ha <;> have ea := sys_eq ha <;> subst ea
  · simp only [Prod.mk.injEq] at h
    exact ⟨_, _, h.2.symm, by simp [Call.isExec, Call.isFork]⟩
  · split at h <;> rename_i wb hb <;> have eb := sys_eq hb <;> subst eb
    · simp only [Prod.mk.injEq] at h
      exact ⟨w.faults.tail.tail,
        [⟨.openDevNull, true, w.l, w.r⟩, ⟨.dup2 0, false, w.l, w.r⟩], by rw [← h.2]; simp,
        by simp [Call.isExec, Call.isFork]⟩
    · have ec := sys_eq h
      exact ⟨w.faults.tail.tail.tail,
        [⟨.openDevNull, true, w.l, w.r⟩, ⟨.dup2 0, true, w.l, w.r⟩, ⟨.close, ok, w.l, w.r⟩],
        by rw [ec]; simp, by simp [Call.isExec, Call.isFork]⟩

/-- The test of `run` for a worker that runs already, whatever fails: it reads the PID file
and probes a process only, and asks to go on or returns an error of the PID file unless the
record is alive with the pid of another process. -/
theorem runCheck_spec {w w1 : World} {res : Option Error} (h : runCheck w = (res, w1)) :
    ReadStep w w1 ∧
      (∀ pid, res = some (.alreadyRunning pid) →
        (Alive w).1 = true ∧ storedPid w.content = some pid ∧ pid ≠ w.self) := by
  unfold runCheck at h
  split at h <;> rename_i wa ha
  · have sa := Alive_spec ha
    split at h <;> rename_i wb hb
    · simp only [Prod.mk.injEq] at h
      obtain ⟨rfl, rfl⟩ := h
      exact ⟨sa.1.followedBy (ReadPid_spec hb).1, by simp⟩
    · rename_i pid
      have sb := ReadPid_spec hb
      have hst : storedPid w.content = some pid := by
        rcases sb.2.2.1 with hs | hs
        · simp at hs
        · rw [← sa.1.content]
          exact hs.1
      split at h <;> rename_i hne <;> simp only [Prod.mk.injEq] at h <;>
        obtain ⟨rfl, rfl⟩ := h
      · refine ⟨sa.1.followedBy sb.1, fun p hp => ?_⟩
        simp only [Option.some.injEq, Error.alreadyRunning.injEq] at hp
        subst hp
        refine ⟨by rw [ha], hst, ?_⟩
        rw [← sa.1.step.self, ← sb.1.step.self]
        exact hne
      · exact ⟨sa.1.followedBy sb.1, by simp⟩
  · simp only [Prod.mk.injEq] at h
    obtain ⟨rfl, rfl⟩ := h
    exact ⟨(Alive_spec ha).1, by simp⟩

end Main

namespace Process

theorem sys_ext {p : Call → Bool} {w w1 : World} {c : Call} {ok : Bool}
    (h : w.sys c = (ok, w1)) (hp : p c = true) : Extends p w w1 := by
  rw [sys_eq h]
  exact Extends.one rfl hp

theorem Call.isQuiet_of_isPidFile (c : Call) (h : c.isPidFile = true) : c.isQuiet = true := by
  cases c <;> simp_all [Call.isQuiet, Call.isPidFile, Call.isExec, Call.isFork]

theorem Call.isQuiet_of_isRead (c : Call) (h : c.isRead = true) : c.isQuiet = true :=
  Call.isQuiet_of_isPidFile c (Call.isPidFile_of_isRead c h)

theorem PidStep.quiet {w w1 : World} (h : PidStep w w1) : Extends Call.isQuiet w w1 :=
  h.trace.mono Call.isQuiet_of_isPidFile

end Process

namespace Main

open Process

theorem Chdir_ext {p : Call → Bool} {w w1 : World} {path : String} {ok : Bool}
    (h : Chdir w path = (ok, w1)) (hp : p (.chdir path) = true) : Extends p w w1 := by
  rw [Chdir_eq h]
  exact Extends.one rfl hp

theorem redirectStdinToDevNull_ext {w w1 : World} {ok : Bool}
    (h : redirectStdinToDevNull w = (ok, w1)) : Extends Call.isQuiet w w1 := by
  obtain ⟨fs, es, rfl, hq⟩ := redirectStdinToDevNull_eq h
  exact ⟨es, rfl, fun e he => by simp [Call.isQuiet, hq e he]⟩

theorem runWorker_quiet (w : World) (options : Options) (ese : List Entry)
    (hq : ∀ e ∈ ese, e.call.isQuiet = true) :
    ∀ e ∈ [⟨.symlinks, true, w.l, w.r⟩, ⟨.mkdirs options.DataDir, true, w.l, w.r⟩] ++
        [⟨.lock, true, w.l, w.r⟩, ⟨.lock, true, true, w.r⟩, ⟨.seek, true, true, w.r⟩,
          ⟨.truncate, true, true, w.r⟩, ⟨.unlock, true, true, w.r⟩] ++
        ([⟨.sync, true, false, false⟩, ⟨.unlock, true, false, false⟩] ++ ese ++
          [⟨.javaExecution false, true, false, false⟩]), e.call.isQuiet = true := by
  intro e h
  rcases List.mem_append.1 h with h12 | h3
  · rcases List.mem_append.1 h12 with h1 | h2
    · simp only [List.mem_cons, List.mem_singleton, List.not_mem_nil, or_false] at h1
      rcases h1 with rfl | rfl <;> rfl
    · simp only [List.mem_cons, List.mem_singleton, List.not_mem_nil, or_false] at h2
      rcases h2 with rfl | rfl | rfl | rfl | rfl <;> rfl
  · rcases List.mem_append.1 h3 with h3 | h3
    · rcases List.mem_append.1 h3 with h3 | h3
      · simp only [List.mem_cons, List.mem_singleton, List.not_mem_nil, or_false] at h3
        rcases h3 with rfl | rfl <;> rfl
      · exact hq e h3
    · simp only [List.mem_singleton] at h3
      subst h3
      rfl

/-- The statements of `run` after its test, whatever fails: either `syscall.Exec` is not
called, or it is the last call, made after the change of directory and after the write of the
caller's pid, which is then the content of the PID file. -/
theorem runWorker_spec (w : World) (options : Options) :
    ((∀ argv, (runWorker w options).1 ≠ .replaced argv) ∧
        (runWorker w options).1 ≠ .returned (some .exec) ∧
        Extends Call.isQuiet w (runWorker w options).2) ∨
      ((runWorker w options).2.content = formatInt w.self ++ [10] ∧
        (runWorker w options).2.cwd = options.DataDir ∧
        ∃ es1 es2 es3 fl fr ok,
          (runWorker w options).1 =
            (if ok = true then .replaced options.runCommand else .returned (some .exec)) ∧
          (runWorker w options).2.trace = w.trace ++
            (es1 ++ ⟨.chdir options.DataDir, true, fl, fr⟩ :: es2 ++
              ⟨.write (formatInt w.self ++ [10]), true, false, false⟩ :: es3 ++
              [⟨.exec options.runCommand, ok, false, false⟩]) ∧
          ∀ e ∈ es1 ++ es2 ++ es3, e.call.isQuiet = true) := by
  unfold runWorker
  split <;> rename_i wa ha
  · exact Or.inl ⟨by simp, by simp, sys_ext ha rfl⟩
  · have xa : Extends Call.isQuiet w wa := sys_ext ha rfl
    split <;> rename_i wb hb
    · exact Or.inl ⟨by simp, by simp, xa.append (sys_ext hb rfl)⟩
    · have xb : Extends Call.isQuiet w wb := xa.append (sys_ext hb rfl)
      split <;> rename_i wc hc
      · exact Or.inl ⟨by simp, by simp, xb.append (Chdir_ext hc rfl)⟩
      · have xc : Extends Call.isQuiet w wc := xb.append (Chdir_ext hc rfl)
        split <;> rename_i wd hd
        · exact Or.inl ⟨by simp, by simp, xc.append (WritePid_step hd).quiet⟩
        · have xd : Extends Call.isQuiet w wd := xc.append (WritePid_step hd).quiet
          split <;> rename_i we he
          · exact Or.inl ⟨by simp, by simp, xd.append (redirectStdinToDevNull_ext he)⟩
          · have xe : Extends Call.isQuiet w we := xd.append (redirectStdinToDevNull_ext he)
            split <;> rename_i wf hf
            · exact Or.inl ⟨by simp, by simp, xe.append (sys_ext hf rfl)⟩
            · have ea := sys_eq ha
              subst ea
              have eb := sys_eq hb
              subst eb
              have ec := Chdir_eq hc
              subst ec
              obtain ⟨fd, rfl⟩ := WritePid_success hd
              obtain ⟨fe, ese, rfl, hq⟩ := redirectStdinToDevNull_eq he
              have ef := sys_eq hf
              subst ef
              split <;> rename_i wg hg <;> have eg := sys_eq hg <;> subst eg
              · refine Or.inr ⟨rfl, rfl,
                  [⟨.symlinks, true, w.l, w.r⟩, ⟨.mkdirs options.DataDir, true, w.l, w.r⟩],
                  [⟨.lock, true, w.l, w.r⟩, ⟨.lock, true, true, w.r⟩,
                    ⟨.seek, true, true, w.r⟩, ⟨.truncate, true, true, w.r⟩,
                    ⟨.unlock, true, true, w.r⟩],
                  [⟨.sync, true, false, false⟩, ⟨.unlock, true, false, false⟩] ++ ese ++
                    [⟨.javaExecution false, true, false, false⟩], w.l, w.r, false, rfl, ?_, ?_⟩
                · simp
                · exact runWorker_quiet w options ese
                    (fun e h => by simp [Call.isQuiet, hq e h])
              · refine Or.inr ⟨rfl, rfl,
                  [⟨.symlinks, true, w.l, w.r⟩, ⟨.mkdirs options.DataDir, true, w.l, w.r⟩],
                  [⟨.lock, true, w.l, w.r⟩, ⟨.lock, true, true, w.r⟩,
                    ⟨.seek, true, true, w.r⟩, ⟨.truncate, true, true, w.r⟩,
                    ⟨.unlock, true, true, w.r⟩],
                  [⟨.sync, true, false, false⟩, ⟨.unlock, true, false, false⟩] ++ ese ++
                    [⟨.javaExecution false, true, false, false⟩], w.l, w.r, true, rfl, ?_, ?_⟩
                · simp
                · exact runWorker_quiet w options ese
                    (fun e h => by simp [Call.isQuiet, hq e h])

end Main

namespace Process

theorem Alive_ok (w : World) (pid : Int) (h : w.faults = [])
    (hp : storedPid w.content = some pid) :
    Alive w = (w.processExists pid,
      { w with
        offset := min defaultBufSize w.content.length,
        l := false,
        r := false,
        trace := w.trace ++ [⟨.rlock, true, w.l, w.r⟩, ⟨.seek, true, w.l, true⟩,
          ⟨.read, true, w.l, true⟩, ⟨.unlock, true, w.l, true⟩,
          ⟨.signal pid 0, w.processExists pid, false, false⟩] }) := by
  unfold Alive
  rw [ReadPid_ok w pid h hp]
  simp only [Signal, World.note, World.processExists]
  split <;> rename_i heq <;> simp only [Prod.mk.injEq] at heq <;>
    simp [← heq.1, ← heq.2]

theorem Alive_none (w : World) (h : w.faults = []) (hp : storedPid w.content = none) :
    Alive w = (false,
      { w with
        offset := min defaultBufSize w.content.length,
        r := true,
        trace := w.trace ++ [⟨.rlock, true, w.l, w.r⟩, ⟨.seek, true, w.l, true⟩,
          ⟨.read, true, w.l, true⟩] }) := by
  obtain ⟨err, he⟩ := ReadPid_none w h hp
  unfold Alive
  rw [he]

theorem Call.not_isExec_of_isQuiet (c : Call) (h : c.isQuiet = true) : c.isExec = false := by
  cases c <;> simp_all [Call.isQuiet, Call.isExec]

theorem Call.not_isFork_of_isQuiet (c : Call) (h : c.isQuiet = true) : c.isFork = false := by
  cases c <;> simp_all [Call.isQuiet, Call.isFork]

end Process

namespace Main

open Process

theorem runWorker_ne_alreadyRunning (w : World) (options : Options) (pid : Int) :
    (runWorker w options).1 ≠ .returned (some (.alreadyRunning pid)) := by
  unfold runWorker
  repeat' split
  all_goals simp

/-! ## `start` -/

theorem startRole_of_not_alive (w : World) (h : (Alive w).1 = false) :
    startRole w = (.ok false, (Alive w).2) := by
  have e1 : Alive w = (false, (Alive w).2) := Prod.ext h rfl
  unfold startRole
  rw [e1]

theorem startRole_ok (w : World) (pid : Int) (hf : w.faults = [])
    (ha : (Alive w).1 = true) (hs : storedPid w.content = some pid) :
    startRole w = (if pid = w.self then .ok true else .error (.alreadyRunning pid),
      { w with
        offset := min defaultBufSize w.content.length,
        l := false,
        r := false,
        trace := w.trace ++ [⟨.rlock, true, w.l, w.r⟩, ⟨.seek, true, w.l, true⟩,
          ⟨.read, true, w.l, true⟩, ⟨.unlock, true, w.l, true⟩,
          ⟨.signal pid 0, true, false, false⟩, ⟨.rlock, true, false, false⟩,
          ⟨.seek, true, false, true⟩, ⟨.read, true, false, true⟩,
          ⟨.unlock, true, false, true⟩] }) := by
  have e := Alive_ok w pid hf hs
  have hex : w.processExists pid = true := by
    rw [e] at ha
    exact ha
  rw [hex] at e
  have e2 := ReadPid_ok (Alive w).2 pid (by rw [e]; exact hf) (by rw [e]; exact hs)
  unfold startRole
  rw [e] at e2 ⊢
  simp only
  rw [e2]
  simp only
  split <;> simp

theorem Fork_eq {w w1 : World} {argv : List String} {cwd : String} {res : Option Int}
    (h : Fork w argv cwd = (res, w1)) :
    (res = none ∧ w1 = { w with
        faults := w.faults.tail,
        trace := w.trace ++ [⟨.fork argv cwd, false, w.l, w.r⟩] }) ∨
      (res = some w.nextPid ∧ w1 = { w with
        live := w.nextPid :: w.live,
        faults := w.faults.tail,
        trace := w.trace ++ [⟨.fork argv cwd, true, w.l, w.r⟩] }) := by
  unfold Fork at h
  split at h <;> rename_i w2 hs <;> have e := sys_eq hs <;> simp only [Prod.mk.injEq] at h <;>
    subst e
  · exact Or.inr ⟨h.1.symm, h.2.symm⟩
  · exact Or.inl ⟨h.1.symm, h.2.symm⟩

theorem AcquireLock_success {w w1 : World} (h : AcquireLock w = (none, w1)) :
    ∃ fs, w1 = { w with
      l := true,
      faults := fs,
      trace := w.trace ++ [⟨.lock, true, w.l, w.r⟩] } := by
  unfold AcquireLock at h
  split at h <;> rename_i w2 hl
  · simp at h
  · obtain ⟨fs, rfl⟩ := Lock_eq hl
    simp only [Prod.mk.injEq, true_and] at h
    exact ⟨fs, by rw [← h]; simp⟩

theorem printInfo_success {w w1 : World} {message : Message}
    (h : printInfo w message = (none, w1)) :
    w1 = { w with
      faults := w.faults.tail,
      trace := w.trace ++ [⟨.printInfo message, true, w.l, w.r⟩] } := by
  unfold printInfo at h
  split at h <;> rename_i w2 hs
  · have e := sys_eq hs
    subst e
    simp only [Prod.mk.injEq, true_and] at h
    exact h.symm
  · split at h <;> simp at h

/-- The statements of `start` for the parent, when they end with `return nil`: the lock is
taken, then the child is started, then its pid is written, and these are all the calls. -/
theorem startParent_success {w w1 : World} {cwd : String}
    (h : startParent w cwd = (.returned none, w1)) :
    ∃ fs, w1 = { w with
      content := formatInt w.nextPid ++ [10],
      offset := (formatInt w.nextPid).length + 1,
      l := false,
      r := false,
      live := w.nextPid :: w.live,
      faults := fs,
      trace := w.trace ++ [⟨.lock, true, w.l, w.r⟩,
        ⟨.fork (Commands.RewriteArgs w.args) cwd, true, true, w.r⟩,
        ⟨.lock, true, true, w.r⟩, ⟨.lock, true, true, w.r⟩, ⟨.seek, true, true, w.r⟩,
        ⟨.truncate, true, true, w.r⟩, ⟨.unlock, true, true, w.r⟩,
        ⟨.write (formatInt w.nextPid ++ [10]), true, false, false⟩,
        ⟨.sync, true, false, false⟩, ⟨.unlock, true, false, false⟩,
        ⟨.printInfo (.startedAs w.nextPid), true, false, false⟩] } := by
  unfold startParent at h
  split at h <;> rename_i wa ha
  · simp at h
  · obtain ⟨fa, rfl⟩ := AcquireLock_success ha
    split at h <;> rename_i wb hb
    · simp at h
    · rename_i pid
      rcases Fork_eq hb with ⟨hn, _⟩ | ⟨hpid, rfl⟩
      · simp at hn
      · simp only [Option.some.injEq] at hpid
        subst hpid
        split at h <;> rename_i wc hc
        · simp at h
        · obtain ⟨fc, rfl⟩ := WritePid_success hc
          split at h <;> rename_i wd hd
          · simp at h
          · have ed := printInfo_success hd
            subst ed
            simp only [Prod.mk.injEq, true_and] at h
            exact ⟨fc.tail, by rw [← h]; simp⟩

/-- The statements of `start` from `CreateAppSymlinks` on for the parent, when they end with
`return nil`. -/
theorem startWorker_parent_success {w w1 : World} {options : Options}
    (h : startWorker w options false = (.returned none, w1)) :
    ∃ fs, w1 = { w with
      content := formatInt w.nextPid ++ [10],
      offset := (formatInt w.nextPid).length + 1,
      l := false,
      r := false,
      live := w.nextPid :: w.live,
      cwd := options.DataDir,
      faults := fs,
      trace := w.trace ++ [⟨.symlinks, true, w.l, w.r⟩,
        ⟨.mkdirs options.launcherLogDir, true, w.l, w.r⟩,
        ⟨.mkdirs options.DataDir, true, w.l, w.r⟩, ⟨.getwd, true, w.l, w.r⟩,
        ⟨.chdir options.DataDir, true, w.l, w.r⟩, ⟨.lock, true, w.l, w.r⟩,
        ⟨.fork (Commands.RewriteArgs w.args) w.cwd, true, true, w.r⟩,
        ⟨.lock, true, true, w.r⟩, ⟨.lock, true, true, w.r⟩, ⟨.seek, true, true, w.r⟩,
        ⟨.truncate, true, true, w.r⟩, ⟨.unlock, true, true, w.r⟩,
        ⟨.write (formatInt w.nextPid ++ [10]), true, false, false⟩,
        ⟨.sync, true, false, false⟩, ⟨.unlock, true, false, false⟩,
        ⟨.printInfo (.startedAs w.nextPid), true, false, false⟩] } := by
  unfold startWorker at h
  split at h <;> rename_i wa ha
  · simp at h
  · have ea := sys_eq ha
    subst ea
    split at h <;> rename_i wb hb
    · simp at h
    · have eb := sys_eq hb
      subst eb
      split at h <;> rename_i wc hc
      · simp at h
      · have ec := sys_eq hc
        subst ec
        split at h <;> rename_i wd hd
        · simp at h
        · have ed := sys_eq hd
          subst ed
          split at h <;> rename_i we he
          · simp at h
          · have ee := Chdir_eq he
            subst ee
            simp only [Bool.not_false, if_true] at h
            obtain ⟨fs, rfl⟩ := startParent_success h
            exact ⟨fs, by simp⟩

theorem startWorker_parent_ok (w : World) (options : Options) (hf : w.faults = []) :
    (startWorker w options false).1 = .returned none := by
  obtain ⟨content, offset, l, r, self, live, cwd, args, nextPid, faults, trace⟩ := w
  simp only at hf
  subst hf
  simp only [startWorker, Chdir, World.sys, List.headD_nil, Bool.not_false, List.tail_nil,
    if_true, startParent, AcquireLock]
  cases l <;> cases r <;>
    simp [Lock, Fork, WritePid, ClearPid, Unlock, Seek, Truncate, WriteString, Sync,
      printInfo, World.sys, World.note]

/-- The first statements of `start`, whatever fails: they read the PID file and probe a
process only, and the part that they give to the caller follows the record. -/
theorem startRole_spec {w w1 : World} {res : Except Error Bool} (h : startRole w = (res, w1)) :
    ReadStep w w1 ∧
      (res = .ok false → (Alive w).1 = false) ∧
      (res = .ok true → (Alive w).1 = true ∧ storedPid w.content = some w.self) ∧
      (∀ pid, res = .error (.alreadyRunning pid) →
        (Alive w).1 = true ∧ storedPid w.content = some pid ∧ pid ≠ w.self) := by
  unfold startRole at h
  split at h <;> rename_i wa ha
  · have sa := Alive_spec ha
    split at h <;> rename_i wb hb
    · simp only [Prod.mk.injEq] at h
      obtain ⟨rfl, rfl⟩ := h
      exact ⟨sa.1.followedBy (ReadPid_spec hb).1, by simp, by simp, by simp⟩
    · rename_i pid
      have sb := ReadPid_spec hb
      have hst : storedPid w.content = some pid := by
        rcases sb.2.2.1 with hs | hs
        · simp at hs
        · rw [← sa.1.content]
          exact hs.1
      have hself : wb.self = w.self := (sa.1.followedBy sb.1).step.self
      split at h <;> rename_i hne <;> simp only [Prod.mk.injEq] at h <;>
        obtain ⟨rfl, rfl⟩ := h
      · refine ⟨sa.1.followedBy sb.1, by simp, fun _ => ⟨by rw [ha], ?_⟩, by simp⟩
        rw [hst, hne, hself]
      · refine ⟨sa.1.followedBy sb.1, by simp, by simp, fun p hp => ?_⟩
        simp only [Except.error.injEq, Error.alreadyRunning.injEq] at hp
        subst hp
        refine ⟨by rw [ha], hst, ?_⟩
        rw [← hself]
        exact hne
  · simp only [Prod.mk.injEq] at h
    obtain ⟨rfl, rfl⟩ := h
    exact ⟨(Alive_spec ha).1, fun _ => by rw [ha], by simp, by simp⟩

theorem redirectOutput_ext {w w1 : World} {ok : Bool} (h : redirectOutput w = (ok, w1)) :
    Extends (fun c => !c.isFork) w w1 := by
  unfold redirectOutput at h
  split at h <;> rename_i wa ha
  · simp only [Prod.mk.injEq] at h
    rw [← h.2]
    exact sys_ext ha rfl
  · exact (sys_ext ha rfl).append (sys_ext h rfl)

/-- The statements of `start` for the child, whatever fails: `proc.Fork` is not called. -/
theorem startChild_spec (w : World) (options : Options) :
    Extends (fun c => !c.isFork) w (startChild w options).2 := by
  unfold startChild
  split <;> rename_i wa ha
  · exact sys_ext ha rfl
  · have xa : Extends (fun c => !c.isFork) w wa := sys_ext ha rfl
    split <;> rename_i wb hb
    · exact xa.append (redirectOutput_ext hb)
    · have xb := xa.append (redirectOutput_ext hb)
      split <;> rename_i wc hc
      · exact xb.append (sys_ext hc rfl)
      · have xc := xb.append (sys_ext hc rfl)
        split <;> rename_i wd hd <;> exact xc.append (sys_ext hd rfl)

theorem printInfo_ext {w w1 : World} {message : Message} {res : Option Nat}
    (h : printInfo w message = (res, w1)) : Extends Call.isQuiet w w1 := by
  unfold printInfo at h
  split at h <;> rename_i wa ha
  · simp only [Prod.mk.injEq] at h
    rw [← h.2]
    exact sys_ext ha rfl
  · split at h <;> rename_i wb hb <;> simp only [Prod.mk.injEq] at h <;> rw [← h.2] <;>
      exact (sys_ext ha rfl).append (sys_ext hb rfl)

/-- The statements of `start` for the parent, whatever fails: `syscall.Exec` is not called,
and `proc.Fork` is called at most once, with the command line rewritten, after `Lock` has
returned no error, the flag of the exclusive lock being set. -/
theorem startParent_spec (w : World) (cwd : String) :
    ∃ es1 es2 : List Entry, (∀ e ∈ es1 ++ es2, e.call.isQuiet = true) ∧
      ((startParent w cwd).2.trace = w.trace ++ es1 ∨
        ∃ ok r, (startParent w cwd).2.trace = w.trace ++ es1 ++
          ⟨.fork (Commands.RewriteArgs w.args) cwd, ok, true, r⟩ :: es2) := by
  unfold startParent
  split <;> rename_i wa ha
  · obtain ⟨es, he, hq⟩ := (AcquireLock_step ha).quiet
    exact ⟨es, [], by simpa using hq, Or.inl he⟩
  · obtain ⟨fa, rfl⟩ := AcquireLock_success ha
    split <;> rename_i wb hb
    · rcases Fork_eq hb with ⟨_, rfl⟩ | ⟨hn, _⟩
      · refine ⟨[⟨.lock, true, w.l, w.r⟩], [], by simp [Call.isQuiet, Call.isExec, Call.isFork],
          Or.inr ⟨false, w.r, by simp⟩⟩
      · simp at hn
    · rename_i pid
      rcases Fork_eq hb with ⟨hn, _⟩ | ⟨_, rfl⟩
      · simp at hn
      · split <;> rename_i wc hc
        · obtain ⟨es, he, hq⟩ := (WritePid_step hc).quiet
          refine ⟨[⟨.lock, true, w.l, w.r⟩], es, ?_, Or.inr ⟨true, w.r, ?_⟩⟩
          · intro e hm
            rcases List.mem_append.1 hm with h | h
            · simp only [List.mem_singleton] at h
              subst h
              rfl
            · exact hq e h
          · rw [he]
            simp
        · obtain ⟨es, he, hq⟩ := (WritePid_step hc).quiet
          have hquiet : ∀ es', (∀ e ∈ es', e.call.isQuiet = true) →
              ∀ e ∈ [(⟨.lock, true, w.l, w.r⟩ : Entry)] ++ (es ++ es'),
                e.call.isQuiet = true := by
            intro es' hq' e hm
            rcases List.mem_append.1 hm with h | h
            · simp only [List.mem_singleton] at h
              subst h
              rfl
            · rcases List.mem_append.1 h with h | h
              · exact hq e h
              · exact hq' e h
          split <;> rename_i wd hd <;> obtain ⟨es', he', hq'⟩ := printInfo_ext hd
          · refine ⟨[⟨.lock, true, w.l, w.r⟩], es ++ es', hquiet es' hq',
              Or.inr ⟨true, w.r, ?_⟩⟩
            rw [he', he]
            simp
          · refine ⟨[⟨.lock, true, w.l, w.r⟩], es ++ es', hquiet es' hq',
              Or.inr ⟨true, w.r, ?_⟩⟩
            rw [he', he]
            simp

/-- The statements of `start` from `CreateAppSymlinks` on for the child, whatever fails:
`proc.Fork` is not called. -/
theorem startWorker_child_spec (w : World) (options : Options) :
    Extends (fun c => !c.isFork) w (startWorker w options true).2 := by
  unfold startWorker
  split <;> rename_i wa ha
  · exact sys_ext ha rfl
  · have xa : Extends (fun c => !c.isFork) w wa := sys_ext ha rfl
    split <;> rename_i wb hb
    · exact xa.append (sys_ext hb rfl)
    · have xb := xa.append (sys_ext hb rfl)
      split <;> rename_i wc hc
      · exact xb.append (sys_ext hc rfl)
      · have xc := xb.append (sys_ext hc rfl)
        split <;> rename_i wd hd
        · exact xc.append (sys_ext hd rfl)
        · have xd := xc.append (sys_ext hd rfl)
          split <;> rename_i we he
          · exact xd.append (Chdir_ext he rfl)
          · have xe := xd.append (Chdir_ext he rfl)
            simp only [Bool.not_true, Bool.false_eq_true, if_false]
            exact xe.append (startChild_spec we options)

/-- The statements of `start` from `CreateAppSymlinks` on for the parent, whatever fails:
`syscall.Exec` is not called, and `proc.Fork` is called at most once, with the command line
rewritten and the first working directory, the flag of the exclusive lock being set. -/
theorem startWorker_parent_spec (w : World) (options : Options) :
    ∃ es1 es2 : List Entry, (∀ e ∈ es1 ++ es2, e.call.isQuiet = true) ∧
      ((startWorker w options false).2.trace = w.trace ++ es1 ∨
        ∃ ok r, (startWorker w options false).2.trace = w.trace ++ es1 ++
          ⟨.fork (Commands.RewriteArgs w.args) w.cwd, ok, true, r⟩ :: es2) := by
  unfold startWorker
  split <;> rename_i wa ha
  · obtain ⟨es, he, hq⟩ : Extends Call.isQuiet w wa := sys_ext ha rfl
    exact ⟨es, [], by simpa using hq, Or.inl he⟩
  · have xa : Extends Call.isQuiet w wa := sys_ext ha rfl
    split <;> rename_i wb hb
    · obtain ⟨es, he, hq⟩ := xa.append (sys_ext hb rfl)
      exact ⟨es, [], by simpa using hq, Or.inl he⟩
    · have xb := xa.append (sys_ext hb rfl)
      split <;> rename_i wc hc
      · obtain ⟨es, he, hq⟩ := xb.append (sys_ext hc rfl)
        exact ⟨es, [], by simpa using hq, Or.inl he⟩
      · have xc := xb.append (sys_ext hc rfl)
        split <;> rename_i wd hd
        · obtain ⟨es, he, hq⟩ := xc.append (sys_ext hd rfl)
          exact ⟨es, [], by simpa using hq, Or.inl he⟩
        · have xd := xc.append (sys_ext hd rfl)
          split <;> rename_i we he
          · obtain ⟨es, he, hq⟩ := xd.append (Chdir_ext he rfl)
            exact ⟨es, [], by simpa using hq, Or.inl he⟩
          · obtain ⟨es, hes, hq⟩ := xd.append (Chdir_ext he rfl)
            have hargs : we.args = w.args := by
              rw [Chdir_eq he, sys_eq hd, sys_eq hc, sys_eq hb, sys_eq ha]
            have hcwd : wd.cwd = w.cwd := by
              rw [sys_eq hd, sys_eq hc, sys_eq hb, sys_eq ha]
            simp only [Bool.not_false, if_true]
            obtain ⟨es1, es2, hq12, hp⟩ := startParent_spec we wd.cwd
            rw [hargs, hcwd] at hp
            refine ⟨es ++ es1, es2, ?_, ?_⟩
            · intro e hm
              rcases List.mem_append.1 hm with h | h
              · rcases List.mem_append.1 h with h | h
                · exact hq e h
                · exact hq12 e (by simp [h])
              · exact hq12 e (by simp [h])
            · rcases hp with hp | ⟨ok, r, hp⟩
              · exact Or.inl (by rw [hcwd, hp, hes, List.append_assoc])
              · exact Or.inr ⟨ok, r, by rw [hcwd, hp, hes]; simp⟩

/-- All the executions of `start`: either it starts no process; or the record is alive and
holds the caller's pid, and `proc.Fork` is not called; or the record is not alive, and
`syscall.Exec` is not called and `proc.Fork` is called once, the flag of the exclusive lock
being set. -/
theorem start_spec (w : World) (options : Options) :
    ∃ es, (start w options).2.trace = w.trace ++ es ∧
      ((∀ e ∈ es, e.call.isQuiet = true) ∨
        ((Alive w).1 = true ∧ storedPid w.content = some w.self ∧
          ∀ e ∈ es, e.call.isFork = false) ∨
        ((Alive w).1 = false ∧ ∃ es1 es2 ok r,
          es = es1 ++ ⟨.fork (Commands.RewriteArgs w.args) w.cwd, ok, true, r⟩ :: es2 ∧
          ∀ e ∈ es1 ++ es2, e.call.isQuiet = true)) := by
  unfold start
  split <;> rename_i w2 hr
  · obtain ⟨es0, he0, hp0⟩ := (startRole_spec hr).1.trace
    exact ⟨es0, he0, Or.inl fun e he => Call.isQuiet_of_isRead _ (hp0 e he)⟩
  · rename_i child
    have sr := startRole_spec hr
    obtain ⟨es0, he0, hp0⟩ := sr.1.trace
    have hq0 : ∀ e ∈ es0, e.call.isQuiet = true := fun e he =>
      Call.isQuiet_of_isRead _ (hp0 e he)
    cases child with
    | true =>
      obtain ⟨es, he, hp⟩ := startWorker_child_spec w2 options
      obtain ⟨h1, h2⟩ := sr.2.2.1 rfl
      refine ⟨es0 ++ es, by rw [he, he0, List.append_assoc], Or.inr (Or.inl ⟨h1, h2, ?_⟩)⟩
      intro e hm
      rcases List.mem_append.1 hm with h | h
      · exact Call.not_isFork_of_isQuiet _ (hq0 e h)
      · simpa using hp e h
    | false =>
      obtain ⟨es1, es2, hq12, hp⟩ := startWorker_parent_spec w2 options
      rw [sr.1.step.args, sr.1.step.cwd] at hp
      have hq : ∀ e ∈ (es0 ++ es1) ++ es2, e.call.isQuiet = true := by
        intro e hm
        rcases List.mem_append.1 hm with h | h
        · rcases List.mem_append.1 h with h | h
          · exact hq0 e h
          · exact hq12 e (by simp [h])
        · exact hq12 e (by simp [h])
      rcases hp with hp | ⟨ok, r, hp⟩
      · refine ⟨es0 ++ es1, by rw [hp, he0, List.append_assoc], Or.inl fun e he => ?_⟩
        exact hq e (by simp only [List.mem_append] at he ⊢; tauto)
      · exact ⟨_, by rw [hp, he0, List.append_assoc, List.append_assoc],
          Or.inr (Or.inr ⟨sr.2.1 rfl, es0 ++ es1, es2, ok, r, by simp, hq⟩)⟩

end Main

namespace Process

/-! ## The lock around the content of the PID file -/

/-- C11: `WritePid(1)` on a new handle and an empty file returns no error, and these are its
calls with the flags `l` and `r` of the lock at each call: `ClearPid` calls `Lock` while the
lock is held already (second entry) and releases it (fifth entry), so that the bytes of the
pid are written while the lock is not held (sixth entry), and the last `Unlock` finds nothing
to release. -/
theorem WritePid_writes_after_release :
    (WritePid (World.new [] 100 []) 1).1 = none ∧
      (WritePid (World.new [] 100 []) 1).2.trace =
        [⟨.lock, true, false, false⟩, ⟨.lock, true, true, false⟩, ⟨.seek, true, true, false⟩,
          ⟨.truncate, true, true, false⟩, ⟨.unlock, true, true, false⟩,
          ⟨.write [49, 10], true, false, false⟩, ⟨.sync, true, false, false⟩,
          ⟨.unlock, true, false, false⟩] := by
  decide

/-- C12: on an empty PID file `ReadPid` returns the error of the read and `Alive` returns
false, and the handle still holds the shared lock that `ReadPid` took; the same for a file
that holds `x`, `0` or `-5`. -/
theorem ReadPid_keeps_lock_on_error :
    (ReadPid (World.new [] 100 [])).1 = (0, some .read) ∧
      (ReadPid (World.new [] 100 [])).2.held = true ∧
      (Alive (World.new [] 100 [])).1 = false ∧
      (Alive (World.new [] 100 [])).2.held = true ∧
      (ReadPid (World.new [120, 10] 100 [])).1 = (0, some .parse) ∧
      (ReadPid (World.new [120, 10] 100 [])).2.held = true ∧
      (ReadPid (World.new [48, 10] 100 [])).1 = (0, some (.invalidPid 0)) ∧
      (ReadPid (World.new [48, 10] 100 [])).2.held = true ∧
      (ReadPid (World.new [45, 53, 10] 100 [])).1 = (0, some (.invalidPid (-5))) ∧
      (ReadPid (World.new [45, 53, 10] 100 [])).2.held = true := by
  decide

/-! ## What is written is read -/

/-- C13: when no call fails, `WritePid(pid)` with a positive `pid` that an `int` holds
returns no error, whatever the PID file held and wherever its handle stood, and `ReadPid`
then returns `pid` and no error. -/
theorem WritePid_then_ReadPid (w : World) (pid : Int) (hpos : 0 < pid) (hmax : pid ≤ maxInt)
    (hf : w.faults = []) :
    (WritePid w pid).1 = none ∧ (ReadPid (WritePid w pid).2).1 = (pid, none) := by
  have e := WritePid_ok w pid hf
  refine ⟨by rw [e], ?_⟩
  have hn : ((pid.toNat : Nat) : Int) = pid := Int.toNat_of_nonneg (le_of_lt hpos)
  have hst : storedPid (formatInt pid ++ [10]) = some pid := by
    have := storedPid_decimal pid.toNat (by omega) (by rw [hn]; exact hmax)
    rw [← formatInt_of_nonneg, hn] at this
    exact this
  have hf1 : (WritePid w pid).2.faults = [] := by rw [e]; exact hf
  have hc1 : (WritePid w pid).2.content = formatInt pid ++ [10] := by rw [e]
  exact congrArg Prod.fst (ReadPid_ok _ pid hf1 (by rw [hc1]; exact hst))

theorem WritePid_then_ReadPid_witness :
    (WritePid (World.new [49, 50, 51, 52, 53, 10] 100 []) 99999999999).1 = none ∧
      (ReadPid (WritePid (World.new [49, 50, 51, 52, 53, 10] 100 []) 99999999999).2).1 =
        (99999999999, none) :=
  WritePid_then_ReadPid (World.new [49, 50, 51, 52, 53, 10] 100 []) 99999999999 (by decide)
    (by decide) rfl

/-! ## The format of the PID file -/

theorem formatInt_pos (pid : Int) (h : 0 < pid) : formatInt pid = decimal pid.toNat := by
  have hn : ((pid.toNat : Nat) : Int) = pid := Int.toNat_of_nonneg (le_of_lt h)
  rw [← formatInt_of_nonneg, hn]

theorem ClearPid_content (w : World) :
    (ClearPid w).2.content = w.content ∨ (ClearPid w).2.content = [] := by
  unfold ClearPid
  split <;> rename_i wa ha
  · obtain ⟨fa, rfl⟩ := Lock_eq ha
    exact Or.inl rfl
  · obtain ⟨fa, rfl⟩ := Lock_eq ha
    split <;> rename_i wb hb
    · rw [Seek_eq hb]
      exact Or.inl rfl
    · have eb := Seek_eq hb
      subst eb
      split <;> rename_i wc hc
      · rw [Truncate_eq hc]
        exact Or.inl rfl
      · have ec := Truncate_eq hc
        subst ec
        split <;> rename_i wd hd <;> obtain ⟨fd, rfl⟩ := Unlock_eq hd <;> exact Or.inr rfl

theorem runOps_length (ops : List Op) : ∀ w : World, (runOps ops w).1.length = ops.length := by
  induction ops with
  | nil => intro w; rfl
  | cons op ops ih => intro w; simp [runOps, ih]

theorem runOps_append (a b : List Op) : ∀ w : World,
    runOps (a ++ b) w =
      ((runOps a w).1 ++ (runOps b (runOps a w).2).1, (runOps b (runOps a w).2).2) := by
  induction a with
  | nil => intro w; rfl
  | cons op a ih => intro w; simp [runOps, ih]

theorem writesSucceed_snoc (a : List Op) (op : Op) : ∀ (ra : List (Option Error))
    (r : Option Error), ra.length = a.length →
    writesSucceed (a ++ [op]) (ra ++ [r]) = true → ∀ pid, op = .write pid → r = none := by
  induction a with
  | nil =>
    intro ra r hl h pid hop
    have : ra = [] := List.length_eq_zero.1 hl
    subst this
    subst hop
    simpa [writesSucceed] using h
  | cons x a ih =>
    intro ra r hl h pid hop
    cases ra with
    | nil => simp at hl
    | cons y ra =>
      simp only [List.length_cons, add_left_inj] at hl
      cases x with
      | write p =>
        simp only [List.cons_append, writesSucceed, Bool.and_eq_true] at h
        exact ih ra r hl h.2 pid hop
      | clear =>
        simp only [List.cons_append, writesSucceed] at h
        exact ih ra r hl h pid hop

/-- The invariant of the PID file along calls of `WritePid` that return no error and calls of
`ClearPid`: the file is empty or holds the line of the pid written most recently, `q` being
the pid written before the calls. -/
theorem runOps_invariant (ops : List Op) : ∀ (w : World) (q : Option Int),
    (w.content = [] ∨ ∃ pid, q = some pid ∧ w.content = decimal pid.toNat ++ [10]) →
    (∀ pid, Op.write pid ∈ ops → 0 < pid) →
    writesSucceed ops (runOps ops w).1 = true →
    (runOps ops w).2.content = [] ∨
      ∃ pid, (lastWritten ops).or q = some pid ∧
        (runOps ops w).2.content = decimal pid.toNat ++ [10] := by
  induction ops with
  | nil =>
    intro w q hinv _ _
    simpa [runOps, lastWritten] using hinv
  | cons op ops ih =>
    intro w q hinv hpos hok
    cases op with
    | write pid =>
      simp only [runOps, Op.run, writesSucceed, Bool.and_eq_true, Option.isNone_iff_eq_none]
        at hok ⊢
      obtain ⟨fs, hw1⟩ := WritePid_success
        (Prod.ext hok.1 rfl : WritePid w pid = (none, (WritePid w pid).2))
      have hc : (WritePid w pid).2.content = decimal pid.toNat ++ [10] := by
        rw [hw1, ← formatInt_pos pid (hpos pid (by simp))]
      rcases ih (WritePid w pid).2 (some pid) (Or.inr ⟨pid, rfl, hc⟩)
        (fun p hp => hpos p (by simp [hp])) hok.2 with h | ⟨p, hp, h⟩
      · exact Or.inl h
      · refine Or.inr ⟨p, ?_, h⟩
        simp only [lastWritten]
        rw [hp]
        rfl
    | clear =>
      simp only [runOps, Op.run, writesSucceed] at hok ⊢
      have hinv1 : (ClearPid w).2.content = [] ∨
          ∃ pid, q = some pid ∧ (ClearPid w).2.content = decimal pid.toNat ++ [10] := by
        rcases ClearPid_content w with h | h
        · rw [h]
          exact hinv
        · exact Or.inl h
      exact ih (ClearPid w).2 q hinv1 (fun p hp => hpos p (by simp [hp])) hok

/-- C14: from an empty PID file, after calls of `WritePid` with positive arguments that all
return no error and calls of `ClearPid`, whatever the system calls that fail in between, the
PID file is empty or holds the decimal digits of the pid written most recently and one
newline, and nothing else.  After a `WritePid` it holds the digits of its pid and the
newline, whatever it held before, and after a `ClearPid` that returns no error it is empty. -/
theorem pid_file_format (w : World) (ops : List Op) (hw : w.content = [])
    (hpos : ∀ pid, Op.write pid ∈ ops → 0 < pid)
    (hok : writesSucceed ops (runOps ops w).1 = true) :
    ((runOps ops w).2.content = [] ∨
        ∃ pid, lastWritten ops = some pid ∧
          (runOps ops w).2.content = decimal pid.toNat ++ [10]) ∧
      (∀ ops' pid, ops = ops' ++ [.write pid] →
        (runOps ops w).2.content = decimal pid.toNat ++ [10]) ∧
      (∀ ops', ops = ops' ++ [.clear] → (runOps ops w).1.getLast? = some none →
        (runOps ops w).2.content = []) := by
  refine ⟨?_, fun ops' pid hops => ?_, fun ops' hops hlast => ?_⟩
  · have := runOps_invariant ops w none (Or.inl hw) hpos hok
    simpa using this
  · subst hops
    rw [runOps_append] at hok ⊢
    simp only [runOps, Op.run] at hok ⊢
    have hr := writesSucceed_snoc ops' (.write pid) _ _ (runOps_length ops' w) hok pid rfl
    obtain ⟨fs, hw1⟩ := WritePid_success
      (Prod.ext hr rfl : WritePid (runOps ops' w).2 pid =
        (none, (WritePid (runOps ops' w).2 pid).2))
    rw [hw1, ← formatInt_pos pid (hpos pid (by simp))]
  · subst hops
    rw [runOps_append] at hlast ⊢
    simp only [runOps, Op.run, List.getLast?_append, List.getLast?_singleton, Option.or_some,
      Option.some.injEq] at hlast ⊢
    obtain ⟨fs, hw1⟩ := ClearPid_success
      (Prod.ext hlast rfl : ClearPid (runOps ops' w).2 = (none, (ClearPid (runOps ops' w).2).2))
    rw [hw1]

theorem pid_file_format_witness :
    ((runOps [.write 5, .clear, .write 123456, .write 7] (World.new [] 100 [])).2.content = [] ∨
        ∃ pid, lastWritten [.write 5, .clear, .write 123456, .write 7] = some pid ∧
          (runOps [.write 5, .clear, .write 123456, .write 7]
            (World.new [] 100 [])).2.content = decimal pid.toNat ++ [10]) ∧
      (runOps [.write 5, .clear, .write 123456, .write 7] (World.new [] 100 [])).2.content =
        decimal (7 : Int).toNat ++ [10] :=
  have h := pid_file_format (World.new [] 100 []) [.write 5, .clear, .write 123456, .write 7]
    rfl
    (fun pid h => by
      simp at h
      omega)
    (by decide)
  ⟨h.1, h.2.1 [.write 5, .clear, .write 123456] 7 rfl⟩

/-! ## What `ReadPid` refuses -/

theorem storedPid_nil : storedPid [] = none := by
  simp [storedPid, ReadLine, indexLF, defaultBufSize]

/-- C15, as stated, fails for a first line that the buffer of the reader does not hold: the
file of 4095 zeros followed by `7x` and a newline has a first line that is not a decimal
integer, but `ReadPid` reads the 4096 bytes that precede the `x` and returns the pid 7 and no
error, and `Alive` is true when a process 7 exists. -/
theorem ReadPid_long_first_line :
    isDecimalInteger (firstLine (List.replicate 4095 48 ++ [55, 120, 10])) = false ∧
      (ReadPid (World.new (List.replicate 4095 48 ++ [55, 120, 10]) 100 [7])).1 = (7, none) ∧
      (Alive (World.new (List.replicate 4095 48 ++ [55, 120, 10]) 100 [7])).1 = true :=
  ⟨isDecimalInteger_zeros 4095,
    congrArg Prod.fst (ReadPid_ok (World.new (List.replicate 4095 48 ++ [55, 120, 10]) 100 [7])
      7 rfl (storedPid_zeros 4095 rfl)),
    congrArg Prod.fst (Alive_ok (World.new (List.replicate 4095 48 ++ [55, 120, 10]) 100 [7])
      7 rfl (storedPid_zeros 4095 rfl))⟩

/-- C15 (amended): `ReadPid` returns an error and the pid 0, whatever else fails, when the PID
file is empty, or when its first line is shorter than the 4096 bytes of the buffer of the
reader and is not a decimal integer or is one of a value that is zero or negative; `Alive` is
then false and sends no signal. -/
theorem ReadPid_rejects_invalid (w : World)
    (h : w.content = [] ∨ ((w.content.takeWhile (· ≠ 10)).length < defaultBufSize ∧
      (isDecimalInteger (firstLine w.content) = false ∨
        integerValue (firstLine w.content) ≤ 0))) :
    (∃ err, (ReadPid w).1 = (0, some err)) ∧ (Alive w).1 = false ∧
      ∃ es, (Alive w).2.trace = w.trace ++ es ∧
        ∀ e ∈ es, ∀ pid sig, e.call ≠ .signal pid sig := by
  have hst : storedPid w.content = none := by
    rcases h with h | ⟨hlen, h⟩
    · rw [h, storedPid_nil]
    · cases hs : storedPid w.content with
      | none => rfl
      | some pid =>
        have := storedPid_short hlen hs
        rcases h with h | h
        · rw [this.2.1] at h
          simp at h
        · omega
  have hr := ReadPid_spec (rfl : ReadPid w = (((ReadPid w).1.1, (ReadPid w).1.2), (ReadPid w).2))
  have ha := Alive_spec (rfl : Alive w = ((Alive w).1, (Alive w).2))
  refine ⟨?_, (ha.2.2 hst).1, ?_⟩
  · rcases hr.2.2.1 with hc | hc
    · cases he : (ReadPid w).1.2 with
      | none => exact absurd he hc.2.1
      | some err => exact ⟨err, Prod.ext hc.1 he⟩
    · rw [hst] at hc
      simp at hc
  · obtain ⟨es, he, hp⟩ := (ha.2.2 hst).2
    refine ⟨es, he, fun e hm pid sig hc => ?_⟩
    have := hp e hm
    rw [hc] at this
    simp [Call.isFileRead] at this

theorem ReadPid_rejects_invalid_witness :
    (∃ err, (ReadPid (World.new [45, 53, 10] 100 [5])).1 = (0, some err)) ∧
      (Alive (World.new [45, 53, 10] 100 [5])).1 = false ∧
      ∃ es, (Alive (World.new [45, 53, 10] 100 [5])).2.trace =
          (World.new [45, 53, 10] 100 [5]).trace ++ es ∧
        ∀ e ∈ es, ∀ pid sig, e.call ≠ .signal pid sig :=
  ReadPid_rejects_invalid (World.new [45, 53, 10] 100 [5])
    (Or.inr ⟨by decide, Or.inr (by simp [World.new, firstLine, integerValue, naturalValue])⟩)

/-! ## The probe of `Alive` -/

/-- The body of `Alive`: when no call fails, `Alive` is true exactly when `ReadPid` takes a
pid from the PID file (`storedPid`) and `processExists` is true of it.  On a record of the digits of a positive
pid and a newline `Alive` is the answer of `processExists` for that pid, so it is false for a
pid that no process has, and on a record of the caller's own pid it is true. -/
theorem Alive_iff_process_exists (w : World) (hf : w.faults = []) :
    ((Alive w).1 = true ↔
        ∃ pid, storedPid w.content = some pid ∧ w.processExists pid = true) ∧
      (∀ pid : Nat, 0 < pid → (pid : Int) ≤ maxInt → w.content = decimal pid ++ [10] →
        (Alive w).1 = w.processExists pid) ∧
      (0 < w.self → w.self ≤ maxInt → w.content = decimal w.self.toNat ++ [10] →
        (Alive w).1 = true) := by
  have key : ∀ pid : Nat, 0 < pid → (pid : Int) ≤ maxInt → w.content = decimal pid ++ [10] →
      (Alive w).1 = w.processExists pid := by
    intro pid h0 hm hc
    rw [Alive_ok w pid hf (by rw [hc]; exact storedPid_decimal pid h0 hm)]
  refine ⟨⟨fun h => ?_, fun h => ?_⟩, key, fun h0 hm hc => ?_⟩
  · obtain ⟨pid, hs, hp, _⟩ := (Alive_spec (rfl : Alive w = ((Alive w).1, (Alive w).2))).2.1 h
    exact ⟨pid, hs, hp⟩
  · obtain ⟨pid, hs, hp⟩ := h
    rw [Alive_ok w pid hf hs]
    exact hp
  · have hn : ((w.self.toNat : Nat) : Int) = w.self := Int.toNat_of_nonneg (le_of_lt h0)
    rw [key w.self.toNat (by omega) (by rw [hn]; exact hm) hc, hn]
    simp [World.processExists]

theorem Alive_iff_process_exists_witness :
    ((Alive (World.new [49, 48, 48, 10] 100 [])).1 = true ↔
        ∃ pid, storedPid (World.new [49, 48, 48, 10] 100 []).content = some pid ∧
          (World.new [49, 48, 48, 10] 100 []).processExists pid = true) ∧
      (∀ pid : Nat, 0 < pid → (pid : Int) ≤ maxInt →
        (World.new [49, 48, 48, 10] 100 []).content = decimal pid ++ [10] →
        (Alive (World.new [49, 48, 48, 10] 100 [])).1 =
          (World.new [49, 48, 48, 10] 100 []).processExists pid) ∧
      (0 < (World.new [49, 48, 48, 10] 100 []).self →
        (World.new [49, 48, 48, 10] 100 []).self ≤ maxInt →
        (World.new [49, 48, 48, 10] 100 []).content =
          decimal (World.new [49, 48, 48, 10] 100 []).self.toNat ++ [10] →
        (Alive (World.new [49, 48, 48, 10] 100 [])).1 = true) :=
  Alive_iff_process_exists (World.new [49, 48, 48, 10] 100 []) rfl

end Process

namespace Main

open Process

/-! ## `run` and the record -/

theorem runCheck_ok_alreadyRunning (w : World) (pid : Int) (hf : w.faults = [])
    (ha : (Alive w).1 = true) (hs : storedPid w.content = some pid) (hne : pid ≠ w.self) :
    (runCheck w).1 = some (.alreadyRunning pid) := by
  have e := Alive_ok w pid hf hs
  have e1 : Alive w = (true, (Alive w).2) := Prod.ext ha rfl
  have e2 := ReadPid_ok (Alive w).2 pid (by rw [e]; exact hf) (by rw [e]; exact hs)
  have hself : (Alive w).2.self = w.self := by rw [e]
  unfold runCheck
  rw [e1]
  simp only
  rw [e2]
  simp only [hself]
  rw [if_pos hne]

theorem mem_exec_last {es : List Entry} {e x : Entry} (h : e ∈ es ++ [x])
    (hx : e.call.isExec = true) (hq : ∀ a ∈ es, a.call.isExec = false) : e = x := by
  rcases List.mem_append.1 h with h | h
  · rw [hq e h] at hx
    exact absurd hx (by simp)
  · simpa using h

/-- C17: whatever fails, when `run` returns `already running as <pid>`, the record is alive,
`pid` is the pid that it holds and is not the caller's, and `run` has done nothing but read
the PID file and probe the process: the record and the working directory are as they were;
so a record that is not alive or that holds the caller's pid does not make `run` return this
error.  When no call fails, `run` returns this error for every record that is alive and
holds the pid of another process. -/
theorem run_already_running (w : World) (options : Options) :
    (∀ pid, (run w options).1 = .returned (some (.alreadyRunning pid)) →
        (Alive w).1 = true ∧ storedPid w.content = some pid ∧ pid ≠ w.self ∧
        (run w options).2.content = w.content ∧ (run w options).2.cwd = w.cwd ∧
        Extends Call.isRead w (run w options).2) ∧
      (w.faults = [] → ∀ pid, (Alive w).1 = true → storedPid w.content = some pid →
        pid ≠ w.self → (run w options).1 = .returned (some (.alreadyRunning pid))) := by
  constructor
  · intro pid h
    unfold run at h ⊢
    split at h <;> rename_i w2 hc
    · rename_i err
      simp only [Exit.returned.injEq, Option.some.injEq] at h
      subst h
      have s := runCheck_spec hc
      obtain ⟨h1, h2, h3⟩ := s.2 pid rfl
      simp only [hc]
      exact ⟨h1, h2, h3, s.1.content, s.1.step.cwd, s.1.trace⟩
    · exact absurd h (runWorker_ne_alreadyRunning w2 options pid)
  · intro hf pid ha hs hne
    have := runCheck_ok_alreadyRunning w pid hf ha hs hne
    unfold run
    split <;> rename_i w2 hc
    · rw [hc] at this
      simp only [Option.some.injEq] at this
      rw [this]
    · rw [hc] at this
      simp at this

theorem run_already_running_witness :
    (∀ pid, (run (World.new [50, 48, 48, 10] 100 [200])
          ⟨"/data", "/log/launcher.log", "/log", ["java"], ["java", "-d"]⟩).1 =
          .returned (some (.alreadyRunning pid)) →
        (Alive (World.new [50, 48, 48, 10] 100 [200])).1 = true ∧
        storedPid (World.new [50, 48, 48, 10] 100 [200]).content = some pid ∧
        pid ≠ (World.new [50, 48, 48, 10] 100 [200]).self ∧
        (run (World.new [50, 48, 48, 10] 100 [200])
          ⟨"/data", "/log/launcher.log", "/log", ["java"], ["java", "-d"]⟩).2.content =
          (World.new [50, 48, 48, 10] 100 [200]).content ∧
        (run (World.new [50, 48, 48, 10] 100 [200])
          ⟨"/data", "/log/launcher.log", "/log", ["java"], ["java", "-d"]⟩).2.cwd =
          (World.new [50, 48, 48, 10] 100 [200]).cwd ∧
        Extends Call.isRead (World.new [50, 48, 48, 10] 100 [200])
          (run (World.new [50, 48, 48, 10] 100 [200])
            ⟨"/data", "/log/launcher.log", "/log", ["java"], ["java", "-d"]⟩).2) ∧
      ((World.new [50, 48, 48, 10] 100 [200]).faults = [] → ∀ pid,
        (Alive (World.new [50, 48, 48, 10] 100 [200])).1 = true →
        storedPid (World.new [50, 48, 48, 10] 100 [200]).content = some pid →
        pid ≠ (World.new [50, 48, 48, 10] 100 [200]).self →
        (run (World.new [50, 48, 48, 10] 100 [200])
          ⟨"/data", "/log/launcher.log", "/log", ["java"], ["java", "-d"]⟩).1 =
          .returned (some (.alreadyRunning pid))) :=
  run_already_running (World.new [50, 48, 48, 10] 100 [200])
    ⟨"/data", "/log/launcher.log", "/log", ["java"], ["java", "-d"]⟩

/-- C18: whatever fails, `run` calls `syscall.Exec` at most once and as its last call; when
it does, whether the call replaces the process or fails, the PID file holds the digits of the
caller's pid and a newline and nothing else, the working directory is the data directory, and
among the calls of `run` the successful change to the data directory and then the successful
write of the pid come before the call of `syscall.Exec`.  When `run` returns an error of the
PID file, as it does when `WritePid` fails, it has not called `syscall.Exec`. -/
theorem run_exec_after_pid (w : World) (options : Options) :
    ∃ es, (run w options).2.trace = w.trace ++ es ∧
      (∀ argv, (run w options).1 = .replaced argv →
        ⟨.exec options.runCommand, true, false, false⟩ ∈ es) ∧
      (∀ e ∈ es, e.call.isExec = true →
        (run w options).2.content = formatInt w.self ++ [10] ∧
        (run w options).2.cwd = options.DataDir ∧
        e.call = .exec options.runCommand ∧
        ∃ es1 es2 es3 fl fr, es = es1 ++ ⟨.chdir options.DataDir, true, fl, fr⟩ :: es2 ++
            ⟨.write (formatInt w.self ++ [10]), true, false, false⟩ :: es3 ++ [e] ∧
          ∀ x ∈ es1 ++ es2 ++ es3, x.call.isExec = false) ∧
      (∀ err, (run w options).1 = .returned (some (.pidFile err)) →
        ∀ e ∈ es, e.call.isExec = false) := by
  unfold run
  split <;> rename_i w2 hc
  · obtain ⟨es0, he0, hp0⟩ := (runCheck_spec hc).1.trace
    have hq0 : ∀ e ∈ es0, e.call.isExec = false := fun e he =>
      Call.not_isExec_of_isQuiet _ (Call.isQuiet_of_isRead _ (hp0 e he))
    refine ⟨es0, he0, by simp, fun e he hx => ?_, fun _ _ => hq0⟩
    rw [hq0 e he] at hx
    simp at hx
  · have sc := (runCheck_spec hc).1
    obtain ⟨es0, he0, hp0⟩ := sc.trace
    have hq0 : ∀ e ∈ es0, e.call.isExec = false := fun e he =>
      Call.not_isExec_of_isQuiet _ (Call.isQuiet_of_isRead _ (hp0 e he))
    rcases runWorker_spec w2 options with ⟨h1, h2, es1, he1, hp1⟩ | ⟨h1, h2, h3⟩
    · have hq1 : ∀ e ∈ es0 ++ es1, e.call.isExec = false := by
        intro e he
        rcases List.mem_append.1 he with h | h
        · exact hq0 e h
        · exact Call.not_isExec_of_isQuiet _ (hp1 e h)
      refine ⟨es0 ++ es1, by rw [he1, he0, List.append_assoc], fun argv ha => absurd ha (h1 argv),
        fun e he hx => ?_, fun _ _ => hq1⟩
      rw [hq1 e he] at hx
      simp at hx
    · obtain ⟨es1, es2, es3, fl, fr, ok, hout, het, hq⟩ := h3
      have hqx : ∀ x ∈ (es0 ++ es1) ++ es2 ++ es3, x.call.isExec = false := by
        intro x hx
        rcases List.mem_append.1 hx with h | h
        · rcases List.mem_append.1 h with h | h
          · rcases List.mem_append.1 h with h | h
            · exact hq0 x h
            · exact Call.not_isExec_of_isQuiet _ (hq x (by simp [h]))
          · exact Call.not_isExec_of_isQuiet _ (hq x (by simp [h]))
        · exact Call.not_isExec_of_isQuiet _ (hq x (by simp [h]))
      have hpre : ∀ x ∈ (es0 ++ es1) ++ ⟨.chdir options.DataDir, true, fl, fr⟩ :: es2 ++
          ⟨.write (formatInt w.self ++ [10]), true, false, false⟩ :: es3,
          x.call.isExec = false := by
        intro x hx
        rcases List.mem_append.1 hx with h | h
        · rcases List.mem_append.1 h with h | h
          · exact hqx x (by simp only [List.mem_append] at h ⊢; tauto)
          · rcases List.mem_cons.1 h with h | h
            · rw [h]
              rfl
            · exact hqx x (by simp only [List.mem_append]; tauto)
        · rcases List.mem_cons.1 h with h | h
          · rw [h]
            rfl
          · exact hqx x (by simp only [List.mem_append]; tauto)
      have hes : (runWorker w2 options).2.trace = w.trace ++
          ((es0 ++ es1) ++ ⟨.chdir options.DataDir, true, fl, fr⟩ :: es2 ++
            ⟨.write (formatInt w.self ++ [10]), true, false, false⟩ :: es3 ++
            [⟨.exec options.runCommand, ok, false, false⟩]) := by
        rw [het, he0, sc.step.self]
        simp
      refine ⟨_, hes, fun argv ha => ?_, fun e he hx => ?_, fun err herr => ?_⟩
      · cases ok with
        | true => simp
        | false =>
          rw [hout] at ha
          simp at ha
      · have hlast := mem_exec_last he hx hpre
        subst hlast
        exact ⟨by rw [h1, sc.step.self], h2, rfl, es0 ++ es1, es2, es3, fl, fr, rfl, hqx⟩
      · rw [hout] at herr
        cases ok <;> simp at herr

theorem run_exec_after_pid_witness :
    (run (World.new [50, 48, 48, 10] 100 [])
        ⟨"/data", "/log/launcher.log", "/log", ["java"], ["java", "-d"]⟩).1 =
        .replaced ["java"] ∧
      (run (World.new [50, 48, 48, 10] 100 [])
        ⟨"/data", "/log/launcher.log", "/log", ["java"], ["java", "-d"]⟩).2.content =
        [49, 48, 48, 10] ∧
      (run (World.new [50, 48, 48, 10] 100 [])
        ⟨"/data", "/log/launcher.log", "/log", ["java"], ["java", "-d"]⟩).2.cwd = "/data" := by
  obtain ⟨es, _, h1, h2, _⟩ := run_exec_after_pid (World.new [50, 48, 48, 10] 100 [])
    ⟨"/data", "/log/launcher.log", "/log", ["java"], ["java", "-d"]⟩
  have hr : (run (World.new [50, 48, 48, 10] 100 [])
      ⟨"/data", "/log/launcher.log", "/log", ["java"], ["java", "-d"]⟩).1 =
      .replaced ["java"] := by decide
  have h := h2 _ (h1 _ hr) rfl
  exact ⟨hr, h.1, h.2.1⟩

theorem Alive_faults (w : World) (hf : w.faults = []) : (Alive w).2.faults = [] := by
  cases hs : storedPid w.content with
  | none => rw [Alive_none w hf hs]; exact hf
  | some pid => rw [Alive_ok w pid hf hs]; exact hf

theorem start_child_ok (w : World) (options : Options) (pid : Int) (hf : w.faults = [])
    (ha : (Alive w).1 = true) (hs : storedPid w.content = some pid) (hp : pid = w.self) :
    start w options = (.replaced options.daemonCommand,
      { w with
        offset := min defaultBufSize w.content.length,
        l := false,
        r := false,
        cwd := options.DataDir,
        trace := w.trace ++ [⟨.rlock, true, w.l, w.r⟩, ⟨.seek, true, w.l, true⟩,
          ⟨.read, true, w.l, true⟩, ⟨.unlock, true, w.l, true⟩,
          ⟨.signal pid 0, true, false, false⟩, ⟨.rlock, true, false, false⟩,
          ⟨.seek, true, false, true⟩, ⟨.read, true, false, true⟩,
          ⟨.unlock, true, false, true⟩, ⟨.symlinks, true, false, false⟩,
          ⟨.mkdirs options.launcherLogDir, true, false, false⟩,
          ⟨.mkdirs options.DataDir, true, false, false⟩, ⟨.getwd, true, false, false⟩,
          ⟨.chdir options.DataDir, true, false, false⟩,
          ⟨.openAppend options.LauncherLog, true, false, false⟩,
          ⟨.dup2 1, true, false, false⟩, ⟨.dup2 2, true, false, false⟩,
          ⟨.javaExecution true, true, false, false⟩,
          ⟨.exec options.daemonCommand, true, false, false⟩] }) := by
  have e := startRole_ok w pid hf ha hs
  unfold start
  rw [e, if_pos hp]
  obtain ⟨content, offset, l, r, self, live, cwd, args, nextPid, faults, trace⟩ := w
  simp only at hf
  subst hf
  simp [startWorker, startChild, redirectOutput, Chdir, World.sys]

/-- C19: `start` takes its part from the record.  Whatever fails, it calls `proc.Fork` only
when it has found the record not alive, and it calls `syscall.Exec` only when it has found
the record alive with the caller's pid.  When no call fails: on a record that is alive and
holds the caller's pid it is the child: it reads the record, prepares the directories, opens
the launcher log, makes it the standard output and error, and replaces the process by the
worker in daemon mode, and these are all its calls: it starts no process; on a record that
is alive and holds another pid it returns `already running as <pid>` after reading the
record, and starts no process; on a record that is not alive it is the parent: after reading
the record and preparing the directories it takes the lock, starts the child, writes the pid
of the child and returns no error. -/
theorem start_role (w : World) (options : Options) :
    (∃ es, (start w options).2.trace = w.trace ++ es ∧
        (∀ e ∈ es, e.call.isFork = true → (Alive w).1 = false) ∧
        (∀ e ∈ es, e.call.isExec = true →
          (Alive w).1 = true ∧ storedPid w.content = some w.self)) ∧
      (w.faults = [] →
        (∀ pid, (Alive w).1 = true → storedPid w.content = some pid → pid = w.self →
          (start w options).1 = .replaced options.daemonCommand ∧
          ∃ es, (start w options).2.trace = w.trace ++ es ∧
            es.map Entry.call = [.rlock, .seek, .read, .unlock, .signal pid 0, .rlock, .seek,
              .read, .unlock, .symlinks, .mkdirs options.launcherLogDir,
              .mkdirs options.DataDir, .getwd, .chdir options.DataDir,
              .openAppend options.LauncherLog, .dup2 1, .dup2 2, .javaExecution true,
              .exec options.daemonCommand]) ∧
        (∀ pid, (Alive w).1 = true → storedPid w.content = some pid → pid ≠ w.self →
          (start w options).1 = .returned (some (.alreadyRunning pid)) ∧
          ∃ es, (start w options).2.trace = w.trace ++ es ∧
            es.map Entry.call = [.rlock, .seek, .read, .unlock, .signal pid 0, .rlock, .seek,
              .read, .unlock]) ∧
        ((Alive w).1 = false →
          (start w options).1 = .returned none ∧
          ∃ es0 es1, (start w options).2.trace = w.trace ++ es0 ++ es1 ∧
            (∀ e ∈ es0, e.call.isRead = true) ∧
            es1.map Entry.call = [.symlinks, .mkdirs options.launcherLogDir,
              .mkdirs options.DataDir, .getwd, .chdir options.DataDir, .lock,
              .fork (Commands.RewriteArgs w.args) w.cwd, .lock, .lock, .seek, .truncate,
              .unlock, .write (formatInt w.nextPid ++ [10]), .sync, .unlock,
              .printInfo (.startedAs w.nextPid)])) := by
  constructor
  · obtain ⟨es, he, hcases⟩ := start_spec w options
    refine ⟨es, he, fun e hm hf => ?_, fun e hm hx => ?_⟩
    · rcases hcases with hq | ⟨_, _, hq⟩ | ⟨ha, _⟩
      · rw [Call.not_isFork_of_isQuiet _ (hq e hm)] at hf
        exact absurd hf (by simp)
      · rw [hq e hm] at hf
        exact absurd hf (by simp)
      · exact ha
    · rcases hcases with hq | ⟨ha, hs, _⟩ | ⟨_, es1, es2, ok, r, rfl, hq⟩
      · rw [Call.not_isExec_of_isQuiet _ (hq e hm)] at hx
        exact absurd hx (by simp)
      · exact ⟨ha, hs⟩
      · rcases List.mem_append.1 hm with h | h
        · rw [Call.not_isExec_of_isQuiet _ (hq e (by simp [h]))] at hx
          exact absurd hx (by simp)
        · rcases List.mem_cons.1 h with h | h
          · rw [h] at hx
            exact absurd hx (by simp [Call.isExec])
          · rw [Call.not_isExec_of_isQuiet _ (hq e (by simp [h]))] at hx
            exact absurd hx (by simp)
  intro hf
  refine ⟨fun pid ha hs hp => ?_, fun pid ha hs hp => ?_, fun ha => ?_⟩
  · rw [start_child_ok w options pid hf ha hs hp]
    exact ⟨rfl, _, rfl, by simp⟩
  · unfold start
    rw [startRole_ok w pid hf ha hs, if_neg hp]
    exact ⟨rfl, _, rfl, by simp⟩
  · have hsw := startWorker_parent_ok (Alive w).2 options (Alive_faults w hf)
    obtain ⟨fs, hw1⟩ := startWorker_parent_success
      (Prod.ext hsw rfl : startWorker (Alive w).2 options false =
        (.returned none, (startWorker (Alive w).2 options false).2))
    have sa := (Alive_spec (rfl : Alive w = ((Alive w).1, (Alive w).2))).1
    have hn : (Alive w).2.nextPid = w.nextPid := sa.step.nextPid
    have hargs : (Alive w).2.args = w.args := sa.step.args
    have hcwd : (Alive w).2.cwd = w.cwd := sa.step.cwd
    obtain ⟨es0, he0, hp0⟩ : Extends Call.isRead w (Alive w).2 := sa.trace
    unfold start
    rw [startRole_of_not_alive w ha]
    simp only
    refine ⟨hsw, es0, [⟨.symlinks, true, (Alive w).2.l, (Alive w).2.r⟩,
      ⟨.mkdirs options.launcherLogDir, true, (Alive w).2.l, (Alive w).2.r⟩,
      ⟨.mkdirs options.DataDir, true, (Alive w).2.l, (Alive w).2.r⟩,
      ⟨.getwd, true, (Alive w).2.l, (Alive w).2.r⟩,
      ⟨.chdir options.DataDir, true, (Alive w).2.l, (Alive w).2.r⟩,
      ⟨.lock, true, (Alive w).2.l, (Alive w).2.r⟩,
      ⟨.fork (Commands.RewriteArgs w.args) w.cwd, true, true, (Alive w).2.r⟩,
      ⟨.lock, true, true, (Alive w).2.r⟩, ⟨.lock, true, true, (Alive w).2.r⟩,
      ⟨.seek, true, true, (Alive w).2.r⟩, ⟨.truncate, true, true, (Alive w).2.r⟩,
      ⟨.unlock, true, true, (Alive w).2.r⟩,
      ⟨.write (formatInt w.nextPid ++ [10]), true, false, false⟩,
      ⟨.sync, true, false, false⟩, ⟨.unlock, true, false, false⟩,
      ⟨.printInfo (.startedAs w.nextPid), true, false, false⟩], ?_, hp0, ?_⟩
    · rw [hw1]
      simp [he0, hargs, hcwd, hn]
    · simp

theorem start_role_witness :
    (∀ pid, (Alive (World.new [49, 48, 48, 10] 100 [])).1 = true →
        storedPid (World.new [49, 48, 48, 10] 100 []).content = some pid →
        pid = (World.new [49, 48, 48, 10] 100 []).self →
        (start (World.new [49, 48, 48, 10] 100 [])
          ⟨"/data", "/log/launcher.log", "/log", ["java"], ["java", "-d"]⟩).1 =
          .replaced ["java", "-d"] ∧
        ∃ es, (start (World.new [49, 48, 48, 10] 100 [])
            ⟨"/data", "/log/launcher.log", "/log", ["java"], ["java", "-d"]⟩).2.trace =
            (World.new [49, 48, 48, 10] 100 []).trace ++ es ∧
          es.map Entry.call = [.rlock, .seek, .read, .unlock, .signal pid 0, .rlock, .seek,
            .read, .unlock, .symlinks, .mkdirs "/log", .mkdirs "/data", .getwd,
            .chdir "/data", .openAppend "/log/launcher.log", .dup2 1, .dup2 2,
            .javaExecution true, .exec ["java", "-d"]]) :=
  ((start_role (World.new [49, 48, 48, 10] 100 [])
    ⟨"/data", "/log/launcher.log", "/log", ["java"], ["java", "-d"]⟩).2 rfl).1

theorem filter_isFork_quiet (es : List Entry) (h : ∀ e ∈ es, e.call.isFork = false) :
    es.filter (fun e => e.call.isFork) = [] := by
  rw [List.filter_eq_nil_iff]
  intro e he
  simp [h e he]

/-- C20: whatever fails, `start` calls `proc.Fork` at most once, with the command line
rewritten and the first working directory, and at that call the flag of the exclusive lock
is set; an execution that calls `proc.Fork` does not call `syscall.Exec`.  When `start` finds
the record not alive and returns no error, its calls after those of `Alive` are these, in
this order: it prepares the directories, takes the lock, starts the child, and then writes
the pid of the child; at the end the PID file holds the digits of the pid of the child and a
newline and nothing else, and the handle holds no lock. -/
theorem start_parent_half (w : World) (options : Options) :
    (∃ es, (start w options).2.trace = w.trace ++ es ∧
        (es.filter (fun e => e.call.isFork)).length ≤ 1 ∧
        (∀ e ∈ es, e.call.isFork = true →
          e.l = true ∧ e.call = .fork (Commands.RewriteArgs w.args) w.cwd ∧
          ∀ x ∈ es, x.call.isExec = false)) ∧
      ((Alive w).1 = false → (start w options).1 = .returned none →
        (start w options).2.content = formatInt w.nextPid ++ [10] ∧
        (start w options).2.l = false ∧ (start w options).2.r = false ∧
        ∃ es0 fl fr, (∀ e ∈ es0, e.call.isRead = true) ∧
          (start w options).2.trace = w.trace ++ es0 ++ [⟨.symlinks, true, fl, fr⟩,
            ⟨.mkdirs options.launcherLogDir, true, fl, fr⟩,
            ⟨.mkdirs options.DataDir, true, fl, fr⟩, ⟨.getwd, true, fl, fr⟩,
            ⟨.chdir options.DataDir, true, fl, fr⟩, ⟨.lock, true, fl, fr⟩,
            ⟨.fork (Commands.RewriteArgs w.args) w.cwd, true, true, fr⟩,
            ⟨.lock, true, true, fr⟩, ⟨.lock, true, true, fr⟩, ⟨.seek, true, true, fr⟩,
            ⟨.truncate, true, true, fr⟩, ⟨.unlock, true, true, fr⟩,
            ⟨.write (formatInt w.nextPid ++ [10]), true, false, false⟩,
            ⟨.sync, true, false, false⟩, ⟨.unlock, true, false, false⟩,
            ⟨.printInfo (.startedAs w.nextPid), true, false, false⟩]) := by
  constructor
  · obtain ⟨es, he, hcases⟩ := start_spec w options
    refine ⟨es, he, ?_, fun e hm hf => ?_⟩
    · rcases hcases with hq | ⟨_, _, hq⟩ | ⟨_, es1, es2, ok, r, rfl, hq⟩
      · rw [filter_isFork_quiet es fun e he => Call.not_isFork_of_isQuiet _ (hq e he)]
        simp
      · rw [filter_isFork_quiet es hq]
        simp
      · rw [List.filter_append, List.filter_cons,
          filter_isFork_quiet es1 fun e he => Call.not_isFork_of_isQuiet _ (hq e (by simp [he])),
          filter_isFork_quiet es2 fun e he => Call.not_isFork_of_isQuiet _ (hq e (by simp [he]))]
        simp [Call.isFork]
    · rcases hcases with hq | ⟨_, _, hq⟩ | ⟨_, es1, es2, ok, r, rfl, hq⟩
      · rw [Call.not_isFork_of_isQuiet _ (hq e hm)] at hf
        exact absurd hf (by simp)
      · rw [hq e hm] at hf
        exact absurd hf (by simp)
      · have hx : ∀ x ∈ es1 ++ ⟨.fork (Commands.RewriteArgs w.args) w.cwd, ok, true, r⟩ :: es2,
            x.call.isExec = false := by
          intro x hxm
          rcases List.mem_append.1 hxm with h | h
          · exact Call.not_isExec_of_isQuiet _ (hq x (by simp [h]))
          · rcases List.mem_cons.1 h with h | h
            · rw [h]
              rfl
            · exact Call.not_isExec_of_isQuiet _ (hq x (by simp [h]))
        rcases List.mem_append.1 hm with h | h
        · rw [Call.not_isFork_of_isQuiet _ (hq e (by simp [h]))] at hf
          exact absurd hf (by simp)
        · rcases List.mem_cons.1 h with h | h
          · rw [h]
            exact ⟨rfl, rfl, hx⟩
          · rw [Call.not_isFork_of_isQuiet _ (hq e (by simp [h]))] at hf
            exact absurd hf (by simp)
  intro ha hok
  have sa := (Alive_spec (rfl : Alive w = ((Alive w).1, (Alive w).2))).1
  have hn : (Alive w).2.nextPid = w.nextPid := sa.step.nextPid
  have hargs : (Alive w).2.args = w.args := sa.step.args
  have hcwd : (Alive w).2.cwd = w.cwd := sa.step.cwd
  obtain ⟨es0, he0, hp0⟩ : Extends Call.isRead w (Alive w).2 := sa.trace
  unfold start at hok ⊢
  rw [startRole_of_not_alive w ha] at hok ⊢
  simp only at hok ⊢
  obtain ⟨fs, hw1⟩ := startWorker_parent_success
    (Prod.ext hok rfl : startWorker (Alive w).2 options false =
      (.returned none, (startWorker (Alive w).2 options false).2))
  rw [hw1]
  refine ⟨by simp [hn], rfl, rfl, es0, (Alive w).2.l, (Alive w).2.r, hp0, ?_⟩
  simp [he0, hargs, hcwd, hn]

theorem start_parent_half_witness :
    (start (World.new [] 100 [])
        ⟨"/data", "/log/launcher.log", "/log", ["java"], ["java", "-d"]⟩).2.content =
        formatInt (World.new [] 100 []).nextPid ++ [10] ∧
      (start (World.new [] 100 [])
        ⟨"/data", "/log/launcher.log", "/log", ["java"], ["java", "-d"]⟩).2.l = false ∧
      (start (World.new [] 100 [])
        ⟨"/data", "/log/launcher.log", "/log", ["java"], ["java", "-d"]⟩).2.r = false :=
  have h := (start_parent_half (World.new [] 100 [])
    ⟨"/data", "/log/launcher.log", "/log", ["java"], ["java", "-d"]⟩).2 (by decide) (by decide)
  ⟨h.1, h.2.1, h.2.2.1⟩

end Main

namespace Commands

/-! ## The command line of the detached child -/

theorem RewriteArgs_not_restart (args : List String) :
    ∀ a ∈ RewriteArgs args, a ≠ "restart" := by
  intro a ha
  simp only [RewriteArgs, List.mem_map] at ha
  obtain ⟨b, _, hb⟩ := ha
  by_cases h : b = Command.RESTART.String
  · rw [if_pos h] at hb
    rw [← hb]
    decide
  · rw [if_neg h] at hb
    rw [← hb]
    exact h

theorem RewriteArgs_length (args : List String) :
    (RewriteArgs args).length = args.length := by
  simp [RewriteArgs]

theorem RewriteArgs_get (args : List String) (i : Nat) :
    (RewriteArgs args)[i]? =
      args[i]?.map fun arg => if arg = "restart" then "start" else arg := by
  simp only [RewriteArgs, List.getElem?_map]
  rfl

/-- C28: `RewriteArgs` replaces the elements that are `restart` letter for letter, and
`ParseCommand` accepts `start` as START; but `ParseCommand` lowers the case of its argument
and `RewriteArgs` does not: of the command line `launcher RESTART`, which `ParseCommand`
takes as RESTART, the copy for the child still holds `RESTART`. -/
theorem RewriteArgs_keeps_uppercase_restart :
    ParseCommand "RESTART" = .RESTART ∧
      RewriteArgs ["/install/bin/launcher", "RESTART"] = ["/install/bin/launcher", "RESTART"] ∧
      (∃ a ∈ RewriteArgs ["/install/bin/launcher", "RESTART"], ParseCommand a = .RESTART) ∧
      ParseCommand "Restart" = .RESTART ∧
      RewriteArgs ["/install/bin/launcher", "Restart"] = ["/install/bin/launcher", "Restart"] ∧
      RewriteArgs ["/install/bin/launcher", "restart"] = ["/install/bin/launcher", "start"] ∧
      ParseCommand "start" = .START := by
  decide

end Commands

namespace Args

open Commands

/-- C29: `RewriteArgs` compares every element of the command line with `restart`, not only
the command.  In `launcher --pid-file restart restart` the third element is the value of the
option `--pid-file` and the fourth is the command, by `ParseArgs`; `RewriteArgs` changes
both, and the command line of the child names another PID file. -/
theorem RewriteArgs_changes_option_value :
    ParseArgs ["--pid-file", "restart", "restart"] =
        some (.RESTART, [("pid-file", "restart")]) ∧
      RewriteArgs ["/install/bin/launcher", "--pid-file", "restart", "restart"] =
        ["/install/bin/launcher", "--pid-file", "start", "start"] ∧
      ParseArgs (RewriteArgs ["/install/bin/launcher", "--pid-file", "restart", "restart"]).tail =
        some (.START, [("pid-file", "start")]) ∧
      ParseArgs ["start", "--data-dir", "restart"] = some (.START, [("data-dir", "restart")]) ∧
      RewriteArgs ["/install/bin/launcher", "start", "--data-dir", "restart"] =
        ["/install/bin/launcher", "start", "--data-dir", "start"] := by
  decide

end Args

namespace Process

/-! ## The signal and the passing of time -/

@[simp] theorem pass_content (w : World) (future : List (List Int)) :
    (w.pass future).content = w.content := by
  cases future <;> rfl

@[simp] theorem pass_trace (w : World) (future : List (List Int)) :
    (w.pass future).trace = w.trace := by
  cases future <;> rfl

@[simp] theorem pass_faults (w : World) (future : List (List Int)) :
    (w.pass future).faults = w.faults := by
  cases future <;> rfl

@[simp] theorem pass_nil (w : World) : w.pass [] = w := rfl

theorem Extends.of_trace {p : Call → Bool} {w w1 w2 : World} (h : w1.trace = w.trace)
    (h2 : Extends p w1 w2) : Extends p w w2 := by
  obtain ⟨es, h3, h4⟩ := h2
  exact ⟨es, by rw [h3, h], h4⟩

theorem Extends.same {p : Call → Bool} {w w1 : World} (h : w1.trace = w.trace) :
    Extends p w w1 := ⟨[], by simp [h], by simp⟩

theorem Call.isPoll_of_isRead (c : Call) (h : c.isRead = true) : c.isPoll = true := by
  simp [Call.isPoll, h]

theorem Call.not_isKill_of_isRead (c : Call) (h : c.isRead = true) : c.isKill = false := by
  cases c <;> simp_all [Call.isRead, Call.isKill]
  rename_i pid sig
  cases sig <;> simp_all [Call.isRead]

theorem Call.not_isKill_of_isPoll (c : Call) (h : c.isPoll = true) : c.isKill = false := by
  simp only [Call.isPoll, Bool.or_eq_true, beq_iff_eq] at h
  rcases h with h | h
  · exact Call.not_isKill_of_isRead c h
  · subst h
    rfl

theorem Kill_trace (w : World) (pid : Int) (sig : Nat) :
    (Kill w pid sig).2.trace =
      w.trace ++ [⟨.signal pid sig, (Kill w pid sig).1 == .delivered, w.l, w.r⟩] := rfl

theorem Kill_content (w : World) (pid : Int) (sig : Nat) :
    (Kill w pid sig).2.content = w.content := rfl

theorem Kill_noSuchProcess {w : World} {pid : Int} {sig : Nat}
    (h : (Kill w pid sig).1 = .noSuchProcess) :
    w.processExists pid = false ∧ (Kill w pid sig).2.live = w.live ∧
      (Kill w pid sig).2.self = w.self ∧ (Kill w pid sig).2.faults = w.faults.tail := by
  refine ⟨?_, rfl, rfl, rfl⟩
  simp only [Kill] at h
  split at h
  · simp at h
  · split at h
    · simp at h
    · simpa using ‹¬ w.processExists pid = true›

/-- The calls of `ClearPid` are of every class that holds its four calls. -/
theorem ClearPid_ext {p : Call → Bool} (w : World) (hl : p .lock = true) (hs : p .seek = true)
    (ht : p .truncate = true) (hu : p .unlock = true) : Extends p w (ClearPid w).2 := by
  unfold ClearPid
  split <;> rename_i wa ha
  · obtain ⟨fa, rfl⟩ := Lock_eq ha
    exact Extends.one rfl hl
  · have ea : Extends p w wa := by
      obtain ⟨fa, rfl⟩ := Lock_eq ha
      exact Extends.one rfl hl
    split <;> rename_i wb hb
    · have := Seek_eq hb
      exact ea.append (by subst this; exact Extends.one rfl hs)
    · have eb : Extends p wa wb := by
        have := Seek_eq hb
        subst this
        exact Extends.one rfl hs
      split <;> rename_i wc hc
      · have := Truncate_eq hc
        exact (ea.append eb).append (by subst this; exact Extends.one rfl ht)
      · have ec : Extends p wb wc := by
          have := Truncate_eq hc
          subst this
          exact Extends.one rfl ht
        have ed : ∀ ok wd, Unlock wc = (ok, wd) → Extends p wc wd := by
          intro ok wd hd
          obtain ⟨fd, rfl⟩ := Unlock_eq hd
          exact Extends.one rfl hu
        split <;> rename_i wd hd <;> exact ((ea.append eb).append ec).append (ed _ _ hd)

end Process

namespace Main

open Process

/-! ## The loop of `terminate` -/

theorem printInfo_content (w : World) (message : Message) :
    (printInfo w message).2.content = w.content := by
  unfold printInfo
  split <;> rename_i w1 h1
  · rw [sys_eq h1]
  · have := sys_eq h1
    subst this
    split <;> rename_i w2 h2 <;> rw [sys_eq h2]

theorem printInfo_print (w : World) (message : Message) :
    Extends Call.isPrint w (printInfo w message).2 := by
  unfold printInfo
  split <;> rename_i w1 h1
  · exact sys_ext h1 rfl
  · have e1 : Extends Call.isPrint w w1 := sys_ext h1 rfl
    split <;> rename_i w2 h2 <;> exact e1.append (sys_ext h2 rfl)

theorem note_isPoll (w : World) : Extends Call.isPoll w (w.note .sleep true) :=
  Extends.one rfl rfl

theorem Alive_content (w : World) : (Alive w).2.content = w.content :=
  (Alive_spec (rfl : Alive w = ((Alive w).1, (Alive w).2))).1.content

theorem Alive_isRead (w : World) : Extends Call.isRead w (Alive w).2 :=
  (Alive_spec (rfl : Alive w = ((Alive w).1, (Alive w).2))).1.trace

theorem ReadPid_content (w : World) : (ReadPid w).2.content = w.content :=
  (ReadPid_spec (rfl : ReadPid w = (((ReadPid w).1.1, (ReadPid w).1.2), (ReadPid w).2))).1.content

theorem ReadPid_isRead (w : World) : Extends Call.isRead w (ReadPid w).2 :=
  (ReadPid_spec (rfl : ReadPid w = (((ReadPid w).1.1, (ReadPid w).1.2), (ReadPid w).2))).1.trace

theorem pollLoop_succ_alive {fuel : Nat} {future : List (List Int)} {w : World}
    (h : (Alive (w.pass future)).1 = true) :
    pollLoop (fuel + 1) future w =
      pollLoop fuel future.tail ((Alive (w.pass future)).2.note .sleep true) := by
  rw [pollLoop]
  split <;> rename_i w1 h1
  · rw [h1]
  · rw [h1] at h
    simp at h

theorem pollLoop_succ_dead {fuel : Nat} {future : List (List Int)} {w : World}
    (h : (Alive (w.pass future)).1 = false) :
    pollLoop (fuel + 1) future w =
      (some (ClearPid (Alive (w.pass future)).2).1, (ClearPid (Alive (w.pass future)).2).2) := by
  rw [pollLoop]
  split <;> rename_i w1 h1
  · rw [h1] at h
    simp at h
  · rw [h1]
    split <;> rename_i w2 h2 <;> simp [h2]

/-- The executions of the loop of `terminate`: the target is alive at each of the `fuel`
tests and the record is as it was, or test number `n` is the first that returns false, and
`ClearPid` is called after it. -/
theorem pollLoop_spec (fuel : Nat) : ∀ (future : List (List Int)) (w : World),
    ((pollLoop fuel future w).1 = none ∧
        (∀ k, k < fuel → (Alive (pollWorld k future w)).1 = true) ∧
        (pollLoop fuel future w).2.content = w.content ∧
        Extends Call.isPoll w (pollLoop fuel future w).2) ∨
      ∃ n, n < fuel ∧ (∀ k, k < n → (Alive (pollWorld k future w)).1 = true) ∧
        (Alive (pollWorld n future w)).1 = false ∧
        (Alive (pollWorld n future w)).2.content = w.content ∧
        Extends Call.isPoll w (Alive (pollWorld n future w)).2 ∧
        pollLoop fuel future w = (some (ClearPid (Alive (pollWorld n future w)).2).1,
          (ClearPid (Alive (pollWorld n future w)).2).2) := by
  induction fuel with
  | zero =>
    intro future w
    exact Or.inl ⟨rfl, fun k hk => absurd hk (Nat.not_lt_zero k), rfl, Extends.same rfl⟩
  | succ fuel ih =>
    intro future w
    have hread : Extends Call.isPoll w (Alive (w.pass future)).2 :=
      Extends.of_trace (pass_trace w future)
        ((Alive_isRead (w.pass future)).mono Call.isPoll_of_isRead)
    have hcont : (Alive (w.pass future)).2.content = w.content := by
      rw [Alive_content, pass_content]
    cases ha : (Alive (w.pass future)).1 with
    | false =>
      exact Or.inr ⟨0, Nat.succ_pos fuel, fun k hk => absurd hk (Nat.not_lt_zero k), ha, hcont,
        hread, pollLoop_succ_dead ha⟩
    | true =>
      rw [pollLoop_succ_alive ha]
      have hstep : Extends Call.isPoll w ((Alive (w.pass future)).2.note .sleep true) :=
        hread.append (note_isPoll _)
      have hpw : ∀ k, pollWorld (k + 1) future w =
          pollWorld k future.tail ((Alive (w.pass future)).2.note .sleep true) := fun k => rfl
      rcases ih future.tail ((Alive (w.pass future)).2.note .sleep true) with
        ⟨h1, h2, h3, h4⟩ | ⟨n, hn, h2, h3, h4, h5, h6⟩
      · refine Or.inl ⟨h1, ?_, ?_, hstep.append h4⟩
        · intro k hk
          cases k with
          | zero => exact ha
          | succ k =>
            rw [hpw]
            exact h2 k (by omega)
        · rw [h3]
          exact hcont
      · refine Or.inr ⟨n + 1, by omega, ?_, ?_, ?_, ?_, ?_⟩
        · intro k hk
          cases k with
          | zero => exact ha
          | succ k =>
            rw [hpw]
            exact h2 k (by omega)
        · rw [hpw]
          exact h3
        · rw [hpw, h4]
          exact hcont
        · rw [hpw]
          exact hstep.append h5
        · rw [hpw]
          exact h6

end Main

namespace Process

@[simp] theorem pass_l (w : World) (future : List (List Int)) : (w.pass future).l = w.l := by
  cases future <;> rfl

@[simp] theorem pass_r (w : World) (future : List (List Int)) : (w.pass future).r = w.r := by
  cases future <;> rfl

@[simp] theorem pass_self (w : World) (future : List (List Int)) :
    (w.pass future).self = w.self := by
  cases future <;> rfl

theorem Call.isClear_not_isKill (c : Call) (h : c.isClear = true) : c.isKill = false := by
  cases c <;> simp_all [Call.isClear, Call.isKill]

theorem Call.isPrint_not_isKill (c : Call) (h : c.isPrint = true) : c.isKill = false := by
  cases c <;> simp_all [Call.isPrint, Call.isKill]

end Process

namespace Main

open Process

/-! ## `terminate` -/

/-- The executions of the statements of `terminate` after the signal. -/
theorem awaitEnd_spec (fuel : Nat) (future : List (List Int)) (w : World) (message : String)
    (pid : Int) :
    ((awaitEnd fuel future w message pid).1 = none ∧
        (∀ k, k < fuel → (Alive (pollWorld k future w)).1 = true) ∧
        (awaitEnd fuel future w message pid).2.content = w.content ∧
        Extends Call.isPoll w (awaitEnd fuel future w message pid).2) ∨
      ∃ n, n < fuel ∧ (∀ k, k < n → (Alive (pollWorld k future w)).1 = true) ∧
        (Alive (pollWorld n future w)).1 = false ∧
        (Alive (pollWorld n future w)).2.content = w.content ∧
        Extends Call.isPoll w (Alive (pollWorld n future w)).2 ∧
        Extends (fun c => c.isClear || c.isPrint) (Alive (pollWorld n future w)).2
          (awaitEnd fuel future w message pid).2 ∧
        (awaitEnd fuel future w message pid).1 ≠ none ∧
        (awaitEnd fuel future w message pid).1 ≠ some (.returned (some .notRunning)) ∧
        ((awaitEnd fuel future w message pid).1 = some (.returned none) →
          (awaitEnd fuel future w message pid).2.content = []) := by
  rcases pollLoop_spec fuel future w with ⟨h1, h2, h3, h4⟩ | ⟨n, hn, h2, h3, h4, h5, h6⟩
  · left
    have : pollLoop fuel future w = (none, (pollLoop fuel future w).2) := Prod.ext h1 rfl
    have e : awaitEnd fuel future w message pid = (none, (pollLoop fuel future w).2) := by
      unfold awaitEnd
      rw [this]
    rw [e]
    exact ⟨rfl, h2, h3, h4⟩
  · right
    refine ⟨n, hn, h2, h3, h4, h5, ?_⟩
    have hclear : Extends (fun c => c.isClear || c.isPrint) (Alive (pollWorld n future w)).2
        (ClearPid (Alive (pollWorld n future w)).2).2 :=
      ClearPid_ext _ rfl rfl rfl rfl
    cases hc : (ClearPid (Alive (pollWorld n future w)).2).1 with
    | some err =>
      have e : awaitEnd fuel future w message pid =
          (some (.returned (some (.pidFile err))), (ClearPid (Alive (pollWorld n future w)).2).2) := by
        unfold awaitEnd
        rw [h6, hc]
      rw [e]
      exact ⟨hclear, by simp, by simp, by simp⟩
    | none =>
      have hcp : ClearPid (Alive (pollWorld n future w)).2 =
          (none, (ClearPid (Alive (pollWorld n future w)).2).2) := Prod.ext hc rfl
      obtain ⟨fs, hw⟩ := ClearPid_success hcp
      have hcont : (ClearPid (Alive (pollWorld n future w)).2).2.content = [] := by
        rw [hw]
      have hprint := printInfo_print (ClearPid (Alive (pollWorld n future w)).2).2
        (.terminated message pid)
      have hpc := printInfo_content (ClearPid (Alive (pollWorld n future w)).2).2
        (.terminated message pid)
      have hext : Extends (fun c => c.isClear || c.isPrint) (Alive (pollWorld n future w)).2
          (printInfo (ClearPid (Alive (pollWorld n future w)).2).2
            (.terminated message pid)).2 :=
        hclear.append (hprint.mono (fun c hc => by simp [hc]))
      cases hp : (printInfo (ClearPid (Alive (pollWorld n future w)).2).2
          (.terminated message pid)).1 with
      | some code =>
        have e : awaitEnd fuel future w message pid =
            (some (.exited code), (printInfo (ClearPid (Alive (pollWorld n future w)).2).2
              (.terminated message pid)).2) := by
          unfold awaitEnd
          rw [h6, hc]
          simp only
          split <;> rename_i w2 h2
          · rw [h2] at hp
            simp only [Option.some.injEq] at hp
            rw [h2, hp]
          · rw [h2] at hp
            simp at hp
        rw [e]
        exact ⟨hext, by simp, by simp, by simp⟩
      | none =>
        have e : awaitEnd fuel future w message pid =
            (some (.returned none), (printInfo (ClearPid (Alive (pollWorld n future w)).2).2
              (.terminated message pid)).2) := by
          unfold awaitEnd
          rw [h6, hc]
          simp only
          split <;> rename_i w2 h2
          · rw [h2] at hp
            simp at hp
          · rw [h2]
        rw [e]
        refine ⟨hext, by simp, by simp, fun _ => ?_⟩
        simp only
        rw [hpc, hcont]

/-- What `terminate` does when the record is alive and its pid is read: the signal, and
after a signal that has not failed the loop and the message. -/
theorem terminate_alive (fuel : Nat) (future : List (List Int)) (w : World) (signal : Nat)
    (message : String) (ha : (Alive w).1 = true) (hr : (ReadPid (Alive w).2).1.2 = none) :
    terminate fuel future w signal message =
      if (Kill ((ReadPid (Alive w).2).2.pass future) (ReadPid (Alive w).2).1.1 signal).1 = .failed
      then (some (.returned (some (.signaling (ReadPid (Alive w).2).1.1))),
        (Kill ((ReadPid (Alive w).2).2.pass future) (ReadPid (Alive w).2).1.1 signal).2)
      else awaitEnd fuel future.tail
        (Kill ((ReadPid (Alive w).2).2.pass future) (ReadPid (Alive w).2).1.1 signal).2
        message (ReadPid (Alive w).2).1.1 := by
  unfold terminate
  split <;> rename_i w1 h1
  · rw [h1] at ha
    simp at ha
  · have e1 : (Alive w).2 = w1 := by rw [h1]
    rw [e1] at hr ⊢
    split <;> rename_i h2
    · rw [h2] at hr
      simp at hr
    · rename_i pid w2
      have e2 : (ReadPid w1).2 = w2 := by rw [h2]
      have e3 : (ReadPid w1).1.1 = pid := by rw [h2]
      rw [e2, e3]
      split
      · rename_i w3 h3
        rw [h3]
        simp
      · rename_i res w3 hne h3
        rw [h3]
        simp only
        rw [if_neg (fun h => hne h)]

theorem terminate_not_alive (fuel : Nat) (future : List (List Int)) (w : World) (signal : Nat)
    (message : String) (hna : (Alive w).1 = false) :
    terminate fuel future w signal message =
      (some (.returned (some .notRunning)), (Alive w).2) := by
  unfold terminate
  split <;> rename_i w1 h1
  · rw [h1]
  · rw [h1] at hna
    simp at hna

theorem terminate_signal (fuel : Nat) (future : List (List Int)) (w : World) (signal : Nat)
    (message : String) (ha : (Alive w).1 = true) (hr : (ReadPid (Alive w).2).1.2 = none) :
    terminate fuel future w signal message =
      if (sendSignal future w signal).1 = .failed
      then (some (.returned (some (.signaling (recordedPid w)))), (sendSignal future w signal).2)
      else awaitEnd fuel future.tail (sendSignal future w signal).2 message (recordedPid w) :=
  terminate_alive fuel future w signal message ha hr

theorem ReadPid_success (w : World) (hr : (ReadPid w).1.2 = none) :
    storedPid w.content = some (ReadPid w).1.1 ∧ (ReadPid w).2.l = false ∧
      (ReadPid w).2.r = false := by
  rcases h : ReadPid w with ⟨⟨pid, res⟩, w1⟩
  rw [h] at hr
  simp only at hr
  subst hr
  obtain ⟨_, _, h3, h4⟩ := ReadPid_spec h
  obtain ⟨hl, hr2⟩ := h4 rfl
  refine ⟨?_, hl, hr2⟩
  rcases h3 with ⟨_, h5, _⟩ | ⟨h5, _⟩
  · exact absurd rfl h5
  · exact h5

/-- The record when `terminate` sends the signal: it holds the pid, the handle holds no lock,
and only `Alive` and `ReadPid` have been called. -/
theorem sendSignal_spec (future : List (List Int)) (w : World) (signal : Nat)
    (hr : (ReadPid (Alive w).2).1.2 = none) :
    storedPid w.content = some (recordedPid w) ∧
      (sendSignal future w signal).2.content = w.content ∧
      ∃ es, (sendSignal future w signal).2.trace = w.trace ++ es ++
          [⟨.signal (recordedPid w) signal, (sendSignal future w signal).1 == .delivered,
            false, false⟩] ∧
        ∀ e ∈ es, e.call.isRead = true := by
  obtain ⟨h3, hl, hr2⟩ := ReadPid_success (Alive w).2 hr
  rw [Alive_content] at h3
  obtain ⟨es, hes, hes2⟩ := (Alive_isRead w).append (ReadPid_isRead (Alive w).2)
  refine ⟨h3, ?_, es, ?_, hes2⟩
  · simp only [sendSignal, Kill_content, pass_content, ReadPid_content, Alive_content]
  · simp only [sendSignal, Kill_trace, pass_trace, pass_l, pass_r, hes, hl, hr2]

theorem terminate_ne_notRunning (fuel : Nat) (future : List (List Int)) (w : World)
    (signal : Nat) (message : String) (ha : (Alive w).1 = true) :
    (terminate fuel future w signal message).1 ≠ some (.returned (some .notRunning)) := by
  cases hr : (ReadPid (Alive w).2).1.2 with
  | none =>
    rw [terminate_signal fuel future w signal message ha hr]
    split
    · simp
    · rcases awaitEnd_spec fuel future.tail (sendSignal future w signal).2 message
          (recordedPid w) with ⟨h1, _⟩ | ⟨n, _, _, _, _, _, _, _, h, _⟩
      · rw [h1]
        simp
      · exact h
  | some err =>
    unfold terminate
    split <;> rename_i w1 h1
    · rw [h1] at ha
      simp at ha
    · have e1 : (Alive w).2 = w1 := by rw [h1]
      rw [e1] at hr
      split <;> rename_i h2
      · simp
      · rw [h2] at hr
        simp at hr

theorem stop_alive (fuel : Nat) (future : List (List Int)) (w : World)
    (ha : (Alive w).1 = true) :
    stop fuel future w = terminate fuel future w SIGTERM "Stopped" := by
  have hne := terminate_ne_notRunning fuel future w SIGTERM "Stopped" ha
  unfold stop
  split <;> rename_i h
  · rename_i err w1
    rw [h] at hne
    have : err ≠ .notRunning := fun he => hne (by rw [he])
    rw [if_neg this]
    exact h.symm
  · exact h.symm

theorem stop_not_alive (fuel : Nat) (future : List (List Int)) (w : World)
    (hna : (Alive w).1 = false) :
    stop fuel future w =
      (some (match (printInfo (Alive w).2 .notRunning).1 with
        | some code => .exited code
        | none => .returned none), (printInfo (Alive w).2 .notRunning).2) := by
  unfold stop
  rw [terminate_not_alive fuel future w SIGTERM "Stopped" hna]
  simp only [if_true]
  split <;> rename_i h <;> rw [h]

theorem stop_ne_notRunning (fuel : Nat) (future : List (List Int)) (w : World) :
    (stop fuel future w).1 ≠ some (.returned (some .notRunning)) := by
  cases ha : (Alive w).1 with
  | true =>
    rw [stop_alive fuel future w ha]
    exact terminate_ne_notRunning fuel future w SIGTERM "Stopped" ha
  | false =>
    rw [stop_not_alive fuel future w ha]
    simp only
    split <;> simp

theorem printInfo_cases (w : World) (message : Message) :
    ((printInfo w message).1 = none ∧
        (printInfo w message).2.trace = w.trace ++ [⟨.printInfo message, true, w.l, w.r⟩]) ∨
      ∃ code ok, (printInfo w message).1 = some code ∧ (code = 1 ∨ code = 3) ∧
        (printInfo w message).2.trace =
          w.trace ++ [⟨.printInfo message, false, w.l, w.r⟩, ⟨.printError, ok, w.l, w.r⟩] := by
  unfold printInfo
  split <;> rename_i w1 h1
  · left
    rw [sys_eq h1]
    exact ⟨rfl, rfl⟩
  · right
    have := sys_eq h1
    subst this
    split <;> rename_i w2 h2
    · exact ⟨1, true, rfl, Or.inl rfl, by rw [sys_eq h2]; simp⟩
    · exact ⟨3, false, rfl, Or.inr rfl, by rw [sys_eq h2]; simp⟩

theorem printInfo_ok (w : World) (message : Message) (hf : w.faults = []) :
    (printInfo w message).1 = none ∧ (printInfo w message).2.faults = [] := by
  simp [printInfo, World.sys, hf]

/-- After a signal that found no process, when the target stays away and no call fails:
the first test of the loop returns false, the record is cleared and `terminate` returns
`nil`. -/
theorem awaitEnd_gone (fuel : Nat) (w : World) (message : String) (pid : Int)
    (hf : w.faults = []) (hs : storedPid w.content = some pid)
    (hd : w.processExists pid = false) :
    (awaitEnd (fuel + 1) [] w message pid).1 = some (.returned none) ∧
      (awaitEnd (fuel + 1) [] w message pid).2.content = [] := by
  have ha : Alive (w.pass []) = (false,
      { w with
        offset := min defaultBufSize w.content.length,
        l := false,
        r := false,
        trace := w.trace ++ [⟨.rlock, true, w.l, w.r⟩, ⟨.seek, true, w.l, true⟩,
          ⟨.read, true, w.l, true⟩, ⟨.unlock, true, w.l, true⟩,
          ⟨.signal pid 0, false, false, false⟩] }) := by
    rw [pass_nil, Alive_ok w pid hf hs, hd]
  have hdead : (Alive (w.pass [])).1 = false := by rw [ha]
  have hf1 : (Alive (w.pass [])).2.faults = [] := by rw [ha]; exact hf
  have hpl := @pollLoop_succ_dead fuel [] w hdead
  have hc := ClearPid_ok (Alive (w.pass [])).2 hf1
  have hc1 : (ClearPid (Alive (w.pass [])).2).1 = none := by rw [hc]
  have hc2 : (ClearPid (Alive (w.pass [])).2).2.content = [] := by rw [hc]
  have hc3 : (ClearPid (Alive (w.pass [])).2).2.faults = [] := by rw [hc]; exact hf1
  have hp := printInfo_ok (ClearPid (Alive (w.pass [])).2).2 (.terminated message pid) hc3
  have hpc := printInfo_content (ClearPid (Alive (w.pass [])).2).2 (.terminated message pid)
  have e : awaitEnd (fuel + 1) [] w message pid = (some (.returned none),
      (printInfo (ClearPid (Alive (w.pass [])).2).2 (.terminated message pid)).2) := by
    unfold awaitEnd
    rw [hpl, hc1]
    simp only
    split <;> rename_i w2 h2
    · rw [h2] at hp
      simp at hp
    · rw [h2]
  rw [e]
  exact ⟨rfl, by rw [hpc, hc2]⟩

/-! ## `stop` on a record that is not alive -/

/-- C22: `stop` on a record for which `Alive` returns false (a record of one of the kinds of
`Alive_false_of_record`), when the message is printed without error: it returns `nil`, so
that `main` ends with the exit code 0; the content of the PID file is as it was; and the
calls are those of `Alive`, which hold no signal but the probe, and the message
`Not running`. -/
theorem stop_not_running (fuel : Nat) (future : List (List Int)) (w : World)
    (hna : (Alive w).1 = false) (hp : (printInfo (Alive w).2 .notRunning).1 = none) :
    (stop fuel future w).1 = some (.returned none) ∧
      (stop fuel future w).1.bind (fun exit => (exitCode (stop fuel future w).2 exit).1) =
        some 0 ∧
      (stop fuel future w).2.content = w.content ∧
      ∃ es, (stop fuel future w).2.trace = w.trace ++ es ++
          [⟨.printInfo .notRunning, true, (Alive w).2.l, (Alive w).2.r⟩] ∧
        ∀ e ∈ es, e.call.isRead = true := by
  have hs := stop_not_alive fuel future w hna
  rw [hp] at hs
  simp only at hs
  rw [hs]
  refine ⟨rfl, rfl, ?_, ?_⟩
  · simp only
    rw [printInfo_content, Alive_content]
  · obtain ⟨es, hes, hes2⟩ := Alive_isRead w
    refine ⟨es, ?_, hes2⟩
    rcases printInfo_cases (Alive w).2 .notRunning with ⟨_, h2⟩ | ⟨code, ok, h1, _⟩
    · simp only
      rw [h2, hes]
    · rw [hp] at h1
      simp at h1

theorem stop_not_running_witness :
    ((Alive (World.new [] 100 [])).1 = false ∧
        (stop 3 [] (World.new [] 100 [])).1 = some (.returned none) ∧
        (stop 3 [] (World.new [] 100 [])).2.content = []) ∧
      ((Alive (World.new [120, 10] 100 [])).1 = false ∧
        (stop 3 [] (World.new [120, 10] 100 [])).1 = some (.returned none) ∧
        (stop 3 [] (World.new [120, 10] 100 [])).2.content = [120, 10]) ∧
      ((Alive (World.new [55, 10] 100 [8])).1 = false ∧
        (stop 3 [[7]] (World.new [55, 10] 100 [8])).1 = some (.returned none) ∧
        (stop 3 [[7]] (World.new [55, 10] 100 [8])).2.content = [55, 10]) :=
  ⟨⟨by decide,
      (stop_not_running 3 [] (World.new [] 100 []) (by decide) (by decide)).1,
      (stop_not_running 3 [] (World.new [] 100 []) (by decide) (by decide)).2.2.1⟩,
    ⟨by decide,
      (stop_not_running 3 [] (World.new [120, 10] 100 []) (by decide) (by decide)).1,
      (stop_not_running 3 [] (World.new [120, 10] 100 []) (by decide) (by decide)).2.2.1⟩,
    ⟨by decide,
      (stop_not_running 3 [[7]] (World.new [55, 10] 100 [8]) (by decide) (by decide)).1,
      (stop_not_running 3 [[7]] (World.new [55, 10] 100 [8]) (by decide) (by decide)).2.2.1⟩⟩

/-! ## `stop` on a record that is alive -/

theorem filter_isKill_nil (es : List Entry) (h : ∀ e ∈ es, e.call.isKill = false) :
    es.filter (fun e => e.call.isKill) = [] := by
  rw [List.filter_eq_nil_iff]
  intro e he
  rw [h e he]
  simp

/-- C23: `stop` on a record that is alive and whose pid is read.  Among its calls there is
one signal that is not a probe: `SIGTERM` to the pid of the record.  After a signal that has
not failed come the tests of the loop: either the target is alive at each of the `fuel`
tests, `stop` has not ended and the PID file is as it was; or test number `n` is the first
that returns false, the PID file is as it was until the end of that test, and only the calls
of `ClearPid` and the message follow.  When `stop` returns `nil` the PID file is empty. -/
theorem stop_signals_once (fuel : Nat) (future : List (List Int)) (w : World)
    (ha : (Alive w).1 = true) (hr : (ReadPid (Alive w).2).1.2 = none) :
    storedPid w.content = some (recordedPid w) ∧
      ((stop fuel future w).2.trace.drop w.trace.length).filter (fun e => e.call.isKill) =
        [⟨.signal (recordedPid w) SIGTERM, (sendSignal future w SIGTERM).1 == .delivered,
          false, false⟩] ∧
      (sendSignal future w SIGTERM).2.content = w.content ∧
      (((sendSignal future w SIGTERM).1 = .failed ∧
          stop fuel future w = (some (.returned (some (.signaling (recordedPid w)))),
            (sendSignal future w SIGTERM).2)) ∨
        ((sendSignal future w SIGTERM).1 ≠ .failed ∧ (stop fuel future w).1 = none ∧
          (∀ k, k < fuel →
            (Alive (pollWorld k future.tail (sendSignal future w SIGTERM).2)).1 = true) ∧
          (stop fuel future w).2.content = w.content ∧
          Extends Call.isPoll (sendSignal future w SIGTERM).2 (stop fuel future w).2) ∨
        ((sendSignal future w SIGTERM).1 ≠ .failed ∧ ∃ n, n < fuel ∧
          (∀ k, k < n →
            (Alive (pollWorld k future.tail (sendSignal future w SIGTERM).2)).1 = true) ∧
          (Alive (pollWorld n future.tail (sendSignal future w SIGTERM).2)).1 = false ∧
          (Alive (pollWorld n future.tail (sendSignal future w SIGTERM).2)).2.content =
            w.content ∧
          Extends Call.isPoll (sendSignal future w SIGTERM).2
            (Alive (pollWorld n future.tail (sendSignal future w SIGTERM).2)).2 ∧
          Extends (fun c => c.isClear || c.isPrint)
            (Alive (pollWorld n future.tail (sendSignal future w SIGTERM).2)).2
            (stop fuel future w).2 ∧
          (stop fuel future w).1 ≠ none)) ∧
      ((stop fuel future w).1 = some (.returned none) → (stop fuel future w).2.content = []) := by
  obtain ⟨hs, hc, es, hes, hes2⟩ := sendSignal_spec future w SIGTERM hr
  have hstop : stop fuel future w =
      if (sendSignal future w SIGTERM).1 = .failed
      then (some (.returned (some (.signaling (recordedPid w)))),
        (sendSignal future w SIGTERM).2)
      else awaitEnd fuel future.tail (sendSignal future w SIGTERM).2 "Stopped"
        (recordedPid w) := by
    rw [stop_alive fuel future w ha, terminate_signal fuel future w SIGTERM "Stopped" ha hr]
  have hkill : ∀ es2 : List Entry, (∀ e ∈ es2, e.call.isKill = false) →
      (stop fuel future w).2.trace = (sendSignal future w SIGTERM).2.trace ++ es2 →
      ((stop fuel future w).2.trace.drop w.trace.length).filter (fun e => e.call.isKill) =
        [⟨.signal (recordedPid w) SIGTERM, (sendSignal future w SIGTERM).1 == .delivered,
          false, false⟩] := by
    intro es2 h2 ht
    rw [ht, hes, List.append_assoc, List.append_assoc, List.drop_left, List.filter_append,
      List.filter_append, filter_isKill_nil es (fun e he => Call.not_isKill_of_isRead _ (hes2 e he)),
      filter_isKill_nil es2 h2]
    rfl
  by_cases hk : (sendSignal future w SIGTERM).1 = .failed
  · rw [if_pos hk] at hstop
    refine ⟨hs, hkill [] (by simp) (by rw [hstop]; simp), hc, Or.inl ⟨hk, hstop⟩, ?_⟩
    rw [hstop]
    simp
  · rw [if_neg hk] at hstop
    rcases awaitEnd_spec fuel future.tail (sendSignal future w SIGTERM).2 "Stopped"
        (recordedPid w) with ⟨h1, h2, h3, h4⟩ | ⟨n, hn, h2, h3, h4, h5, h6, h7, _, h9⟩
    · rw [← hstop] at h1 h3 h4
      obtain ⟨es2, he2, he3⟩ := h4
      refine ⟨hs, hkill es2 (fun e he => Call.not_isKill_of_isPoll _ (he3 e he)) he2, hc,
        Or.inr (Or.inl ⟨hk, h1, h2, by rw [h3, hc], ⟨es2, he2, he3⟩⟩), ?_⟩
      rw [h1]
      simp
    · rw [← hstop] at h6 h7 h9
      have e5 : Extends (fun c => !c.isKill) (sendSignal future w SIGTERM).2
          (Alive (pollWorld n future.tail (sendSignal future w SIGTERM).2)).2 :=
        h5.mono (fun c hc => by simp [Call.not_isKill_of_isPoll c hc])
      have e6 : Extends (fun c => !c.isKill)
          (Alive (pollWorld n future.tail (sendSignal future w SIGTERM).2)).2
          (stop fuel future w).2 :=
        h6.mono (fun c hc => by
          simp only [Bool.or_eq_true] at hc
          rcases hc with hc | hc
          · simp [Call.isClear_not_isKill c hc]
          · simp [Call.isPrint_not_isKill c hc])
      obtain ⟨es2, he2, he3⟩ := e5.append e6
      exact ⟨hs, hkill es2 (fun e he => by simpa using he3 e he) he2, hc,
        Or.inr (Or.inr ⟨hk, n, hn, h2, h3, by rw [h4, hc], h5, h6, h7⟩), h9⟩

theorem stop_signals_once_witness :
    (Alive (World.new [55, 10] 100 [7])).1 = true ∧
      (ReadPid (Alive (World.new [55, 10] 100 [7])).2).1.2 = none ∧
      (stop 5 [[7], [7], [7], []] (World.new [55, 10] 100 [7])).1 = some (.returned none) ∧
      ((stop 5 [[7], [7], [7], []] (World.new [55, 10] 100 [7])).2.trace.drop
          (World.new [55, 10] 100 [7]).trace.length).filter (fun e => e.call.isKill) =
        [⟨.signal (recordedPid (World.new [55, 10] 100 [7])) SIGTERM,
          (sendSignal [[7], [7], [7], []] (World.new [55, 10] 100 [7]) SIGTERM).1 == .delivered,
          false, false⟩] ∧
      (stop 5 [[7], [7], [7], []] (World.new [55, 10] 100 [7])).2.content = [] ∧
      (stop 2 [[7], [7], [7], []] (World.new [55, 10] 100 [7])).1 = none ∧
      (stop 2 [[7], [7], [7], []] (World.new [55, 10] 100 [7])).2.content = [55, 10] :=
  ⟨by decide, by decide, by decide,
    (stop_signals_once 5 [[7], [7], [7], []] (World.new [55, 10] 100 [7]) (by decide)
      (by decide)).2.1,
    (stop_signals_once 5 [[7], [7], [7], []] (World.new [55, 10] 100 [7]) (by decide)
      (by decide)).2.2.2.2 (by decide),
    by decide, by decide⟩

/-! ## `kill` against `stop` -/

/-- C24: on a record that is not alive `kill` and `stop` differ: `stop` prints `Not running`
and returns `nil`, the exit code is 0; `kill` returns the error `ErrProcessNotRunning`, the
exit code is 1.  So it is for a PID file never written and for one that names a process that
is gone.  On a record that is alive the two agree: here the target ends before the second
test of the loop, both return `nil` and leave the PID file empty. -/
theorem kill_fails_when_not_running :
    (stop 3 [] (World.new [] 100 [])).1 = some (.returned none) ∧
      (kill 3 [] (World.new [] 100 [])).1 = some (.returned (some .notRunning)) ∧
      (exitCode (stop 3 [] (World.new [] 100 [])).2 (.returned none)).1 = some 0 ∧
      (exitCode (kill 3 [] (World.new [] 100 [])).2 (.returned (some .notRunning))).1 =
        some 1 ∧
      (stop 3 [] (World.new [55, 10] 100 [])).1 = some (.returned none) ∧
      (kill 3 [] (World.new [55, 10] 100 [])).1 = some (.returned (some .notRunning)) ∧
      (stop 3 [[7], [7], []] (World.new [55, 10] 100 [7])).1 = some (.returned none) ∧
      (kill 3 [[7], [7], []] (World.new [55, 10] 100 [7])).1 = some (.returned none) ∧
      (stop 3 [[7], [7], []] (World.new [55, 10] 100 [7])).2.content = [] ∧
      (kill 3 [[7], [7], []] (World.new [55, 10] 100 [7])).2.content = [] := by
  decide

/-! ## The errors of the signal -/

/-- C25: in `terminate`, and so in `stop` and `kill`, when the record is alive and its pid is
read.  A signal that fails with another error than `ESRCH` makes the command return the
error `signaling pid <pid> failed`, with the pid of the record, and the PID file is as it
was.  After the error `ESRCH` the command goes on as after a signal delivered: with the
loop and the message, from the world that the signal left; and when the target stays away
and no call fails, the record is cleared and the command returns `nil`. -/
theorem signal_errors (fuel : Nat) (future : List (List Int)) (w : World) (signal : Nat)
    (message : String) (ha : (Alive w).1 = true) (hr : (ReadPid (Alive w).2).1.2 = none) :
    storedPid w.content = some (recordedPid w) ∧
      ((sendSignal future w signal).1 = .failed →
        terminate fuel future w signal message =
          (some (.returned (some (.signaling (recordedPid w)))),
            (sendSignal future w signal).2) ∧
        (sendSignal future w signal).2.content = w.content) ∧
      ((sendSignal future w signal).1 ≠ .failed →
        terminate fuel future w signal message =
          awaitEnd fuel future.tail (sendSignal future w signal).2 message (recordedPid w)) ∧
      ((sendSignal future w signal).1 = .noSuchProcess → future.tail = [] →
        (sendSignal future w signal).2.faults = [] →
        (terminate (fuel + 1) future w signal message).1 = some (.returned none) ∧
          (terminate (fuel + 1) future w signal message).2.content = []) ∧
      stop fuel future w = terminate fuel future w SIGTERM "Stopped" ∧
      kill fuel future w = terminate fuel future w SIGKILL "Killed" := by
  obtain ⟨hs, hc, _⟩ := sendSignal_spec future w signal hr
  refine ⟨hs, ?_, ?_, ?_, stop_alive fuel future w ha, rfl⟩
  · intro hk
    rw [terminate_signal fuel future w signal message ha hr, if_pos hk]
    exact ⟨rfl, hc⟩
  · intro hk
    rw [terminate_signal fuel future w signal message ha hr, if_neg hk]
  · intro hk hft hf
    rw [terminate_signal (fuel + 1) future w signal message ha hr,
      if_neg (by rw [hk]; simp), hft]
    obtain ⟨hd, hl, hself, _⟩ := Kill_noSuchProcess hk
    have hd2 : (sendSignal future w signal).2.processExists (recordedPid w) = false := by
      exact hd
    exact awaitEnd_gone fuel (sendSignal future w signal).2 message (recordedPid w) hf
      (by rw [hc]; exact hs) hd2

theorem signal_errors_witness :
    ((Alive (World.new [55, 10] 100 [7])).1 = true ∧
        (sendSignal [[]] (World.new [55, 10] 100 [7]) SIGTERM).1 = .noSuchProcess ∧
        (terminate 1 [[]] (World.new [55, 10] 100 [7]) SIGTERM "Stopped").1 =
          some (.returned none) ∧
        (terminate 1 [[]] (World.new [55, 10] 100 [7]) SIGTERM "Stopped").2.content = []) ∧
      ((sendSignal []
          { World.new [55, 10] 100 [7] with
            faults := [false, false, false, false, false, false, false, false, true] }
          SIGKILL).1 = .failed ∧
        terminate 3 []
          { World.new [55, 10] 100 [7] with
            faults := [false, false, false, false, false, false, false, false, true] }
          SIGKILL "Killed" =
          (some (.returned (some (.signaling 7))),
            (sendSignal []
              { World.new [55, 10] 100 [7] with
                faults := [false, false, false, false, false, false, false, false, true] }
              SIGKILL).2) ∧
        (sendSignal []
          { World.new [55, 10] 100 [7] with
            faults := [false, false, false, false, false, false, false, false, true] }
          SIGKILL).2.content = [55, 10]) :=
  ⟨⟨by decide, by decide,
      (signal_errors 0 [[]] (World.new [55, 10] 100 [7]) SIGTERM "Stopped" (by decide)
        (by decide)).2.2.2.1 (by decide) (by decide) (by decide)⟩,
    ⟨by decide,
      (signal_errors 3 []
        { World.new [55, 10] 100 [7] with
          faults := [false, false, false, false, false, false, false, false, true] }
        SIGKILL "Killed" (by decide) (by decide)).2.1 (by decide)⟩⟩

/-! ## `restart` -/

/-- C26: `restart` is `stop` and then `start`.  When `stop` returns `nil`, and so when the
record is not alive and `Not running` is printed, `restart` returns what `start` returns
from the world that `stop` left.  When `stop` returns an error, `restart` returns that error
from the world that `stop` left: `start` is not called. -/
theorem restart_stop_then_start (fuel : Nat) (future : List (List Int)) (w : World)
    (options : Options) :
    ((stop fuel future w).1 = some (.returned none) →
        restart fuel future w options =
          (some (start (stop fuel future w).2 options).1,
            (start (stop fuel future w).2 options).2)) ∧
      ((Alive w).1 = false → (printInfo (Alive w).2 .notRunning).1 = none →
        (stop fuel future w).1 = some (.returned none) ∧
        restart fuel future w options =
          (some (start (stop fuel future w).2 options).1,
            (start (stop fuel future w).2 options).2)) ∧
      (∀ err, (stop fuel future w).1 = some (.returned (some err)) →
        restart fuel future w options = (some (.returned (some err)), (stop fuel future w).2)) := by
  have hne := stop_ne_notRunning fuel future w
  have h1 : (stop fuel future w).1 = some (.returned none) →
      restart fuel future w options =
        (some (start (stop fuel future w).2 options).1,
          (start (stop fuel future w).2 options).2) := by
    intro h
    unfold restart
    split <;> rename_i hs
    · rw [hs] at h
      simp at h
    · rw [hs]
    · rename_i res w1 hn1 hn2
      rw [hs] at h
      exact absurd h hn2
  refine ⟨h1, ?_, ?_⟩
  · intro hna hp
    have hs := stop_not_alive fuel future w hna
    rw [hp] at hs
    simp only at hs
    have h2 : (stop fuel future w).1 = some (.returned none) := by rw [hs]
    exact ⟨h2, h1 h2⟩
  · intro err h
    have herr : err ≠ .notRunning := fun he => hne (by rw [h, he])
    unfold restart
    split <;> rename_i hs
    · rename_i err1 w1
      rw [hs] at h
      simp only [Option.some.injEq, Exit.returned.injEq] at h
      subst h
      rw [if_neg herr, hs]
    · rw [hs] at h
      simp at h
    · rename_i res w1 hn1 hn2
      rw [hs] at h
      simp only at h
      exact absurd h (fun h3 => hn1 err (by rw [h3]))

theorem restart_stop_then_start_witness :
    ((stop 3 [] (World.new [] 100 [])).1 = some (.returned none) ∧
        restart 3 [] (World.new [] 100 []) ⟨"/data", "/data/var/log/launcher.log",
            "/data/var/log", ["java", "-jar"], ["java", "-jar", "-daemon"]⟩ =
          (some (start (stop 3 [] (World.new [] 100 [])).2 ⟨"/data",
            "/data/var/log/launcher.log", "/data/var/log", ["java", "-jar"],
            ["java", "-jar", "-daemon"]⟩).1,
            (start (stop 3 [] (World.new [] 100 [])).2 ⟨"/data", "/data/var/log/launcher.log",
              "/data/var/log", ["java", "-jar"], ["java", "-jar", "-daemon"]⟩).2)) ∧
      ((stop 3 [] { World.new [55, 10] 100 [7] with
            faults := [false, false, false, false, false, false, false, false, true] }).1 =
          some (.returned (some (.signaling 7))) ∧
        restart 3 [] { World.new [55, 10] 100 [7] with
            faults := [false, false, false, false, false, false, false, false, true] }
          ⟨"/data", "/data/var/log/launcher.log", "/data/var/log", ["java", "-jar"],
            ["java", "-jar", "-daemon"]⟩ =
          (some (.returned (some (.signaling 7))),
            (stop 3 [] { World.new [55, 10] 100 [7] with
              faults := [false, false, false, false, false, false, false, false, true] }).2)) :=
  ⟨⟨by decide,
      (restart_stop_then_start 3 [] (World.new [] 100 []) ⟨"/data",
        "/data/var/log/launcher.log", "/data/var/log", ["java", "-jar"],
        ["java", "-jar", "-daemon"]⟩).1 (by decide)⟩,
    ⟨by decide,
      (restart_stop_then_start 3 [] { World.new [55, 10] 100 [7] with
          faults := [false, false, false, false, false, false, false, false, true] }
        ⟨"/data", "/data/var/log/launcher.log", "/data/var/log", ["java", "-jar"],
          ["java", "-jar", "-daemon"]⟩).2.2 (.signaling 7) (by decide)⟩⟩

/-! ## `status` -/

end Main

namespace Race

open Process Main

/-! ## Two invocations of `start` -/

/-- C21: two invocations of `start` on a PID file that names a process that is gone.  When
both make the test `process.Alive()` before one of them takes the lock, both find no worker:
each takes the lock in its turn, spawns a child, writes the pid of its child and returns
`nil`; none returns `already running`.  The child of the first finds its pid in the PID file
before the second writes, the child of the second after: both become the worker, and the
PID file names the second only.  When the first invocation and its child are through before
the second makes its test, the second returns `already running as 300`. -/
theorem two_starts_two_workers :
    ((System.run [0, 1, 0, 2, 2, 1, 3, 3] twoStarts).map fun s =>
        s.procs.map fun p => (p.world.self, p.stage)) =
      some [(100, .done (.returned none)), (200, .done (.returned none)),
        (300, .done (.replaced ["java", "-jar", "-daemon"])),
        (301, .done (.replaced ["java", "-jar", "-daemon"]))] ∧
      ((System.run [0, 1, 0, 2, 2, 1, 3, 3] twoStarts).map fun s =>
        s.procs.map Invocation.forks) = some [1, 1, 0, 0] ∧
      (System.run [0, 1, 0, 2, 2, 1, 3, 3] twoStarts).map System.live = some [301, 300] ∧
      (System.run [0, 1, 0, 2, 2, 1, 3, 3] twoStarts).map System.content =
        some [51, 48, 49, 10] ∧
      ((System.run [0, 0, 2, 2, 1] twoStarts).map fun s =>
        s.procs.map fun p => (p.world.self, p.stage)) =
      some [(100, .done (.returned none)),
        (200, .done (.returned (some (.alreadyRunning 300)))),
        (300, .done (.replaced ["java", "-jar", "-daemon"]))] ∧
      (System.run [0, 0, 2, 2, 1] twoStarts).map System.live = some [300] := by
  decide

end Race

namespace Properties

/-! ## `LoadLines` on a file without backslash -/

theorem stripLeading_append_blank (cur : List Nat) (c : Nat) (h : stripLeading cur = [])
    (hc : isBlank c = true) : stripLeading (cur ++ [c]) = [] := by
  simp only [stripLeading, List.dropWhile_eq_nil_iff] at h ⊢
  intro x hx
  rw [List.mem_append, List.mem_singleton] at hx
  rcases hx with hx | hx
  · exact h x hx
  · rw [hx]
    exact hc

theorem stripLeading_append_first (cur : List Nat) (c : Nat) (h : stripLeading cur = [])
    (hc : isBlank c = false) : stripLeading (cur ++ [c]) = [c] := by
  simp only [stripLeading, List.dropWhile_eq_nil_iff] at h
  simp only [stripLeading]
  rw [List.dropWhile_append, if_pos (by
    rw [List.isEmpty_iff, List.dropWhile_eq_nil_iff]
    exact h)]
  simp [List.dropWhile, hc]

theorem stripLeading_append_more (cur : List Nat) (c : Nat) (h : stripLeading cur ≠ []) :
    stripLeading (cur ++ [c]) = stripLeading cur ++ [c] := by
  simp only [stripLeading] at h ⊢
  rw [List.dropWhile_append, if_neg (by
    rw [List.isEmpty_iff]
    exact h)]

theorem scanOf_blank {cur : List Nat} (h : stripLeading cur = []) :
    scanOf cur = ([], true, .scan) := by
  simp only [scanOf, h]

theorem scanOf_comment {cur t : List Nat} {c : Nat} (h : stripLeading cur = c :: t)
    (hc : c = 35 ∨ c = 33) : scanOf cur = ([], false, .comment) := by
  simp only [scanOf, h, if_pos hc]

theorem scanOf_line {cur t : List Nat} {c : Nat} (h : stripLeading cur = c :: t)
    (hc : ¬ (c = 35 ∨ c = 33)) : scanOf cur = (c :: t, false, .scan) := by
  simp only [scanOf, h, if_neg hc]

theorem flatLines_plain (input : List Nat) : ∀ (cur : List Nat) (afterCR : Bool),
    92 ∉ input → (afterCR = true → cur = []) →
    flatLines input (scanOf cur).1 (scanOf cur).2.1 false false (scanOf cur).2.2 =
      ((splitLines input cur afterCR).map stripLeading).filter isKept := by
  induction input with
  | nil =>
    intro cur afterCR _ _
    rw [splitLines]
    by_cases hcur : cur = []
    · subst hcur
      rfl
    · rw [if_neg hcur]
      simp only [List.map_cons, List.map_nil]
      cases hs : stripLeading cur with
      | nil =>
        rw [scanOf_blank hs]
        simp [flatLines, isKept]
      | cons c t =>
        by_cases hc : c = 35 ∨ c = 33
        · rw [scanOf_comment hs hc]
          rcases hc with hc | hc <;> subst hc <;> simp [flatLines, isKept]
        · rw [scanOf_line hs hc]
          have : isKept (c :: t) = true := by
            simp only [isKept, Bool.and_eq_true, bne_iff_ne, ne_eq]
            exact ⟨fun h => hc (Or.inl h), fun h => hc (Or.inr h)⟩
          simp [flatLines, this]
  | cons c rest ih =>
    intro cur afterCR hb hcr
    have hb1 : 92 ∉ rest := fun h => hb (List.mem_cons_of_mem _ h)
    have hc92 : c ≠ 92 := fun h => hb (by rw [h]; exact List.mem_cons_self _ _)
    rw [splitLines]
    by_cases h1 : c = 10 ∧ afterCR = true
    · -- the LF of a CR LF
      rw [if_pos h1]
      have hcur := hcr h1.2
      subst hcur
      have := ih [] false hb1 (fun _ => rfl)
      rw [← this]
      exact flatLines_blank_terminator c (Or.inl h1.1) rest false
    · rw [if_neg h1]
      by_cases h2 : c = 10 ∨ c = 13
      · -- the end of a physical line
        rw [if_pos h2]
        have hrest := ih [] (decide (c = 13)) hb1 (fun _ => rfl)
        have hfresh : flatLines rest [] true false false .scan =
            ((splitLines rest [] (decide (c = 13))).map stripLeading).filter isKept := hrest
        simp only [List.map_cons]
        cases hs : stripLeading cur with
        | nil =>
          rw [scanOf_blank hs]
          simp only [List.filter_cons, isKept, Bool.false_eq_true, if_false]
          rw [← hfresh]
          exact flatLines_blank_terminator c h2 rest false
        | cons d t =>
          by_cases hd : d = 35 ∨ d = 33
          · rw [scanOf_comment hs hd]
            have hk : isKept (d :: t) = false := by
              rcases hd with hd | hd <;> subst hd <;> rfl
            simp only [List.filter_cons, hk, Bool.false_eq_true, if_false]
            rw [← hfresh]
            exact flatLines_comment_end c h2 rest [] false false false
          · rw [scanOf_line hs hd]
            have hk : isKept (d :: t) = true := by
              simp only [isKept, Bool.and_eq_true, bne_iff_ne, ne_eq]
              exact ⟨fun h => hd (Or.inl h), fun h => hd (Or.inr h)⟩
            simp only [List.filter_cons, hk, if_true]
            rw [← hfresh]
            exact flatLines_end_of_line c h2 (d :: t) rest false false (by simp) (Or.inl rfl)
      · -- a byte of the line
        rw [if_neg h2]
        have hterm : c ≠ 10 ∧ c ≠ 13 := ⟨fun h => h2 (Or.inl h), fun h => h2 (Or.inr h)⟩
        have hrest := ih (cur ++ [c]) false hb1 (fun h => by simp at h)
        rw [← hrest]
        cases hs : stripLeading cur with
        | nil =>
          rw [scanOf_blank hs]
          by_cases hbl : isBlank c = true
          · rw [scanOf_blank (stripLeading_append_blank cur c hs hbl)]
            have : c = 32 ∨ c = 9 ∨ c = 12 := by
              simpa [isBlank, or_assoc] using hbl
            simp only
            rw [flatLines_cons_scan, if_pos ⟨rfl, this⟩]
          · have hbl : isBlank c = false := by simpa using hbl
            have hs1 := stripLeading_append_first cur c hs hbl
            have hws : c ≠ 32 ∧ c ≠ 9 ∧ c ≠ 12 := by
              simp only [isBlank, Bool.or_eq_false_iff, decide_eq_false_iff_not] at hbl
              exact ⟨hbl.1.1, hbl.1.2, hbl.2⟩
            by_cases hd : c = 35 ∨ c = 33
            · rw [scanOf_comment hs1 hd]
              exact flatLines_comment_start c hd rest false
            · rw [scanOf_line hs1 hd]
              simp only
              rw [flatLines_start c [] rest false false hws hterm
                (Or.inr ⟨fun h => hd (Or.inl h), fun h => hd (Or.inr h)⟩), if_neg hc92]
              rfl
        | cons d t =>
          have hne : stripLeading cur ≠ [] := by rw [hs]; simp
          have hs1 : stripLeading (cur ++ [c]) = d :: (t ++ [c]) := by
            rw [stripLeading_append_more cur c hne, hs]
            rfl
          by_cases hd : d = 35 ∨ d = 33
          · rw [scanOf_comment hs hd, scanOf_comment hs1 hd]
            exact flatLines_comment_body [c] (fun x hx => by
              rw [List.mem_singleton] at hx
              rw [hx]
              exact hterm) rest [] false false false
          · rw [scanOf_line hs hd, scanOf_line hs1 hd]
            have := flatLines_body [c] (d :: t) rest false false (by simp) (fun x hx => by
              rw [List.mem_singleton] at hx
              rw [hx]
              exact hterm)
            simp only [List.singleton_append, List.cons_append, List.nil_append] at this
            simp only
            rw [this]
            simp [backslashFlag, hc92]

theorem logicalLines_plain (input : List Nat) (hb : 92 ∉ input) :
    logicalLines input = plainLines input :=
  flatLines_plain input [] false hb (fun _ => rfl)

/-- C30: on a file that holds no backslash, read in chunks that are not empty, `LoadLines`
returns the physical lines of the file in file order (a line ends at LF, CR or CR LF, and
the last line needs no terminator), each without its leading spaces, tabs and form feeds,
and leaves out the lines that are then empty or begin with `#` or `!`.  A file that holds
`key=value` gives the one line `key=value`. -/
theorem LoadLines_plain_lines (cs : Reader) (hcs : ∀ chunk ∈ cs, chunk ≠ [])
    (hb : 92 ∉ Reader.bytes cs) :
    LoadLines cs = .ok (plainLines (Reader.bytes cs)) ∧
      LoadLines [[107, 101, 121, 61, 118, 97, 108, 117, 101]] =
        .ok [[107, 101, 121, 61, 118, 97, 108, 117, 101]] := by
  refine ⟨?_, by decide⟩
  have := readLines_eq_logicalLines cs hcs
  rw [logicalLines_plain _ hb] at this
  exact this

theorem LoadLines_plain_lines_witness :
    plainLines (Reader.bytes [[32, 97, 32, 13], [10, 35, 120, 10, 10, 9, 33], [13, 98, 61, 49]]) =
        [[97, 32], [98, 61, 49]] ∧
      LoadLines [[32, 97, 32, 13], [10, 35, 120, 10, 10, 9, 33], [13, 98, 61, 49]] =
        .ok [[97, 32], [98, 61, 49]] :=
  ⟨by decide,
    (LoadLines_plain_lines [[32, 97, 32, 13], [10, 35, 120, 10, 10, 9, 33], [13, 98, 61, 49]]
      (by decide) (by decide)).1⟩

end Properties

namespace Commands

theorem toLowerRune_idem (c : Char) : toLowerRune (toLowerRune c) = toLowerRune c := by
  by_cases h : 65 ≤ c.toNat ∧ c.toNat ≤ 90
  · have hc : c = Char.ofNat c.toNat := (Char.ofNat_toNat c).symm
    obtain ⟨h1, h2⟩ := h
    generalize c.toNat = n at hc h1 h2
    subst hc
    interval_cases n <;> decide
  · by_cases h1 : c.toNat = 0x130
    · have e : toLowerRune c = 'i' := by unfold toLowerRune; rw [if_neg h, if_pos h1]
      rw [e]; decide
    · by_cases h2 : c.toNat = 0x212A
      · have e : toLowerRune c = 'k' := by unfold toLowerRune; rw [if_neg h, if_neg h1, if_pos h2]
        rw [e]; decide
      · have e : toLowerRune c = c := by
          unfold toLowerRune; rw [if_neg h, if_neg h1, if_neg h2]
        rw [e, e]

theorem ToLower_idem (s : String) : ToLower (ToLower s) = ToLower s := by
  unfold ToLower
  simp only [List.map_map]
  congr 1
  apply List.map_congr_left
  intro c _
  exact toLowerRune_idem c

theorem ParseCommand_eq_of_ToLower (s t : String) (h : ToLower s = ToLower t) :
    ParseCommand s = ParseCommand t := by
  unfold ParseCommand; rw [h]

theorem IsCommand_iff (s : String) : IsCommand s = true ↔ ToLower s ∈ ListAll := by
  unfold IsCommand ParseCommand ListAll
  simp only [Command.String, List.mem_cons, List.mem_singleton, List.not_mem_nil, or_false]
  constructor
  · intro h
    by_contra hn
    simp only [not_or] at hn
    obtain ⟨h1, h2, h3, h4, h5, h6, h7⟩ := hn
    rw [if_neg h1, if_neg h2, if_neg h3, if_neg h4, if_neg h6, if_neg h5, if_neg h7] at h
    exact absurd h (by decide)
  · intro h
    split_ifs <;> first | decide | (exfalso; tauto)

/-- C40: `ParseCommand` gives back each of the eight commands from its name; it ignores the
case of the letters (the command of a string is the command of its lower case, and `ReStArT`
is `RESTART`); `IsCommand` holds
exactly of the strings whose lower case is one of the names of `ListAll`; and `ListAll` has
seven names, no name twice, and holds the name of a command exactly when the command is not
`UNKNOWN`. -/
theorem ParseCommand_String :
    (∀ c : Command, ParseCommand c.String = c) ∧
    (∀ s : String, ParseCommand (ToLower s) = ParseCommand s) ∧
    ParseCommand "ReStArT" = .RESTART ∧
    (∀ s : String, IsCommand s = true ↔ ToLower s ∈ ListAll) ∧
    ListAll.length = 7 ∧ ListAll.Nodup ∧
    (∀ c : Command, c.String ∈ ListAll ↔ c ≠ .UNKNOWN) :=
  ⟨fun c => by cases c <;> decide,
    fun s => ParseCommand_eq_of_ToLower _ _ (ToLower_idem s),
    by decide, IsCommand_iff, by decide, by decide,
    fun c => by cases c <;> decide⟩

end Commands

namespace Args

theorem transformArgs_eq_flatten (args : List String) :
    transformArgs args = (args.map splitShortFlag).flatten := by
  induction args with
  | nil => rfl
  | cons arg args ih =>
    unfold transformArgs
    rw [List.map_cons, List.flatten_cons, ih]
    unfold splitShortFlag
    by_cases h : arg.length > 2 ∧ (arg.data.take 2 = "-D".data ∨ arg.data.take 2 = "-J".data)
    · rw [if_pos h, if_pos h]; rfl
    · rw [if_neg h, if_neg h]; rfl

theorem flatten_singletons (l : List String) : (l.map fun a => [a]).flatten = l := by
  induction l with
  | nil => rfl
  | cons a l ih => rw [List.map_cons, List.flatten_cons, ih]; rfl

theorem transformArgs_unchanged (args : List String)
    (h : ∀ arg ∈ args, splitShortFlag arg = [arg]) : transformArgs args = args := by
  rw [transformArgs_eq_flatten, List.map_congr_left h, flatten_singletons]

/-- C38: `transformArgs` puts, in the order of the list, two elements in the place of every
argument longer than two characters that starts with `-D` or `-J` (the flag of two characters
and the remainder, which is not empty) and keeps every other argument, `-D` and `-J` alone
among them; the arguments of a list that are not to be split make a list that comes back
unchanged, and the list of `TestTransformArgs` gives `a1, -D, something, -J, something, b1,
c1`.  (A string that starts with the two bytes of `-D` or `-J` has more than two bytes
exactly when it has more than two characters: `len(args[i]) > 2` is `arg.length > 2`
there.) -/
theorem transformArgs_splits (args : List String) :
    transformArgs args = (args.map splitShortFlag).flatten ∧
    (∀ (c : Char) (rest : List Char),
      splitShortFlag (String.mk ('-' :: 'D' :: c :: rest)) = ["-D", String.mk (c :: rest)] ∧
      splitShortFlag (String.mk ('-' :: 'J' :: c :: rest)) = ["-J", String.mk (c :: rest)]) ∧
    splitShortFlag "-D" = ["-D"] ∧ splitShortFlag "-J" = ["-J"] ∧
    transformArgs (args.filter fun arg => splitShortFlag arg = [arg]) =
      args.filter (fun arg => splitShortFlag arg = [arg]) ∧
    transformArgs ["a1", "-Dsomething", "-Jsomething", "b1", "c1"] =
      ["a1", "-D", "something", "-J", "something", "b1", "c1"] := by
  refine ⟨transformArgs_eq_flatten args, ?_, by decide, by decide, ?_, by decide⟩
  · intro c rest
    unfold splitShortFlag
    simp only [String.length, List.length_cons, List.take_succ_cons, List.take_zero,
      List.drop_succ_cons, List.drop_zero]
    constructor
    · rw [if_pos ⟨by omega, Or.inl trivial⟩]
    · rw [if_pos ⟨by omega, Or.inr trivial⟩]
  · apply transformArgs_unchanged
    intro arg harg
    exact of_decide_eq_true (List.mem_filter.mp harg).2

end Args

namespace Properties

/-! ## `Parse` -/

theorem IndexByte_none (s : List Nat) (c : Nat) : IndexByte s c = none ↔ c ∉ s := by
  induction s with
  | nil => simp [IndexByte]
  | cons b s ih =>
    rw [IndexByte]
    by_cases h : b = c
    · simp [h]
    · rw [if_neg h]
      simp only [Option.map_eq_none', ih, List.mem_cons, not_or]
      constructor
      · intro h1; exact ⟨fun h2 => h h2.symm, h1⟩
      · intro h1; exact h1.2

theorem IndexByte_some (s : List Nat) (c m : Nat) (h : IndexByte s c = some m) :
    s.take m = s.takeWhile (· ≠ c) ∧ s.drop (m + 1) = (s.dropWhile (· ≠ c)).drop 1 := by
  induction s generalizing m with
  | nil => simp [IndexByte] at h
  | cons b s ih =>
    rw [IndexByte] at h
    by_cases hb : b = c
    · rw [if_pos hb] at h
      injection h with h
      subst h
      simp [List.takeWhile, List.dropWhile, hb]
    · rw [if_neg hb] at h
      cases hi : IndexByte s c with
      | none => rw [hi] at h; simp at h
      | some m1 =>
        rw [hi] at h
        simp only [Option.map_some'] at h
        injection h with h
        subst h
        obtain ⟨h1, h2⟩ := ih m1 hi
        simp [List.takeWhile, List.dropWhile, hb, h1, h2]

theorem ContainsEq_iff (s : List Nat) : ContainsEq s = true ↔ 61 ∈ s := by
  unfold ContainsEq
  cases h : IndexByte s 61 with
  | none => simp [(IndexByte_none s 61).1 h]
  | some m =>
    simp only [Option.isSome_some, true_iff]
    by_contra hn
    rw [(IndexByte_none s 61).2 hn] at h
    exact absurd h (by simp)

theorem SplitN2_of_mem (s : List Nat) (h : 61 ∈ s) :
    SplitN2 s = [s.takeWhile (· ≠ 61), (s.dropWhile (· ≠ 61)).drop 1] := by
  unfold SplitN2
  cases hi : IndexByte s 61 with
  | none => exact absurd h ((IndexByte_none s 61).1 hi)
  | some m =>
    obtain ⟨h1, h2⟩ := IndexByte_some s 61 m hi
    simp only [h1, h2]

theorem SplitN2_of_not_mem (s : List Nat) (h : 61 ∉ s) : SplitN2 s = [s] := by
  unfold SplitN2
  rw [(IndexByte_none s 61).2 h]

theorem parseArgs_cons (arg : List Nat) (args : List (List Nat)) (m : GoMap) (hc : 61 ∈ arg) :
    parseArgs (arg :: args) m =
      if keyOf arg = ascii "config" then .error .config
      else if keyOf arg = ascii "log.output-file" then .error .serverLog
      else if keyOf arg = ascii "log.levels-file" then .error .logLevels
      else parseArgs args (m.set (keyOf arg) (valueOf arg)) := by
  have hce : ContainsEq arg = true := (ContainsEq_iff arg).2 hc
  rw [parseArgs, if_neg (by rw [hce]; simp), SplitN2_of_mem arg hc]
  rfl

theorem parseArgs_offending (arg : List Nat) (args : List (List Nat)) (m : GoMap)
    (h : offending arg = true) : parseArgs (arg :: args) m = .error (errorOf arg) := by
  unfold errorOf
  by_cases hc : 61 ∈ arg
  · rw [parseArgs_cons arg args m hc, if_neg (not_not.2 hc)]
    simp only [offending, hc, not_true_eq_false, decide_False, Bool.false_or,
      decide_eq_true_eq, reservedKeys, List.mem_cons, List.mem_singleton, List.not_mem_nil,
      or_false] at h
    by_cases h1 : keyOf arg = ascii "config"
    · rw [if_pos h1, if_pos h1]
    · rw [if_neg h1, if_neg h1]
      by_cases h2 : keyOf arg = ascii "log.output-file"
      · rw [if_pos h2, if_pos h2]
      · rw [if_neg h2, if_neg h2]
        have h3 : keyOf arg = ascii "log.levels-file" := by tauto
        rw [if_pos h3]
  · have hce : ContainsEq arg = false := by
      cases hx : ContainsEq arg with
      | false => rfl
      | true => exact absurd ((ContainsEq_iff arg).1 hx) hc
    rw [parseArgs, if_pos hce, if_pos hc]

theorem parseArgs_step (arg : List Nat) (args : List (List Nat)) (m : GoMap)
    (h : offending arg = false) :
    parseArgs (arg :: args) m = parseArgs args (m.set (keyOf arg) (valueOf arg)) := by
  simp only [offending, Bool.or_eq_false_iff, decide_eq_false_iff_not, not_not, reservedKeys,
    List.mem_cons, List.mem_singleton, List.not_mem_nil, or_false, not_or] at h
  obtain ⟨hc, h1, h2, h3⟩ := h
  rw [parseArgs_cons arg args m hc, if_neg h1, if_neg h2, if_neg h3]

/-- The loop of `Parse` ends at the first offending argument with its error; without one it
binds the key of every argument to its value, in the order of the list. -/
theorem parseArgs_eq (args : List (List Nat)) (m : GoMap) :
    parseArgs args m =
      match args.find? offending with
      | some arg => .error (errorOf arg)
      | none => .ok (args.foldl (fun m arg => m.set (keyOf arg) (valueOf arg)) m) := by
  induction args generalizing m with
  | nil => rfl
  | cons arg args ih =>
    cases h : offending arg with
    | true =>
      rw [parseArgs_offending arg args m h, List.find?_cons_of_pos _ h]
    | false =>
      rw [parseArgs_step arg args m h, ih, List.find?_cons_of_neg _ (by rw [h]; simp)]
      rfl

theorem find_offending_none (args : List (List Nat)) :
    args.find? offending = none ↔ ∀ arg ∈ args, offending arg = false := by
  rw [List.find?_eq_none]
  constructor
  · intro h arg harg
    cases hx : offending arg with
    | false => rfl
    | true => exact absurd hx (h arg harg)
  · intro h arg harg hx
    rw [h arg harg] at hx
    exact absurd hx (by simp)

theorem foldl_set_nodup (args : List (List Nat)) (m : GoMap) (h : (m.map Prod.fst).Nodup) :
    ((args.foldl (fun m arg => m.set (keyOf arg) (valueOf arg)) m).map Prod.fst).Nodup := by
  induction args generalizing m with
  | nil => exact h
  | cons arg args ih => exact ih _ (GoMap.nodup_set m _ _ h)

theorem foldl_set_get (args : List (List Nat)) (m : GoMap) (key : List Nat) :
    (args.foldl (fun m arg => m.set (keyOf arg) (valueOf arg)) m).get key =
      match (args.filter fun arg => keyOf arg = key).getLast? with
      | some arg => some (valueOf arg)
      | none => m.get key := by
  induction args using List.reverseRecOn generalizing m with
  | nil => rfl
  | append_singleton args arg ih =>
    rw [List.foldl_append, List.filter_append]
    simp only [List.foldl_cons, List.foldl_nil]
    by_cases hk : keyOf arg = key
    · have e : List.filter (fun arg => decide (keyOf arg = key)) [arg] = [arg] := by
        simp [List.filter, hk]
      rw [e, List.getLast?_append, hk]
      simp only [List.getLast?_singleton]
      exact GoMap.get_set_same _ _ _
    · have e : List.filter (fun arg => decide (keyOf arg = key)) [arg] = [] := by
        simp [List.filter, hk]
      rw [e, List.append_nil, GoMap.get_set_other _ _ _ _ hk]
      exact ih m

/-- The assignment of `Parse` overwrites: for arguments that all hold an `=` and have no
reserved key, `Parse` returns a mapping, with one entry for a key, in which every key is bound
to the value that `Parse` takes (`valueOf`) from the last argument from which it takes this
key (`keyOf`), and to nothing when there is no such argument. -/
theorem Parse_last_argument_wins (args : List (List Nat)) (h1 : ∀ arg ∈ args, 61 ∈ arg)
    (h2 : ∀ arg ∈ args, keyOf arg ∉ reservedKeys) :
    ∃ m, Parse args = .ok m ∧ (m.map Prod.fst).Nodup ∧
      ∀ key, m.get key = ((args.filter fun arg => keyOf arg = key).getLast?).map valueOf := by
  have hno : args.find? offending = none := by
    rw [find_offending_none]
    intro arg harg
    simp [offending, h1 arg harg, h2 arg harg]
  refine ⟨_, ?_, foldl_set_nodup args [] List.nodup_nil, ?_⟩
  · unfold Parse
    rw [parseArgs_eq, hno]
  · intro key
    rw [foldl_set_get]
    cases (args.filter fun arg => keyOf arg = key).getLast? with
    | none => rfl
    | some arg => rfl

theorem Parse_last_argument_wins_witness :
    Parse [ascii "key=value", ascii "key=duplicate", ascii "other=value"] =
        .ok [(ascii "key", ascii "duplicate"), (ascii "other", ascii "value")] ∧
      ∃ m, Parse [ascii "key=value", ascii "key=duplicate", ascii "other=value"] = .ok m ∧
        (m.map Prod.fst).Nodup ∧
        ∀ key, m.get key =
          (([ascii "key=value", ascii "key=duplicate", ascii "other=value"].filter
            fun arg => keyOf arg = key).getLast?).map valueOf :=
  ⟨by decide, Parse_last_argument_wins _ (by decide) (by decide)⟩

/-- C32: `Parse` fails exactly when some argument is offending (it holds no `=`, or its
trimmed key is `config`, `log.output-file` or `log.levels-file`); it then returns the error of
the first offending argument of the list, `property is malformed: <arg>` for an argument
without `=`, and no mapping; without an offending argument it returns a mapping.  The argument
`invalidSystem` of `TestInvalidProperties` gives `property is malformed: invalidSystem`. -/
theorem Parse_fails_iff (args : List (List Nat)) :
    ((∃ err, Parse args = .error err) ↔ ∃ arg ∈ args, offending arg = true) ∧
    (match args.find? offending with
      | some arg => Parse args = .error (errorOf arg)
      | none => ∃ m, Parse args = .ok m) ∧
    (∀ arg : List Nat, 61 ∉ arg ↔ errorOf arg = .malformed arg) ∧
    Parse [ascii "invalidSystem"] = .error (.malformed (ascii "invalidSystem")) := by
  have hp := parseArgs_eq args []
  refine ⟨?_, ?_, ?_, by decide⟩
  · unfold Parse
    rw [hp]
    cases hf : args.find? offending with
    | none =>
      simp only [false_iff, not_exists, not_and, reduceCtorEq, exists_false]
      intro arg harg
      rw [(find_offending_none args).1 hf arg harg]
      simp
    | some arg =>
      simp only [Except.error.injEq, exists_eq', true_iff]
      exact ⟨arg, List.mem_of_find?_eq_some hf, List.find?_some hf⟩
  · unfold Parse
    rw [hp]
    cases hf : args.find? offending with
    | none => exact ⟨_, rfl⟩
    | some arg => rfl
  · intro arg
    unfold errorOf
    by_cases hc : 61 ∉ arg
    · rw [if_pos hc]; simp [hc]
    · rw [if_neg hc]
      simp only [hc, false_iff]
      split_ifs <;> simp

end Properties

namespace Properties

/-! ## `Resolve` -/

theorem HasPrefix_append (p s : List Nat) : HasPrefix (p ++ s) p = true := by
  simp [HasPrefix]

theorem HasSuffix_append (s p : List Nat) : HasSuffix (s ++ p) p = true := by
  simp [HasSuffix]

theorem TrimPrefix_append (p s : List Nat) : TrimPrefix (p ++ s) p = s := by
  unfold TrimPrefix
  rw [HasPrefix_append, if_pos rfl]
  simp

theorem TrimSuffix_append (s p : List Nat) : TrimSuffix (s ++ p) p = s := by
  unfold TrimSuffix
  rw [HasSuffix_append, if_pos rfl]
  simp

/-- The entry of the environment that `findEnvironmentVariable` takes for `key`: the first
one that holds an `=` and has `key` before its first `=`. -/
theorem findEnvironmentVariable_eq (environ : List (List Nat)) (key : List Nat) :
    findEnvironmentVariable environ key =
      match environ.find? fun e => decide (61 ∈ e) && decide (e.takeWhile (· ≠ 61) = key) with
      | some e => .ok ((e.dropWhile (· ≠ 61)).drop 1)
      | none => .error (.noVariable key) := by
  induction environ with
  | nil => rfl
  | cons e rest ih =>
    rw [findEnvironmentVariable]
    by_cases hc : 61 ∈ e
    · rw [SplitN2_of_mem e hc]
      simp only
      by_cases hk : e.takeWhile (· ≠ 61) = key
      · rw [if_pos hk, List.find?_cons_of_pos _ (by
          rw [Bool.and_eq_true]; exact ⟨decide_eq_true hc, decide_eq_true hk⟩)]
      · rw [if_neg hk, ih, List.find?_cons_of_neg _ (by
          rw [Bool.and_eq_true]; intro h; exact hk (of_decide_eq_true h.2))]
    · rw [SplitN2_of_not_mem e hc]
      simp only
      rw [ih, List.find?_cons_of_neg _ (by
        rw [Bool.and_eq_true]; intro h; exact hc (of_decide_eq_true h.1))]

theorem Resolve_eq (fs : OpenFs) (environ : List (List Nat)) (filename key : List Nat) :
    Resolve fs environ filename key =
      match fs filename with
      | .error err => .error (.openFailed err)
      | .ok readFile =>
        match Load readFile with
        | .error err => .error (.load err)
        | .ok properties =>
          match properties.get key with
          | none => .error (.noProperty key filename)
          | some value => decodeEnvProperty environ value := by
  unfold Resolve LoadFile
  cases fs filename with
  | error err => rfl
  | ok readFile =>
    simp only
    cases Load readFile with
    | error err => rfl
    | ok properties =>
      simp only
      cases properties.get key with
      | none => rfl
      | some value =>
        simp only
        cases decodeEnvProperty environ value with
        | error err => rfl
        | ok v => rfl

/-- C33: `Resolve` returns the error of `fs.Open` when the file cannot be opened and the error
of `Load` when it cannot be parsed, `there is no property named <key> in <filename>` when the
mapping of `Load` does not hold the key, and the value that this mapping gives to the key when
the value does not start with `${ENV:`.  The files of `TestResolve`, `TestResolveInvalid` and
`TestResolveMissing` give `propertyValue` and the two errors. -/
theorem Resolve_plain_value (fs : OpenFs) (environ : List (List Nat))
    (filename key : List Nat) :
    Resolve fs environ filename key =
      (match fs filename with
      | .error err => .error (.openFailed err)
      | .ok readFile =>
        match Load readFile with
        | .error err => .error (.load err)
        | .ok properties =>
          match properties.get key with
          | none => .error (.noProperty key filename)
          | some value =>
            if HasPrefix value envPropertyPrefix then decodeEnvProperty environ value
            else .ok value) ∧
    Resolve (fun name => if name = ascii "/etc/trino/config.properties" then
        .ok [ascii "propertyName=propertyValue"] else .error 2) environ
      (ascii "/etc/trino/config.properties") (ascii "propertyName") =
        .ok (ascii "propertyValue") ∧
    Resolve (fun name => if name = ascii "/etc/trino/config.properties" then
        .ok [ascii "key=value"] else .error 2) environ
      (ascii "/etc/trino/config.properties") (ascii "propertyName") =
        .error (.noProperty (ascii "propertyName") (ascii "/etc/trino/config.properties")) ∧
    Resolve (fun _ => .error 2) environ
      (ascii "/etc/trino/config.properties") (ascii "propertyName") =
        .error (.openFailed 2) := by
  refine ⟨?_, ?_, ?_, ?_⟩
  · rw [Resolve_eq]
    cases fs filename with
    | error err => rfl
    | ok readFile =>
      simp only
      cases Load readFile with
      | error err => rfl
      | ok properties =>
        simp only
        cases properties.get key with
        | none => rfl
        | some value =>
          simp only
          by_cases h : HasPrefix value envPropertyPrefix = true
          · rw [if_pos h]
          · rw [if_neg h]
            unfold decodeEnvProperty
            rw [if_neg h]
  · rw [Resolve_eq]; rfl
  · rw [Resolve_eq]; rfl
  · rw [Resolve_eq]

/-- C34: for a property whose value starts with `${ENV:`, `Resolve` fails with the
malformed-property error when the value does not end with the closing brace; and when the
value is `${ENV:` followed by `name` and the closing brace, it returns the text after the
first `=` of the first entry of the environment that has `name` before its first `=`, and
fails with `could not find environment variable: <name>` when the environment has no such
entry. -/
theorem Resolve_env_value (fs : OpenFs) (environ : List (List Nat)) (filename key : List Nat)
    (readFile : Reader) (properties : GoMap) (value : List Nat)
    (hopen : fs filename = .ok readFile) (hload : Load readFile = .ok properties)
    (hget : properties.get key = some value)
    (hpre : HasPrefix value envPropertyPrefix = true) :
    (HasSuffix value envPropertySuffix = false →
      Resolve fs environ filename key = .error (.doesNotEnd value)) ∧
    (∀ name, value = envPropertyPrefix ++ name ++ envPropertySuffix →
      Resolve fs environ filename key =
        match environ.find? fun e => decide (61 ∈ e) && decide (e.takeWhile (· ≠ 61) = name) with
        | some e => .ok ((e.dropWhile (· ≠ 61)).drop 1)
        | none => .error (.noVariable name)) := by
  have h0 : Resolve fs environ filename key = decodeEnvProperty environ value := by
    rw [Resolve_eq, hopen]
    simp only
    rw [hload]
    simp only
    rw [hget]
  constructor
  · intro hsuf
    rw [h0]
    unfold decodeEnvProperty
    rw [if_pos hpre, if_pos hsuf]
  · intro name hname
    rw [h0]
    unfold decodeEnvProperty
    rw [if_pos hpre, hname, HasSuffix_append, if_neg (by simp), List.append_assoc,
      TrimPrefix_append, TrimSuffix_append, findEnvironmentVariable_eq]

theorem Resolve_env_value_witness :
    Resolve (fun _ => .ok [ascii "propertyName=$\x7bENV:MISSING\x7d"]) [ascii "HOME=/root"]
      (ascii "/etc/trino/config.properties") (ascii "propertyName") =
        .error (.noVariable (ascii "MISSING")) ∧
    Resolve (fun _ => .ok [ascii "dir=$\x7bENV:HOME\x7d"])
      [ascii "HOME", ascii "PATH=/bin", ascii "HOME=/root=x", ascii "HOME=/other"]
      (ascii "f") (ascii "dir") = .ok (ascii "/root=x") ∧
    Resolve (fun _ => .ok [ascii "dir=$\x7bENV:HOME"]) [ascii "HOME=/root"]
      (ascii "f") (ascii "dir") = .error (.doesNotEnd (ascii "$\x7bENV:HOME")) := by
  refine ⟨?_, ?_, ?_⟩
  · exact ((Resolve_env_value (fun _ => .ok [ascii "propertyName=$\x7bENV:MISSING\x7d"])
      [ascii "HOME=/root"] (ascii "/etc/trino/config.properties") (ascii "propertyName")
      [ascii "propertyName=$\x7bENV:MISSING\x7d"]
      [(ascii "propertyName", ascii "$\x7bENV:MISSING\x7d")] (ascii "$\x7bENV:MISSING\x7d")
      rfl (by decide) (by decide) (by decide)).2 (ascii "MISSING") (by decide)).trans
        (by decide)
  · decide
  · exact (Resolve_env_value (fun _ => .ok [ascii "dir=$\x7bENV:HOME"])
      [ascii "HOME=/root"] (ascii "f") (ascii "dir")
      [ascii "dir=$\x7bENV:HOME"]
      [(ascii "dir", ascii "$\x7bENV:HOME")] (ascii "$\x7bENV:HOME")
      rfl (by decide) (by decide) (by decide)).1 (by decide)

end Properties

namespace Properties

theorem GoMap.get_eq_none (m : GoMap) (key : List Nat) :
    m.get key = none ↔ key ∉ m.map Prod.fst := by
  induction m with
  | nil => simp [GoMap.get]
  | cons kv rest ih =>
    obtain ⟨k, v⟩ := kv
    by_cases h : k = key
    · simp [GoMap.get, h]
    · simp only [GoMap.get, h, if_false, ih, List.map_cons, List.mem_cons, not_or]
      exact ⟨fun h1 => ⟨fun h2 => h h2.symm, h1⟩, fun h1 => h1.2⟩

theorem GoMap.get_eq_some (m : GoMap) (hm : (m.map Prod.fst).Nodup) (key value : List Nat) :
    m.get key = some value ↔ (key, value) ∈ m := by
  induction m with
  | nil => simp [GoMap.get]
  | cons kv rest ih =>
    obtain ⟨k, v⟩ := kv
    simp only [List.map_cons, List.nodup_cons] at hm
    by_cases h : k = key
    · subst h
      simp only [GoMap.get, if_true, Option.some.injEq, List.mem_cons, Prod.mk.injEq, true_and]
      constructor
      · intro h1; exact Or.inl h1.symm
      · rintro (h1 | h1)
        · exact h1.symm
        · exact absurd (List.mem_map_of_mem Prod.fst h1) hm.1
    · simp only [GoMap.get, h, if_false, ih hm.2, List.mem_cons, Prod.mk.injEq]
      constructor
      · intro h1; exact Or.inr h1
      · rintro (h1 | h1)
        · exact absurd h1.1.symm h
        · exact h1

theorem GoMap.get_perm (m order : GoMap) (hm : (m.map Prod.fst).Nodup) (hp : order.Perm m)
    (key : List Nat) : order.get key = m.get key := by
  have ho : (order.map Prod.fst).Nodup := (hp.map Prod.fst).nodup_iff.2 hm
  cases h : m.get key with
  | none =>
    rw [GoMap.get_eq_none] at h ⊢
    intro h1
    exact h ((hp.map Prod.fst).mem_iff.1 h1)
  | some v =>
    rw [GoMap.get_eq_some m hm] at h
    rw [GoMap.get_eq_some order ho]
    exact hp.mem_iff.2 h

theorem GoMap.get_foldl_set (order sys : GoMap) (ho : (order.map Prod.fst).Nodup)
    (key : List Nat) :
    (order.foldl (fun properties kv => properties.set kv.1 kv.2) sys).get key =
      match order.get key with
      | some value => some value
      | none => sys.get key := by
  induction order generalizing sys with
  | nil => rfl
  | cons kv rest ih =>
    obtain ⟨k, v⟩ := kv
    simp only [List.map_cons, List.nodup_cons] at ho
    rw [List.foldl_cons, ih _ ho.2]
    by_cases h : k = key
    · subst h
      have hr : GoMap.get rest k = none := (GoMap.get_eq_none rest k).2 ho.1
      simp only [hr, GoMap.get, if_true]
      exact GoMap.get_set_same sys k v
    · simp only [GoMap.get, h, if_false]
      cases GoMap.get rest key with
      | some value => rfl
      | none => exact GoMap.get_set_other sys k v key h

end Properties

namespace Args

open Properties

/-- C39: when `properties.Parse` gives the mapping `sys` for the `-D` arguments, the
`SystemProperties` that `ParseOptions` builds, in whatever order Go visits the entries of the
node configuration, binds every key of the node configuration to its value there, also when
`sys` binds it to another value, and every other key to what `sys` binds it to. -/
theorem systemProperties_overwritten (systemPropertiesOpt : List (List Nat))
    (NodeConfig order sys : GoMap) (hn : (NodeConfig.map Prod.fst).Nodup)
    (ho : order.Perm NodeConfig) (hs : Parse systemPropertiesOpt = .ok sys) :
    ∃ m, systemProperties systemPropertiesOpt order = .ok m ∧
      (∀ key value, NodeConfig.get key = some value → m.get key = some value) ∧
      (∀ key, NodeConfig.get key = none → m.get key = sys.get key) := by
  have hon : (order.map Prod.fst).Nodup := (ho.map Prod.fst).nodup_iff.2 hn
  refine ⟨_, by unfold systemProperties; rw [hs], ?_, ?_⟩
  · intro key value h
    rw [GoMap.get_foldl_set order sys hon key, GoMap.get_perm NodeConfig order hn ho key, h]
  · intro key h
    rw [GoMap.get_foldl_set order sys hon key, GoMap.get_perm NodeConfig order hn ho key, h]

theorem systemProperties_overwritten_witness :
    ∃ m, systemProperties [ascii "a=1", ascii "b=2"] [(ascii "c", ascii "4"), (ascii "a", ascii "3")]
        = .ok m ∧
      (∀ key value, GoMap.get [(ascii "a", ascii "3"), (ascii "c", ascii "4")] key = some value →
        m.get key = some value) ∧
      (∀ key, GoMap.get [(ascii "a", ascii "3"), (ascii "c", ascii "4")] key = none →
        m.get key = GoMap.get [(ascii "a", ascii "1"), (ascii "b", ascii "2")] key) :=
  systemProperties_overwritten [ascii "a=1", ascii "b=2"]
    [(ascii "a", ascii "3"), (ascii "c", ascii "4")]
    [(ascii "c", ascii "4"), (ascii "a", ascii "3")]
    [(ascii "a", ascii "1"), (ascii "b", ascii "2")] (by decide)
    (List.Perm.swap _ _ _) (by decide)

end Args

namespace Filepath

/-! ## `Clean` on the elements of a path -/

theorem splitSlash_ne_nil (s : List Char) : splitSlash s ≠ [] := by
  induction s with
  | nil => simp [splitSlash]
  | cons c s ih =>
    rw [splitSlash]
    by_cases h : c = '/'
    · rw [if_pos h]; simp
    · rw [if_neg h]
      cases hs : splitSlash s with
      | nil => simp
      | cons e es => simp

theorem splitSlash_cons_ne (c : Char) (s : List Char) (h : c ≠ '/') :
    ∃ e es, splitSlash s = e :: es ∧ splitSlash (c :: s) = (c :: e) :: es := by
  cases hs : splitSlash s with
  | nil => exact absurd hs (splitSlash_ne_nil s)
  | cons e es =>
    refine ⟨e, es, rfl, ?_⟩
    rw [splitSlash, if_neg h, hs]

theorem splitSlash_append_slash (a b : List Char) :
    splitSlash (a ++ '/' :: b) = splitSlash a ++ splitSlash b := by
  induction a with
  | nil => simp [splitSlash]
  | cons c a ih =>
    by_cases h : c = '/'
    · rw [List.cons_append, splitSlash, if_pos h, ih, splitSlash, if_pos h]
      rfl
    · obtain ⟨e, es, h1, h2⟩ := splitSlash_cons_ne c a h
      obtain ⟨e1, es1, h3, h4⟩ := splitSlash_cons_ne c (a ++ '/' :: b) h
      rw [List.cons_append, h4, h2]
      rw [ih, h1] at h3
      simp only [List.cons_append, List.cons.injEq] at h3
      rw [← h3.1, ← h3.2]
      rfl

theorem splitSlash_no_slash (e : List Char) (h : '/' ∉ e) : splitSlash e = [e] := by
  induction e with
  | nil => rfl
  | cons c e ih =>
    simp only [List.mem_cons, not_or] at h
    rw [splitSlash, if_neg (fun hc => h.1 hc.symm), ih h.2]

theorem splitSlash_joinSlash (es : List (List Char)) (hne : es ≠ [])
    (h : ∀ e ∈ es, '/' ∉ e) : splitSlash (joinSlash es) = es := by
  induction es with
  | nil => exact absurd rfl hne
  | cons e es ih =>
    cases es with
    | nil => exact splitSlash_no_slash e (h e (List.mem_cons_self _ _))
    | cons f fs =>
      rw [joinSlash, splitSlash_append_slash, splitSlash_no_slash e (h e (List.mem_cons_self _ _)),
        ih (by simp) (fun x hx => h x (List.mem_cons_of_mem _ hx))]
      rfl

theorem splitSlash_mem (s : List Char) : ∀ e ∈ splitSlash s, '/' ∉ e := by
  induction s with
  | nil => simp [splitSlash]
  | cons c s ih =>
    by_cases h : c = '/'
    · rw [splitSlash, if_pos h]
      intro e he
      rcases List.mem_cons.1 he with h1 | h1
      · rw [h1]; simp
      · exact ih e h1
    · obtain ⟨e0, es, h1, h2⟩ := splitSlash_cons_ne c s h
      rw [h2]
      rw [h1] at ih
      intro e he
      rcases List.mem_cons.1 he with h3 | h3
      · rw [h3]
        simp only [List.mem_cons, not_or]
        exact ⟨fun hc => h hc.symm, ih e0 (List.mem_cons_self _ _)⟩
      · exact ih e (List.mem_cons_of_mem _ h3)

theorem cleanStep_elem (rooted : Bool) (out : List (List Char)) (e : List Char)
    (h : IsElem e) : cleanStep rooted out e = e :: out := by
  unfold cleanStep
  rw [if_neg (by rintro (h1 | h1); exact h.1 h1; exact h.2.1 h1), if_neg h.2.2.1]

theorem cleanStep_dotdot_cons (rooted : Bool) (out : List (List Char)) (l : List Char)
    (h : l ≠ ['.', '.']) : cleanStep rooted (l :: out) ['.', '.'] = out := by
  unfold cleanStep
  rw [if_neg (by decide), if_pos rfl]
  simp only
  rw [if_neg h]

theorem cleanStep_dotdot_nil : cleanStep true [] ['.', '.'] = [] := by
  decide

theorem foldl_cleanStep_elems (rooted : Bool) (es out : List (List Char))
    (h : ∀ e ∈ es, IsElem e) : es.foldl (cleanStep rooted) out = es.reverse ++ out := by
  induction es generalizing out with
  | nil => rfl
  | cons e es ih =>
    rw [List.foldl_cons, cleanStep_elem rooted out e (h e (List.mem_cons_self _ _)),
      ih _ (fun x hx => h x (List.mem_cons_of_mem _ hx))]
    simp

/-- The elements that `Clean` keeps for a rooted path are proper elements. -/
theorem cleanStep_rooted_inv (out : List (List Char)) (e : List Char)
    (hout : ∀ x ∈ out, IsElem x) (he : '/' ∉ e) : ∀ x ∈ cleanStep true out e, IsElem x := by
  unfold cleanStep
  by_cases h1 : e = [] ∨ e = ['.']
  · rw [if_pos h1]; exact hout
  · rw [if_neg h1]
    by_cases h2 : e = ['.', '.']
    · rw [if_pos h2]
      cases out with
      | nil => simp
      | cons l rest =>
        simp only
        rw [if_neg (hout l (List.mem_cons_self _ _)).2.2.1]
        exact fun x hx => hout x (List.mem_cons_of_mem _ hx)
    · rw [if_neg h2]
      intro x hx
      rcases List.mem_cons.1 hx with h3 | h3
      · rw [h3]
        exact ⟨fun h => h1 (Or.inl h), fun h => h1 (Or.inr h), h2, he⟩
      · exact hout x h3

theorem foldl_rooted_inv (xs : List (List Char)) (out : List (List Char))
    (hout : ∀ x ∈ out, IsElem x) (hxs : ∀ e ∈ xs, '/' ∉ e) :
    ∀ x ∈ xs.foldl (cleanStep true) out, IsElem x := by
  induction xs generalizing out with
  | nil => exact hout
  | cons e xs ih =>
    rw [List.foldl_cons]
    exact ih _ (cleanStep_rooted_inv out e hout (hxs e (List.mem_cons_self _ _)))
      (fun x hx => hxs x (List.mem_cons_of_mem _ hx))

/-- The elements that `Clean` keeps for a path that is not rooted are not empty, not `.`,
and hold no separator. -/
theorem cleanStep_free_inv (out : List (List Char)) (e : List Char)
    (hout : ∀ x ∈ out, x ≠ [] ∧ x ≠ ['.'] ∧ '/' ∉ x) (he : '/' ∉ e) :
    ∀ x ∈ cleanStep false out e, x ≠ [] ∧ x ≠ ['.'] ∧ '/' ∉ x := by
  unfold cleanStep
  by_cases h1 : e = [] ∨ e = ['.']
  · rw [if_pos h1]; exact hout
  · rw [if_neg h1]
    have hgood : e ≠ [] ∧ e ≠ ['.'] ∧ '/' ∉ e :=
      ⟨fun h => h1 (Or.inl h), fun h => h1 (Or.inr h), he⟩
    by_cases h2 : e = ['.', '.']
    · rw [if_pos h2]
      cases out with
      | nil =>
        simp only [Bool.false_eq_true, if_false, List.mem_singleton]
        intro x hx; rw [hx]; exact hgood
      | cons l rest =>
        simp only
        by_cases h3 : l = ['.', '.']
        · rw [if_pos h3]
          intro x hx
          rcases List.mem_cons.1 hx with h4 | h4
          · rw [h4]; exact hgood
          · exact hout x h4
        · rw [if_neg h3]
          exact fun x hx => hout x (List.mem_cons_of_mem _ hx)
    · rw [if_neg h2]
      intro x hx
      rcases List.mem_cons.1 hx with h3 | h3
      · rw [h3]; exact hgood
      · exact hout x h3

theorem foldl_free_inv (xs : List (List Char)) (out : List (List Char))
    (hout : ∀ x ∈ out, x ≠ [] ∧ x ≠ ['.'] ∧ '/' ∉ x) (hxs : ∀ e ∈ xs, '/' ∉ e) :
    ∀ x ∈ xs.foldl (cleanStep false) out, x ≠ [] ∧ x ≠ ['.'] ∧ '/' ∉ x := by
  induction xs generalizing out with
  | nil => exact hout
  | cons e xs ih =>
    rw [List.foldl_cons]
    exact ih _ (cleanStep_free_inv out e hout (hxs e (List.mem_cons_self _ _)))
      (fun x hx => hxs x (List.mem_cons_of_mem _ hx))

/-- The elements that `Clean` keeps for a path that is not rooted, handed to the `Clean` of
a rooted path, do what the elements of the path itself do. -/
theorem foldl_rooted_of_free (xs : List (List Char)) (hxs : ∀ e ∈ xs, '/' ∉ e) :
    ∀ st : List (List Char),
      (xs.foldl (cleanStep false) []).reverse.foldl (cleanStep true) st =
        xs.foldl (cleanStep true) st := by
  induction xs using List.reverseRecOn with
  | nil => intro st; rfl
  | append_singleton ys e ih =>
    intro st
    have hys : ∀ x ∈ ys, '/' ∉ x := fun x hx => hxs x (List.mem_append_left _ hx)
    have ih1 := ih hys
    have hinv := foldl_free_inv ys [] (by simp) hys
    rw [List.foldl_append, List.foldl_append]
    simp only [List.foldl_cons, List.foldl_nil]
    rw [← ih1 st]
    generalize ys.foldl (cleanStep false) [] = N at hinv
    by_cases h1 : e = [] ∨ e = ['.']
    · have e1 : ∀ r o, cleanStep r o e = o := by
        intro r o; unfold cleanStep; rw [if_pos h1]
      rw [e1, e1]
    · by_cases h2 : e = ['.', '.']
      · subst h2
        cases N with
        | nil => rfl
        | cons l rest =>
          by_cases h3 : l = ['.', '.']
          · have e1 : cleanStep false (l :: rest) ['.', '.'] = ['.', '.'] :: l :: rest := by
              unfold cleanStep
              rw [if_neg (by decide), if_pos rfl]
              simp only
              rw [if_pos h3]
            rw [e1, List.reverse_cons, List.foldl_append]
            rfl
          · rw [cleanStep_dotdot_cons false rest l h3, List.reverse_cons, List.foldl_append]
            simp only [List.foldl_cons, List.foldl_nil]
            have hl := hinv l (List.mem_cons_self _ _)
            rw [cleanStep_elem true _ l ⟨hl.1, hl.2.1, h3, hl.2.2⟩,
              cleanStep_dotdot_cons true _ l h3]
      · have e1 : ∀ r o, cleanStep r o e = e :: o := by
          intro r o; unfold cleanStep; rw [if_neg h1, if_neg h2]
        rw [e1, e1, List.reverse_cons, List.foldl_append]
        simp only [List.foldl_cons, List.foldl_nil]
        rw [e1]

end Filepath

namespace Filepath

theorem IsAbs_iff (p : List Char) : IsAbs p = true ↔ ∃ s, p = '/' :: s := by
  cases p with
  | nil => simp [IsAbs]
  | cons c s => simp [IsAbs]

theorem IsAbs_rootedPath (es : List (List Char)) : IsAbs (rootedPath es) = true := rfl

theorem IsAbs_append (p x : List Char) (h : IsAbs p = true) : IsAbs (p ++ x) = true := by
  obtain ⟨s, rfl⟩ := (IsAbs_iff p).1 h
  rfl

theorem Clean_rooted (p : List Char) (h : IsAbs p = true) :
    Clean p = rootedPath ((splitSlash p).foldl (cleanStep true) []).reverse := by
  unfold Clean
  simp only [h, if_true]
  rfl

theorem Clean_free (p : List Char) (h : IsAbs p = false) :
    Clean p = if (splitSlash p).foldl (cleanStep false) [] = [] then ['.']
      else joinSlash ((splitSlash p).foldl (cleanStep false) []).reverse := by
  unfold Clean
  simp only [h, Bool.false_eq_true, if_false, List.reverse_eq_nil_iff]

theorem joinSlash_ne_nil (es : List (List Char)) (hne : es ≠ []) (h : ∀ e ∈ es, e ≠ []) :
    joinSlash es ≠ [] := by
  cases es with
  | nil => exact absurd rfl hne
  | cons e es =>
    cases es with
    | nil => exact h e (List.mem_cons_self _ _)
    | cons f fs => rw [joinSlash]; simp

theorem joinSlash_head (es : List (List Char)) (c : Char) (s : List Char) (e : List Char)
    (rest : List (List Char)) (hes : es = e :: rest) (he : e ≠ [])
    (h : joinSlash es = c :: s) : e.head? = some c := by
  subst hes
  cases rest with
  | nil => rw [joinSlash] at h; rw [h]; rfl
  | cons f fs =>
    rw [joinSlash] at h
    cases e with
    | nil => exact absurd rfl he
    | cons d e1 =>
      simp only [List.cons_append, List.cons.injEq] at h
      rw [h.1]; rfl

theorem splitSlash_rootedPath (es : List (List Char)) (h : ∀ e ∈ es, IsElem e) :
    (splitSlash (rootedPath es)).foldl (cleanStep true) [] = es.reverse := by
  unfold rootedPath
  rw [splitSlash, if_pos rfl, List.foldl_cons]
  have e0 : cleanStep true [] [] = [] := by decide
  rw [e0]
  cases es with
  | nil => decide
  | cons e es =>
    rw [splitSlash_joinSlash _ (by simp) (fun x hx => (h x hx).2.2.2),
      foldl_cleanStep_elems true _ [] h]
    simp

theorem Clean_rooted_append (r x : List Char) (h : IsAbs r = true) :
    Clean (r ++ '/' :: x) = rootedPath
      ((splitSlash x).foldl (cleanStep true) ((splitSlash r).foldl (cleanStep true) [])).reverse := by
  rw [Clean_rooted _ (IsAbs_append r _ h), splitSlash_append_slash, List.foldl_append]

theorem Clean_rootedPath_append (es : List (List Char)) (x : List Char)
    (h : ∀ e ∈ es, IsElem e) :
    Clean (rootedPath es ++ '/' :: x) =
      rootedPath ((splitSlash x).foldl (cleanStep true) es.reverse).reverse := by
  rw [Clean_rooted_append _ _ (IsAbs_rootedPath es), splitSlash_rootedPath es h]

theorem Clean_rootedPath (es : List (List Char)) (h : ∀ e ∈ es, IsElem e) :
    Clean (rootedPath es) = rootedPath es := by
  rw [Clean_rooted _ (IsAbs_rootedPath es), splitSlash_rootedPath es h, List.reverse_reverse]

/-- The `Clean` of a rooted path is the rooted path of proper elements. -/
theorem Clean_rooted_elems (p : List Char) (_h : IsAbs p = true) :
    (∀ e ∈ (splitSlash p).foldl (cleanStep true) [], IsElem e) :=
  foldl_rooted_inv _ [] (by simp) (splitSlash_mem p)

theorem Clean_free_not_abs (p : List Char) (h : IsAbs p = false) : IsAbs (Clean p) = false := by
  rw [Clean_free p h]
  have hinv := foldl_free_inv (splitSlash p) [] (by simp) (splitSlash_mem p)
  generalize (splitSlash p).foldl (cleanStep false) [] = N at hinv
  by_cases hN : N = []
  · rw [if_pos hN]; rfl
  · rw [if_neg hN]
    cases hj : joinSlash N.reverse with
    | nil => rfl
    | cons c s =>
      cases hr : N.reverse with
      | nil => exact absurd (List.reverse_eq_nil_iff.1 hr) hN
      | cons e rest =>
        have he : e ∈ N := by
          have : e ∈ N.reverse := by rw [hr]; exact List.mem_cons_self _ _
          exact List.mem_reverse.1 this
        have h1 := joinSlash_head N.reverse c s e rest hr (hinv e he).1 hj
        unfold IsAbs
        cases hc : decide (c = '/') with
        | false =>
          have : c ≠ '/' := of_decide_eq_false hc
          simp [this]
        | true =>
          have hc1 : c = '/' := of_decide_eq_true hc
          subst hc1
          exfalso
          apply (hinv e he).2.2
          cases e with
          | nil => simp at h1
          | cons d e1 =>
            simp only [List.head?_cons, Option.some.injEq] at h1
            rw [h1]; exact List.mem_cons_self _ _

theorem Clean_free_foldl (p : List Char) (h : IsAbs p = false) (st : List (List Char)) :
    (splitSlash (Clean p)).foldl (cleanStep true) st =
      (splitSlash p).foldl (cleanStep true) st := by
  rw [← foldl_rooted_of_free (splitSlash p) (splitSlash_mem p) st, Clean_free p h]
  have hinv := foldl_free_inv (splitSlash p) [] (by simp) (splitSlash_mem p)
  generalize (splitSlash p).foldl (cleanStep false) [] = N at hinv
  by_cases hN : N = []
  · rw [if_pos hN, hN]
    rfl
  · rw [if_neg hN, splitSlash_joinSlash _ (by simpa using hN)
      (fun x hx => (hinv x (List.mem_reverse.1 hx)).2.2)]

theorem Clean_ne_nil (p : List Char) : Clean p ≠ [] := by
  cases h : IsAbs p with
  | true => rw [Clean_rooted p h]; simp [rootedPath]
  | false =>
    rw [Clean_free p h]
    have hinv := foldl_free_inv (splitSlash p) [] (by simp) (splitSlash_mem p)
    generalize (splitSlash p).foldl (cleanStep false) [] = N at hinv
    by_cases hN : N = []
    · rw [if_pos hN]; simp
    · rw [if_neg hN]
      exact joinSlash_ne_nil _ (by simpa using hN) (fun e he => (hinv e (List.mem_reverse.1 he)).1)

theorem Join_pair (c x : List Char) (hc : c ≠ []) : Join [c, x] = Clean (c ++ '/' :: x) := by
  unfold Join
  rw [List.dropWhile_cons_of_neg (by simpa using hc)]
  rfl

theorem IsAbs_ne_nil (p : List Char) (h : IsAbs p = true) : p ≠ [] := by
  obtain ⟨s, rfl⟩ := (IsAbs_iff p).1 h
  simp

/-- What `Abs` and `absFile` make of `Join(c, x)`, from the elements of the absolute path
of `c`, the last one first. -/
theorem Abs_Join (wd : Option (List Char)) (hwd : ∀ d, wd = some d → IsAbs d = true)
    (c a : List Char) (hc : c ≠ []) (ha : Abs wd c = some a) :
    ∃ st : List (List Char), (∀ e ∈ st, IsElem e) ∧ a = rootedPath st.reverse ∧
      ∀ x, Abs wd (Join [c, x]) =
        some (rootedPath ((splitSlash x).foldl (cleanStep true) st).reverse) ∧
        (if IsAbs (Join [c, x]) then Join [c, x] else
          match Abs wd (Join [c, x]) with
          | none => Join [['/'], Join [c, x]]
          | some res => res) =
            rootedPath ((splitSlash x).foldl (cleanStep true) st).reverse := by
  cases habs : IsAbs c with
  | true =>
    unfold Abs at ha
    rw [habs, if_pos rfl] at ha
    injection ha with ha
    refine ⟨(splitSlash c).foldl (cleanStep true) [], Clean_rooted_elems c habs, ?_, ?_⟩
    · rw [← ha, Clean_rooted c habs]
    · intro x
      have hj : Join [c, x] = rootedPath ((splitSlash x).foldl (cleanStep true)
          ((splitSlash c).foldl (cleanStep true) [])).reverse := by
        rw [Join_pair c x hc, Clean_rooted_append c x habs]
      have hel : ∀ e ∈ ((splitSlash x).foldl (cleanStep true)
          ((splitSlash c).foldl (cleanStep true) [])).reverse, IsElem e := by
        intro e he
        exact foldl_rooted_inv _ _ (Clean_rooted_elems c habs) (splitSlash_mem x) e
          (List.mem_reverse.1 he)
      rw [hj]
      constructor
      · unfold Abs
        rw [IsAbs_rootedPath, if_pos rfl, Clean_rootedPath _ hel]
      · rw [IsAbs_rootedPath, if_pos rfl]
  | false =>
    unfold Abs at ha
    rw [habs, if_neg (by simp)] at ha
    cases hw : wd with
    | none => rw [hw] at ha; simp at ha
    | some d =>
      rw [hw] at ha
      simp only [Option.some.injEq] at ha
      have hd := hwd d hw
      have hdne := IsAbs_ne_nil d hd
      rw [Join_pair d c hdne, Clean_rooted_append d c hd] at ha
      refine ⟨(splitSlash c).foldl (cleanStep true) ((splitSlash d).foldl (cleanStep true) []),
        foldl_rooted_inv _ _ (Clean_rooted_elems d hd) (splitSlash_mem c), ha.symm, ?_⟩
      intro x
      have hfree : IsAbs (c ++ '/' :: x) = false := by
        cases c with
        | nil => exact absurd rfl hc
        | cons c0 c1 => exact habs
      have hjfree : IsAbs (Join [c, x]) = false := by
        rw [Join_pair c x hc]; exact Clean_free_not_abs _ hfree
      have hA : Abs wd (Join [c, x]) = some (rootedPath ((splitSlash x).foldl (cleanStep true)
          ((splitSlash c).foldl (cleanStep true)
            ((splitSlash d).foldl (cleanStep true) []))).reverse) := by
        unfold Abs
        rw [hjfree, if_neg (by simp), hw]
        simp only
        rw [Join_pair d _ hdne, Clean_rooted_append d _ hd, Join_pair c x hc,
          Clean_free_foldl _ hfree, splitSlash_append_slash, List.foldl_append]
      refine ⟨by rw [← hw]; exact hA, ?_⟩
      rw [hjfree, if_neg (by simp), ← hw, hA]

end Filepath

namespace Directory

open Filepath

/-! ## The walk of `FindInstallPath` -/

theorem LauncherScriptName_elem : IsElem LauncherScriptName := by
  unfold IsElem LauncherScriptName
  decide

theorem rootedPath_eq_root (es : List (List Char)) (h : ∀ e ∈ es, IsElem e) :
    rootedPath es = ['/'] ↔ es = [] := by
  constructor
  · intro h1
    by_contra hne
    have := joinSlash_ne_nil es hne (fun e he => (h e he).1)
    unfold rootedPath at h1
    simp only [List.cons.injEq, true_and] at h1
    exact this h1
  · intro h1; rw [h1]; rfl

theorem joinSlash_length (es : List (List Char)) (h : ∀ e ∈ es, e ≠ []) :
    es.length ≤ (joinSlash es).length := by
  induction es with
  | nil => simp
  | cons e es ih =>
    cases es with
    | nil =>
      have := List.length_pos.2 (h e (List.mem_cons_self _ _))
      simpa [joinSlash] using this
    | cons f fs =>
      rw [joinSlash]
      have h1 := ih (fun x hx => h x (List.mem_cons_of_mem _ hx))
      simp only [List.length_append, List.length_cons] at h1 ⊢
      omega

theorem elements_rootedPath (es : List (List Char)) (h : ∀ e ∈ es, IsElem e) :
    elements (rootedPath es) = es := by
  unfold elements rootedPath
  rw [splitSlash, if_pos rfl]
  cases es with
  | nil => decide
  | cons e es =>
    rw [splitSlash_joinSlash _ (by simp) (fun x hx => (h x hx).2.2.2)]
    rw [List.filter_cons_of_neg (by simp)]
    apply List.filter_eq_self.2
    intro x hx
    simpa using (h x hx).1

theorem walkUp_snoc (es : List (List Char)) (l : List Char) :
    walkUp (es ++ [l]) = (es ++ [l]) :: (if es = [] then [] else walkUp es) := by
  unfold walkUp
  rw [if_neg (by simp), List.inits_append]
  have e1 : [l].inits = [[], [l]] := rfl
  rw [e1]
  simp only [List.map_cons, List.append_nil, List.map_nil, List.tail_cons]
  cases es with
  | nil => rfl
  | cons e es =>
    rw [if_neg (by simp), if_neg (by simp), List.inits_cons]
    simp

theorem FileExists_Join (fs : Fs) (wd : Option (List Char))
    (hwd : ∀ d, wd = some d → IsAbs d = true) (c : List Char) (hc : c ≠ [])
    (st : List (List Char)) (hst : ∀ e ∈ st, IsElem e)
    (ha : Abs wd c = some (rootedPath st.reverse)) :
    (FileExists fs wd (Join [c, LauncherScriptName]) = none ↔
        holdsLauncher fs st.reverse = true) ∧
      Abs wd (Join [c, ['.', '.']]) = some (rootedPath st.tail.reverse) := by
  obtain ⟨st1, h1, h2, h3⟩ := Abs_Join wd hwd c _ hc ha
  have hst1 : st1 = st := by
    have e1 := elements_rootedPath st.reverse (fun e he => hst e (List.mem_reverse.1 he))
    have e2 := elements_rootedPath st1.reverse (fun e he => h1 e (List.mem_reverse.1 he))
    rw [h2, e2] at e1
    exact List.reverse_injective e1
  subst hst1
  constructor
  · have hf := (h3 LauncherScriptName).2
    rw [splitSlash_no_slash _ LauncherScriptName_elem.2.2.2] at hf
    simp only [List.foldl_cons, List.foldl_nil] at hf
    rw [cleanStep_elem true _ _ LauncherScriptName_elem, List.reverse_cons] at hf
    unfold FileExists absFile holdsLauncher
    rw [hf]
    cases fs (rootedPath (st1.reverse ++ [LauncherScriptName])) with
    | error err => cases err <;> simp
    | ok info => cases info <;> simp
  · rw [(h3 ['.', '.']).1]
    have e1 : splitSlash ['.', '.'] = [['.', '.']] := by decide
    rw [e1]
    simp only [List.foldl_cons, List.foldl_nil]
    cases st1 with
    | nil => rw [cleanStep_dotdot_nil]; rfl
    | cons l rest =>
      rw [cleanStep_dotdot_cons true rest l (h1 l (List.mem_cons_self _ _)).2.2.1]
      rfl

/-- The loop of `FindInstallPath`, from a directory whose absolute path has the elements
`st` (the last one first), with fuel for every element: it returns the parent of the first
directory of the walk upward that holds a launcher, and fails when there is none. -/
theorem findLoop_eq (fs : Fs) (wd : Option (List Char))
    (hwd : ∀ d, wd = some d → IsAbs d = true) (fuel : Nat) :
    ∀ (st : List (List Char)) (c : List Char), c ≠ [] → (∀ e ∈ st, IsElem e) →
      Abs wd c = some (rootedPath st.reverse) → st.length < fuel →
      findLoop fs wd fuel c =
        match (walkUp st.reverse).find? (holdsLauncher fs) with
        | some dir => .ok (rootedPath dir.dropLast)
        | none => .error .notDetected := by
  induction fuel with
  | zero => intro st c _ _ _ h; exact absurd h (Nat.not_lt_zero _)
  | succ fuel ih =>
    intro st c hc hst ha hlen
    obtain ⟨h1, h2⟩ := FileExists_Join fs wd hwd c hc st hst ha
    have hw : walkUp st.reverse =
        st.reverse :: (if st.tail = [] then [] else walkUp st.tail.reverse) := by
      cases st with
      | nil => rfl
      | cons l rest =>
        rw [List.reverse_cons, walkUp_snoc, List.tail_cons]
        by_cases hr : rest = []
        · subst hr; rfl
        · rw [if_neg (fun h => hr (List.reverse_eq_nil_iff.1 h)), if_neg hr]
    rw [findLoop, h2, hw]
    cases hf : FileExists fs wd (Join [c, LauncherScriptName]) with
    | none =>
      have hh := h1.1 hf
      rw [List.find?_cons_of_pos _ hh]
      simp only
      rw [List.dropLast_reverse]
    | some err =>
      have hh : ¬ holdsLauncher fs st.reverse = true := by
        intro h; rw [h1.2 h] at hf; exact absurd hf (by simp)
      rw [List.find?_cons_of_neg _ hh]
      simp only
      have htl : ∀ e ∈ st.tail, IsElem e := fun e he => hst e (List.mem_of_mem_tail he)
      by_cases ht : st.tail = []
      · rw [if_pos ht, ht]
        rfl
      · have hroot : rootedPath st.tail.reverse ≠ ['/'] := by
          intro h
          apply ht
          have := (rootedPath_eq_root _ (fun e he => htl e (List.mem_reverse.1 he))).1 h
          exact List.reverse_eq_nil_iff.1 this
        rw [if_neg hroot, if_neg ht]
        apply ih st.tail _ (by simp [rootedPath]) htl
        · unfold Abs
          rw [IsAbs_rootedPath, if_pos rfl,
            Clean_rootedPath _ (fun e he => htl e (List.mem_reverse.1 he))]
        · have h3 : st.tail.length = st.length - 1 := List.length_tail st
          have h4 : 0 < st.tail.length := List.length_pos.2 ht
          omega

theorem FindInstallPath_eq (fs : Fs) (wd : Option (List Char))
    (hwd : ∀ d, wd = some d → IsAbs d = true) (executablePath a : List Char)
    (ha : Abs wd (Join [Dir executablePath, ['.', '.']]) = some a) :
    FindInstallPath fs wd executablePath =
      if Base executablePath ≠ LauncherName then .error (.wrongName (Base executablePath))
      else
        match (walkUp (elements a)).find? (holdsLauncher fs) with
        | some dir => .ok (rootedPath dir.dropLast)
        | none => .error .notDetected := by
  unfold FindInstallPath
  by_cases hb : Base executablePath ≠ LauncherName
  · rw [if_pos hb, if_pos hb]
  · rw [if_neg hb, if_neg hb]
    simp only
    have hc : Join [Dir executablePath, ['.', '.']] ≠ [] := by
      rw [Join_pair _ _ (by unfold Dir; exact Clean_ne_nil _)]
      exact Clean_ne_nil _
    have hdir : Dir executablePath ≠ [] := by unfold Dir; exact Clean_ne_nil _
    -- the elements of the absolute path of the first directory
    have hcases : ∃ st : List (List Char), (∀ e ∈ st, IsElem e) ∧ a = rootedPath st.reverse ∧
        absFile wd (Join [Dir executablePath, ['.', '.']]) = a := by
      cases habs : IsAbs (Join [Dir executablePath, ['.', '.']]) with
      | true =>
        have h1 := ha
        unfold Abs at h1
        rw [habs, if_pos rfl] at h1
        injection h1 with h1
        have h2 := Clean_rooted _ habs
        have hel := Clean_rooted_elems _ habs
        refine ⟨_, hel, by rw [← h1, h2], ?_⟩
        unfold absFile
        rw [habs, if_pos rfl, ← h1]
        -- the first directory is clean already
        have hj := Join_pair (Dir executablePath) ['.', '.'] hdir
        have hd : IsAbs (Dir executablePath ++ '/' :: ['.', '.']) = true := by
          cases hx : IsAbs (Dir executablePath ++ '/' :: ['.', '.']) with
          | true => rfl
          | false =>
            have := Clean_free_not_abs _ hx
            rw [← hj, habs] at this
            exact absurd this (by simp)
        rw [hj, Clean_rooted _ hd, Clean_rootedPath _ (fun e he =>
          Clean_rooted_elems _ hd e (List.mem_reverse.1 he))]
      | false =>
        obtain ⟨st, h1, h2, _⟩ := Abs_Join wd hwd _ _ hc ha
        refine ⟨st, h1, h2, ?_⟩
        unfold absFile
        rw [habs, if_neg (by simp), ha]
    obtain ⟨st, hst, hast, hfile⟩ := hcases
    rw [hfile]
    have hlen : st.length < a.length + 1 := by
      rw [hast]
      have := joinSlash_length st.reverse (fun e he => (hst e (List.mem_reverse.1 he)).1)
      simp only [rootedPath, List.length_cons, List.length_reverse] at this ⊢
      omega
    rw [findLoop_eq fs wd hwd _ st _ hc hst (by rw [ha, hast]) hlen, hast,
      elements_rootedPath _ (fun e he => hst e (List.mem_reverse.1 he))]

end Directory

namespace Directory

open Filepath

theorem dropWhile_reverse_no_slash (l x : List Char) (h : '/' ∉ l) :
    ((x ++ '/' :: l).reverse.dropWhile (· ≠ '/')).reverse = x ++ ['/'] := by
  have e : (x ++ '/' :: l).reverse = l.reverse ++ '/' :: x.reverse := by simp
  rw [e, List.dropWhile_append_of_pos (by
    intro c hc
    have : c ≠ '/' := fun h1 => h (by rw [← h1]; exact List.mem_reverse.1 hc)
    simpa using this)]
  rw [List.dropWhile_cons_of_neg (by simp)]
  simp

theorem joinSlash_snoc (es : List (List Char)) (l : List Char) (hes : es ≠ []) :
    joinSlash (es ++ [l]) = joinSlash es ++ '/' :: l := by
  induction es with
  | nil => exact absurd rfl hes
  | cons e es ih =>
    cases es with
    | nil => rfl
    | cons f fs =>
      have := ih (by simp)
      simp only [List.cons_append] at this ⊢
      rw [joinSlash, this, joinSlash]
      simp

/-- For an executable `/e1/.../en/launcher`, given by the elements of its directory, the
walk starts at `/e1/.../e(n-1)`, the parent of the directory of the executable. -/
theorem Abs_parent_of_Dir (wd : Option (List Char)) (es : List (List Char))
    (hes : ∀ e ∈ es, IsElem e) :
    Abs wd (Join [Dir (rootedPath (es ++ [LauncherName])), ['.', '.']]) =
      some (rootedPath es.dropLast) := by
  have hl : '/' ∉ LauncherName := LauncherScriptName_elem.2.2.2
  have hdir : Dir (rootedPath (es ++ [LauncherName])) = rootedPath es := by
    unfold Dir
    by_cases h0 : es = []
    · subst h0
      have e : rootedPath ([] ++ [LauncherName]) = [] ++ '/' :: LauncherName := rfl
      rw [e, dropWhile_reverse_no_slash _ _ hl]
      decide
    · have e : rootedPath (es ++ [LauncherName]) = rootedPath es ++ '/' :: LauncherName := by
        unfold rootedPath
        rw [joinSlash_snoc es _ h0]
        rfl
      rw [e, dropWhile_reverse_no_slash _ _ hl, Clean_rootedPath_append es [] hes]
      have e2 : splitSlash [] = [[]] := rfl
      rw [e2]
      simp only [List.foldl_cons, List.foldl_nil]
      have e3 : cleanStep true es.reverse [] = es.reverse := by
        unfold cleanStep; rw [if_pos (Or.inl rfl)]
      rw [e3, List.reverse_reverse]
  rw [hdir, Join_pair _ _ (by simp [rootedPath]), Clean_rootedPath_append es _ hes]
  have e1 : splitSlash ['.', '.'] = [['.', '.']] := by decide
  rw [e1]
  simp only [List.foldl_cons, List.foldl_nil]
  have htail : cleanStep true es.reverse ['.', '.'] = es.reverse.tail := by
    cases hr : es.reverse with
    | nil => exact cleanStep_dotdot_nil
    | cons l rest =>
      have hm : l ∈ es := List.mem_reverse.1 (by rw [hr]; exact List.mem_cons_self _ _)
      rw [cleanStep_dotdot_cons true rest l (hes l hm).2.2.1]
      rfl
  have hel : ∀ e ∈ es.dropLast, IsElem e := fun e he => hes e (List.mem_of_mem_dropLast he)
  rw [htail, List.tail_reverse, List.reverse_reverse]
  unfold Abs
  rw [IsAbs_rootedPath, if_pos rfl, Clean_rootedPath _ hel]

/-- C36, as stated, fails where a directory of the walk holds an entry named `launcher` that
is neither a directory nor a regular file: with the named pipe `/usr/local/bin/launcher` and
no regular file at all, `FindInstallPath` returns `/usr/local` for the executable
`/usr/local/bin/something/launcher`, where the claim has it fail to detect the installation
directory (no directory of the walk holds a regular file named `launcher`). -/
theorem FindInstallPath_accepts_named_pipe :
    FindInstallPath pipeFs none "/usr/local/bin/something/launcher".data =
        .ok "/usr/local".data ∧
      Abs none (Join [Dir "/usr/local/bin/something/launcher".data, ['.', '.']]) =
        some "/usr/local/bin".data ∧
      (walkUp (elements "/usr/local/bin".data)).find? (holdsRegularLauncher pipeFs) = none ∧
      (walkUp (elements "/usr/local/bin".data)).find? (holdsLauncher pipeFs) =
        some ["usr".data, "local".data, "bin".data] := by
  decide

/-- C36 (amended): `FindInstallPath` fails with the error that names the base name of the
executable when this is not `launcher`.  Otherwise, when the path `a` of the parent of the
directory of the executable can be made absolute, it examines this directory and then, going
upward, each of its ancestors below the root; its loop ends, and it returns the parent of
the first of these directories that holds an entry named `launcher` which `Stat` finds and
which is not a directory, or fails to detect the installation directory when none of them
holds one.  For an executable `/e1/.../en/launcher` the first directory is
`/e1/.../e(n-1)`. -/
theorem FindInstallPath_walk (fs : Fs) (wd : Option (List Char))
    (hwd : ∀ d, wd = some d → IsAbs d = true) (executablePath a : List Char)
    (ha : Abs wd (Join [Dir executablePath, ['.', '.']]) = some a) :
    FindInstallPath fs wd executablePath =
      (if Base executablePath ≠ LauncherName then
        .error (.wrongName (Base executablePath))
      else
        match (walkUp (elements a)).find? (holdsLauncher fs) with
        | some dir => .ok (rootedPath dir.dropLast)
        | none => .error .notDetected) ∧
    FindInstallPath fs wd executablePath ≠ .error .outOfFuel ∧
    (∀ es : List (List Char), (∀ e ∈ es, IsElem e) →
      Abs wd (Join [Dir (rootedPath (es ++ [LauncherName])), ['.', '.']]) =
        some (rootedPath es.dropLast)) := by
  have h := FindInstallPath_eq fs wd hwd executablePath a ha
  refine ⟨h, ?_, fun es hes => Abs_parent_of_Dir wd es hes⟩
  rw [h]
  by_cases hb : Base executablePath ≠ LauncherName
  · rw [if_pos hb]; simp
  · rw [if_neg hb]
    cases (walkUp (elements a)).find? (holdsLauncher fs) with
    | none => simp
    | some dir => simp

theorem FindInstallPath_walk_witness :
    FindInstallPath detectFs none "/usr/local/bin/something/launcher".data =
        .ok "/usr/local".data ∧
      FindInstallPath detectFs (some "/home/user".data) "launcher".data =
        .error .notDetected ∧
      FindInstallPath detectFs none "some/path/wrong-binary-name".data =
        .error (.wrongName "wrong-binary-name".data) :=
  ⟨(FindInstallPath_walk detectFs none (fun d h => by cases h)
      "/usr/local/bin/something/launcher".data "/usr/local/bin".data (by decide)).1.trans
      (by decide),
    (FindInstallPath_walk detectFs (some "/home/user".data)
      (fun d h => by cases h; rfl) "launcher".data "/home".data (by decide)).1.trans
      (by decide),
    by decide⟩

end Directory

namespace Args

open Filepath Directory

theorem resolveLoop_eq {ε : Type} (wd : Option (List Char)) (test : List Char → Option ε)
    (searchPaths : List (List Char)) :
    resolveLoop wd test searchPaths =
      match searchPaths.find? (· ≠ []) with
      | none => none
      | some searchPath =>
        match Abs wd searchPath with
        | none => some (.error .absFailed)
        | some absPath =>
          match test absPath with
          | some err => some (.error (.invalid absPath err))
          | none => some (.ok absPath) := by
  induction searchPaths with
  | nil => rfl
  | cons p ps ih =>
    rw [resolveLoop]
    by_cases h : p = []
    · rw [if_pos h, ih, List.find?_cons_of_neg _ (by simpa using h)]
    · rw [if_neg h, List.find?_cons_of_pos _ (by simpa using h)]

theorem firstNonEmpty_eq (searchPaths : List (List Char)) :
    firstNonEmpty searchPaths = (searchPaths.find? (· ≠ [])).getD "n/a".data := by
  induction searchPaths with
  | nil => rfl
  | cons p ps ih =>
    rw [firstNonEmpty]
    by_cases h : p = []
    · rw [if_neg (not_not.2 h), ih, List.find?_cons_of_neg _ (by simpa using h)]
    · rw [if_pos h, List.find?_cons_of_pos _ (by simpa using h)]
      rfl

/-- C35: `Resolve` decides on the first search path that is not empty, whatever the later
ones are: it returns this path made absolute when the absolute path passes the test, fails
with the error of the test when it does not (and with the error of `filepath.Abs` when the
path cannot be made absolute), and fails with `no search path matches` when every search path
is empty.  When `ResolveFile` fails, its error names the first search path that is not empty
(`n/a` when all are empty); the search paths `/invalid1`, `/invalid2` of `TestPathMissing`
give `could not find file: /invalid1`. -/
theorem Resolve_first_non_empty {ε : Type} (wd : Option (List Char))
    (test : List Char → Option ε) (fs : Fs) (searchPaths : List (List Char)) :
    Resolve wd test searchPaths =
      (match searchPaths.find? (· ≠ []) with
      | none => .error (.noMatch searchPaths)
      | some searchPath =>
        match Abs wd searchPath with
        | none => .error .absFailed
        | some absPath =>
          match test absPath with
          | some err => .error (.invalid absPath err)
          | none => .ok absPath) ∧
    (searchPaths.find? (· ≠ []) = none ↔ ∀ searchPath ∈ searchPaths, searchPath = []) ∧
    ResolveFile fs wd searchPaths =
      (match Resolve wd (FileExists fs wd) searchPaths with
      | .ok resolved => .ok resolved
      | .error _ =>
        .error (.couldNotFindFile ((searchPaths.find? (· ≠ [])).getD "n/a".data))) ∧
    ResolveFile (fun _ => .error .notExist) wd ["/invalid1".data, "/invalid2".data] =
      .error (.couldNotFindFile "/invalid1".data) := by
  refine ⟨?_, ?_, ?_, ?_⟩
  · unfold Resolve
    rw [resolveLoop_eq]
    cases searchPaths.find? (· ≠ []) with
    | none => rfl
    | some p =>
      simp only
      cases Abs wd p with
      | none => rfl
      | some absPath =>
        simp only
        cases test absPath with
        | none => rfl
        | some err => rfl
  · rw [List.find?_eq_none]
    simp
  · unfold ResolveFile
    rw [firstNonEmpty_eq]
    cases Resolve wd (FileExists fs wd) searchPaths with
    | error e => rfl
    | ok p => rfl
  · have e : Abs wd "/invalid1".data = some "/invalid1".data := by
      unfold Abs
      rw [if_pos (by decide)]
      decide
    unfold ResolveFile Resolve
    rw [resolveLoop_eq, List.find?_cons_of_pos _ (by decide)]
    simp only
    rw [e]
    rfl

end Args

namespace Properties

/-! ## `Load` reads inside the line -/

theorem convertLoop_zero_safe (inp out : List Nat) (e off : Nat) :
    convertLoop inp e 0 off out ≠ .error .indexOutOfRange := by
  rw [convertLoop]
  by_cases h : off < e
  · rw [if_pos h]; simp
  · rw [if_neg h]; simp

/-- The second loop of `loadConvert` over the part `s` of its input reads inside the input
when `s` does not end inside an escape, and also when it does and a byte follows `s`. -/
theorem convertLoop_safe (n : Nat) : ∀ s : List Nat, s.length = n →
    ∀ (a b out : List Nat) (fuel : Nat), (endsInEscape s = false ∨ b ≠ []) →
      convertLoop (a ++ s ++ b) (a.length + s.length) fuel a.length out ≠
        .error .indexOutOfRange := by
  induction n using Nat.strong_induction_on with
  | _ n ih =>
    intro s hn a b out fuel hend
    cases fuel with
    | zero => exact convertLoop_zero_safe _ _ _ _
    | succ f =>
      rcases escape_cases s with h | ⟨c, t, h, hc⟩ | h | ⟨d, t, h, hd⟩ | ⟨t, h, ht⟩ |
          ⟨d1, d2, d3, d4, t, h⟩
      · subst h
        rw [convertLoop_done _ _ _ _ _ (by simp)]
        simp
      · subst h
        simp only [List.length_cons] at hn
        have e0 : a ++ c :: t ++ b = a ++ c :: (t ++ b) := by simp
        rw [e0, convertLoop_step_plain a (t ++ b) out c _ f hc (by simp)]
        have hend1 : endsInEscape t = false ∨ b ≠ [] := by
          rcases hend with h | h
          · left; rw [← h, endsInEscape_cons_ne c t hc]
          · exact Or.inr h
        have key := ih t.length (by omega) t rfl (a ++ [c]) b (out ++ [c]) f hend1
        have e1 : (a ++ [c]) ++ (t ++ b) = (a ++ [c]) ++ t ++ b := by simp
        have e2 : a.length + (c :: t).length = (a ++ [c]).length + t.length := by
          simp only [List.length_append, List.length_cons, List.length_nil]; omega
        rw [e1, e2]
        exact key
      · subst h
        have hb : b ≠ [] := by
          rcases hend with h | h
          · simp [endsInEscape] at h
          · exact h
        obtain ⟨c, b1, rfl⟩ : ∃ c b1, b = c :: b1 := by
          cases b with
          | nil => exact absurd rfl hb
          | cons c b1 => exact ⟨c, b1, rfl⟩
        have e0 : a ++ [92] ++ c :: b1 = a ++ 92 :: c :: b1 := by simp
        rw [e0]
        by_cases hc : c = 117
        · subst hc
          rw [convertLoop_step_short a b1 out _ f (by simp) (by simp)]
          simp
        · rw [convertLoop_step_escape a b1 out c _ f hc (by simp),
            convertLoop_done _ _ _ _ _ (by simp)]
          simp
      · subst h
        simp only [List.length_cons] at hn
        have e0 : a ++ 92 :: d :: t ++ b = a ++ 92 :: d :: (t ++ b) := by simp
        rw [e0, convertLoop_step_escape a (t ++ b) out d _ f hd (by simp)]
        have hend1 : endsInEscape t = false ∨ b ≠ [] := by
          rcases hend with h | h
          · left; rw [← h]; simp [endsInEscape]
          · exact Or.inr h
        have key := ih t.length (by omega) t rfl (a ++ [92, d]) b (out ++ [escapeChar d]) f
          hend1
        have e1 : (a ++ [92, d]) ++ (t ++ b) = (a ++ [92, d]) ++ t ++ b := by simp
        have e2 : a.length + (92 :: d :: t).length = (a ++ [92, d]).length + t.length := by
          simp only [List.length_append, List.length_cons, List.length_nil]; omega
        rw [e1, e2]
        exact key
      · subst h
        have e0 : a ++ 92 :: 117 :: t ++ b = a ++ 92 :: 117 :: (t ++ b) := by simp
        rw [e0, convertLoop_step_short a (t ++ b) out _ f (by simp) (by simp; omega)]
        simp
      · subst h
        simp only [List.length_cons] at hn
        have e0 : a ++ 92 :: 117 :: d1 :: d2 :: d3 :: d4 :: t ++ b =
            a ++ 92 :: 117 :: d1 :: d2 :: d3 :: d4 :: (t ++ b) := by simp
        rw [e0, convertLoop_step_long a (t ++ b) out d1 d2 d3 d4 _ f (by simp), readHex_four]
        by_cases hhex : isHexDigit d1 = true ∧ isHexDigit d2 = true ∧
            isHexDigit d3 = true ∧ isHexDigit d4 = true
        · rw [if_pos hhex]
          simp only []
          have hend1 : endsInEscape t = false ∨ b ≠ [] := by
            rcases hend with h | h
            · left
              have h1 : endsInEscape (92 :: 117 :: d1 :: d2 :: d3 :: d4 :: t) =
                  endsInEscape (d1 :: d2 :: d3 :: d4 :: t) := by
                rw [endsInEscape, if_pos rfl]
              rw [h1, endsInEscape_cons_ne _ _ (isHexDigit_ne_backslash d1 hhex.1),
                endsInEscape_cons_ne _ _ (isHexDigit_ne_backslash d2 hhex.2.1),
                endsInEscape_cons_ne _ _ (isHexDigit_ne_backslash d3 hhex.2.2.1),
                endsInEscape_cons_ne _ _ (isHexDigit_ne_backslash d4 hhex.2.2.2)] at h
              exact h
            · exact Or.inr h
          have key := ih t.length (by omega) t rfl (a ++ [92, 117, d1, d2, d3, d4]) b
            (out ++ appendRune [] (hexValue4 d1 d2 d3 d4)) f hend1
          have e1 : (a ++ [92, 117, d1, d2, d3, d4]) ++ (t ++ b) =
              (a ++ [92, 117, d1, d2, d3, d4]) ++ t ++ b := by simp
          have e2 : a.length + (92 :: 117 :: d1 :: d2 :: d3 :: d4 :: t).length =
              (a ++ [92, 117, d1, d2, d3, d4]).length + t.length := by
            simp only [List.length_append, List.length_cons, List.length_nil]; omega
          rw [e1, e2]
          exact key
        · rw [if_neg hhex]
          simp

theorem endsInEscape_append_no_backslash (p s : List Nat) (hp : 92 ∉ p) :
    endsInEscape (p ++ s) = endsInEscape s :=
  (decodeAll_append p.length p s p rfl (decodeAll_no_backslash p hp)).2

/-- On the part `s` of its input `a ++ s ++ b`, `loadConvert` reads no index out of range
when `s` does not end inside an escape, and also when it does and a byte follows `s`. -/
theorem loadConvert_safe (a s b : List Nat) (hend : endsInEscape s = false ∨ b ≠ []) :
    loadConvert (a ++ s ++ b) a.length s.length ≠ .error .indexOutOfRange := by
  by_cases h92 : 92 ∈ s
  · obtain ⟨p, t, hs, hp⟩ := exists_first_backslash s h92
    subst hs
    have e0 : a ++ (p ++ 92 :: t) ++ b = a ++ p ++ 92 :: (t ++ b) := by simp
    have hfind := findBackslash_found p a (t ++ b) (a.length + (p ++ 92 :: t).length)
      (p ++ 92 :: t).length hp (by simp) (by simp)
    rw [← e0] at hfind
    unfold loadConvert
    simp only [hfind]
    by_cases hlast : a.length + p.length + 1 = a.length + (p ++ 92 :: t).length
    · rw [if_pos hlast]
      have hlen : ¬ (p ++ 92 :: t).length = 0 := by simp
      rw [if_neg hlen, if_pos (by simp)]
      simp
    · rw [if_neg hlast]
      have hout : (if a.length + p.length + 1 - 1 - a.length ≠ 0 then
          List.take (a.length + p.length + 1 - 1 - a.length) (List.drop a.length
            (a ++ (p ++ 92 :: t) ++ b)) else []) = p := by
        have e1 : a.length + p.length + 1 - 1 - a.length = p.length := by omega
        rw [e1]
        by_cases hp0 : p.length = 0
        · have : p = [] := List.length_eq_zero.mp hp0
          simp [this]
        · rw [if_pos hp0]
          simp [List.append_assoc]
      rw [hout]
      have e2 : a ++ (p ++ 92 :: t) ++ b = (a ++ p) ++ (92 :: t) ++ b := by simp
      have e3 : a.length + (p ++ 92 :: t).length = (a ++ p).length + (92 :: t).length := by
        simp only [List.length_append, List.length_cons]; omega
      have e4 : a.length + p.length + 1 - 1 = (a ++ p).length := by
        simp only [List.length_append]; omega
      rw [e2, e3, e4]
      apply convertLoop_safe _ (92 :: t) rfl
      rcases hend with h | h
      · left; rw [← h, endsInEscape_append_no_backslash p _ hp]
      · exact Or.inr h
  · have hfind := findBackslash_none s a b s.length h92 (le_refl _)
    unfold loadConvert
    simp only [hfind, if_true]
    by_cases hs0 : s.length = 0
    · rw [if_pos hs0]; simp
    · rw [if_neg hs0, if_pos (by simp)]
      simp

theorem endsInEscape_eq_backslashFlag (n : Nat) : ∀ s : List Nat, s.length = n →
    endsInEscape s = backslashFlag false s := by
  induction n using Nat.strong_induction_on with
  | _ n ih =>
    intro s hn
    match s, hn with
    | [], _ => rfl
    | [c], _ =>
      by_cases hc : c = 92
      · simp [endsInEscape, backslashFlag, hc]
      · simp [endsInEscape, backslashFlag, hc]
    | c :: d :: rest, hn =>
      simp only [List.length_cons] at hn
      rw [endsInEscape]
      by_cases hc : c = 92
      · rw [if_pos hc, ih rest.length (by omega) rest rfl]
        by_cases hd : d = 92
        · simp [backslashFlag, hc, hd]
        · simp [backslashFlag, hc, hd]
      · rw [if_neg hc, ih (d :: rest).length (by simp; omega) (d :: rest) rfl]
        simp [backslashFlag, hc]

/-- A string ends inside an escape exactly when the number of the backslashes at its end is
odd. -/
theorem endsInEscape_iff_odd (s : List Nat) :
    endsInEscape s = decide (trailingBackslashes s % 2 = 1) := by
  rw [endsInEscape_eq_backslashFlag s.length s rfl, backslashFlag_false]

theorem trailingBackslashes_append_cons (u w : List Nat) (c : Nat) (hc : c ≠ 92) :
    trailingBackslashes (u ++ c :: w) = trailingBackslashes w := by
  induction w using List.reverseRecOn generalizing u with
  | nil =>
    have e : u ++ [c] = u ++ [c] := rfl
    rw [trailingBackslashes_append_singleton, if_neg hc]
    rfl
  | append_singleton w d ih =>
    have e : u ++ c :: (w ++ [d]) = (u ++ c :: w) ++ [d] := by simp
    rw [e, trailingBackslashes_append_singleton, trailingBackslashes_append_singleton, ih]

/-- A suffix of a line that starts at or before a byte that is no backslash, or is empty,
ends inside an escape only if the line does. -/
theorem endsInEscape_drop (line : List Nat) (vs : Nat)
    (heven : trailingBackslashes line % 2 = 0)
    (h : line.length ≤ vs ∨ ∃ q c, (line)[q]? = some c ∧ c ≠ 92 ∧ vs ≤ q + 1) :
    endsInEscape (line.drop vs) = false := by
  rw [endsInEscape_iff_odd]
  rcases h with h | ⟨q, c, hq, hc, hvs⟩
  · rw [List.drop_eq_nil_of_le h]
    rfl
  · have hlt : q < line.length := by
      rcases Nat.lt_or_ge q line.length with h1 | h1
      · exact h1
      · rw [List.getElem?_eq_none h1] at hq; exact absurd hq (by simp)
    have hsplit : line = line.take q ++ c :: line.drop (q + 1) := by
      have h1 := List.getElem?_eq_some_iff.1 hq
      obtain ⟨_, h2⟩ := h1
      rw [← h2]
      exact (List.take_append_drop q line).symm.trans (by rw [List.drop_eq_getElem_cons hlt])
    have ht : trailingBackslashes line = trailingBackslashes (line.drop (q + 1)) := by
      conv_lhs => rw [hsplit]
      exact trailingBackslashes_append_cons _ _ _ hc
    have hd : trailingBackslashes (line.drop vs) = trailingBackslashes (line.drop (q + 1)) := by
      rcases Nat.lt_or_ge vs (q + 1) with h1 | h1
      · have e : line.drop vs = (line.take q).drop vs ++ c :: line.drop (q + 1) := by
          conv_lhs => rw [hsplit]
          rw [List.drop_append_of_le_length (by rw [List.length_take]; omega)]
        rw [e]
        exact trailingBackslashes_append_cons _ _ _ hc
      · have : vs = q + 1 := by omega
        rw [this]
    rw [hd, ← ht]
    simp [heven]

end Properties

namespace Properties

theorem decodeRune_ascii (b : Nat) (t : List Nat) (h : (decodeRune (b :: t)).1 < 128) :
    decodeRune (b :: t) = (b, 1) := by
  by_cases hb : b < 0x80
  · simp [decodeRune, hb]
  · exfalso
    revert h
    simp only [decodeRune, if_neg hb]
    repeat' split
    all_goals simp only [RuneError, isCont, Bool.and_eq_true, decide_eq_true_eq] at *
    all_goals omega

/-- The second scanning loop of `Load` stops where it starts or just after a byte that is
no backslash. -/
theorem scanValueStart_runes (fuel : Nat) : ∀ (t : List Nat) (vs : Nat) (hasSep : Bool),
    scanValueStart (rangeRunes fuel t) vs hasSep = vs ∨
      ∃ j c, t[j]? = some c ∧ c ≠ 92 ∧
        scanValueStart (rangeRunes fuel t) vs hasSep = vs + j + 1 := by
  induction fuel with
  | zero => intro t vs hasSep; left; rfl
  | succ fuel ih =>
    intro t vs hasSep
    cases t with
    | nil => left; rfl
    | cons b t1 =>
      rw [rangeRunes, scanValueStart]
      have hstep : ∀ hs1 : Bool, (decodeRune (b :: t1)).1 < 128 →
          (decodeRune (b :: t1)).1 ≠ 92 →
          (scanValueStart (rangeRunes fuel ((b :: t1).drop (decodeRune (b :: t1)).2))
              (vs + 1) hs1 = vs ∨
            ∃ j c, (b :: t1)[j]? = some c ∧ c ≠ 92 ∧
              scanValueStart (rangeRunes fuel ((b :: t1).drop (decodeRune (b :: t1)).2))
                (vs + 1) hs1 = vs + j + 1) := by
        intro hs1 hlt hne
        have hd := decodeRune_ascii b t1 hlt
        rw [hd] at hne
        rw [hd]
        simp only [List.drop_succ_cons, List.drop_zero]
        right
        rcases ih t1 (vs + 1) hs1 with h | ⟨j, c, h1, h2, h3⟩
        · exact ⟨0, b, by simp, hne, by rw [h]⟩
        · exact ⟨j + 1, c, by simpa using h1, h2, by rw [h3]; omega⟩
      by_cases h1 : (decodeRune (b :: t1)).1 ≠ 32 ∧ (decodeRune (b :: t1)).1 ≠ 9 ∧
          (decodeRune (b :: t1)).1 ≠ 12
      · rw [if_pos h1]
        by_cases h2 : hasSep = false ∧
            ((decodeRune (b :: t1)).1 = 61 ∨ (decodeRune (b :: t1)).1 = 58)
        · rw [if_pos h2]
          exact hstep true (by omega) (by omega)
        · rw [if_neg h2]; left; rfl
      · rw [if_neg h1]
        exact hstep hasSep (by omega) (by omega)

/-- The first scanning loop of `Load` finds no separator, or one at a byte that is no
backslash and that lies at or after the index `keyLen`. -/
theorem scanKey_runes (lineLen fuel : Nat) : ∀ (t : List Nat) (k0 : Nat) (pb : Bool),
    (scanKey lineLen (rangeRunes fuel t) k0 pb).2.1 = lineLen ∨
      ((scanKey lineLen (rangeRunes fuel t) k0 pb).2.1 =
          (scanKey lineLen (rangeRunes fuel t) k0 pb).1 + 1 ∧
        ∃ j c, t[j]? = some c ∧ c ≠ 92 ∧
          (scanKey lineLen (rangeRunes fuel t) k0 pb).1 ≤ k0 + j) := by
  induction fuel with
  | zero => intro t k0 pb; left; rfl
  | succ fuel ih =>
    intro t k0 pb
    cases t with
    | nil => left; rfl
    | cons b t1 =>
      rw [rangeRunes, scanKey]
      by_cases h1 : ((decodeRune (b :: t1)).1 = 61 ∨ (decodeRune (b :: t1)).1 = 58) ∧
          pb = false
      · rw [if_pos h1]
        right
        have hd := decodeRune_ascii b t1 (by omega)
        refine ⟨rfl, 0, b, by simp, ?_, by simp⟩
        rw [hd] at h1
        simp only at h1
        omega
      · rw [if_neg h1]
        by_cases h2 : ((decodeRune (b :: t1)).1 = 32 ∨ (decodeRune (b :: t1)).1 = 9 ∨
            (decodeRune (b :: t1)).1 = 12) ∧ pb = false
        · rw [if_pos h2]
          right
          have hd := decodeRune_ascii b t1 (by omega)
          refine ⟨rfl, 0, b, by simp, ?_, by simp⟩
          rw [hd] at h2
          simp only at h2
          omega
        · rw [if_neg h2]
          have hw := decodeRune_width_pos b t1
          rcases ih ((b :: t1).drop (decodeRune (b :: t1)).2) (k0 + 1)
              (if (decodeRune (b :: t1)).1 = 92 then !pb else false) with h | ⟨h3, j, c, h4, h5, h6⟩
          · left; exact h
          · right
            refine ⟨h3, (decodeRune (b :: t1)).2 + j, c, ?_, h5, by omega⟩
            rw [← h4, List.getElem?_drop]

/-- The value that `Load` hands to `loadConvert` starts at the end of the line, or at or
before the byte after one that is no backslash. -/
theorem splitLine_valueStart (line : List Nat) (keyLen valueStart : Nat)
    (h : splitLine line = .ok (keyLen, valueStart)) :
    line.length ≤ valueStart ∨ ∃ q c, (line)[q]? = some c ∧ c ≠ 92 ∧ valueStart ≤ q + 1 := by
  unfold splitLine at h
  have hk := scanKey_runes line.length line.length line 0 false
  rcases hsk : scanKey line.length (runes line) 0 false with ⟨k, v0, hs⟩
  rw [hsk] at h
  have hsk1 : scanKey line.length (rangeRunes line.length line) 0 false = (k, v0, hs) := hsk
  rw [hsk1] at hk
  simp only at h hk
  by_cases hv : v0 ≤ line.length
  · rw [if_pos hv] at h
    simp only [Except.ok.injEq, Prod.mk.injEq] at h
    obtain ⟨_, hvs⟩ := h
    have hsv := scanValueStart_runes (line.drop v0).length (line.drop v0) v0 hs
    have hr : rangeRunes (line.drop v0).length (line.drop v0) = runes (line.drop v0) := rfl
    rw [hr, hvs] at hsv
    rcases hsv with h1 | ⟨j, c, h1, h2, h3⟩
    · rcases hk with h4 | ⟨h4, q, c, h5, h6, h7⟩
      · left; omega
      · right
        exact ⟨q, c, h5, h6, by omega⟩
    · right
      refine ⟨v0 + j, c, ?_, h2, by omega⟩
      rw [← h1, List.getElem?_drop]
  · rw [if_neg hv] at h
    exact absurd h (by simp)

theorem trailingBackslashes_nil : trailingBackslashes [] = 0 := rfl

theorem dropLast_even (lineBuf : List Nat) (hno : ∀ c ∈ lineBuf, c ≠ 10 ∧ c ≠ 13)
    (hodd : trailingBackslashes lineBuf % 2 = 1) :
    (∀ c ∈ lineBuf.dropLast, c ≠ 10 ∧ c ≠ 13) ∧
      trailingBackslashes lineBuf.dropLast % 2 = 0 := by
  refine ⟨fun c hc => hno c (List.mem_of_mem_dropLast hc), ?_⟩
  induction lineBuf using List.reverseRecOn with
  | nil => rfl
  | append_singleton l c _ =>
    rw [trailingBackslashes_append_singleton] at hodd
    rw [List.dropLast_concat]
    by_cases hc : c = 92
    · rw [if_pos hc] at hodd; omega
    · rw [if_neg hc] at hodd; omega

/-- Every logical line that the scanner produces holds no line terminator and ends with an
even number of backslashes. -/
theorem flatLines_even (input : List Nat) : ∀ (lineBuf : List Nat) (sw alb pb : Bool)
    (mode : ScanMode), (∀ c ∈ lineBuf, c ≠ 10 ∧ c ≠ 13) →
    pb = decide (trailingBackslashes lineBuf % 2 = 1) →
    ∀ line ∈ flatLines input lineBuf sw alb pb mode,
      (∀ c ∈ line, c ≠ 10 ∧ c ≠ 13) ∧ trailingBackslashes line % 2 = 0 := by
  induction input with
  | nil =>
    intro lineBuf sw alb pb mode hno hpb line hline
    rw [flatLines] at hline
    by_cases h1 : mode = .comment ∨ lineBuf.length = 0
    · rw [if_pos h1] at hline; exact absurd hline (by simp)
    · rw [if_neg h1] at hline
      cases pb with
      | true =>
        simp only [if_true, List.mem_singleton] at hline
        rw [hline]
        exact dropLast_even lineBuf hno (of_decide_eq_true hpb.symm)
      | false =>
        simp only [Bool.false_eq_true, if_false, List.mem_singleton] at hline
        rw [hline]
        have := of_decide_eq_false hpb.symm
        exact ⟨hno, by omega⟩
  | cons c rest ih =>
    intro lineBuf sw alb pb mode hno hpb
    have hemit : pb = false → trailingBackslashes lineBuf % 2 = 0 := by
      intro h
      rw [h] at hpb
      have := of_decide_eq_false hpb.symm
      omega
    have hdrop : pb = true → (∀ c ∈ lineBuf.dropLast, c ≠ 10 ∧ c ≠ 13) ∧
        trailingBackslashes lineBuf.dropLast % 2 = 0 := by
      intro h
      rw [h] at hpb
      exact dropLast_even lineBuf hno (of_decide_eq_true hpb.symm)
    rw [flatLines]
    by_cases h1 : mode = .comment
    · rw [if_pos h1]
      by_cases h2 : c ≤ 13 ∧ (c = 13 ∨ c = 10)
      · rw [if_pos h2]; exact ih _ _ _ _ _ hno hpb
      · rw [if_neg h2]; exact ih _ _ _ _ _ hno hpb
    · rw [if_neg h1]
      by_cases h2 : mode = .afterCR ∧ c = 10
      · rw [if_pos h2]; exact ih _ _ _ _ _ hno hpb
      · rw [if_neg h2]
        by_cases h3 : sw = true ∧ (c = 32 ∨ c = 9 ∨ c = 12)
        · rw [if_pos h3]; exact ih _ _ _ _ _ hno hpb
        · rw [if_neg h3]
          by_cases h4 : sw = true ∧ alb = false ∧ (c = 13 ∨ c = 10)
          · rw [if_pos h4]; exact ih _ _ _ _ _ hno hpb
          · rw [if_neg h4]
            by_cases h5 : lineBuf.length = 0 ∧ (c = 35 ∨ c = 33)
            · rw [if_pos h5]; exact ih _ _ _ _ _ hno hpb
            · rw [if_neg h5]
              by_cases h6 : c ≠ 10 ∧ c ≠ 13
              · rw [if_pos h6]
                apply ih
                · intro d hd
                  rcases List.mem_append.1 hd with h | h
                  · exact hno d h
                  · rw [List.mem_singleton] at h; rw [h]; exact h6
                · rw [trailingBackslashes_append_singleton, hpb]
                  by_cases hc : c = 92
                  · rw [if_pos hc, if_pos hc]
                    by_cases hp : trailingBackslashes lineBuf % 2 = 1
                    · have : ¬ ((trailingBackslashes lineBuf + 1) % 2 = 1) := by omega
                      simp [hp, this]
                    · have : (trailingBackslashes lineBuf + 1) % 2 = 1 := by omega
                      simp [hp, this]
                  · rw [if_neg hc, if_neg hc]; rfl
              · rw [if_neg h6]
                by_cases h7 : lineBuf.length = 0
                · rw [if_pos h7]; exact ih _ _ _ _ _ hno hpb
                · rw [if_neg h7]
                  by_cases h8 : rest.length = 0
                  · rw [if_pos h8]
                    intro line hline
                    cases hp : pb with
                    | true =>
                      rw [hp] at hline
                      simp only [if_true, List.mem_singleton] at hline
                      rw [hline]; exact hdrop hp
                    | false =>
                      rw [hp] at hline
                      simp only [Bool.false_eq_true, if_false, List.mem_singleton] at hline
                      rw [hline]; exact ⟨hno, hemit hp⟩
                  · rw [if_neg h8]
                    cases hp : pb with
                    | true =>
                      simp only [if_true]
                      have := hdrop hp
                      apply ih _ _ _ _ _ this.1
                      have h0 : ¬ (trailingBackslashes lineBuf.dropLast % 2 = 1) := by omega
                      simp [h0]
                    | false =>
                      simp only [Bool.false_eq_true, if_false]
                      intro line hline
                      rcases List.mem_cons.1 hline with h | h
                      · rw [h]; exact ⟨hno, hemit hp⟩
                      · exact ih _ _ _ _ _ (by simp) (by rfl) line h

/-- The two calls of `loadConvert` for a line that ends with an even number of backslashes
read no index out of range. -/
theorem loadLine_safe (line : List Nat) (heven : trailingBackslashes line % 2 = 0) :
    ∃ keyLen valueStart, splitLine line = .ok (keyLen, valueStart) ∧
      keyLen ≤ line.length ∧ valueStart ≤ line.length ∧
      loadConvert line 0 keyLen ≠ .error .indexOutOfRange ∧
      loadConvert line valueStart (line.length - valueStart) ≠ .error .indexOutOfRange := by
  obtain ⟨keyLen, valueStart, hs, hk, hv⟩ := splitLine_ok line
  refine ⟨keyLen, valueStart, hs, hk, hv, ?_, ?_⟩
  · have e : line = [] ++ line.take keyLen ++ line.drop keyLen := by simp
    have hl : (line.take keyLen).length = keyLen := by rw [List.length_take]; omega
    have := loadConvert_safe [] (line.take keyLen) (line.drop keyLen) (by
      rcases Nat.lt_or_ge keyLen line.length with h | h
      · right
        intro h0
        have := congrArg List.length h0
        rw [List.length_drop] at this
        simp only [List.length_nil] at this
        omega
      · left
        rw [List.take_of_length_le h, endsInEscape_iff_odd]
        simp [heven])
    rw [← e, hl] at this
    exact this
  · have e : line = line.take valueStart ++ line.drop valueStart ++ [] := by simp
    have hl : (line.take valueStart).length = valueStart := by rw [List.length_take]; omega
    have hl2 : (line.drop valueStart).length = line.length - valueStart := List.length_drop _ _
    have := loadConvert_safe (line.take valueStart) (line.drop valueStart) [] (Or.inl
      (endsInEscape_drop line valueStart heven (splitLine_valueStart line keyLen valueStart hs)))
    rw [← e, hl, hl2] at this
    exact this

theorem loadLines_safe (lines : List (List Nat)) (m : GoMap)
    (h : ∀ line ∈ lines, trailingBackslashes line % 2 = 0) :
    loadLines lines m ≠ .error .indexOutOfRange := by
  induction lines generalizing m with
  | nil => simp [loadLines]
  | cons line rest ih =>
    obtain ⟨keyLen, valueStart, hs, _, _, hk, hv⟩ :=
      loadLine_safe line (h line (List.mem_cons_self _ _))
    rw [loadLines]
    unfold loadLine
    rw [hs]
    simp only
    cases hk1 : loadConvert line 0 keyLen with
    | error err =>
      simp only
      intro h1
      injection h1 with h1
      rw [h1] at hk1
      exact hk hk1
    | ok key =>
      simp only
      cases hv1 : loadConvert line valueStart (line.length - valueStart) with
      | error err =>
        simp only
        intro h1
        injection h1 with h1
        rw [h1] at hv1
        exact hv hv1
      | ok value =>
        simp only
        exact ih _ (fun l hl => h l (List.mem_cons_of_mem _ hl))

/-- C37: on a stream delivered in chunks that are not empty, `Load` ends with no run-time
panic of an index or a slice out of range.  The line reader gives the logical lines of the
bytes; every such line holds no line terminator and ends with an even number of backslashes;
the two scanning loops give a key length and a value start that do not exceed the length of
the line; and the two calls of `loadConvert` for the line read no index out of range, neither
for the character after a backslash nor for the four characters after `\u`. -/
theorem Load_reads_inside_the_line (cs : Reader) (hcs : Reader.NonEmpty cs) :
    Load cs ≠ .error .indexOutOfRange ∧
    LoadLines cs = .ok (logicalLines (Reader.bytes cs)) ∧
    ∀ line ∈ logicalLines (Reader.bytes cs),
      (∀ c ∈ line, c ≠ 10 ∧ c ≠ 13) ∧ trailingBackslashes line % 2 = 0 ∧
      ∃ keyLen valueStart, splitLine line = .ok (keyLen, valueStart) ∧
        keyLen ≤ line.length ∧ valueStart ≤ line.length ∧
        loadConvert line 0 keyLen ≠ .error .indexOutOfRange ∧
        loadConvert line valueStart (line.length - valueStart) ≠ .error .indexOutOfRange := by
  have hev := flatLines_even (Reader.bytes cs) [] true false false .scan (by simp) (by rfl)
  refine ⟨?_, readLines_eq_logicalLines cs hcs, ?_⟩
  · rw [Load_eq_loadLines cs hcs]
    exact loadLines_safe _ _ (fun line hl => (hev line hl).2)
  · intro line hl
    exact ⟨(hev line hl).1, (hev line hl).2, loadLine_safe line (hev line hl).2⟩

theorem Load_reads_inside_the_line_witness :
    Load [[92, 97, 195, 169, 195, 169, 195, 169, 195, 169, 195, 169, 92, 117, 48, 48, 52, 49,
        61, 120]] ≠ .error .indexOutOfRange ∧
      LoadLines [[92, 97, 195, 169, 195, 169, 195, 169, 195, 169, 195, 169, 92, 117, 48, 48,
        52, 49, 61, 120]] = .ok (logicalLines (Reader.bytes [[92, 97, 195, 169, 195, 169, 195,
        169, 195, 169, 195, 169, 92, 117, 48, 48, 52, 49, 61, 120]])) :=
  have h := Load_reads_inside_the_line [[92, 97, 195, 169, 195, 169, 195, 169, 195, 169, 195,
    169, 92, 117, 48, 48, 52, 49, 61, 120]] (by
      intro chunk hc
      rw [List.mem_singleton] at hc
      rw [hc]; simp)
  ⟨h.1, h.2.1⟩

end Properties

namespace Properties

theorem flatLines_comment_start_any (h : Nat) (hh : h = 35 ∨ h = 33) (rest : List Nat)
    (alb pb : Bool) :
    flatLines (h :: rest) [] true alb pb .scan = flatLines rest [] false false pb .comment := by
  have h1 : ¬ (h = 32 ∨ h = 9 ∨ h = 12) := by
    rcases hh with h | h <;> subst h <;> simp
  have h2 : ¬ (h = 13 ∨ h = 10) := by
    rcases hh with h | h <;> subst h <;> simp
  rw [flatLines_cons_scan, if_neg (fun k => h1 k.2), if_neg (fun k => h2 k.2.2),
    if_pos ⟨rfl, hh⟩]
  rfl

theorem flatLines_empty_terminator (t : Nat) (ht : t = 10 ∨ t = 13) (rest : List Nat)
    (alb pb : Bool) :
    flatLines (t :: rest) [] true alb pb .scan = flatLines rest [] true false pb .scan := by
  cases alb with
  | false => exact flatLines_blank_terminator t ht rest pb
  | true =>
    have h1 : ¬ (true = true ∧ (t = 32 ∨ t = 9 ∨ t = 12)) := by
      rcases ht with h | h <;> subst h <;> simp
    have h3 : ¬ (([] : List Nat).length = 0 ∧ (t = 35 ∨ t = 33)) := by
      rcases ht with h | h <;> subst h <;> simp
    have h4 : ¬ (t ≠ 10 ∧ t ≠ 13) := by
      rcases ht with h | h <;> subst h <;> simp
    rw [flatLines_cons_scan, if_neg h1, if_neg (by simp), if_neg h3, if_neg h4, if_pos rfl]
    rfl

/-- A comment line, read when the line buffer is empty: nothing of it is kept and the reader
is at the start of a logical line after it, also after a continuation. -/
theorem flatLines_comment_line (ws body term post : List Nat) (h : Nat) (alb : Bool)
    (hws : ∀ c ∈ ws, c = 32 ∨ c = 9 ∨ c = 12) (hh : h = 35 ∨ h = 33)
    (hbody : ∀ c ∈ body, c ≠ 10 ∧ c ≠ 13) (hterm : IsTerminator term post) :
    flatLines (ws ++ h :: body ++ term ++ post) [] true alb false .scan =
      flatLines post [] true false false .scan := by
  have e : ws ++ h :: body ++ term ++ post = ws ++ (h :: (body ++ (term ++ post))) := by simp
  rw [e, flatLines_skip_ws ws hws, flatLines_comment_start_any h hh,
    flatLines_comment_body body hbody]
  rcases hterm with h | h | h | ⟨h, hp⟩
  · subst h
    exact flatLines_comment_end 10 (Or.inl rfl) post [] false false false
  · subst h
    exact flatLines_comment_end 13 (Or.inr rfl) post [] false false false
  · subst h
    rw [List.cons_append, List.cons_append, flatLines_comment_end 13 (Or.inr rfl),
      List.nil_append, flatLines_blank_terminator 10 (Or.inl rfl)]
  · subst h
    subst hp
    rfl

/-- The content `x` of a physical line (not empty, no terminator inside, first byte not white
space), read after the white space at its start when the line buffer holds `buf`: it is
appended to the buffer, provided it is not a comment. -/
theorem flatLines_content (x rest buf : List Nat) (alb : Bool) (hx : x ≠ [])
    (hterm : ∀ c ∈ x, c ≠ 10 ∧ c ≠ 13)
    (hfirst : ∀ c, x.head? = some c → c ≠ 32 ∧ c ≠ 9 ∧ c ≠ 12)
    (hcm : buf = [] → ∀ c, x.head? = some c → c ≠ 35 ∧ c ≠ 33) :
    flatLines (x ++ rest) buf true alb false .scan =
      flatLines rest (buf ++ x) false false (decide (trailingBackslashes x % 2 = 1)) .scan := by
  cases x with
  | nil => exact absurd rfl hx
  | cons c t =>
    have hc := hfirst c rfl
    have hct := hterm c (List.mem_cons_self _ _)
    have hcm1 : buf ≠ [] ∨ (c ≠ 35 ∧ c ≠ 33) := by
      by_cases hb : buf = []
      · exact Or.inr (hcm hb c rfl)
      · exact Or.inl hb
    rw [List.cons_append, flatLines_start c buf _ alb false hc hct hcm1,
      flatLines_body t _ rest false _ (by simp) (fun y hy => hterm y (List.mem_cons_of_mem _ hy)),
      ← backslashFlag_false]
    simp [backslashFlag]

theorem bytes_head_ne (p : ContinuedLine) (hp : p.Valid) (rest : List Nat) :
    (p.bytes ++ rest).head? ≠ some 10 := by
  obtain ⟨hws, hk, _, _, _⟩ := hp
  unfold ContinuedLine.bytes
  cases hw : p.ws with
  | cons w0 w1 =>
    have := hws w0 (by rw [hw]; exact List.mem_cons_self _ _)
    simp only [List.cons_append, List.head?_cons, ne_eq, Option.some.injEq]
    omega
  | nil =>
    cases hkk : p.kept with
    | cons k0 k1 =>
      have := hk k0 (by rw [hkk]; exact List.mem_cons_self _ _)
      simp only [List.nil_append, List.cons_append, List.head?_cons, ne_eq, Option.some.injEq]
      exact this.1
    | nil => simp

/-- One continued physical line, read when the line buffer holds `buf`: its white space, its
last backslash and its terminator are dropped and the rest is appended to the buffer. -/
theorem flatLines_continued (p : ContinuedLine) (hp : p.Valid) (buf rest : List Nat)
    (alb : Bool) (hrest : rest ≠ []) (hcr : p.term = [13] → rest.head? ≠ some 10)
    (hcm : buf = [] → ∀ c, p.kept.head? = some c → c ≠ 35 ∧ c ≠ 33) :
    flatLines (p.bytes ++ rest) buf true alb false .scan =
      flatLines rest (buf ++ p.kept) true true false .scan := by
  obtain ⟨hws, hk, hk0, heven, hterm⟩ := hp
  have hx : p.kept ++ [92] ≠ [] := by simp
  have hxterm : ∀ c ∈ p.kept ++ [92], c ≠ 10 ∧ c ≠ 13 := by
    intro c hc
    simp only [List.mem_append, List.mem_singleton] at hc
    rcases hc with hc | hc
    · exact hk c hc
    · subst hc; simp
  have hxfirst : ∀ c, (p.kept ++ [92]).head? = some c → c ≠ 32 ∧ c ≠ 9 ∧ c ≠ 12 := by
    intro c hc
    cases hkk : p.kept with
    | nil =>
      rw [hkk] at hc
      simp only [List.nil_append, List.head?_cons, Option.some.injEq] at hc
      subst hc; simp
    | cons a0 a1 =>
      rw [hkk] at hc
      exact hk0 c (by rw [hkk]; simpa using hc)
  have hxcm : buf = [] → ∀ c, (p.kept ++ [92]).head? = some c → c ≠ 35 ∧ c ≠ 33 := by
    intro hb c hc
    cases hkk : p.kept with
    | nil =>
      rw [hkk] at hc
      simp only [List.nil_append, List.head?_cons, Option.some.injEq] at hc
      subst hc; simp
    | cons a0 a1 =>
      rw [hkk] at hc
      exact hcm hb c (by rw [hkk]; simpa using hc)
  have hflag : decide (trailingBackslashes (p.kept ++ [92]) % 2 = 1) = true := by
    rw [trailingBackslashes_append_singleton, if_pos rfl]
    simp only [decide_eq_true_eq]; omega
  have hbuf : buf ++ (p.kept ++ [92]) ≠ [] := by simp
  have hdrop : (buf ++ (p.kept ++ [92])).dropLast = buf ++ p.kept := by
    rw [← List.append_assoc, List.dropLast_concat]
  have e0 : p.bytes ++ rest = p.ws ++ ((p.kept ++ [92]) ++ (p.term ++ rest)) := by
    simp [ContinuedLine.bytes]
  rw [e0, flatLines_skip_ws p.ws hws, flatLines_content _ _ buf alb hx hxterm hxfirst hxcm, hflag]
  rcases hterm with h | h | h
  · rw [h, List.cons_append, List.nil_append,
      flatLines_continuation 10 (Or.inl rfl) _ _ false hbuf hrest, hdrop]
    simp
  · rw [h, List.cons_append, List.nil_append,
      flatLines_continuation 13 (Or.inr rfl) _ _ false hbuf hrest, hdrop]
    simp only [if_true]
    cases rest with
    | nil => exact absurd rfl hrest
    | cons r0 r1 =>
      have hr0 : r0 ≠ 10 := by
        intro k
        exact hcr h (by rw [k]; rfl)
      rw [flatLines_afterCR, if_neg hr0]
  · rw [h, List.cons_append, List.cons_append, List.nil_append,
      flatLines_continuation 13 (Or.inr rfl) _ _ false hbuf (by simp), hdrop]
    simp only [if_true]
    rw [flatLines_afterCR, if_pos rfl]

theorem chainBytes_cons (p : ContinuedLine) (ps : List ContinuedLine) :
    chainBytes (p :: ps) = p.bytes ++ chainBytes ps := by
  simp [chainBytes]

theorem chainKept_cons (p : ContinuedLine) (ps : List ContinuedLine) :
    chainKept (p :: ps) = p.kept ++ chainKept ps := by
  simp [chainKept]

/-- A chain of continued physical lines, read when the line buffer holds `buf`: what the
lines keep is appended to the buffer, in their order. -/
theorem flatLines_chain : ∀ (ps : List ContinuedLine) (buf rest : List Nat) (alb : Bool),
    (∀ p ∈ ps, p.Valid) → NoComment buf ps → rest ≠ [] →
    (∀ p, ps.getLast? = some p → p.term = [13] → rest.head? ≠ some 10) →
    flatLines (chainBytes ps ++ rest) buf true alb false .scan =
      flatLines rest (buf ++ chainKept ps) true (alb || !ps.isEmpty) false .scan
  | [], buf, rest, alb, _, _, _, _ => by
    simp [chainBytes, chainKept]
  | p :: ps, buf, rest, alb, hv, hnc, hrest, hcr => by
    have hp := hv p (List.mem_cons_self _ _)
    have hr1 : chainBytes ps ++ rest ≠ [] := by simp [hrest]
    have hcr1 : p.term = [13] → (chainBytes ps ++ rest).head? ≠ some 10 := by
      intro ht
      cases ps with
      | nil => simpa [chainBytes] using hcr p rfl ht
      | cons q qs =>
        rw [chainBytes_cons, List.append_assoc]
        exact bytes_head_ne q (hv q (List.mem_cons_of_mem _ (List.mem_cons_self _ _))) _
    have hcr2 : ∀ q, ps.getLast? = some q → q.term = [13] → rest.head? ≠ some 10 := by
      intro q hq
      cases ps with
      | nil => simp at hq
      | cons q0 qs => exact hcr q (by rw [List.getLast?_cons_cons]; exact hq)
    rw [chainBytes_cons, List.append_assoc,
      flatLines_continued p hp buf _ alb hr1 hcr1 hnc.1,
      flatLines_chain ps (buf ++ p.kept) rest true
        (fun q hq => hv q (List.mem_cons_of_mem _ hq)) hnc.2 hrest hcr2,
      chainKept_cons, List.append_assoc]
    simp

/-- The last physical line of a logical line, ended by a terminator after an even number of
backslashes: the logical line ends there and is returned if it is not empty. -/
theorem flatLines_last (ws b post buf : List Nat) (alb : Bool) (t : Nat)
    (hws : ∀ c ∈ ws, c = 32 ∨ c = 9 ∨ c = 12)
    (hb : ∀ c ∈ b, c ≠ 10 ∧ c ≠ 13)
    (hb0 : ∀ c, b.head? = some c → c ≠ 32 ∧ c ≠ 9 ∧ c ≠ 12)
    (hbeven : trailingBackslashes b % 2 = 0) (ht : t = 10 ∨ t = 13)
    (hcm : buf = [] → ∀ c, b.head? = some c → c ≠ 35 ∧ c ≠ 33)
    (halb : buf ≠ [] → alb = true) :
    flatLines (ws ++ b ++ t :: post) buf true alb false .scan =
      (if buf ++ b = [] then [] else [buf ++ b]) ++ flatLines post [] true false false .scan := by
  rw [List.append_assoc, flatLines_skip_ws ws hws]
  by_cases hbn : b = []
  · subst hbn
    rw [List.nil_append, List.append_nil]
    by_cases hbuf : buf = []
    · subst hbuf
      rw [if_pos rfl, flatLines_empty_terminator t ht]
      rfl
    · rw [if_neg hbuf, halb hbuf, flatLines_end_of_line t ht buf post true true hbuf (Or.inr rfl)]
      rfl
  · have hne : buf ++ b ≠ [] := by simp [hbn]
    have hflag : decide (trailingBackslashes b % 2 = 1) = false := by
      simp only [decide_eq_false_iff_not]; omega
    rw [if_neg hne, flatLines_content b _ buf alb hbn hb hb0 hcm, hflag,
      flatLines_end_of_line t ht _ post false false hne (Or.inl rfl)]
    rfl

theorem chainKept_nil_iff (ps : List ContinuedLine) :
    chainKept ps = [] ↔ ∀ p ∈ ps, p.kept = [] := by
  simp [chainKept]

theorem noComment_of_kept_nil : ∀ (ps : List ContinuedLine), chainKept ps = [] →
    NoComment [] ps
  | [], _ => trivial
  | p :: ps, h => by
    rw [chainKept_cons, List.append_eq_nil] at h
    refine ⟨fun _ c hc => ?_, ?_⟩
    · rw [h.1] at hc
      simp at hc
    · rw [h.1]
      exact noComment_of_kept_nil ps h.2

end Properties

namespace Properties

/-- C3 (amended): at a place `pre` of the input where a logical line starts, let `ps` be any
chain of continued physical lines: each is made of spaces, tabs and form feeds, of bytes that
hold no terminator and end in an even number of backslashes, of one more backslash, so that
an odd number of backslashes precedes the terminator, and of the terminator LF, CR or CR LF.
(1) If no line of the chain is a comment, no terminator of the chain ends the logical line:
of every line of the chain the white space at its start, its last backslash and its
terminator are dropped and the rest is appended to what the logical line holds; the
terminator `t` after the next physical line `ws ++ b`, where `b` ends in an even number of
backslashes (or in none), ends the logical line, which is returned, after the lines of `pre`
and before those of `post`, if it is not empty.  With the empty chain this is a logical line
of one physical line.  (2) The exception: when nothing of the logical line has been kept so
far and the next physical line begins, after its white space, with `#` or `!`, that line is a
comment: through its terminator it is dropped, not appended, and a backslash at its end
continues nothing.  (3) The bytes `key=part1\` LF `   part2` LF give
`{key: part1part2}`. -/
theorem continuation_joins_chain (pre : List Nat) (ps : List ContinuedLine)
    (ws post : List Nat) (hpre : EndsLogicalLine pre) (hps : ∀ p ∈ ps, p.Valid)
    (hws : ∀ c ∈ ws, c = 32 ∨ c = 9 ∨ c = 12) :
    (∀ (b : List Nat) (t : Nat), (∀ c ∈ b, c ≠ 10 ∧ c ≠ 13) →
      (∀ c, b.head? = some c → c ≠ 32 ∧ c ≠ 9 ∧ c ≠ 12) →
      trailingBackslashes b % 2 = 0 → (t = 10 ∨ t = 13) →
      NoComment [] ps → (chainKept ps = [] → ∀ c, b.head? = some c → c ≠ 35 ∧ c ≠ 33) →
      (∀ p, ps.getLast? = some p → p.term = [13] → ws = [] → b = [] → t ≠ 10) →
      ∀ lines1 lines2, LoadLines [pre] = .ok lines1 → LoadLines [post] = .ok lines2 →
        LoadLines [pre ++ (chainBytes ps ++ ws ++ b ++ [t]) ++ post] =
          .ok (lines1 ++ (if chainKept ps ++ b = [] then [] else [chainKept ps ++ b]) ++
            lines2)) ∧
      (chainKept ps = [] → ∀ (h : Nat) (body term : List Nat), (h = 35 ∨ h = 33) →
        (∀ c ∈ body, c ≠ 10 ∧ c ≠ 13) →
        (term = [10] ∨ term = [13] ∨ term = [13, 10] ∨ (term = [] ∧ post = [])) →
        ∀ lines1 lines2, LoadLines [pre] = .ok lines1 → LoadLines [post] = .ok lines2 →
          LoadLines [pre ++ (chainBytes ps ++ ws ++ h :: body ++ term) ++ post] =
            .ok (lines1 ++ lines2)) ∧
      Load [[107, 101, 121, 61, 112, 97, 114, 116, 49, 92, 10, 32, 32, 32, 112, 97, 114, 116,
        50, 10]] = .ok [([107, 101, 121], [112, 97, 114, 116, 49, 112, 97, 114, 116, 50])] := by
  refine ⟨?_, ?_, by decide⟩
  · intro b t hb hb0 hbeven ht hnc hcm hcr lines1 lines2 h1 h2
    rw [LoadLines_single] at h1 h2 ⊢
    simp only [Except.ok.injEq] at h1 h2 ⊢
    have hrest : ws ++ b ++ t :: post ≠ [] := by simp
    have hcr1 : ∀ p, ps.getLast? = some p → p.term = [13] →
        (ws ++ b ++ t :: post).head? ≠ some 10 := by
      intro p hp hterm
      cases ws with
      | cons w0 w1 =>
        have := hws w0 (List.mem_cons_self _ _)
        simp only [List.cons_append, List.head?_cons, ne_eq, Option.some.injEq]
        omega
      | nil =>
        cases b with
        | cons b0 b1 =>
          have := hb b0 (List.mem_cons_self _ _)
          simp only [List.nil_append, List.cons_append, List.head?_cons, ne_eq,
            Option.some.injEq]
          exact this.1
        | nil =>
          simp only [List.nil_append, List.head?_cons, ne_eq, Option.some.injEq]
          exact hcr p hp hterm rfl rfl
    have e : chainBytes ps ++ ws ++ b ++ [t] ++ post =
        chainBytes ps ++ (ws ++ b ++ t :: post) := by simp
    have halb : [] ++ chainKept ps ≠ [] → (false || !ps.isEmpty) = true := by
      intro hk
      cases ps with
      | nil => exact absurd rfl hk
      | cons p ps => rfl
    rw [List.append_assoc, logicalLines_of_boundary _ _ hpre, h1, e]
    unfold logicalLines
    rw [flatLines_chain ps [] _ false hps hnc hrest hcr1,
      flatLines_last ws b post _ _ t hws hb hb0 hbeven ht
        (fun hk => hcm (by simpa using hk)) halb]
    unfold logicalLines at h2
    rw [h2, List.nil_append, List.append_assoc]
  · intro hk h body term hh hbody hterm lines1 lines2 h1 h2
    rw [LoadLines_single] at h1 h2 ⊢
    simp only [Except.ok.injEq] at h1 h2 ⊢
    have hrest : ws ++ h :: body ++ term ++ post ≠ [] := by simp
    have hcr1 : ∀ p, ps.getLast? = some p → p.term = [13] →
        (ws ++ h :: body ++ term ++ post).head? ≠ some 10 := by
      intro p _ _
      cases ws with
      | cons w0 w1 =>
        have := hws w0 (List.mem_cons_self _ _)
        simp only [List.cons_append, List.head?_cons, ne_eq, Option.some.injEq]
        omega
      | nil =>
        simp only [List.nil_append, List.cons_append, List.head?_cons, ne_eq,
          Option.some.injEq]
        omega
    have e : chainBytes ps ++ ws ++ h :: body ++ term ++ post =
        chainBytes ps ++ (ws ++ h :: body ++ term ++ post) := by simp
    rw [List.append_assoc, logicalLines_of_boundary _ _ hpre, h1, e]
    unfold logicalLines
    rw [flatLines_chain ps [] _ false hps (noComment_of_kept_nil ps hk) hrest hcr1, hk,
      List.append_nil, flatLines_comment_line ws body term post h _ hws hh hbody hterm]
    unfold logicalLines at h2
    rw [h2]

theorem continuation_joins_chain_witness :
    chainBytes [⟨[], [107, 61, 97], [13, 10]⟩, ⟨[32, 9], [98, 92, 92], [10]⟩, ⟨[12], [], [13]⟩] =
        [107, 61, 97, 92, 13, 10, 32, 9, 98, 92, 92, 92, 10, 12, 92, 13] ∧
      LoadLines [[120, 61, 49, 10] ++
          (chainBytes [⟨[], [107, 61, 97], [13, 10]⟩, ⟨[32, 9], [98, 92, 92], [10]⟩,
            ⟨[12], [], [13]⟩] ++ [32] ++ [35, 99] ++ [10]) ++ [121]] =
        .ok [[120, 61, 49], [107, 61, 97, 98, 92, 92, 35, 99], [121]] ∧
      LoadLines [[120, 61, 49, 10] ++
          (chainBytes [⟨[32], [], [10]⟩, ⟨[], [], [13, 10]⟩] ++ [32] ++ 35 :: [97, 61, 98, 92] ++
            [10]) ++ [121]] =
        .ok [[120, 61, 49], [121]] :=
  ⟨by decide,
    (continuation_joins_chain [120, 61, 49, 10]
      [⟨[], [107, 61, 97], [13, 10]⟩, ⟨[32, 9], [98, 92, 92], [10]⟩, ⟨[12], [], [13]⟩] [32] [121]
      (endsLogicalLine_line [] [120, 61, 49] 10 endsLogicalLine_nil (by decide) (by decide)
        (by simp) (by decide) (by decide))
      (by simp [ContinuedLine.Valid, trailingBackslashes]) (by decide)).1 [35, 99] 10 (by decide)
      (by simp) (by decide) (by decide) (by simp [NoComment]) (by simp [chainKept])
      (by simp) [[120, 61, 49]] [[121]] (by decide) (by decide),
    (continuation_joins_chain [120, 61, 49, 10] [⟨[32], [], [10]⟩, ⟨[], [], [13, 10]⟩] [32] [121]
      (endsLogicalLine_line [] [120, 61, 49] 10 endsLogicalLine_nil (by decide) (by decide)
        (by simp) (by decide) (by decide))
      (by simp [ContinuedLine.Valid, trailingBackslashes]) (by decide)).2.1 (by decide) 35
      [97, 61, 98, 92] [10] (by decide) (by decide) (by decide) [[120, 61, 49]] [[121]]
      (by decide) (by decide)⟩

end Properties

namespace Properties

/-- C8 (defect of the code): in the input `é=1` LF `é=2` LF (`é` is the two bytes C3 A9) the
key `é` stands on both logical lines, with the values `1` and `2`: cut at the bytes of the
separator, the second line has the key C3 A9 and the value `2`.  `Load` counts the key in
runes and cuts after one byte: it returns the single entry of the key C3 with the value
`=2`, and binds the key `é` to nothing. -/
theorem Load_duplicate_key_counts_runes :
    LoadLines [[195, 169, 61, 49, 10, 195, 169, 61, 50, 10]] =
        .ok [[195, 169, 61, 49], [195, 169, 61, 50]] ∧
      loadConvert [195, 169, 61, 50] 0 2 = .ok [195, 169] ∧
      loadConvert [195, 169, 61, 50] 3 1 = .ok [50] ∧
      Load [[195, 169, 61, 49, 10, 195, 169, 61, 50, 10]] = .ok [([195], [61, 50])] ∧
      GoMap.get [([195], [61, 50])] [195, 169] = none := by
  decide

end Properties

namespace Process

/-! ## `Alive` against the words of the specification -/

theorem Atoi_le_maxInt {s : List Nat} {v : Int} (h : Atoi s = some v) (hv : 0 < v) :
    v ≤ maxInt := by
  unfold Atoi at h
  simp only at h
  split_ifs at h
  all_goals (simp only [Option.some.injEq] at h; omega)

/-- A decimal integer of a positive value that an `int` holds is what `Atoi` accepts, with
that value. -/
theorem Atoi_of_decimalInteger (s : List Nat) (hd : isDecimalInteger s = true)
    (h0 : 0 < integerValue s) (hm : integerValue s ≤ maxInt) :
    Atoi s = some (integerValue s) := by
  cases s with
  | nil => simp [isDecimalInteger] at hd
  | cons c t =>
    by_cases h45 : c = 45
    · subst h45
      simp only [integerValue, if_true] at h0
      omega
    · by_cases h43 : c = 43
      · subst h43
        simp only [isDecimalInteger, true_or, if_true, Bool.and_eq_true, decide_eq_true_eq] at hd
        simp only [integerValue, Nat.reduceEqDiff, if_false, if_true] at hm ⊢
        unfold Atoi
        simp only [List.head?_cons, Option.some.injEq, Nat.reduceEqDiff, true_or, if_true,
          List.tail_cons, decide_False, Bool.false_eq_true, if_false]
        rw [if_neg (by simp [hd.1, hd.2]), digitsValue_eq, if_pos hm]
      · simp only [isDecimalInteger, h43, h45, or_self, if_false] at hd
        simp only [integerValue, h43, h45, if_false] at hm ⊢
        unfold Atoi
        simp only [List.head?_cons, Option.some.injEq, h43, h45, or_self, if_false,
          decide_False, Bool.false_eq_true]
        rw [if_neg (by simp [hd]), digitsValue_eq, if_pos hm]

theorem firstLine_nil : firstLine [] = [] := by
  decide

/-- On a file whose first line is shorter than the buffer of the reader, the pid that
`ReadPid` takes is the value of the first line when this is a decimal integer of a positive
value that an `int` holds, and there is none otherwise. -/
theorem storedPid_iff (c : List Nat) (pid : Int)
    (hlen : (c.takeWhile (· ≠ 10)).length < defaultBufSize) :
    storedPid c = some pid ↔
      isDecimalInteger (firstLine c) = true ∧ integerValue (firstLine c) = pid ∧ 0 < pid ∧
        pid ≤ maxInt := by
  constructor
  · intro h
    have hs := storedPid_short hlen h
    refine ⟨hs.2.1, hs.2.2.1, hs.2.2.2, ?_⟩
    unfold storedPid at h
    rw [ReadLine_short c hs.1 hlen] at h
    simp only at h
    split at h
    · exact absurd h (by simp)
    · rename_i v hv
      split at h
      · exact absurd h (by simp)
      · simp only [Option.some.injEq] at h
        subst h
        exact Atoi_le_maxInt hv hs.2.2.2
  · rintro ⟨hd, hv, h0, hm⟩
    have hne : c ≠ [] := by
      rintro rfl
      rw [firstLine_nil] at hd
      simp [isDecimalInteger] at hd
    subst hv
    unfold storedPid
    rw [ReadLine_short c hne hlen]
    simp only
    rw [Atoi_of_decimalInteger _ hd h0 hm]
    simp only
    rw [if_neg (by omega)]

/-- C16, as stated, fails for a first line that the buffer of the reader does not hold: the
file of 4095 zeros followed by `7x` and a newline holds no valid pid (its first line is not a
decimal integer), and `Alive` is true on it when a process 7 exists: it probes the pid 7 that
`ReadPid` takes from the first 4096 bytes. -/
theorem Alive_long_first_line :
    isDecimalInteger (firstLine (World.new (List.replicate 4095 48 ++ [55, 120, 10]) 100
        [7]).content) = false ∧
      (World.new (List.replicate 4095 48 ++ [55, 120, 10]) 100 [7]).processExists 7 = true ∧
      (Alive (World.new (List.replicate 4095 48 ++ [55, 120, 10]) 100 [7])).1 = true ∧
      (Alive (World.new (List.replicate 4095 48 ++ [55, 120, 10]) 100 [])).1 = false :=
  ⟨isDecimalInteger_zeros 4095, by decide,
    congrArg Prod.fst (Alive_ok (World.new (List.replicate 4095 48 ++ [55, 120, 10]) 100 [7])
      7 rfl (storedPid_zeros 4095 rfl)),
    congrArg Prod.fst (Alive_ok (World.new (List.replicate 4095 48 ++ [55, 120, 10]) 100 [])
      7 rfl (storedPid_zeros 4095 rfl))⟩

/-- C16 (amended): when no call fails and the first line of the PID file is shorter than the
4096 bytes of the buffer of the reader, `Alive` is true exactly when the first line is a
decimal integer of a positive value that an `int` holds and `processExists` is true of this
value.  On a record of the digits of a positive pid and a newline `Alive` is the answer of
`processExists` for that pid, so it is false for a pid that no process has, and on a record of
the caller's own pid it is true. -/
theorem Alive_iff_valid_pid (w : World) (hf : w.faults = [])
    (hlen : (w.content.takeWhile (· ≠ 10)).length < defaultBufSize) :
    ((Alive w).1 = true ↔
        isDecimalInteger (firstLine w.content) = true ∧
          0 < integerValue (firstLine w.content) ∧
          integerValue (firstLine w.content) ≤ maxInt ∧
          w.processExists (integerValue (firstLine w.content)) = true) ∧
      (∀ pid : Nat, 0 < pid → (pid : Int) ≤ maxInt → w.content = decimal pid ++ [10] →
        firstLine w.content = decimal pid ∧ integerValue (firstLine w.content) = pid ∧
          (Alive w).1 = w.processExists pid) ∧
      (0 < w.self → w.self ≤ maxInt → w.content = decimal w.self.toNat ++ [10] →
        (Alive w).1 = true) := by
  have key : ∀ pid : Nat, 0 < pid → (pid : Int) ≤ maxInt → w.content = decimal pid ++ [10] →
      (Alive w).1 = w.processExists pid := by
    intro pid h0 hm hc
    rw [Alive_ok w pid hf (by rw [hc]; exact storedPid_decimal pid h0 hm)]
  refine ⟨⟨fun h => ?_, fun h => ?_⟩, fun pid h0 hm hc => ?_, fun h0 hm hc => ?_⟩
  · obtain ⟨pid, hs, hp, _⟩ := (Alive_spec (rfl : Alive w = ((Alive w).1, (Alive w).2))).2.1 h
    obtain ⟨h1, h2, h3, h4⟩ := (storedPid_iff w.content pid hlen).1 hs
    rw [h2]
    exact ⟨h1, h3, h4, hp⟩
  · obtain ⟨h1, h2, h3, h4⟩ := h
    have hs := (storedPid_iff w.content _ hlen).2 ⟨h1, rfl, h2, h3⟩
    rw [Alive_ok w _ hf hs]
    exact h4
  · have hs := storedPid_decimal pid h0 hm
    rw [← hc] at hs
    have := (storedPid_iff w.content pid hlen).1 hs
    refine ⟨?_, this.2.1, key pid h0 hm hc⟩
    rw [hc]
    have h10 : 10 ∉ decimal pid := by
      intro hm10
      have := decimal_all_isDigit pid
      rw [List.all_eq_true] at this
      have := this 10 hm10
      simp [isDigit] at this
    unfold firstLine
    have e : (decimal pid ++ [10]).takeWhile (· ≠ 10) = decimal pid := by
      rw [List.takeWhile_append_of_pos (by
        intro c hc1
        have : c ≠ 10 := fun h => h10 (h ▸ hc1)
        simpa using this)]
      simp
    simp only [e]
    have hd := decimal_all_isDigit pid
    rw [if_neg]
    rintro ⟨_, h13⟩
    have hm13 : 13 ∈ decimal pid := List.mem_of_mem_getLast? h13
    rw [List.all_eq_true] at hd
    have := hd 13 hm13
    simp [isDigit] at this
  · have hn : ((w.self.toNat : Nat) : Int) = w.self := Int.toNat_of_nonneg (le_of_lt h0)
    rw [key w.self.toNat (by omega) (by rw [hn]; exact hm) hc, hn]
    simp [World.processExists]

theorem Alive_iff_valid_pid_witness :
    ((Alive (World.new [43, 48, 55, 13, 10, 57] 100 [7])).1 = true ↔
        isDecimalInteger (firstLine (World.new [43, 48, 55, 13, 10, 57] 100 [7]).content) = true ∧
          0 < integerValue (firstLine (World.new [43, 48, 55, 13, 10, 57] 100 [7]).content) ∧
          integerValue (firstLine (World.new [43, 48, 55, 13, 10, 57] 100 [7]).content) ≤
            maxInt ∧
          (World.new [43, 48, 55, 13, 10, 57] 100 [7]).processExists
            (integerValue (firstLine (World.new [43, 48, 55, 13, 10, 57] 100 [7]).content)) =
              true) ∧
      (Alive (World.new [43, 48, 55, 13, 10, 57] 100 [7])).1 = true ∧
      (Alive (World.new [43, 48, 55, 13, 10, 57] 100 [8])).1 = false ∧
      (Alive (World.new [49, 48, 48, 10] 100 [])).1 = true :=
  ⟨(Alive_iff_valid_pid (World.new [43, 48, 55, 13, 10, 57] 100 [7]) rfl (by decide)).1,
    by decide, by decide, by decide⟩

end Process

namespace Properties

/-! ## `strings.TrimSpace` against the words of the description -/

theorem HasPrefix_iff (s p : List Nat) : HasPrefix s p = true ↔ ∃ t, s = p ++ t := by
  unfold HasPrefix
  simp only [Bool.and_eq_true, decide_eq_true_eq]
  constructor
  · rintro ⟨_, h⟩
    exact ⟨s.drop p.length, by conv_lhs => rw [← List.take_append_drop p.length s, h]⟩
  · rintro ⟨t, rfl⟩
    simp

theorem whiteSpace_eq : whiteSpace = whiteSpaceRunes.map (appendRune []) := by
  decide

/-- A string that starts with the encoding of a white space starts with a rune that is a
white space, of the width of the encoding. -/
theorem decodeRune_whiteSpace (w : List Nat) (hw : w ∈ whiteSpace) (t : List Nat) :
    IsSpace (decodeRune (w ++ t)).1 = true ∧ (decodeRune (w ++ t)).2 = w.length := by
  unfold whiteSpace at hw
  fin_cases hw <;> exact ⟨rfl, rfl⟩

theorem IsSpace_cases (r : Nat) (h : IsSpace r = true) :
    r = 9 ∨ r = 10 ∨ r = 11 ∨ r = 12 ∨ r = 13 ∨ r = 32 ∨ r = 0x85 ∨ r = 0xA0 ∨ r = 0x1680 ∨
      (0x2000 ≤ r ∧ r ≤ 0x200A) ∨ r = 0x2028 ∨ r = 0x2029 ∨ r = 0x202F ∨ r = 0x205F ∨
      r = 0x3000 := by
  simpa [IsSpace, or_assoc] using h

/-- A string that starts with a rune that is a white space starts with the encoding of a
white space. -/
theorem whiteSpace_of_decodeRune (s : List Nat) (h : IsSpace (decodeRune s).1 = true) :
    ∃ w ∈ whiteSpace, ∃ t, s = w ++ t := by
  have hE : IsSpace RuneError = false := by decide
  cases s with
  | nil => simp only [decodeRune, hE] at h; exact absurd h (by simp)
  | cons s0 t =>
    by_cases h0 : s0 < 0x80
    · have e : decodeRune (s0 :: t) = (s0, 1) := by simp only [decodeRune, if_pos h0]
      rw [e] at h
      have hc := IsSpace_cases s0 h
      have : s0 = 9 ∨ s0 = 10 ∨ s0 = 11 ∨ s0 = 12 ∨ s0 = 13 ∨ s0 = 32 := by omega
      rcases this with h1 | h1 | h1 | h1 | h1 | h1 <;> subst h1 <;>
        exact ⟨[_], by decide, t, rfl⟩
    · by_cases h2 : 0xC2 ≤ s0 ∧ s0 ≤ 0xDF
      · cases t with
        | nil =>
          have e : decodeRune [s0] = (RuneError, 1) := by
            simp only [decodeRune, if_neg h0, if_pos h2]
          rw [e, hE] at h; exact absurd h (by simp)
        | cons s1 t1 =>
          have e : decodeRune (s0 :: s1 :: t1) =
              if isCont s1 then ((s0 % 32) * 64 + s1 % 64, 2) else (RuneError, 1) := by
            simp only [decodeRune, if_neg h0, if_pos h2]
          rw [e] at h
          by_cases hc1 : isCont s1 = true
          · rw [if_pos hc1] at h
            simp only [isCont, Bool.and_eq_true, decide_eq_true_eq] at hc1
            have hc := IsSpace_cases _ h
            have : s0 = 0xC2 ∧ (s1 = 0x85 ∨ s1 = 0xA0) := by omega
            obtain ⟨rfl, h5 | h5⟩ := this <;> subst h5 <;>
              exact ⟨[_, _], by decide, t1, rfl⟩
          · rw [if_neg hc1, hE] at h; exact absurd h (by simp)
      · by_cases h3 : 0xE0 ≤ s0 ∧ s0 ≤ 0xEF
        · have hbad : ∀ l : List Nat, l.length < 2 → decodeRune (s0 :: l) = (RuneError, 1) := by
            intro l hl
            match l, hl with
            | [], _ => simp only [decodeRune, if_neg h0, if_neg h2, if_pos h3]
            | [_], _ => simp only [decodeRune, if_neg h0, if_neg h2, if_pos h3]
          by_cases hl : t.length < 2
          · rw [hbad t hl, hE] at h; exact absurd h (by simp)
          · obtain ⟨s1, s2, t2, rfl⟩ : ∃ s1 s2 t2, t = s1 :: s2 :: t2 := by
              match t, hl with
              | s1 :: s2 :: t2, _ => exact ⟨s1, s2, t2, rfl⟩
              | [], hl => simp at hl
              | [_], hl => simp at hl
            have e : decodeRune (s0 :: s1 :: s2 :: t2) =
                if (if s0 = 0xE0 then 0xA0 else 0x80) ≤ s1 ∧
                    s1 ≤ (if s0 = 0xED then 0x9F else 0xBF) ∧ isCont s2 then
                  ((s0 % 16) * 4096 + (s1 % 64) * 64 + s2 % 64, 3)
                else (RuneError, 1) := by
              simp only [decodeRune, if_neg h0, if_neg h2, if_pos h3]
            rw [e] at h
            by_cases hc1 : (if s0 = 0xE0 then 0xA0 else 0x80) ≤ s1 ∧
                s1 ≤ (if s0 = 0xED then 0x9F else 0xBF) ∧ isCont s2
            · rw [if_pos hc1] at h
              obtain ⟨hlo, hhi, hc2⟩ := hc1
              simp only [isCont, Bool.and_eq_true, decide_eq_true_eq] at hc2
              have hlo1 : 0x80 ≤ s1 := by
                by_cases h00 : s0 = 0xE0
                · rw [if_pos h00] at hlo; omega
                · rw [if_neg h00] at hlo; exact hlo
              have hhi1 : s1 ≤ 0xBF := by
                by_cases h00 : s0 = 0xED
                · rw [if_pos h00] at hhi; omega
                · rw [if_neg h00] at hhi; exact hhi
              have hlo2 : s0 ≠ 0xE0 ∨ 0xA0 ≤ s1 := by
                by_cases h00 : s0 = 0xE0
                · rw [if_pos h00] at hlo; exact Or.inr hlo
                · exact Or.inl h00
              clear hlo hhi
              have hc := IsSpace_cases _ h
              simp only at hc
              have e0 : s0 % 16 = s0 - 224 := by omega
              have e1 : s1 % 64 = s1 - 128 := by omega
              have e2 : s2 % 64 = s2 - 128 := by omega
              rw [e0, e1, e2] at hc
              clear h e e0 e1 e2
              rcases hc with hc | hc | hc | hc | hc | hc | hc | hc | hc | hc | hc | hc | hc |
                hc | hc
              · exfalso; omega
              · exfalso; omega
              · exfalso; omega
              · exfalso; omega
              · exfalso; omega
              · exfalso; omega
              · exfalso; omega
              · exfalso; omega
              · obtain ⟨rfl, rfl, rfl⟩ : s0 = 0xE1 ∧ s1 = 0x9A ∧ s2 = 0x80 := by omega
                exact ⟨[_, _, _], by decide, t2, rfl⟩
              · obtain ⟨rfl, rfl, h6, h7⟩ : s0 = 0xE2 ∧ s1 = 0x80 ∧ 0x80 ≤ s2 ∧ s2 ≤ 0x8A := by
                  omega
                refine ⟨[0xE2, 0x80, s2], ?_, t2, rfl⟩
                interval_cases s2 <;> decide
              · obtain ⟨rfl, rfl, rfl⟩ : s0 = 0xE2 ∧ s1 = 0x80 ∧ s2 = 0xA8 := by omega
                exact ⟨[_, _, _], by decide, t2, rfl⟩
              · obtain ⟨rfl, rfl, rfl⟩ : s0 = 0xE2 ∧ s1 = 0x80 ∧ s2 = 0xA9 := by omega
                exact ⟨[_, _, _], by decide, t2, rfl⟩
              · obtain ⟨rfl, rfl, rfl⟩ : s0 = 0xE2 ∧ s1 = 0x80 ∧ s2 = 0xAF := by omega
                exact ⟨[_, _, _], by decide, t2, rfl⟩
              · obtain ⟨rfl, rfl, rfl⟩ : s0 = 0xE2 ∧ s1 = 0x81 ∧ s2 = 0x9F := by omega
                exact ⟨[_, _, _], by decide, t2, rfl⟩
              · obtain ⟨rfl, rfl, rfl⟩ : s0 = 0xE3 ∧ s1 = 0x80 ∧ s2 = 0x80 := by omega
                exact ⟨[_, _, _], by decide, t2, rfl⟩
            · rw [if_neg hc1, hE] at h; exact absurd h (by simp)
        · by_cases h4 : 0xF0 ≤ s0 ∧ s0 ≤ 0xF4
          · have hbad : ∀ l : List Nat, l.length < 3 →
                decodeRune (s0 :: l) = (RuneError, 1) := by
              intro l hl
              match l, hl with
              | [], _ => simp only [decodeRune, if_neg h0, if_neg h2, if_neg h3, if_pos h4]
              | [_], _ => simp only [decodeRune, if_neg h0, if_neg h2, if_neg h3, if_pos h4]
              | [_, _], _ => simp only [decodeRune, if_neg h0, if_neg h2, if_neg h3, if_pos h4]
            by_cases hl : t.length < 3
            · rw [hbad t hl, hE] at h; exact absurd h (by simp)
            · obtain ⟨s1, s2, s3, t3, rfl⟩ : ∃ s1 s2 s3 t3, t = s1 :: s2 :: s3 :: t3 := by
                match t, hl with
                | s1 :: s2 :: s3 :: t3, _ => exact ⟨s1, s2, s3, t3, rfl⟩
                | [], hl => simp at hl
                | [_], hl => simp at hl
                | [_, _], hl => simp at hl
              have e : decodeRune (s0 :: s1 :: s2 :: s3 :: t3) =
                  if (if s0 = 0xF0 then 0x90 else 0x80) ≤ s1 ∧
                      s1 ≤ (if s0 = 0xF4 then 0x8F else 0xBF) ∧ isCont s2 ∧ isCont s3 then
                    ((s0 % 8) * 262144 + (s1 % 64) * 4096 + (s2 % 64) * 64 + s3 % 64, 4)
                  else (RuneError, 1) := by
                simp only [decodeRune, if_neg h0, if_neg h2, if_neg h3, if_pos h4]
              rw [e] at h
              by_cases hc1 : (if s0 = 0xF0 then 0x90 else 0x80) ≤ s1 ∧
                  s1 ≤ (if s0 = 0xF4 then 0x8F else 0xBF) ∧ isCont s2 ∧ isCont s3
              · rw [if_pos hc1] at h
                obtain ⟨hlo, hhi, _, _⟩ := hc1
                have hc := IsSpace_cases _ h
                exfalso
                by_cases h00 : s0 = 0xF0
                · rw [if_pos h00] at hlo
                  have hhi1 : s1 ≤ 0xBF := by
                    rw [if_neg (by omega)] at hhi; exact hhi
                  omega
                · omega
              · rw [if_neg hc1, hE] at h; exact absurd h (by simp)
          · have e : decodeRune (s0 :: t) = (RuneError, 1) := by
              simp only [decodeRune, if_neg h0, if_neg h2, if_neg h3, if_neg h4]
            rw [e, hE] at h; exact absurd h (by simp)

end Properties

namespace Properties

theorem decodeLastRune_one (t : List Nat) (a : Nat) (ha : a < 0x80) :
    decodeLastRune (t ++ [a]) = (a, 1) := by
  unfold decodeLastRune
  rw [List.getLast?_concat]
  simp only
  rw [if_pos ha]

theorem getD_append_length (t l : List Nat) (i : Nat) :
    (t ++ l).getD (t.length + i) 0 = l.getD i 0 := by
  simp [List.getD_eq_getElem?_getD, List.getElem?_append_right]

theorem getLast_append_cons (t l : List Nat) (a b : Nat) (h : (a :: l).getLast? = some b) :
    (t ++ a :: l).getLast? = some b := by
  rw [List.getLast?_append, h]
  rfl

theorem decodeLastRune_two (t : List Nat) (a b : Nat) (hb : ¬ b < 0x80)
    (ha : RuneStart a = true) (hd : (decodeRune [a, b]).2 = 2) :
    decodeLastRune (t ++ [a, b]) = decodeRune [a, b] := by
  unfold decodeLastRune
  rw [getLast_append_cons t [b] a b rfl]
  simp only
  rw [if_neg hb]
  have hlen : (t ++ [a, b]).length - 1 = t.length + 1 := by simp
  have hs : lastRuneStart (t ++ [a, b]) 3 (t.length + 1) = t.length := by
    rw [lastRuneStart]
    have := getD_append_length t [a, b] 0
    simp only [Nat.add_zero] at this
    simp only [this, List.getD_cons_zero, ha, if_true]
  rw [hlen, hs, List.drop_left, hd]
  rw [if_neg (by simp)]

theorem decodeLastRune_three (t : List Nat) (a b c : Nat) (hc : ¬ c < 0x80)
    (hb : RuneStart b = false) (ha : RuneStart a = true)
    (hd : (decodeRune [a, b, c]).2 = 3) :
    decodeLastRune (t ++ [a, b, c]) = decodeRune [a, b, c] := by
  unfold decodeLastRune
  rw [getLast_append_cons t [b, c] a c rfl]
  simp only
  rw [if_neg hc]
  have hlen : (t ++ [a, b, c]).length - 1 = t.length + 1 + 1 := by simp
  have hs : lastRuneStart (t ++ [a, b, c]) 3 (t.length + 1 + 1) = t.length := by
    rw [lastRuneStart]
    have h1 := getD_append_length t [a, b, c] 1
    have h0 := getD_append_length t [a, b, c] 0
    simp only [Nat.add_zero] at h0
    simp only [h1, List.getD_cons_succ, List.getD_cons_zero, hb, Bool.false_eq_true, if_false]
    rw [lastRuneStart]
    simp only [h0, List.getD_cons_zero, ha, if_true]
  rw [hlen, hs, List.drop_left, hd]
  rw [if_neg (by simp)]

/-- A string that ends with the encoding of a white space ends with a rune that is a white
space, of the width of the encoding. -/
theorem decodeLastRune_whiteSpace (w : List Nat) (hw : w ∈ whiteSpace) (t : List Nat) :
    IsSpace (decodeLastRune (t ++ w)).1 = true ∧ (decodeLastRune (t ++ w)).2 = w.length := by
  unfold whiteSpace at hw
  fin_cases hw
  iterate 6
    · rw [decodeLastRune_one t _ (by decide)]; exact ⟨rfl, rfl⟩
  iterate 2
    · rw [decodeLastRune_two t _ _ (by decide) (by decide) (by decide)]; exact ⟨rfl, rfl⟩
  iterate 17
    · rw [decodeLastRune_three t _ _ _ (by decide) (by decide) (by decide) (by decide)]
      exact ⟨rfl, rfl⟩

/-- A string that ends with a rune that is a white space ends with the encoding of a white
space. -/
theorem whiteSpace_of_decodeLastRune (s : List Nat)
    (h : IsSpace (decodeLastRune s).1 = true) : ∃ w ∈ whiteSpace, ∃ t, s = t ++ w := by
  have hE : IsSpace RuneError = false := by decide
  unfold decodeLastRune at h
  cases hgl : s.getLast? with
  | none => rw [hgl] at h; simp only [hE] at h; exact absurd h (by simp)
  | some b =>
    rw [hgl] at h
    simp only at h
    by_cases hb : b < 0x80
    · rw [if_pos hb] at h
      have hc := IsSpace_cases b h
      have hs : s = s.dropLast ++ [b] := (List.dropLast_append_getLast? b hgl).symm
      have : b = 9 ∨ b = 10 ∨ b = 11 ∨ b = 12 ∨ b = 13 ∨ b = 32 := by omega
      rcases this with h1 | h1 | h1 | h1 | h1 | h1 <;> subst h1 <;>
        exact ⟨[_], by decide, s.dropLast, hs⟩
    · rw [if_neg hb] at h
      by_cases hne : lastRuneStart s 3 (s.length - 1) +
          (decodeRune (s.drop (lastRuneStart s 3 (s.length - 1)))).2 ≠ s.length
      · rw [if_pos hne, hE] at h; exact absurd h (by simp)
      · rw [if_neg hne] at h
        obtain ⟨w, hw, t1, ht1⟩ := whiteSpace_of_decodeRune _ h
        have hA := (decodeRune_whiteSpace w hw t1).2
        rw [← ht1] at hA
        rw [hA] at hne
        have hlen : (s.drop (lastRuneStart s 3 (s.length - 1))).length = w.length := by
          rw [List.length_drop]; omega
        rw [ht1, List.length_append] at hlen
        have ht0 : t1 = [] := List.length_eq_zero.1 (by omega)
        rw [ht0, List.append_nil] at ht1
        refine ⟨w, hw, s.take (lastRuneStart s 3 (s.length - 1)), ?_⟩
        rw [← ht1, List.take_append_drop]

theorem find_prefix_none (spaces : List (List Nat)) (s : List Nat) :
    spaces.find? (fun w => HasPrefix s w) = none ↔ ∀ w ∈ spaces, ∀ t, s ≠ w ++ t := by
  rw [List.find?_eq_none]
  constructor
  · intro h w hw t ht
    exact h w hw ((HasPrefix_iff s w).2 ⟨t, ht⟩)
  · intro h w hw hp
    obtain ⟨t, ht⟩ := (HasPrefix_iff s w).1 hp
    exact h w hw t ht

theorem find_prefix_some (spaces : List (List Nat)) (s w : List Nat)
    (h : spaces.find? (fun w => HasPrefix s w) = some w) : w ∈ spaces ∧ ∃ t, s = w ++ t :=
  ⟨List.mem_of_find?_eq_some h, (HasPrefix_iff s w).1 (List.find?_some h)⟩

/-- The left half of `strings.TrimSpace` removes the white space at the start. -/
theorem trimLeftSpace_eq (fuel : Nat) : ∀ s : List Nat,
    trimLeftSpace fuel s = dropSpaces whiteSpace fuel s := by
  induction fuel with
  | zero => intro s; rfl
  | succ fuel ih =>
    intro s
    rw [dropSpaces]
    cases hf : whiteSpace.find? (fun w => HasPrefix s w) with
    | none =>
      simp only
      have hn := (find_prefix_none whiteSpace s).1 hf
      cases s with
      | nil => rfl
      | cons c t =>
        rw [trimLeftSpace]
        rw [if_neg]
        intro hsp
        obtain ⟨w, hw, t1, ht1⟩ := whiteSpace_of_decodeRune _ hsp
        exact hn w hw t1 ht1
    | some w =>
      simp only
      obtain ⟨hw, t1, ht1⟩ := find_prefix_some whiteSpace s w hf
      have hA := decodeRune_whiteSpace w hw t1
      rw [← ht1] at hA
      cases s with
      | nil =>
        exfalso
        have : w = [] := by
          have := congrArg List.length ht1
          simp only [List.length_nil, List.length_append] at this
          exact List.length_eq_zero.1 (by omega)
        subst this
        revert hw
        decide
      | cons c t =>
        rw [trimLeftSpace]
        rw [if_pos hA.1, hA.2]
        exact ih _

/-- The right half of `strings.TrimSpace` removes the white space at the end. -/
theorem trimRightSpace_eq (fuel : Nat) : ∀ s : List Nat,
    trimRightSpace fuel s =
      (dropSpaces (whiteSpace.map List.reverse) fuel s.reverse).reverse := by
  induction fuel with
  | zero => intro s; simp [trimRightSpace, dropSpaces]
  | succ fuel ih =>
    intro s
    rw [dropSpaces]
    cases hf : (whiteSpace.map List.reverse).find? (fun w => HasPrefix s.reverse w) with
    | none =>
      simp only
      have hn := (find_prefix_none _ s.reverse).1 hf
      rw [List.reverse_reverse]
      cases s with
      | nil => rfl
      | cons c t =>
        rw [trimRightSpace]
        rw [if_neg]
        intro hsp
        obtain ⟨w, hw, t1, ht1⟩ := whiteSpace_of_decodeLastRune _ hsp
        apply hn w.reverse (List.mem_map_of_mem _ hw) t1.reverse
        rw [ht1]
        simp
    | some w1 =>
      simp only
      obtain ⟨hw1, t1, ht1⟩ := find_prefix_some _ s.reverse w1 hf
      obtain ⟨w, hw, rfl⟩ := List.mem_map.1 hw1
      have hs : s = t1.reverse ++ w := by
        have := congrArg List.reverse ht1
        simpa using this
      have hA := decodeLastRune_whiteSpace w hw t1.reverse
      rw [← hs] at hA
      cases s with
      | nil =>
        exfalso
        have : w = [] := by
          have := congrArg List.length hs
          simp only [List.length_nil, List.length_append] at this
          exact List.length_eq_zero.1 (by omega)
        subst this
        revert hw
        decide
      | cons c t =>
        rw [trimRightSpace]
        rw [if_pos hA.1, hA.2, ih]
        congr 2
        rw [hs]
        simp

/-- `strings.TrimSpace` gives the text with surrounding white space trimmed. -/
theorem TrimSpace_eq_trimmed (s : List Nat) : TrimSpace s = trimmed s := by
  unfold TrimSpace trimmed
  rw [trimLeftSpace_eq, trimRightSpace_eq]

end Properties

namespace Properties

theorem keyOf_eq_trimmedKey (arg : List Nat) : keyOf arg = trimmedKey arg :=
  TrimSpace_eq_trimmed _

theorem valueOf_eq_trimmedValue (arg : List Nat) : valueOf arg = trimmedValue arg :=
  TrimSpace_eq_trimmed _

/-- C31: for arguments that all hold an `=` and have no reserved key, `Parse` returns a
mapping, with one entry for a key, in which every key is bound to the value of the last
argument that has this key, and to nothing when no argument has it.  The key of an argument
is the text before its first `=` and its value the text after it, each without the white
space at its start and at its end: the bytes of the encodings of the white space of Unicode
are removed there as long as there are some, which is what `strings.TrimSpace` does. -/
theorem Parse_binds_trimmed (args : List (List Nat)) (h1 : ∀ arg ∈ args, 61 ∈ arg)
    (h2 : ∀ arg ∈ args, trimmedKey arg ∉ reservedKeys) :
    (∃ m, Parse args = .ok m ∧ (m.map Prod.fst).Nodup ∧
      ∀ key, m.get key =
        ((args.filter fun arg => trimmedKey arg = key).getLast?).map trimmedValue) ∧
    (∀ s : List Nat, TrimSpace s = trimmed s) ∧
    whiteSpace = whiteSpaceRunes.map (appendRune []) ∧
    trimmed (ascii " \t key name \r\n") = ascii "key name" := by
  refine ⟨?_, TrimSpace_eq_trimmed, whiteSpace_eq, by decide⟩
  have hno : args.find? offending = none := by
    rw [find_offending_none]
    intro arg harg
    have := h2 arg harg
    rw [← keyOf_eq_trimmedKey] at this
    simp [offending, h1 arg harg, this]
  refine ⟨_, ?_, foldl_set_nodup args [] List.nodup_nil, ?_⟩
  · unfold Parse
    rw [parseArgs_eq, hno]
  · intro key
    have hk : (fun arg => decide (trimmedKey arg = key)) =
        fun arg => decide (keyOf arg = key) := by
      funext arg; rw [keyOf_eq_trimmedKey]
    have hv : trimmedValue = valueOf := by
      funext arg; rw [valueOf_eq_trimmedValue]
    rw [foldl_set_get, hk, hv]
    cases (args.filter fun arg => keyOf arg = key).getLast? with
    | none => rfl
    | some arg => rfl

theorem Parse_binds_trimmed_witness :
    Parse [ascii "key=value", ascii "key=duplicate", ascii "other=value"] =
        .ok [(ascii "key", ascii "duplicate"), (ascii "other", ascii "value")] ∧
      Parse [ascii " key = value ", ascii "key\t=  duplicate",
          [0xC2, 0xA0] ++ ascii "other = va=lue " ++ [0xE2, 0x80, 0x83]] =
        .ok [(ascii "key", ascii "duplicate"), (ascii "other", ascii "va=lue")] ∧
      ∃ m, Parse [ascii " key = value ", ascii "key\t=  duplicate",
          [0xC2, 0xA0] ++ ascii "other = va=lue " ++ [0xE2, 0x80, 0x83]] = .ok m ∧
        (m.map Prod.fst).Nodup ∧
        ∀ key, m.get key =
          (([ascii " key = value ", ascii "key\t=  duplicate",
            [0xC2, 0xA0] ++ ascii "other = va=lue " ++ [0xE2, 0x80, 0x83]].filter
              fun arg => trimmedKey arg = key).getLast?).map trimmedValue :=
  ⟨by decide, by decide, (Parse_binds_trimmed _ (by decide) (by decide)).1⟩

end Properties
